import Mathlib

/-!
# Earley recognizer: a shallow embedding of `parsing/earley_parser`

The definitions below follow the C++ sources function by function
(`translator.hpp`, `helper.hpp`, `rule.hpp`, `grammar.hpp`, `item.hpp`,
`chart.hpp`, `parser.hpp`).

Conventions of the embedding:

* `std::string` is `String`; the byte loops of `helper::tokenise` run over the
  character list of the string.
* internal symbols (`IS = long`) are `Int`; cell positions and dot indices
  (`short` in the source) are `Nat`.  The embedding is exact as long as the
  number of interned symbols, the sentence length and the rule lengths stay
  inside the range of these machine types.
* `std::vector` is `List`; `std::set`, `std::unordered_set` and `std::map` are
  lists used as sets / association lists: lookups use the equality of the
  source (`Rule::operator==`, `EarleyItem::operator==`), insertion keeps an
  element that is already present, iteration is in insertion order.
* a call of `exit(1)`, a `throw`, and an unchecked out-of-range access are
  results of type `Fault`; loops whose termination is not syntactically
  evident take a fuel argument and report `Fault.fuel` when it runs out.
* the compile-time switch `SOVERLOAD` is the field `soverload`.
* terminal output (busy indicator, progress bar, colours) is not modelled,
  except for the argument check of `LOAD::Progressbar`, which ends the program.
-/

namespace Earley

/-- External symbols, `typedef string ES`.  Internal symbols, `typedef long IS`,
are written `Int` throughout. -/
abbrev ES := String

/-- Ways in which the program ends without returning a value. -/
inductive Fault where
  /-- `Grammar::malform_error`: message and `exit(1)`. -/
  | malformed_rule (tokens : List ES)
  /-- `LOAD::Progressbar::init` on `max == 0`: message and `exit(1)`. -/
  | invalid_range
  /-- index guards of `EarleyChart`: message and `exit(1)`. -/
  | index_exceeds (index : Nat)
  /-- `throw 0` of `Translator::translate(const IS&)`. -/
  | unknown_symbol
  /-- an unchecked access outside a container (undefined behaviour). -/
  | undefined
  /-- the format check of the word file in `main`: message and `exit(1)`. -/
  | invalid_format (line : ES)
  /-- the fuel of the embedding ran out (not a behaviour of the program). -/
  | fuel
  deriving DecidableEq, Repr

/-! ## `translator.hpp` -/

/-- The fields of `class Translator`. -/
structure Translator where
  is_entries : Int
  es_entries : List ES
  deriving DecidableEq, Repr

namespace Translator

/-- Constructor `Translator() { is_entries = 0; }`. -/
def new : Translator := ⟨0, []⟩

/-- The loop of `Translator::find`, started at counter `i`. -/
def findFrom (es : ES) : List ES → Int → Int
  | [], _ => -1
  | e :: rest, i => if e = es then i else findFrom es rest (i + 1)

/-- `int find(ES es)`: index of `es` in `es_entries`, `-1` if unknown. -/
def find (t : Translator) (es : ES) : Int := findFrom es t.es_entries 0

/-- `IS translate(const ES& es)`: the id and the updated translator. -/
def translate_to_is (t : Translator) (es : ES) : Int × Translator :=
  let i := t.find es
  if i = -1 then
    (t.is_entries, { is_entries := t.is_entries + 1, es_entries := t.es_entries ++ [es] })
  else (i, t)

/-- `ES translate(const IS& is) const`: the guard is `is <= is_entries`, the
access `es_entries[is]` is unchecked. -/
def translate_to_es (t : Translator) (is : Int) : Except Fault ES :=
  if is ≤ t.is_entries then
    if 0 ≤ is then
      match t.es_entries.get? is.toNat with
      | some es => .ok es
      | none => .error Fault.undefined
    else .error Fault.undefined
  else .error Fault.unknown_symbol

/-- Interning a list of strings from left to right. -/
def translate_all (t : Translator) : List ES → List Int × Translator
  | [] => ([], t)
  | es :: rest =>
    let r := t.translate_to_is es
    let q := translate_all r.2 rest
    (r.1 :: q.1, q.2)

end Translator

/-! ## `std::map` as an association list -/

/-- `std::map::find`. -/
def mapFind {κ ν : Type} [DecidableEq κ] : List (κ × ν) → κ → Option ν
  | [], _ => none
  | (k', v) :: rest, k => if k' = k then some v else mapFind rest k

/-- `std::map::insert(std::make_pair(k, v))`: an existing key keeps its value. -/
def mapInsert {κ ν : Type} [DecidableEq κ] (m : List (κ × ν)) (k : κ) (v : ν) : List (κ × ν) :=
  match mapFind m k with
  | some _ => m
  | none => m ++ [(k, v)]

/-! ## `helper.hpp` -/

/-- The loop of `helper::tokenise` over the characters of `seq + d`;
`tok` is the current token, `toks` the tokens found so far. -/
def tokeniseLoop (d : Char) : List Char → List Char → List ES → List ES
  | [], _, toks => toks
  | c :: cs, tok, toks =>
    if c ≠ d then tokeniseLoop d cs (tok ++ [c]) toks
    else if tok ≠ [] then tokeniseLoop d cs [] (toks ++ [String.mk tok])
    else tokeniseLoop d cs tok toks

/-- `helper::tokenise(seq, d)`. -/
def tokenise (seq : ES) (d : Char) : List ES :=
  tokeniseLoop d (seq.data ++ [d]) [] []

/-! ## `rule.hpp` -/

/-- The fields of `class Rule` (the back pointer to the grammar is used for
printing only and is left out). -/
structure Rule where
  sides : List (List Int)
  rhs_begin : Int
  deriving DecidableEq, Repr

namespace Rule

/-- Default constructor `Rule() : rhs_begin(-1)`. -/
def empty : Rule := ⟨[], -1⟩

/-- Constructor `Rule(Grammar* g, RulesideVec v, short unsigned b)`: copies
`v[0..b)` and `v[b..)`; the first loop reads `v[i]` for every `i < b`. -/
def construct (v : List (List Int)) (b : Nat) : Except Fault Rule :=
  if b ≤ v.length then .ok ⟨v, b⟩ else .error Fault.undefined

/-- `get_lhs()`: the side at `sides.begin()`. -/
def get_lhs (r : Rule) : List Int := r.sides.headD []

/-- `get_rhs()`: the side at `sides.begin() + rhs_begin`. -/
def get_rhs (r : Rule) : List Int :=
  if 0 ≤ r.rhs_begin then r.sides.getD r.rhs_begin.toNat [] else []

/-- `Rule::operator==`: the sides are compared, `rhs_begin` is not. -/
def eq (a b : Rule) : Bool := decide (b.sides = a.sides)

end Rule

/-- The loop of `CFGRuleParser::operator()`. -/
def ruleParserLoop (sep : ES) : List ES → List ES → List (List ES) → List (List ES)
  | [], current, sides => sides ++ [current]
  | es :: rest, current, sides =>
    if es ≠ sep then ruleParserLoop sep rest (current ++ [es]) sides
    else ruleParserLoop sep rest [] (sides ++ [current])

/-- `CFGRuleParser::operator()(v, sep)`: the sides and the index `1`. -/
def CFGRuleParser (v : List ES) (sep : ES) : List (List ES) × Nat :=
  (ruleParserLoop sep v [] [], 1)

/-! ## `grammar.hpp` -/

/-- The loop of `CFGValidator::operator()`; `none` is the early
`return false`, `some sep` the separator count after the loop. -/
def validatorLoop (separator : ES) : List ES → Int → Int → Option Int
  | [], sep, _ => some sep
  | t :: rest, sep, token =>
    let sep1 := if t = separator then sep + 1 else sep
    if sep1 = 0 ∧ token = 1 then none
    else validatorLoop separator rest sep1 (token + 1)

/-- `CFGValidator::operator()(v, separator)`. -/
def CFGValidator (v : List ES) (separator : ES) : Bool :=
  match v with
  | v0 :: v1 :: _ :: _ =>
    if v0.length ≠ 0 ∧ v1 = separator then
      match validatorLoop separator v 0 0 with
      | some sep => decide (sep = 1)
      | none => false
    else false
  | _ => false

/-- `std::unordered_set<Rule>::insert`. -/
def rulesetInsert (rs : List Rule) (r : Rule) : List Rule :=
  if rs.any (fun x => Rule.eq x r) then rs else rs ++ [r]

/-- The fields of `class Grammar`; `translator` is the interner of the
tag-filtered build, `esism` and `isesm` those of the `SOVERLOAD` build. -/
structure Grammar where
  soverload : Bool
  del : ES
  translator : Translator
  esism : List (ES × Int)
  isesm : List (Int × ES)
  separator : ES
  lexicon : List Int
  start : Rule
  rules : List (List Int × List Rule)
  deriving DecidableEq, Repr

namespace Grammar

/-- `IS translate(const ES& es)`, both builds. -/
def translate_to_is (g : Grammar) (es : ES) : Int × Grammar :=
  if g.soverload then
    match mapFind g.esism es with
    | none =>
      let is : Int := (g.esism.length : Int) + 1
      (is, { g with esism := mapInsert g.esism es is, isesm := mapInsert g.isesm is es })
    | some is => (is, g)
  else
    let r := g.translator.translate_to_is es
    (r.1, { g with translator := r.2 })

/-- `ES translate(const IS& is)`, both builds. -/
def translate_to_es (g : Grammar) (is : Int) : Except Fault ES :=
  if g.soverload then
    match mapFind g.isesm is with
    | none => .ok "<$>"
    | some es => .ok es
  else g.translator.translate_to_es is

/-- The inner loop of `Grammar::parse`: one side is translated. -/
def translateSide (g : Grammar) : List ES → List Int → List Int × Grammar
  | [], current => (current, g)
  | es :: rest, current =>
    let r := g.translate_to_is es
    translateSide r.2 rest (current ++ [r.1])

/-- `ISVec translate(ESVec esv)`: the same loop as the inner loop of `parse`. -/
def translate_vec (g : Grammar) (esv : List ES) : List Int × Grammar :=
  translateSide g esv []

/-- The outer loop of `Grammar::parse`. -/
def translateSides (g : Grammar) : List (List ES) → List (List Int) → List (List Int) × Grammar
  | [], sides => (sides, g)
  | esv :: rest, sides =>
    let r := translateSide g esv []
    translateSides r.2 rest (sides ++ [r.1])

/-- `Grammar::parse(toks)`: the translated sides, the index of the right-hand
side, and the grammar with its interner updated. -/
def parse (g : Grammar) (toks : List ES) : (List (List Int) × Nat) × Grammar :=
  let rp := CFGRuleParser toks g.separator
  let r := translateSides g rp.1 []
  ((r.1, rp.2), r.2)

/-- `Grammar::make_rule(repr)`. -/
def make_rule (g : Grammar) (repr : ES) : Except Fault (Rule × Grammar) :=
  let tokens := tokenise repr ' '
  if CFGValidator tokens g.separator then
    let rp := g.parse tokens
    match Rule.construct rp.1.1 rp.1.2 with
    | .ok r => .ok (r, rp.2)
    | .error e => .error e
  else .error (Fault.malformed_rule tokens)

/-- `rules[lhs].insert(r)` on the map from left-hand sides to rule sets. -/
def rulesInsert : List (List Int × List Rule) → List Int → Rule → List (List Int × List Rule)
  | [], lhs, r => [(lhs, rulesetInsert [] r)]
  | (k, rs) :: rest, lhs, r =>
    if k = lhs then (k, rulesetInsert rs r) :: rest
    else (k, rs) :: rulesInsert rest lhs r

/-- `Grammar::insert(r)`. -/
def insert (g : Grammar) (r : Rule) : Grammar :=
  { g with rules := rulesInsert g.rules r.get_lhs r }

/-- The `while (std::getline(is, repr))` loop of `Grammar::fill`. -/
def fillLoop (g : Grammar) : List ES → Except Fault Grammar
  | [] => .ok g
  | repr :: rest =>
    if repr.length = 0 then fillLoop g rest
    else
      match g.make_rule repr with
      | .ok (r, g1) => fillLoop (g1.insert r) rest
      | .error e => .error e

/-- `Grammar::fill(is)`; the stream is the list of its lines.  The progress
bar is constructed with the line count and ends the program when it is 0. -/
def fill (g : Grammar) (lines : List ES) : Except Fault Grammar :=
  if lines.length = 0 then .error Fault.invalid_range else fillLoop g lines

/-- The state in which `Grammar(std::ifstream&, ss, s, separator)` evaluates
the initialiser of `start`: the members declared before it are set. -/
def init (soverload : Bool) (del separator : ES) : Grammar :=
  { soverload := soverload, del := del, translator := Translator.new, esism := [], isesm := [],
    separator := separator, lexicon := [], start := Rule.empty, rules := [] }

/-- Constructor `Grammar(ES ss, ES s, ES separator)`; `del` is the value of
`helper::init("token_delimeter")`. -/
def new (soverload : Bool) (del ss s separator : ES) : Except Fault Grammar :=
  match (init soverload del separator).make_rule (ss ++ del ++ separator ++ del ++ s) with
  | .ok (r, g) => .ok { g with start := r }
  | .error e => .error e

/-- Constructor `Grammar(std::ifstream& is, ES ss, ES s, ES separator)`. -/
def construct (soverload : Bool) (del : ES) (lines : List ES) (ss s separator : ES) :
    Except Fault Grammar :=
  match new soverload del ss s separator with
  | .ok g => g.fill lines
  | .error e => .error e

/-- `Grammar::operator[](lhs)`: the rules stored under `lhs`, or the empty set. -/
def rules_with_lhs (g : Grammar) (lhs : List Int) : List Rule :=
  match mapFind g.rules lhs with
  | none => []
  | some rs => rs

/-- `Grammar::is_word(is)`. -/
def is_word (g : Grammar) (is : Int) : Bool := decide (is ∈ g.lexicon)

/-- `Grammar::inject_lexicon(lexicon)`. -/
def inject_lexicon (g : Grammar) (lexicon : List Int) : Grammar := { g with lexicon := lexicon }

end Grammar

/-! ## `item.hpp` -/

/-- The fields of `class EarleyItem`; `from_` and `to_` are the fields `from`
and `to`. -/
structure EarleyItem where
  dot : Nat
  from_ : Nat
  to_ : Nat
  rule : Rule
  deriving DecidableEq, Repr

namespace EarleyItem

/-- Default constructor `EarleyItem()`: `dot(0), from(0), to(0)` and `Rule()`. -/
def empty : EarleyItem := ⟨0, 0, 0, Rule.empty⟩

/-- `EarleyItem::operator==`. -/
def eq (a b : EarleyItem) : Bool :=
  Rule.eq a.rule b.rule && decide (b.dot = a.dot) && decide (b.from_ = a.from_) &&
    decide (b.to_ = a.to_)

/-- `complete()`: `dot >= (int)rule.get_rhs()->size()`. -/
def complete (i : EarleyItem) : Bool := decide (i.rule.get_rhs.length ≤ i.dot)

/-- `next()`: `*(rule.get_rhs()->begin()+dot)`.  The source reads unchecked; the
callers test `!complete()` first, which puts `dot` inside the side. -/
def next (i : EarleyItem) : Int := i.rule.get_rhs.getD i.dot 0

/-- `get_lhs()`: `*((rule.get_lhs())->begin())`, the first symbol of the first side. -/
def get_lhs (i : EarleyItem) : Int := i.rule.get_lhs.headD 0

end EarleyItem

/-- `std::unordered_set<Item>::find(x) != end()`. -/
def itemsetContains (s : List EarleyItem) (x : EarleyItem) : Bool :=
  s.any (fun y => EarleyItem.eq y x)

/-- `std::unordered_set<Item>::insert(x)`. -/
def itemsetInsert (s : List EarleyItem) (x : EarleyItem) : List EarleyItem :=
  if itemsetContains s x then s else s ++ [x]

/-- `std::unordered_set<Item>::insert(first, last)`. -/
def itemsetInsertAll (s : List EarleyItem) (xs : List EarleyItem) : List EarleyItem :=
  xs.foldl itemsetInsert s

/-! ## Hash functions (`rule.hpp`, `helper.hpp`, `item.hpp`) -/

/-- Conversion of a signed integer to `size_t`: the value modulo `2^64`. -/
def toSizeT (n : Int) : Nat := (n % 2 ^ 64).toNat

/-- The body of the inner loop of `hash_code`:
`hash += (((*t + (hash << 6)) ^ (hash >> 16)) - hash)` in `size_t` arithmetic. -/
def hashStep (hash : Nat) (t : Int) : Nat :=
  let sum := (toSizeT t + (hash <<< 6) % 2 ^ 64) % 2 ^ 64
  let mixed := sum ^^^ (hash >>> 16)
  let diff := (mixed + 2 ^ 64 - hash % 2 ^ 64) % 2 ^ 64
  (hash + diff) % 2 ^ 64

/-- `hash_code(r)`: starts at `0x9e3779b9` and visits every symbol of every side
in order. -/
def hash_code (r : Rule) : Nat :=
  r.sides.foldl (fun hash side => side.foldl hashStep hash) 0x9e3779b9

/-- `helper::hash_combine(seed, v)`:
`seed ^= (hasher(v) << 16) + 0x9e3779b9 + (seed << 6) + (seed >> 2)` in `size_t`
arithmetic; `hasher` is `std::hash<T>`. -/
def hash_combine {τ : Type} (hasher : τ → Nat) (seed : Nat) (v : τ) : Nat :=
  seed ^^^ (((hasher v <<< 16) % 2 ^ 64 + 0x9e3779b9 + (seed <<< 6) % 2 ^ 64 + (seed >>> 2))
    % 2 ^ 64)

/-- `std::hash<EarleyItem>::operator()`:
`hash_combine(i.from + i.to, hash_combine(i.dot, i.rule))`.  The inner call uses
`std::hash<Rule>`, which is `hash_code`; the outer call uses `std::hash<size_t>`
of the standard library, which is the parameter `std_hash`. -/
def item_hash (std_hash : Nat → Nat) (i : EarleyItem) : Nat :=
  hash_combine std_hash (toSizeT (i.from_ + i.to_ : Nat))
    (hash_combine hash_code (toSizeT (i.dot : Nat)) i.rule)

/-! ## `chart.hpp` -/

/-- The fields of `class EarleyChart`. -/
structure EarleyChart where
  chart : List (List EarleyItem)
  tokens : List ES
  final_item : EarleyItem
  deriving DecidableEq, Repr

/-- `std::vector::resize(n)` on a vector of item sets. -/
def resizeCells (c : List (List EarleyItem)) (n : Nat) : List (List EarleyItem) :=
  c.take n ++ List.replicate (n - c.length) []

namespace EarleyChart

/-- Constructor `EarleyChart()`. -/
def new : EarleyChart := ⟨[], [], EarleyItem.empty⟩

/-- `clear()`. -/
def clear (c : EarleyChart) : EarleyChart := { c with chart := [], tokens := [] }

/-- `insert(index, item)`: when `index` is not below the number of cells the
chart is resized to `index` cells and `chart[index]` is accessed unchecked. -/
def insert (c : EarleyChart) (index : Nat) (item : EarleyItem) : Except Fault EarleyChart :=
  if c.chart.length ≤ index then
    match (resizeCells c.chart index)[index]? with
    | some cell => .ok { c with chart := (resizeCells c.chart index).set index
                                  (itemsetInsert cell item) }
    | none => .error Fault.undefined
  else
    match c.chart[index]? with
    | some cell => .ok { c with chart := c.chart.set index (itemsetInsert cell item) }
    | none => .error Fault.undefined

/-- `contains(index, item)`. -/
def contains (c : EarleyChart) (index : Nat) (item : EarleyItem) : Except Fault Bool :=
  match c.chart[index]? with
  | none => .error (Fault.index_exceeds index)
  | some cell => .ok (itemsetContains cell item)

/-- `size()`. -/
def size (c : EarleyChart) : Nat := c.chart.length

/-- `operator[](index)`: the cell, behind the index guard. -/
def cell (c : EarleyChart) (index : Nat) : Except Fault (List EarleyItem) :=
  match c.chart[index]? with
  | none => .error (Fault.index_exceeds index)
  | some cell => .ok cell

/-- `chart[index].insert(first, last)` through `operator[]`. -/
def cellInsertAll (c : EarleyChart) (index : Nat) (items : List EarleyItem) :
    Except Fault EarleyChart :=
  match c.chart[index]? with
  | none => .error (Fault.index_exceeds index)
  | some cell => .ok { c with chart := c.chart.set index (itemsetInsertAll cell items) }

/-- `get_word(index)`. -/
def get_word (c : EarleyChart) (index : Nat) : Except Fault ES :=
  match c.tokens[index]? with
  | none => .error (Fault.index_exceeds index)
  | some w => .ok w

/-- `get_final()`. -/
def get_final (c : EarleyChart) : EarleyItem := c.final_item

/-- `initialise(sentence, startrule)`. -/
def initialise (c : EarleyChart) (sentence : List ES) (startrule : Rule) :
    Except Fault EarleyChart :=
  let c1 : EarleyChart :=
    { c with tokens := sentence ++ ["$"], chart := resizeCells c.chart (sentence.length + 1) }
  match c1.insert 0 ⟨0, 0, 0, startrule⟩ with
  | .ok c2 =>
    .ok { c2 with final_item := ⟨startrule.get_rhs.length, 0, c2.chart.length - 1, startrule⟩ }
  | .error e => .error e

end EarleyChart

/-! ## `parser.hpp` -/

/-- The fields of `class EarleyParser` (without the busy indicator). -/
structure EarleyParser where
  grammar : Grammar
  chart : EarleyChart
  tags : List Int
  pwm : List (Int × List ES)
  predict_buffer : List EarleyItem
  complete_buffer : List EarleyItem
  scanned_buffer : List EarleyItem
  to_process : List EarleyItem
  deriving DecidableEq, Repr

namespace EarleyParser

/-- Constructor `EarleyParser(g, tags, pwm)`. -/
def new (g : Grammar) (tags : List Int) (pwm : List (Int × List ES)) : EarleyParser :=
  { grammar := g, chart := EarleyChart.new, tags := tags, pwm := pwm, predict_buffer := [],
    complete_buffer := [], scanned_buffer := [], to_process := [] }

/-- The loop of `complete(item)` over the items of `chart[item.from]`. -/
def completeLoop (item : EarleyItem) :
    List EarleyItem → Bool → EarleyParser → Except Fault (Bool × EarleyParser)
  | [], any_new, p => .ok (any_new, p)
  | item2 :: rest, any_new, p =>
    if !item2.complete && decide (item.get_lhs = item2.next) then
      let item3 : EarleyItem := ⟨item2.dot + 1, item2.from_, item.to_, item2.rule⟩
      match p.chart.contains item.to_ item3 with
      | .error e => .error e
      | .ok c =>
        if !c && !itemsetContains p.to_process item3 &&
            !itemsetContains p.complete_buffer item3 then
          completeLoop item rest true
            { p with complete_buffer := itemsetInsert p.complete_buffer item3 }
        else completeLoop item rest any_new p
    else completeLoop item rest any_new p

/-- `complete(item)`. -/
def complete (p : EarleyParser) (item : EarleyItem) : Except Fault (Bool × EarleyParser) :=
  match p.chart.cell item.from_ with
  | .error e => .error e
  | .ok cell => completeLoop item cell false p

/-- `scan(item)`. -/
def scan (p : EarleyParser) (item : EarleyItem) : Except Fault EarleyParser :=
  match mapFind p.pwm item.next with
  | none => .ok p
  | some words =>
    match p.chart.get_word item.to_ with
    | .error e => .error e
    | .ok word =>
      if word ∈ words then
        let r := p.grammar.translate_to_is word
        match Rule.construct [[item.next], [r.1]] 1 with
        | .error e => .error e
        | .ok rule =>
          let item2 : EarleyItem := ⟨1, item.to_, item.to_ + 1, rule⟩
          match p.chart.cellInsertAll (item.to_ + 1) [item2] with
          | .error e => .error e
          | .ok c => .ok { p with grammar := r.2, chart := c }
      else .ok p

/-- The loop of `predict(item)` over the rules with left-hand side `item.next()`. -/
def predictLoop (item : EarleyItem) :
    List Rule → Bool → EarleyParser → Except Fault (Bool × EarleyParser)
  | [], any_new, p => .ok (any_new, p)
  | r :: rest, any_new, p =>
    if p.grammar.soverload && p.grammar.is_word (r.get_rhs.headD 0) then
      predictLoop item rest any_new p
    else
      let item2 : EarleyItem := ⟨0, item.to_, item.to_, r⟩
      match p.chart.contains item.to_ item2 with
      | .error e => .error e
      | .ok c =>
        if !c && !itemsetContains p.to_process item2 &&
            !itemsetContains p.predict_buffer item2 then
          predictLoop item rest true
            { p with predict_buffer := itemsetInsert p.predict_buffer item2 }
        else predictLoop item rest any_new p

/-- `predict(item)`. -/
def predict (p : EarleyParser) (item : EarleyItem) : Except Fault (Bool × EarleyParser) :=
  predictLoop item (p.grammar.rules_with_lhs [item.next]) false p

/-- `merge(index)`. -/
def merge (p : EarleyParser) (index : Nat) : Except Fault EarleyParser :=
  match p.chart.cellInsertAll index p.to_process with
  | .error e => .error e
  | .ok c =>
    .ok { p with chart := c,
                 to_process := itemsetInsertAll (itemsetInsertAll [] p.predict_buffer)
                   p.complete_buffer,
                 complete_buffer := [], predict_buffer := [] }

/-- The body of the `for` loop of `parse` for one item of `to_process`; the
state is the parser with the flags `new_p` and `new_c`. -/
def processItem (st : EarleyParser × Bool × Bool) (item : EarleyItem) :
    Except Fault (EarleyParser × Bool × Bool) :=
  let p := st.1
  let toPredict : Bool :=
    if p.grammar.soverload then !item.complete
    else !item.complete && !decide (item.next ∈ p.tags)
  match (if toPredict then
      match p.predict item with
      | .ok (b, p1) => Except.ok (p1, st.2.1 || b)
      | .error e => .error e
    else .ok (p, st.2.1)) with
  | .error e => .error e
  | .ok (p1, new_p) =>
    if !item.complete && decide (item.next ∈ p1.tags) then
      match p1.scan item with
      | .ok p2 => .ok (p2, new_p, st.2.2)
      | .error e => .error e
    else if item.complete then
      match p1.complete item with
      | .ok (b, p2) => .ok (p2, new_p, st.2.2 || b)
      | .error e => .error e
    else .ok (p1, new_p, st.2.2)

/-- The `for` loop of `parse` over the items of `to_process`. -/
def processAll : List EarleyItem → EarleyParser × Bool × Bool →
    Except Fault (EarleyParser × Bool × Bool)
  | [], st => .ok st
  | item :: rest, st =>
    match processItem st item with
    | .ok st1 => processAll rest st1
    | .error e => .error e

/-- The `do ... while (new_p || new_c)` loop of `parse` for the cell `index`. -/
def fixpoint : Nat → Nat → EarleyParser → Except Fault EarleyParser
  | 0, _, _ => .error Fault.fuel
  | fuel + 1, index, p =>
    match processAll p.to_process (p, false, false) with
    | .error e => .error e
    | .ok (p1, new_p, new_c) =>
      match p1.merge index with
      | .error e => .error e
      | .ok p2 => if new_p || new_c then fixpoint fuel index p2 else .ok p2

/-- The loop `for (index = 0; index < chart.size(); ++index)` of `parse`;
the first argument bounds the number of iterations. -/
def sweepCells (fuel : Nat) : Nat → Nat → EarleyParser → Except Fault EarleyParser
  | 0, index, p => if index < p.chart.size then .error Fault.fuel else .ok p
  | k + 1, index, p =>
    if index < p.chart.size then
      match p.chart.cell index with
      | .error e => .error e
      | .ok cell =>
        match fixpoint fuel index { p with to_process := itemsetInsertAll p.to_process cell } with
        | .error e => .error e
        | .ok p1 => sweepCells fuel k (index + 1) p1
    else .ok p

/-- `parse(sentence)`: the answer and the parser afterwards. -/
def parse (fuel : Nat) (p : EarleyParser) (sentence : List ES) :
    Except Fault (Bool × EarleyParser) :=
  match p.chart.clear.initialise sentence p.grammar.start with
  | .error e => .error e
  | .ok c =>
    match sweepCells fuel c.size 0 { p with chart := c } with
    | .error e => .error e
    | .ok p1 =>
      match p1.chart.chart.getLast? with
      | none => .error Fault.undefined
      | some cell => .ok (itemsetContains cell p1.chart.get_final, p1)

end EarleyParser

/-! ## `parse.cpp` -/

/-- The loop of `main` that builds `nl_string` from the tokens before the last
one: `nl_string += *i; if (!(i+1 == tokens.end()-1)) nl_string += " ";`.  The
argument is the range `[tokens.begin(), tokens.end()-1)`. -/
def Driver.joinLoop : List ES → ES → ES
  | [], nl_string => nl_string
  | [t], nl_string => nl_string ++ t
  | t :: u :: rest, nl_string => Driver.joinLoop (u :: rest) (nl_string ++ t ++ " ")

/-- `TagID_Words_Map[tagID].insert(nl_string)`: `operator[]` of `std::map`
creates the empty set for a new key, `insert` of `std::unordered_set` adds the
word when it is not there. -/
def Driver.wordsInsert (pwm : List (Int × List ES)) (tag : Int) (word : ES) :
    List (Int × List ES) :=
  match mapFind pwm tag with
  | none => pwm ++ [(tag, [word])]
  | some _ =>
    pwm.map (fun e => (e.1, if e.1 = tag then (if word ∈ e.2 then e.2 else e.2 ++ [word])
      else e.2))

/-- `std::set<IS>::insert`. -/
def Driver.lexiconInsert (lexicon : List Int) (is : Int) : List Int :=
  if is ∈ lexicon then lexicon else lexicon ++ [is]

/-- The body of the loop `while(getline(wordfile, line))` of `main`; the state
is the grammar, `TagID_Words_Map` and (in the `SOVERLOAD` build) `lexicon`. -/
def Driver.wordfileStep (st : Grammar × List (Int × List ES) × List Int) (line : ES) :
    Except Fault (Grammar × List (Int × List ES) × List Int) :=
  if line.length = 0 then .ok st
  else
    let tokens := tokenise line ' '
    if tokens.length < 2 then .error (Fault.invalid_format line)
    else
      let nl_string := Driver.joinLoop tokens.dropLast ""
      let r := st.1.translate_to_is (tokens.getLastD "")
      let pwm := Driver.wordsInsert st.2.1 r.1 nl_string
      if st.1.soverload then
        let r2 := r.2.translate_to_is nl_string
        .ok (r2.2, pwm, Driver.lexiconInsert st.2.2 r2.1)
      else .ok (r.2, pwm, st.2.2)

/-- The loop `while(getline(wordfile, line))` of `main` over the lines of the
word file. -/
def Driver.wordfileLoop : List ES → Grammar × List (Int × List ES) × List Int →
    Except Fault (Grammar × List (Int × List ES) × List Int)
  | [], st => .ok st
  | line :: rest, st =>
    match Driver.wordfileStep st line with
    | .ok st1 => Driver.wordfileLoop rest st1
    | .error e => .error e

/-- A line written with any spacing: every token is followed by at least one
blank (the blank after the last token may be the delimiter that `tokenise`
appends). -/
def Driver.spacedLine : List (ES × Nat) → List Char
  | [] => []
  | (t, n) :: rest => t.data ++ List.replicate (n + 1) ' ' ++ Driver.spacedLine rest

/-! ## Reference definitions and invariants used in the statements -/

/-- The translations recorded by a translator, as (string, id) pairs: the entry
at position `i` of `es_entries` has id `i`. -/
def Translator.mappingFrom : List ES → Int → List (ES × Int)
  | [], _ => []
  | e :: rest, i => (e, i) :: Translator.mappingFrom rest (i + 1)

/-- The translations recorded by a translator. -/
def Translator.mapping (t : Translator) : List (ES × Int) :=
  Translator.mappingFrom t.es_entries 0

/-- Reference definition of `intern`, following the specification: a string
interned before gets the id assigned then and the interner is unchanged;
otherwise the id is the number of distinct strings interned so far and the
string is registered under it, all recorded pairs being kept. -/
def internSpec (m : List (ES × Int)) (s : ES) : Int × List (ES × Int) :=
  match mapFind m s with
  | some id => (id, m)
  | none => (((m.map Prod.fst).dedup.length : Int), m ++ [(s, ((m.map Prod.fst).dedup.length : Int))])

/-- Invariant of the translators reachable from `Translator()`: the counter
is the number of entries and no string is entered twice. -/
def Translator.WF (t : Translator) : Prop :=
  t.is_entries = (t.es_entries.length : Int) ∧ t.es_entries.Nodup

/-- Invariant of the two maps of the `SOVERLOAD` interner: `isesm` inverts
`esism`, and every id in use is at most the number of strings. -/
def Grammar.LexWF (g : Grammar) : Prop :=
  (∀ s i, mapFind g.esism s = some i → mapFind g.isesm i = some s) ∧
  (∀ i s, mapFind g.isesm i = some s → i ≤ (g.esism.length : Int))

/-- Invariant of the interner of a grammar, in either build. -/
def Grammar.InternWF (g : Grammar) : Prop :=
  (g.soverload = true → g.LexWF) ∧ (g.soverload = false → g.translator.WF)

/-- The id under which the interner of `g` knows the string `s`, if any
(a lookup that does not insert). -/
def Grammar.id_of (g : Grammar) (s : ES) : Option Int :=
  if g.soverload then mapFind g.esism s
  else if s ∈ g.translator.es_entries then some (g.translator.find s) else none

/-- The rule `A --> x1 ... xk` written in the ids of the interner of `g`. -/
def Grammar.ruleOf (g : Grammar) (A : ES) (xs : List ES) : Rule :=
  ⟨[[(g.translate_to_is A).1], xs.map (fun x => (g.translate_to_is x).1)], 1⟩

/-- The interner of `g2` extends the interner of `g1`; the configuration
fields and the start rule agree. -/
def Grammar.Ext (g1 g2 : Grammar) : Prop :=
  g2.soverload = g1.soverload ∧ g2.separator = g1.separator ∧ g2.del = g1.del ∧
    g2.lexicon = g1.lexicon ∧ g2.start = g1.start ∧
    (∀ x i, g1.id_of x = some i → g2.id_of x = some i)

/-- The rules of the rule index of `g`: the rules found under some key. -/
def Grammar.IsRule (g : Grammar) (r : Rule) : Prop := ∃ l, r ∈ g.rules_with_lhs l

/-- Invariant of the rule index: every rule found under a key `l` has
`rhs_begin = 1`, two sides, the single left-hand symbol of `l` and a
non-empty right-hand side; no set holds a rule twice. -/
def Grammar.RulesWF (g : Grammar) : Prop :=
  ∀ l, (g.rules_with_lhs l).Nodup ∧
    ∀ r ∈ g.rules_with_lhs l, r.rhs_begin = 1 ∧
      ∃ a rhs, r.sides = [[a], rhs] ∧ rhs ≠ [] ∧ l = [a]

/-- Derivations of a token sequence from a sequence of symbols: a symbol is
rewritten by a rule `r` with `R r` whose left-hand side is that symbol, or it
is a tag `T` and yields one word of `pwm[T]` (the terminal rule `T -> word`). -/
inductive Derives (R : Rule → Prop) (tags : List Int) (pwm : List (Int × List ES)) :
    List Int → List ES → Prop
  | nil : Derives R tags pwm [] []
  | rule (r : Rule) (A : Int) (rest : List Int) (u v : List ES) :
      R r → r.get_lhs = [A] → Derives R tags pwm r.get_rhs u → Derives R tags pwm rest v →
      Derives R tags pwm (A :: rest) (u ++ v)
  | tag (T : Int) (words : List ES) (word : ES) (rest : List Int) (v : List ES) :
      T ∈ tags → mapFind pwm T = some words → word ∈ words → Derives R tags pwm rest v →
      Derives R tags pwm (T :: rest) (word :: v)

/-- The rules of a grammar together with its start rule. -/
def Grammar.IsRuleOrStart (g : Grammar) (r : Rule) : Prop := r = g.start ∨ g.IsRule r

/-- The tokens `w[a..b)`. -/
def slice (w : List ES) (a b : Nat) : List ES := (w.drop a).take (b - a)

/-- Well-formedness of a grammar handed to the recognizer in the tag-filtered
build: the interner and rule index invariants hold, and the start rule has
`rhs_begin = 1`, one left-hand symbol and a non-empty right-hand side. -/
def Grammar.ParseWF (g : Grammar) : Prop :=
  g.soverload = false ∧ g.InternWF ∧ g.RulesWF ∧
    ∃ ss rhs, g.start = ⟨[[ss], rhs], 1⟩ ∧ rhs ≠ []

/-- An item `(A -> alpha . beta, from, to)` over a rule of the grammar or the
start rule, inside the sentence, whose `alpha` derives `w[from..to)`. -/
def GItem (g : Grammar) (tags : List Int) (pwm : List (Int × List ES)) (w : List ES)
    (it : EarleyItem) : Prop :=
  g.IsRuleOrStart it.rule ∧ it.dot ≤ it.rule.get_rhs.length ∧ it.from_ ≤ it.to_ ∧
    it.to_ ≤ w.length ∧
    Derives g.IsRuleOrStart tags pwm (it.rule.get_rhs.take it.dot) (slice w it.from_ it.to_)

/-- A scanned item `(T -> word ., from, from + 1)`: `T` is a tag, the token at
`from` is a word of `pwm[T]`, and the right-hand side is the id of that token
in the interner of `gi`. -/
def SItem (gi : Grammar) (tags : List Int) (pwm : List (Int × List ES)) (w : List ES)
    (it : EarleyItem) : Prop :=
  ∃ T wid words word, it.rule = ⟨[[T], [wid]], 1⟩ ∧ it.dot = 1 ∧ it.to_ = it.from_ + 1 ∧
    w[it.from_]? = some word ∧ T ∈ tags ∧ mapFind pwm T = some words ∧ word ∈ words ∧
    gi.id_of word = some wid

/-- The items the recognizer puts into its sets. -/
def ItemSound (g gi : Grammar) (tags : List Int) (pwm : List (Int × List ES)) (w : List ES)
    (it : EarleyItem) : Prop :=
  GItem g tags pwm w it ∨ SItem gi tags pwm w it

/-- Invariant of the parser state while the sentence `w` is parsed with the
grammar `g`: the grammar of the parser is `g` with a grown interner, the
chart has `|w| + 1` cells over the tokens `w ++ ["$"]`, and every item of cell
`j` ends at `j` and is sound. -/
def EarleyParser.Base (g : Grammar) (tags : List Int) (pwm : List (Int × List ES))
    (w : List ES) (p : EarleyParser) : Prop :=
  g.Ext p.grammar ∧ p.grammar.rules = g.rules ∧ p.grammar.InternWF ∧
    p.tags = tags ∧ p.pwm = pwm ∧
    p.chart.tokens = w ++ ["$"] ∧ p.chart.chart.length = w.length + 1 ∧
    p.chart.final_item = ⟨g.start.get_rhs.length, 0, w.length, g.start⟩ ∧
    ∀ j cell, p.chart.chart[j]? = some cell → ∀ it ∈ cell,
      it.to_ = j ∧ ItemSound g p.grammar tags pwm w it

/-- Invariant of the working sets during the sweep of cell `k`. -/
def EarleyParser.Work (g : Grammar) (tags : List Int) (pwm : List (Int × List ES))
    (w : List ES) (k : Nat) (p : EarleyParser) : Prop :=
  (∀ it ∈ p.to_process, it.to_ = k ∧ ItemSound g p.grammar tags pwm w it) ∧
    (∀ it ∈ p.predict_buffer, it.to_ = k ∧ GItem g tags pwm w it) ∧
    (∀ it ∈ p.complete_buffer, it.to_ = k ∧ GItem g tags pwm w it)

/-- The item `x` is in cell `k` or in one of the working sets. -/
def EarleyParser.InTarget (k : Nat) (p : EarleyParser) (x : EarleyItem) : Prop :=
  (∃ cell, p.chart.chart[k]? = some cell ∧ x ∈ cell) ∨ x ∈ p.to_process ∨
    x ∈ p.predict_buffer ∨ x ∈ p.complete_buffer

/-- The consequences of the item `it` of cell `k` under Predict, Scan and
Complete are present: in cell `k` or a working set, resp. in cell `k + 1`. -/
def EarleyParser.Handled (g : Grammar) (tags : List Int) (pwm : List (Int × List ES))
    (w : List ES) (k : Nat) (p : EarleyParser) (it : EarleyItem) : Prop :=
  (it.complete = false → it.next ∉ tags → ∀ r ∈ g.rules_with_lhs [it.next],
      p.InTarget k ⟨0, k, k, r⟩) ∧
    (it.complete = false → it.next ∈ tags → ∀ words word,
      mapFind pwm it.next = some words → w[k]? = some word → word ∈ words →
        ∃ x cell, p.chart.chart[k + 1]? = some cell ∧ x ∈ cell ∧ x.complete = true ∧
          x.get_lhs = it.next ∧ x.from_ = k) ∧
    (it.complete = true → it.from_ < k → ∀ cell, p.chart.chart[it.from_]? = some cell →
      ∀ it2 ∈ cell, it2.complete = false → it2.next = it.get_lhs →
        p.InTarget k ⟨it2.dot + 1, it2.from_, k, it2.rule⟩)

/-- Cell `j` of the chart `ch` is closed under Predict and Complete, and its
scans are in cell `j + 1`. -/
def Closed (g : Grammar) (tags : List Int) (pwm : List (Int × List ES)) (w : List ES)
    (ch : List (List EarleyItem)) (j : Nat) : Prop :=
  ∀ cell, ch[j]? = some cell → ∀ it ∈ cell,
    (it.complete = false → it.next ∉ tags → ∀ r ∈ g.rules_with_lhs [it.next],
        (⟨0, j, j, r⟩ : EarleyItem) ∈ cell) ∧
      (it.complete = false → it.next ∈ tags → ∀ words word,
        mapFind pwm it.next = some words → w[j]? = some word → word ∈ words →
          ∃ x cell2, ch[j + 1]? = some cell2 ∧ x ∈ cell2 ∧ x.complete = true ∧
            x.get_lhs = it.next ∧ x.from_ = j) ∧
      (it.complete = true → it.from_ < j → ∀ cell2, ch[it.from_]? = some cell2 →
        ∀ it2 ∈ cell2, it2.complete = false → it2.next = it.get_lhs →
          (⟨it2.dot + 1, it2.from_, j, it2.rule⟩ : EarleyItem) ∈ cell)

/-- The state `q` is reached from `p` during the sweep of cell `k` by
predicting, scanning and completing: the buffers and cell `k + 1` have grown,
the interner has grown, everything else is unchanged. -/
def EarleyParser.Grow (k : Nat) (p q : EarleyParser) : Prop :=
  p.grammar.Ext q.grammar ∧ q.grammar.rules = p.grammar.rules ∧
    q.tags = p.tags ∧ q.pwm = p.pwm ∧ q.to_process = p.to_process ∧
    q.scanned_buffer = p.scanned_buffer ∧
    q.chart.tokens = p.chart.tokens ∧ q.chart.final_item = p.chart.final_item ∧
    q.chart.chart.length = p.chart.chart.length ∧
    (∀ j, j ≠ k + 1 → q.chart.chart[j]? = p.chart.chart[j]?) ∧
    (∀ cell, p.chart.chart[k + 1]? = some cell →
      ∃ ext, q.chart.chart[k + 1]? = some (cell ++ ext)) ∧
    (∃ ext, q.predict_buffer = p.predict_buffer ++ ext) ∧
    (∃ ext, q.complete_buffer = p.complete_buffer ++ ext)

/-- All rules an item of the chart can carry: the start rule and the rules of
the rule index. -/
def Grammar.allRules (g : Grammar) : List Rule :=
  g.start :: g.rules.flatMap (fun e => e.2)

/-- All items over the rules of `g` with dot inside the rule and positions up
to `n`. -/
def itemUniverse (g : Grammar) (n : Nat) : List EarleyItem :=
  g.allRules.flatMap (fun r => (List.range (r.get_rhs.length + 1)).flatMap (fun d =>
    (List.range (n + 1)).flatMap (fun f => (List.range (n + 1)).map (fun t =>
      (⟨d, f, t, r⟩ : EarleyItem)))))

/-- The number of items of the universe that are neither in cell `k` nor in
`to_process`: the measure that bounds the passes of the fixpoint loop. -/
def EarleyParser.pending (g : Grammar) (n k : Nat) (p : EarleyParser) : Nat :=
  ((itemUniverse g n).filter (fun x =>
    !decide (x ∈ (p.chart.chart[k]?).getD []) && !decide (x ∈ p.to_process))).length

/-- Invariant of the flags and buffers inside one pass of the fixpoint loop
over cell `k`: a flag is set exactly when its buffer is non-empty, and the
buffered items are neither in cell `k` nor in `to_process`. -/
def EarleyParser.Fresh (k : Nat) (p : EarleyParser) (new_p new_c : Bool) : Prop :=
  (new_p = true ↔ p.predict_buffer ≠ []) ∧ (new_c = true ↔ p.complete_buffer ≠ []) ∧
    ∀ y, (y ∈ p.predict_buffer ∨ y ∈ p.complete_buffer) →
      y ∉ (p.chart.chart[k]?).getD [] ∧ y ∉ p.to_process

/-- Some tag has the end-of-stream marker `"$"` among its words. -/
def SentinelWord (tags : List Int) (pwm : List (Int × List ES)) : Prop :=
  ∃ T ∈ tags, ∃ words, mapFind pwm T = some words ∧ "$" ∈ words

/-- Invariant at the start of a pass of the fixpoint loop over cell `k`: the
buffers are empty and every item of cell `k` is in `to_process` or has its
consequences in cell `k`, `to_process` or cell `k + 1`. -/
def EarleyParser.PassInv (g : Grammar) (tags : List Int) (pwm : List (Int × List ES))
    (w : List ES) (k : Nat) (p : EarleyParser) : Prop :=
  p.Base g tags pwm w ∧ p.Work g tags pwm w k ∧ p.predict_buffer = [] ∧
    p.complete_buffer = [] ∧
    ∀ it ∈ (p.chart.chart[k]?).getD [], it ∈ p.to_process ∨ p.Handled g tags pwm w k it

/-- The state `q` is reached from `p` by the sweep of cell `k`: cells `k` and
`k + 1` have grown, the other cells are unchanged. -/
def EarleyParser.CellStep (k : Nat) (p q : EarleyParser) : Prop :=
  (∀ j, j ≠ k → j ≠ k + 1 → q.chart.chart[j]? = p.chart.chart[j]?) ∧
    (∀ (j : Nat) (cell : List EarleyItem), p.chart.chart[j]? = some cell →
      ∃ ext, q.chart.chart[j]? = some (cell ++ ext))

/-- A parser for the grammar `g`, the tags and the tag-to-words map, between
two calls of `parse`: its grammar is `g` with a grown interner and its working
sets are empty. -/
def EarleyParser.Ready (g : Grammar) (tags : List Int) (pwm : List (Int × List ES))
    (p : EarleyParser) : Prop :=
  g.Ext p.grammar ∧ p.grammar.rules = g.rules ∧ p.grammar.InternWF ∧
    p.tags = tags ∧ p.pwm = pwm ∧ p.to_process = [] ∧ p.predict_buffer = [] ∧
    p.complete_buffer = []

/-- Every cell of the chart of `q` extends the cell of `p` at the same index. -/
def EarleyParser.ChartGrows (p q : EarleyParser) : Prop :=
  ∀ (j : Nat) (cell : List EarleyItem), p.chart.chart[j]? = some cell →
    ∃ ext, q.chart.chart[j]? = some (cell ++ ext)

/-- A point of a run of `parse`: the loop variable `index`, the fields of the
parser, the flags `new_p` and `new_c`, the items of `to_process` that the `for`
loop has still to visit, and whether the sweep over the cells is still
running. -/
structure ParsePoint where
  index : Nat
  parser : EarleyParser
  new_p : Bool
  new_c : Bool
  todo : List EarleyItem
  running : Bool

/-- The points of the run of `parse(sentence)` on the parser `p0`, one per
iteration of the `for` loop over `to_process` and per call of `merge`:
`start` is the point after `initialise` and the load of cell 0 into
`to_process`; `item` is one iteration of the `for` loop; `again` is `merge`
followed by another pass of the `do ... while` loop; `next` is `merge` followed
by the step to the next cell and the load of that cell; `done` is the last
`merge`, after which the sweep ends. -/
inductive EarleyParser.Reaches (p0 : EarleyParser) (sentence : List ES) : ParsePoint → Prop
  | start (c : EarleyChart) (cell : List EarleyItem) :
      p0.chart.clear.initialise sentence p0.grammar.start = .ok c → 0 < c.size →
      c.cell 0 = .ok cell →
      EarleyParser.Reaches p0 sentence
        ⟨0, { p0 with chart := c, to_process := itemsetInsertAll p0.to_process cell },
          false, false, itemsetInsertAll p0.to_process cell, true⟩
  | item (pt : ParsePoint) (item : EarleyItem) (rest : List EarleyItem)
      (st : EarleyParser × Bool × Bool) :
      EarleyParser.Reaches p0 sentence pt → pt.running = true → pt.todo = item :: rest →
      EarleyParser.processItem (pt.parser, pt.new_p, pt.new_c) item = .ok st →
      EarleyParser.Reaches p0 sentence ⟨pt.index, st.1, st.2.1, st.2.2, rest, true⟩
  | again (pt : ParsePoint) (p2 : EarleyParser) :
      EarleyParser.Reaches p0 sentence pt → pt.running = true → pt.todo = [] →
      (pt.new_p || pt.new_c) = true → pt.parser.merge pt.index = .ok p2 →
      EarleyParser.Reaches p0 sentence ⟨pt.index, p2, false, false, p2.to_process, true⟩
  | next (pt : ParsePoint) (p2 : EarleyParser) (cell : List EarleyItem) :
      EarleyParser.Reaches p0 sentence pt → pt.running = true → pt.todo = [] →
      (pt.new_p || pt.new_c) = false → pt.parser.merge pt.index = .ok p2 →
      pt.index + 1 < p2.chart.size → p2.chart.cell (pt.index + 1) = .ok cell →
      EarleyParser.Reaches p0 sentence
        ⟨pt.index + 1, { p2 with to_process := itemsetInsertAll p2.to_process cell },
          false, false, itemsetInsertAll p2.to_process cell, true⟩
  | done (pt : ParsePoint) (p2 : EarleyParser) :
      EarleyParser.Reaches p0 sentence pt → pt.running = true → pt.todo = [] →
      (pt.new_p || pt.new_c) = false → pt.parser.merge pt.index = .ok p2 →
      ¬ pt.index + 1 < p2.chart.size →
      EarleyParser.Reaches p0 sentence ⟨pt.index + 1, p2, false, false, [], false⟩

/-- Bounds of an item: `from <= to` and `dot <= |RHS(rule)|`. -/
def EarleyItem.InBounds (it : EarleyItem) : Prop :=
  it.from_ ≤ it.to_ ∧ it.dot ≤ it.rule.get_rhs.length

/-- Invariant of the points of a run of `parse` on a sentence of `n` tokens:
the chart has `n + 1` cells; every item of cell `j` ends at `j` and is inside
its bounds; every item of the working sets ends at the cell being swept and is
inside its bounds; a flag that is not set has an empty buffer; the items still
to visit are items of `to_process`; the working sets are empty when the sweep
has ended. -/
def ParsePoint.Inv (n : Nat) (pt : ParsePoint) : Prop :=
  pt.parser.chart.chart.length = n + 1 ∧
    (∀ (j : Nat) (cell : List EarleyItem), pt.parser.chart.chart[j]? = some cell →
      ∀ it ∈ cell, it.to_ = j ∧ it.InBounds) ∧
    (∀ it, it ∈ pt.parser.to_process ∨ it ∈ pt.parser.predict_buffer ∨
      it ∈ pt.parser.complete_buffer → it.to_ = pt.index ∧ it.InBounds) ∧
    (pt.new_p = false → pt.parser.predict_buffer = []) ∧
    (pt.new_c = false → pt.parser.complete_buffer = []) ∧
    (∀ it ∈ pt.todo, it ∈ pt.parser.to_process) ∧
    (pt.running = true → pt.index ≤ n) ∧
    (pt.running = false → pt.parser.to_process = [] ∧ pt.parser.predict_buffer = [] ∧
      pt.parser.complete_buffer = [])

/-- The parser `q` is a later state of the parser `p`: the interner of its
grammar extends that of `p` and is well formed, and the rule index, the tags,
the tag-to-words map and the field `scanned_buffer` are those of `p`. -/
def EarleyParser.Later (p q : EarleyParser) : Prop :=
  p.grammar.Ext q.grammar ∧ q.grammar.InternWF ∧ q.grammar.rules = p.grammar.rules ∧
    q.tags = p.tags ∧ q.pwm = p.pwm ∧ q.scanned_buffer = p.scanned_buffer

/-- The states of a recognizer after further calls of `parse` that returned:
`AfterCalls q p` holds when `p` is `q` or is reached from `q` by calls of
`parse` on any sentences. -/
inductive EarleyParser.AfterCalls (q : EarleyParser) : EarleyParser → Prop
  | same : EarleyParser.AfterCalls q q
  | call (p1 p2 : EarleyParser) (fuel : Nat) (sentence : List ES) (b : Bool) :
      EarleyParser.AfterCalls q p1 → p1.parse fuel sentence = .ok (b, p2) →
      EarleyParser.AfterCalls q p2

/-- Well-formedness of a grammar in either build: the interner and rule index
invariants hold and the start rule has `rhs_begin = 1`, one left-hand symbol
and a non-empty right-hand side.  Every grammar returned by the constructors
satisfies it. -/
def Grammar.WF (g : Grammar) : Prop :=
  g.InternWF ∧ g.RulesWF ∧ ∃ ss rhs, g.start = ⟨[[ss], rhs], 1⟩ ∧ rhs ≠ []

/-- The grammar after interning the strings `ws` from left to right. -/
def Grammar.internAll (g : Grammar) (ws : List ES) : Grammar := (g.translate_vec ws).2

/-- The items the deduction system of the recognizer derives for the sentence
`w`, in either build; `idf` gives the id under which a scanned word is stored.
`start`: the item `($ -> . S, 0, 0)`.  `predict`: from an incomplete item (in
the tag-filtered build: whose next symbol is not a tag) the item `(r, 0, to, to)`
for every rule `r` of the next symbol (in the `SOVERLOAD` build: whose first
right-hand symbol is not a word of the lexicon).  `scan`: from an incomplete
item whose next symbol is a tag `T` with the token at `to` among its words, the
item `(T -> word ., to, to + 1)`.  `complete`: from a complete item and an
incomplete item that ends where it begins and has its left-hand symbol after
the dot, that item with the dot advanced. -/
inductive Ded (g : Grammar) (tags : List Int) (pwm : List (Int × List ES)) (w : List ES)
    (idf : ES → Option Int) : EarleyItem → Prop
  | start : Ded g tags pwm w idf ⟨0, 0, 0, g.start⟩
  | predict (it : EarleyItem) (r : Rule) :
      Ded g tags pwm w idf it → it.complete = false →
      (g.soverload = true ∨ it.next ∉ tags) → r ∈ g.rules_with_lhs [it.next] →
      (g.soverload && g.is_word (r.get_rhs.headD 0)) = false →
      Ded g tags pwm w idf ⟨0, it.to_, it.to_, r⟩
  | scan (it : EarleyItem) (words : List ES) (word : ES) (wid : Int) :
      Ded g tags pwm w idf it → it.complete = false → it.next ∈ tags →
      mapFind pwm it.next = some words → w[it.to_]? = some word → word ∈ words →
      idf word = some wid →
      Ded g tags pwm w idf ⟨1, it.to_, it.to_ + 1, ⟨[[it.next], [wid]], 1⟩⟩
  | complete (it it2 : EarleyItem) :
      Ded g tags pwm w idf it → Ded g tags pwm w idf it2 → it.complete = true →
      it2.to_ = it.from_ → it2.complete = false → it.get_lhs = it2.next →
      Ded g tags pwm w idf ⟨it2.dot + 1, it2.from_, it.to_, it2.rule⟩

/-- Shape of an item over a rule of the grammar (or the start rule):
`rhs_begin = 1`, a non-empty right-hand side, and the dot at 0 when the item
spans no token. -/
def EarleyItem.OfGrammar (g : Grammar) (it : EarleyItem) : Prop :=
  it.rule.rhs_begin = 1 ∧ it.rule ∈ g.allRules ∧ it.rule.get_rhs ≠ [] ∧
    (it.from_ = it.to_ → it.dot = 0)

/-- Shape of the items of the chart: an item over a rule of the grammar, or a
scanned item `(T -> word ., from, from + 1)`. -/
def EarleyItem.Shaped (g : Grammar) (it : EarleyItem) : Prop :=
  it.OfGrammar g ∨ ∃ T wid, it = ⟨1, it.from_, it.from_ + 1, ⟨[[T], [wid]], 1⟩⟩

/-- Invariant of the points of a run of `parse(w)` on the parser `p0`: the
parser is a later state of `p0` over the tokens `w ++ ["$"]`; every item of the
chart and of `to_process` has the shape of a chart item and is derived by the
deduction system, with the ids of the interner after interning all of `w`;
every item of the two buffers is over a rule of the grammar and derived; the
interner is that of `p0` after interning the first `m` tokens, the cells after
cell `m` are empty, and the working sets are empty when `m` is below the cell
being swept. -/
def ParsePoint.Sound (p0 : EarleyParser) (w : List ES) (pt : ParsePoint) : Prop :=
  p0.Later pt.parser ∧ pt.parser.chart.tokens = w ++ ["$"] ∧
    (∀ (j : Nat) (cell : List EarleyItem), pt.parser.chart.chart[j]? = some cell →
      ∀ it ∈ cell, it.Shaped p0.grammar ∧
        Ded p0.grammar p0.tags p0.pwm w (p0.grammar.internAll w).id_of it) ∧
    (∀ it ∈ pt.parser.to_process, it.Shaped p0.grammar ∧
      Ded p0.grammar p0.tags p0.pwm w (p0.grammar.internAll w).id_of it) ∧
    (∀ it, it ∈ pt.parser.predict_buffer ∨ it ∈ pt.parser.complete_buffer →
      it.OfGrammar p0.grammar ∧
        Ded p0.grammar p0.tags p0.pwm w (p0.grammar.internAll w).id_of it) ∧
    ∃ m, m ≤ w.length ∧ pt.parser.grammar = p0.grammar.internAll (w.take m) ∧
      (∀ (j : Nat) (cell : List EarleyItem), m < j → pt.parser.chart.chart[j]? = some cell →
        cell = []) ∧
      (m < pt.index → pt.parser.to_process = [] ∧ pt.parser.predict_buffer = [] ∧
        pt.parser.complete_buffer = [])

/-- The consequences of the item `it` of cell `k` under the deduction system
are present in the state `p`: predicted and completed items in cell `k` or a
working set, the scanned item in cell `k + 1`. -/
def EarleyParser.Done (p0 : EarleyParser) (w : List ES) (k : Nat) (p : EarleyParser)
    (it : EarleyItem) : Prop :=
  (it.complete = false → (p0.grammar.soverload = true ∨ it.next ∉ p0.tags) →
    ∀ r ∈ p0.grammar.rules_with_lhs [it.next],
      (p0.grammar.soverload && p0.grammar.is_word (r.get_rhs.headD 0)) = false →
      p.InTarget k ⟨0, k, k, r⟩) ∧
    (it.complete = false → it.next ∈ p0.tags → ∀ words word,
      mapFind p0.pwm it.next = some words → w[k]? = some word → word ∈ words →
        ∃ cell wid, p.chart.chart[k + 1]? = some cell ∧
          (⟨1, k, k + 1, ⟨[[it.next], [wid]], 1⟩⟩ : EarleyItem) ∈ cell ∧
          (p0.grammar.internAll w).id_of word = some wid) ∧
    (it.complete = true → it.from_ < k → ∀ cell, p.chart.chart[it.from_]? = some cell →
      ∀ it2 ∈ cell, it2.complete = false → it.get_lhs = it2.next →
        p.InTarget k ⟨it2.dot + 1, it2.from_, k, it2.rule⟩)

/-- Cell `j` of the chart `ch` is closed under the deduction system: the
predicted and completed items of its items are in cell `j`, the scanned items
in cell `j + 1`. -/
def ClosedCell (p0 : EarleyParser) (w : List ES) (ch : List (List EarleyItem)) (j : Nat) :
    Prop :=
  ∀ cell, ch[j]? = some cell → ∀ it ∈ cell,
    (it.complete = false → (p0.grammar.soverload = true ∨ it.next ∉ p0.tags) →
      ∀ r ∈ p0.grammar.rules_with_lhs [it.next],
        (p0.grammar.soverload && p0.grammar.is_word (r.get_rhs.headD 0)) = false →
        (⟨0, j, j, r⟩ : EarleyItem) ∈ cell) ∧
      (it.complete = false → it.next ∈ p0.tags → ∀ words word,
        mapFind p0.pwm it.next = some words → w[j]? = some word → word ∈ words →
          ∃ cell2 wid, ch[j + 1]? = some cell2 ∧
            (⟨1, j, j + 1, ⟨[[it.next], [wid]], 1⟩⟩ : EarleyItem) ∈ cell2 ∧
            (p0.grammar.internAll w).id_of word = some wid) ∧
      (it.complete = true → it.from_ < j → ∀ cell2, ch[it.from_]? = some cell2 →
        ∀ it2 ∈ cell2, it2.complete = false → it.get_lhs = it2.next →
          (⟨it2.dot + 1, it2.from_, j, it2.rule⟩ : EarleyItem) ∈ cell)

/-- Invariant of the points of a run of `parse(w)`: every item of the cell
being swept and of `to_process` is still to be visited by the `for` loop or has
its consequences present; every cell before the cell being swept is closed; all
cells are closed when the sweep has ended. -/
def ParsePoint.Tracked (p0 : EarleyParser) (w : List ES) (pt : ParsePoint) : Prop :=
  (pt.running = true → ∀ it, (it ∈ (pt.parser.chart.chart[pt.index]?).getD [] ∨
      it ∈ pt.parser.to_process) → it ∈ pt.todo ∨ EarleyParser.Done p0 w pt.index pt.parser it) ∧
    (∀ j, j < pt.index → ClosedCell p0 w pt.parser.chart.chart j)

/-- Invariant of the flags and buffers at the points of a run of `parse`: a
flag that is set has a non-empty buffer, and the buffered items are neither in
the cell being swept nor in `to_process`. -/
def ParsePoint.Novel (pt : ParsePoint) : Prop :=
  (pt.new_p = true → pt.parser.predict_buffer ≠ []) ∧
    (pt.new_c = true → pt.parser.complete_buffer ≠ []) ∧
    ∀ y, y ∈ pt.parser.predict_buffer ∨ y ∈ pt.parser.complete_buffer →
      y ∉ (pt.parser.chart.chart[pt.index]?).getD [] ∧ y ∉ pt.parser.to_process

/-- The item would scan the end marker: it is incomplete, its next symbol is a
tag, and `"$"` is among the words of that tag. -/
def EarleyItem.ScansSentinel (tags : List Int) (pwm : List (Int × List ES))
    (it : EarleyItem) : Prop :=
  it.complete = false ∧ it.next ∈ tags ∧ ∃ words, mapFind pwm it.next = some words ∧
    "$" ∈ words

/-- The deduction system derives an item of the last cell that would scan the
end marker `"$"` which `initialise` appended to the tokens. -/
def SentinelItem (p0 : EarleyParser) (w : List ES) : Prop :=
  ∃ it, Ded p0.grammar p0.tags p0.pwm w (p0.grammar.internAll w).id_of it ∧
    it.to_ = w.length ∧ it.ScansSentinel p0.tags p0.pwm

/-- Invariant of the points of a run of `parse(w)`: an item of the last cell, or
of `to_process` during the sweep of the last cell, that would scan the end
marker is still to be visited by the `for` loop. -/
def ParsePoint.Visited (p0 : EarleyParser) (w : List ES) (pt : ParsePoint) : Prop :=
  ∀ it, it.ScansSentinel p0.tags p0.pwm →
    (it ∈ (pt.parser.chart.chart[w.length]?).getD [] ∨
      (pt.index = w.length ∧ it ∈ pt.parser.to_process)) →
    pt.running = true ∧ pt.index = w.length ∧ it ∈ pt.todo

/-- The symbols reachable from the start symbol: the right-hand symbols of the
start rule `$ -> S`, and every right-hand symbol of a rule of the rule index
whose left-hand symbol is reachable. -/
inductive Grammar.Reachable (g : Grammar) : Int → Prop
  | start (x : Int) : x ∈ g.start.get_rhs → Grammar.Reachable g x
  | step (a x : Int) (r : Rule) : Grammar.Reachable g a → r ∈ g.rules_with_lhs [a] →
      x ∈ r.get_rhs → Grammar.Reachable g x

/-- Reference definition of "G minus U": the rules of `U` are taken out of
every set of the rule index; the interner, the start rule and the other fields
are those of `g`. -/
def Grammar.removeRules (g : Grammar) (U : List Rule) : Grammar :=
  { g with rules := g.rules.map (fun e => (e.1, e.2.filter (fun r => decide (r ∉ U)))) }

theorem Translator.findFrom_not_mem (es : ES) (l : List ES) (i : Int) (hi : 0 ≤ i)
    (h : es ∉ l) : Translator.findFrom es l i = -1 := by
  induction l generalizing i with
  | nil => rfl
  | cons e rest ih =>
    simp only [List.mem_cons, not_or] at h
    have hne : ¬ e = es := fun hh => h.1 hh.symm
    simp only [Translator.findFrom, hne, if_false]
    exact ih (i + 1) (by omega) h.2

theorem Translator.findFrom_mem (es : ES) (l : List ES) (i : Int) (hi : 0 ≤ i)
    (h : es ∈ l) :
    i ≤ Translator.findFrom es l i ∧ Translator.findFrom es l i < i + l.length ∧
      l.get? (Translator.findFrom es l i - i).toNat = some es := by
  induction l generalizing i with
  | nil => simp at h
  | cons e rest ih =>
    by_cases he : e = es
    · simp only [Translator.findFrom, he, if_true, List.length_cons]
      refine ⟨le_refl _, by push_cast; omega, ?_⟩
      simp
    · have hm : es ∈ rest := by
        rcases List.mem_cons.1 h with h1 | h1
        · exact absurd h1.symm he
        · exact h1
      obtain ⟨h1, h2, h3⟩ := ih (i + 1) (by omega) hm
      simp only [Translator.findFrom, he, if_false, List.length_cons]
      refine ⟨by omega, by push_cast; omega, ?_⟩
      have : (Translator.findFrom es rest (i + 1) - i).toNat
          = (Translator.findFrom es rest (i + 1) - (i + 1)).toNat + 1 := by omega
      rw [this, List.get?_cons_succ]
      exact h3

theorem Translator.findFrom_append_mem (es : ES) (l m : List ES) (i : Int) (h : es ∈ l) :
    Translator.findFrom es (l ++ m) i = Translator.findFrom es l i := by
  induction l generalizing i with
  | nil => simp at h
  | cons e rest ih =>
    by_cases he : e = es
    · simp [Translator.findFrom, he]
    · have hm : es ∈ rest := by
        rcases List.mem_cons.1 h with h1 | h1
        · exact absurd h1.symm he
        · exact h1
      simp only [List.cons_append, Translator.findFrom, he, if_false]
      exact ih (i + 1) hm

theorem Translator.findFrom_append_new (es : ES) (l : List ES) (i : Int) (h : es ∉ l) :
    Translator.findFrom es (l ++ [es]) i = i + l.length := by
  induction l generalizing i with
  | nil => simp [Translator.findFrom]
  | cons e rest ih =>
    simp only [List.mem_cons, not_or] at h
    have hne : ¬ e = es := fun hh => h.1 hh.symm
    have h1 := ih (i + 1) h.2
    rw [List.cons_append]
    simp only [Translator.findFrom, hne, if_false, List.length_cons]
    rw [h1]
    push_cast
    omega


theorem Translator.translate_to_es_ok (t : Translator) (id : Int) (s : ES) :
    t.translate_to_es id = .ok s ↔
      (id ≤ t.is_entries ∧ 0 ≤ id ∧ t.es_entries.get? id.toNat = some s) := by
  unfold Translator.translate_to_es
  by_cases h1 : id ≤ t.is_entries
  · by_cases h2 : 0 ≤ id
    · simp only [h1, h2, if_true, true_and]
      cases hg : t.es_entries.get? id.toNat with
      | none => simp
      | some e => simp
    · simp [h1, h2]
  · simp [h1]

theorem Translator.WF_new : Translator.new.WF := by
  simp [Translator.WF, Translator.new]

theorem Translator.find_mem_iff (t : Translator) (s : ES) :
    t.find s = -1 ↔ s ∉ t.es_entries := by
  constructor
  · intro h hm
    have := (Translator.findFrom_mem s t.es_entries 0 (le_refl _) hm).1
    unfold Translator.find at h
    omega
  · intro h
    exact Translator.findFrom_not_mem s t.es_entries 0 (le_refl _) h

theorem Translator.translate_to_is_WF (t : Translator) (h : t.WF) (s : ES) :
    (t.translate_to_is s).2.WF := by
  unfold Translator.translate_to_is
  by_cases hf : t.find s = -1
  · have hn := (Translator.find_mem_iff t s).1 hf
    simp only [hf, if_true, Translator.WF, List.length_append, List.length_singleton]
    obtain ⟨h1, h2⟩ := h
    refine ⟨by push_cast; omega, ?_⟩
    rw [List.nodup_append]
    refine ⟨h2, List.nodup_singleton s, ?_⟩
    intro a ha hb
    rw [List.mem_singleton] at hb
    exact hn (hb ▸ ha)
  · simpa [hf] using h

/-- The entries of a translator only grow under `translate`. -/
theorem Translator.translate_to_is_entries (t : Translator) (s : ES) :
    ∃ ext, (t.translate_to_is s).2.es_entries = t.es_entries ++ ext ∧
      (t.translate_to_is s).2.is_entries = t.is_entries + ext.length := by
  unfold Translator.translate_to_is
  by_cases hf : t.find s = -1
  · exact ⟨[s], by simp [hf]⟩
  · exact ⟨[], by simp [hf]⟩

theorem Translator.translate_to_is_keeps (t : Translator) (s : ES) (id : Int) (x : ES)
    (h : t.translate_to_es id = .ok x) :
    (t.translate_to_is s).2.translate_to_es id = .ok x := by
  rw [Translator.translate_to_es_ok] at h ⊢
  obtain ⟨ext, h1, h2⟩ := Translator.translate_to_is_entries t s
  obtain ⟨a, b, c⟩ := h
  refine ⟨by rw [h2]; omega, b, ?_⟩
  rw [h1]
  have hlt : id.toNat < t.es_entries.length := by
    rcases Nat.lt_or_ge id.toNat t.es_entries.length with hh | hh
    · exact hh
    · rw [List.get?_eq_none.2 hh] at c
      cases c
  rw [List.get?_eq_getElem?, List.getElem?_append_left hlt, ← List.get?_eq_getElem?]
  exact c

theorem Translator.translate_all_keeps (t : Translator) (more : List ES) (id : Int) (x : ES)
    (h : t.translate_to_es id = .ok x) :
    (t.translate_all more).2.translate_to_es id = .ok x := by
  induction more generalizing t with
  | nil => exact h
  | cons s rest ih =>
    simp only [Translator.translate_all]
    exact ih _ (Translator.translate_to_is_keeps t s id x h)

theorem Translator.translate_all_WF (t : Translator) (h : t.WF) (more : List ES) :
    (t.translate_all more).2.WF := by
  induction more generalizing t with
  | nil => exact h
  | cons s rest ih =>
    simp only [Translator.translate_all]
    exact ih _ (Translator.translate_to_is_WF t h s)

theorem Translator.translate_roundtrip (t : Translator) (h : t.WF) (s : ES) :
    (t.translate_to_is s).2.translate_to_es (t.translate_to_is s).1 = .ok s := by
  rw [Translator.translate_to_es_ok]
  unfold Translator.translate_to_is
  obtain ⟨h, _⟩ := h
  by_cases hf : t.find s = -1
  · simp only [hf, if_true]
    refine ⟨by omega, by omega, ?_⟩
    rw [h]
    simp
  · simp only [hf, if_false]
    have hm : s ∈ t.es_entries := by
      by_contra hc
      exact hf ((Translator.find_mem_iff t s).2 hc)
    obtain ⟨a, b, c⟩ := Translator.findFrom_mem s t.es_entries 0 (le_refl _) hm
    refine ⟨?_, a, ?_⟩
    · unfold Translator.find; omega
    · simpa [Translator.find] using c


theorem mapFind_append {κ ν : Type} [DecidableEq κ] (m : List (κ × ν)) (k : κ) (v : ν) (k' : κ) :
    mapFind (m ++ [(k, v)]) k' =
      match mapFind m k' with
      | some x => some x
      | none => if k = k' then some v else none := by
  induction m with
  | nil => simp [mapFind]
  | cons e rest ih =>
    obtain ⟨a, b⟩ := e
    by_cases h : a = k'
    · simp [mapFind, h]
    · simp only [List.cons_append, mapFind, h, if_false]
      exact ih


theorem Grammar.translate_to_is_lex (g : Grammar) (hg : g.soverload = true) (h : g.LexWF)
    (s : ES) :
    (g.translate_to_is s).2.soverload = true ∧ (g.translate_to_is s).2.LexWF ∧
      mapFind (g.translate_to_is s).2.esism s = some (g.translate_to_is s).1 ∧
      (∀ x i, mapFind g.esism x = some i → mapFind (g.translate_to_is s).2.esism x = some i) := by
  cases hf : mapFind g.esism s with
  | some i =>
    have e : g.translate_to_is s = (i, g) := by
      simp [Grammar.translate_to_is, hg, hf]
    rw [e]
    exact ⟨hg, h, hf, fun _ _ hx => hx⟩
  | none =>
    have e : g.translate_to_is s = ((g.esism.length : Int) + 1,
        { g with esism := mapInsert g.esism s ((g.esism.length : Int) + 1),
                 isesm := mapInsert g.isesm ((g.esism.length : Int) + 1) s }) := by
      simp [Grammar.translate_to_is, hg, hf]
    rw [e]
    have hfresh : mapFind g.isesm ((g.esism.length : Int) + 1) = none := by
      cases hq : mapFind g.isesm ((g.esism.length : Int) + 1) with
      | none => rfl
      | some x =>
        have := h.2 _ _ hq
        omega
    simp only [mapInsert, hf, hfresh]
    unfold Grammar.LexWF
    refine ⟨hg, ⟨?_, ?_⟩, ?_, ?_⟩
    · intro x i hx
      rw [mapFind_append] at hx ⊢
      cases hx1 : mapFind g.esism x with
      | some j =>
        rw [hx1] at hx
        simp only [Option.some.injEq] at hx
        subst hx
        rw [h.1 _ _ hx1]
      | none =>
        rw [hx1] at hx
        by_cases hsx : s = x
        · simp only [hsx, if_true, Option.some.injEq] at hx
          subst hx
          rw [hfresh]
          simp [hsx]
        · simp [hsx] at hx
    · intro i x hx
      rw [mapFind_append] at hx
      simp only [List.length_append, List.length_singleton]
      push_cast
      cases hx1 : mapFind g.isesm i with
      | some j =>
        have := h.2 _ _ hx1
        omega
      | none =>
        rw [hx1] at hx
        by_cases hsx : (g.esism.length : Int) + 1 = i
        · omega
        · simp [hsx] at hx
    · rw [mapFind_append, hf]
      simp
    · intro x i hx
      rw [mapFind_append, hx]

theorem Grammar.translateSide_lex (g : Grammar) (hg : g.soverload = true) (h : g.LexWF)
    (esv : List ES) (acc : List Int) :
    (g.translateSide esv acc).2.soverload = true ∧ (g.translateSide esv acc).2.LexWF ∧
      (∀ x i, mapFind g.esism x = some i →
        mapFind (g.translateSide esv acc).2.esism x = some i) := by
  induction esv generalizing g acc with
  | nil => exact ⟨hg, h, fun _ _ hx => hx⟩
  | cons e rest ih =>
    obtain ⟨a, b, _, d⟩ := Grammar.translate_to_is_lex g hg h e
    obtain ⟨a2, b2, d2⟩ := ih (g.translate_to_is e).2 a b (acc ++ [(g.translate_to_is e).1])
    exact ⟨a2, b2, fun x i hx => d2 x i (d x i hx)⟩

theorem Grammar.translate_to_es_lex (g : Grammar) (hg : g.soverload = true) (h : g.LexWF)
    (s : ES) (i : Int) (hs : mapFind g.esism s = some i) : g.translate_to_es i = .ok s := by
  unfold Grammar.translate_to_es
  simp [hg, h.1 _ _ hs]


theorem Translator.mapFind_mappingFrom (s : ES) (l : List ES) (i : Int) :
    mapFind (Translator.mappingFrom l i) s =
      if s ∈ l then some (Translator.findFrom s l i) else none := by
  induction l generalizing i with
  | nil => simp [Translator.mappingFrom, mapFind]
  | cons e rest ih =>
    by_cases he : e = s
    · simp [Translator.mappingFrom, mapFind, Translator.findFrom, he]
    · have hne : ¬ s = e := fun hh => he hh.symm
      simp only [Translator.mappingFrom, mapFind, Translator.findFrom, he, if_false,
        List.mem_cons, hne, false_or]
      exact ih (i + 1)

theorem Translator.mappingFrom_append (l : List ES) (s : ES) (i : Int) :
    Translator.mappingFrom (l ++ [s]) i =
      Translator.mappingFrom l i ++ [(s, i + (l.length : Int))] := by
  induction l generalizing i with
  | nil => simp [Translator.mappingFrom]
  | cons e rest ih =>
    have h1 := ih (i + 1)
    rw [List.cons_append]
    simp only [Translator.mappingFrom, h1, List.cons_append, List.length_cons]
    have e : i + 1 + (rest.length : Int) = i + ((rest.length + 1 : Nat) : Int) := by
      push_cast
      omega
    rw [e]

theorem Translator.map_fst_mappingFrom (l : List ES) (i : Int) :
    (Translator.mappingFrom l i).map Prod.fst = l := by
  induction l generalizing i with
  | nil => rfl
  | cons e rest ih => simp [Translator.mappingFrom, ih]

theorem Translator.translate_refines (t : Translator) (ht : t.WF) (s : ES) :
    (t.translate_to_is s).1 = (internSpec t.mapping s).1 ∧
      (t.translate_to_is s).2.mapping = (internSpec t.mapping s).2 := by
  obtain ⟨h1, h2⟩ := ht
  unfold internSpec Translator.mapping
  rw [Translator.mapFind_mappingFrom, Translator.map_fst_mappingFrom, h2.dedup]
  unfold Translator.translate_to_is
  by_cases hm : s ∈ t.es_entries
  · have hf : ¬ t.find s = -1 := fun hh => (Translator.find_mem_iff t s).1 hh hm
    have hf2 : ¬ Translator.findFrom s t.es_entries 0 = -1 := hf
    simp [hm, hf2, Translator.find]
  · have hf : t.find s = -1 := (Translator.find_mem_iff t s).2 hm
    simp only [hm, hf, if_true, if_false, ↓reduceIte]
    refine ⟨h1, ?_⟩
    rw [Translator.mappingFrom_append]
    simp

/-- C3. Interner round trip: looking up the id returned by `intern(s)` returns
`s`, at once and after any further `intern` calls `more`; for the
`Translator` of the tag-filtered build and for the two maps of the `SOVERLOAD`
build of `Grammar::translate`. -/
theorem C3_interner_roundtrip (t : Translator) (ht : t.WF) (g : Grammar)
    (hg : g.soverload = true) (hl : g.LexWF) (s : ES) (more : List ES) :
    ((t.translate_to_is s).2.translate_all more).2.translate_to_es (t.translate_to_is s).1
        = .ok s ∧
      ((g.translate_to_is s).2.translate_vec more).2.translate_to_es (g.translate_to_is s).1
        = .ok s := by
  constructor
  · exact Translator.translate_all_keeps _ more _ _ (Translator.translate_roundtrip t ht s)
  · obtain ⟨a, b, c, _⟩ := Grammar.translate_to_is_lex g hg hl s
    obtain ⟨a2, b2, d2⟩ := Grammar.translateSide_lex (g.translate_to_is s).2 a b more []
    exact Grammar.translate_to_es_lex _ a2 b2 s _ (d2 _ _ c)

theorem C3_interner_roundtrip_witness :
    (((Translator.new.translate_to_is "S").2.translate_to_is "NP").2.translate_all
          ["VP", "S"]).2.translate_to_es
        (((Translator.new.translate_to_is "S").2.translate_to_is "NP").1) = .ok "NP" ∧
      ((((Grammar.init true " " "-->").translate_to_is "NP").2.translate_vec
          ["VP", "S"]).2.translate_to_es
        ((Grammar.init true " " "-->").translate_to_is "NP").1) = .ok "NP" :=
  C3_interner_roundtrip (Translator.new.translate_to_is "S").2
    (Translator.translate_to_is_WF _ Translator.WF_new "S")
    (Grammar.init true " " "-->") rfl
    ⟨fun _ _ h => by simp [Grammar.init, mapFind] at h,
     fun _ _ h => by simp [Grammar.init, mapFind] at h⟩ "NP" ["VP", "S"]

/-- C4. `Translator::translate(const ES&)` refines the reference `internSpec` on
the recorded (string, id) pairs: same id, same resulting record; it keeps the
invariant, keeps every translation that existed, and two strings that
receive the same id, however many `intern` calls lie between, are equal. -/
theorem C4_intern_refines_spec (t : Translator) (ht : t.WF) (s : ES) :
    (t.translate_to_is s).1 = (internSpec t.mapping s).1 ∧
      (t.translate_to_is s).2.mapping = (internSpec t.mapping s).2 ∧
      (t.translate_to_is s).2.WF ∧
      (∀ id x, t.translate_to_es id = .ok x →
        (t.translate_to_is s).2.translate_to_es id = .ok x) ∧
      (∀ (between : List ES) (s2 : ES),
        (((t.translate_to_is s).2.translate_all between).2.translate_to_is s2).1
            = (t.translate_to_is s).1 → s2 = s) := by
  refine ⟨(Translator.translate_refines t ht s).1, (Translator.translate_refines t ht s).2,
    Translator.translate_to_is_WF t ht s,
    fun id x h => Translator.translate_to_is_keeps t s id x h, ?_⟩
  intro between s2 h
  have hw := Translator.translate_all_WF _ (Translator.translate_to_is_WF t ht s) between
  have r2 := Translator.translate_roundtrip _ hw s2
  have r1 := Translator.translate_to_is_keeps _ s2 _ _
    (Translator.translate_all_keeps _ between _ _ (Translator.translate_roundtrip t ht s))
  rw [h, r1] at r2
  cases r2
  rfl

theorem C4_intern_refines_spec_witness :
    ((Translator.new.translate_to_is "$").2.translate_to_is "S").1
        = (internSpec (Translator.new.translate_to_is "$").2.mapping "S").1 ∧
      ((Translator.new.translate_to_is "$").2.translate_to_is "S").2.mapping
        = (internSpec (Translator.new.translate_to_is "$").2.mapping "S").2 ∧
      ((Translator.new.translate_to_is "$").2.translate_to_is "S").2.WF ∧
      (∀ id x, (Translator.new.translate_to_is "$").2.translate_to_es id = .ok x →
        ((Translator.new.translate_to_is "$").2.translate_to_is "S").2.translate_to_es id
          = .ok x) ∧
      (∀ (between : List ES) (s2 : ES),
        ((((Translator.new.translate_to_is "$").2.translate_to_is "S").2.translate_all
            between).2.translate_to_is s2).1
          = ((Translator.new.translate_to_is "$").2.translate_to_is "S").1 → s2 = "S") :=
  C4_intern_refines_spec (Translator.new.translate_to_is "$").2
    (Translator.translate_to_is_WF _ Translator.WF_new "$") "S"

/-- C5. Evaluation of `Translator::translate(const IS&)` at ids that were never
issued: the id equal to the number of entries and a negative id pass the guard
`is <= is_entries` and reach the unchecked access `es_entries[is]`; only ids
above the number of entries are answered with the `throw`. -/
theorem C5_lookup_unissued_id :
    Translator.new.translate_to_es 0 = .error Fault.undefined ∧
      (Translator.new.translate_to_is "S").2.translate_to_es 1 = .error Fault.undefined ∧
      (Translator.new.translate_to_is "S").2.translate_to_es (-1) = .error Fault.undefined ∧
      (Translator.new.translate_to_is "S").2.translate_to_es 2 = .error Fault.unknown_symbol ∧
      (Translator.new.translate_to_is "S").2.translate_to_es 0 = .ok "S" :=
  ⟨rfl, rfl, rfl, rfl, rfl⟩

theorem String.length_eq_zero_iff' (s : String) : s.length = 0 ↔ s = "" := by
  constructor
  · intro h
    cases s with
    | mk d =>
      have : d = [] := List.length_eq_zero.1 h
      subst this
      rfl
  · intro h
    subst h
    rfl

theorem validatorLoop_late (separator : ES) (l : List ES) (sep token : Int) (ht : 2 ≤ token) :
    validatorLoop separator l sep token = some (sep + (l.count separator : Int)) := by
  induction l generalizing sep token with
  | nil => simp [validatorLoop]
  | cons t rest ih =>
    have h1 : ¬ token = 1 := by omega
    by_cases hts : t = separator
    · simp only [validatorLoop, hts, if_true, h1, and_false, if_false]
      rw [ih _ _ (by omega)]
      simp only [List.count_cons_self]
      push_cast
      congr 1
      omega
    · simp only [validatorLoop, hts, if_false, h1, and_false]
      rw [ih _ _ (by omega)]
      have : List.count separator (t :: rest) = List.count separator rest := by
        rw [List.count_cons_of_ne]
        exact fun hh => hts hh.symm
      rw [this]

theorem validatorLoop_head (separator : ES) (v0 : ES) (rest : List ES) :
    validatorLoop separator (v0 :: separator :: rest) 0 0 =
      some (((v0 :: separator :: rest).count separator : Nat) : Int) := by
  by_cases h0 : v0 = separator
  · subst h0
    have e : validatorLoop v0 (v0 :: v0 :: rest) 0 0 = validatorLoop v0 rest 2 2 := by
      simp [validatorLoop]
    rw [e, validatorLoop_late _ _ _ _ (by omega)]
    simp only [List.count_cons_self]
    push_cast
    congr 1
    omega
  · have hc : List.count separator (v0 :: separator :: rest)
        = List.count separator rest + 1 := by
      rw [List.count_cons_of_ne (fun hh => h0 hh.symm), List.count_cons_self]
    have e : validatorLoop separator (v0 :: separator :: rest) 0 0
        = validatorLoop separator rest 1 2 := by
      simp [validatorLoop, h0]
    rw [e, validatorLoop_late _ _ _ _ (by omega), hc]
    push_cast
    congr 1
    omega

theorem CFGValidator_iff (v : List ES) (sep : ES) :
    CFGValidator v sep = true ↔
      (3 ≤ v.length ∧ (∃ a, v.get? 0 = some a ∧ a ≠ "") ∧ v.get? 1 = some sep ∧
        v.count sep = 1) := by
  match v with
  | [] => simp [CFGValidator]
  | [a] => simp [CFGValidator]
  | [a, b] => simp [CFGValidator]
  | v0 :: v1 :: v2 :: rest =>
    unfold CFGValidator
    by_cases h1 : v1 = sep
    · subst h1
      by_cases h0 : v0.length = 0
      · have : v0 = "" := (String.length_eq_zero_iff' v0).1 h0
        simp [h0, this]
      · have hne : v0 ≠ "" := fun hh => h0 ((String.length_eq_zero_iff' v0).2 hh)
        simp only [ne_eq, h0, not_false_eq_true, and_self, if_true, validatorLoop_head]
        simp only [decide_eq_true_eq, List.length_cons, List.get?_cons_zero,
          Option.some.injEq, exists_eq_left', List.get?_cons_succ]
        constructor
        · intro h
          refine ⟨by omega, hne, trivial, ?_⟩
          exact_mod_cast h
        · intro h
          exact_mod_cast h.2.2.2
    · simp [h1]

/-- C6. `CFGValidator` accepts `v` with separator `sep` exactly when `v` has at
least 3 tokens, `v[0]` is non-empty, `v[1]` is `sep`, and exactly one token of
`v` equals `sep`. -/
theorem C6_validator_iff (v : List ES) (sep : ES) :
    CFGValidator v sep = true ↔
      (3 ≤ v.length ∧ (∃ a, v.get? 0 = some a ∧ a ≠ "") ∧ v.get? 1 = some sep ∧
        v.count sep = 1) :=
  CFGValidator_iff v sep

theorem ruleParserLoop_no_sep (sep : ES) (l current : List ES) (sides : List (List ES))
    (h : sep ∉ l) : ruleParserLoop sep l current sides = sides ++ [current ++ l] := by
  induction l generalizing current with
  | nil => simp [ruleParserLoop]
  | cons e rest ih =>
    simp only [List.mem_cons, not_or] at h
    have hne : e ≠ sep := fun hh => h.1 hh.symm
    simp only [ruleParserLoop, hne, ne_eq, not_false_eq_true, if_true]
    rw [ih _ h.2]
    simp

/-- A token vector accepted by the validator is `A :: sep :: xs` with `A`
non-empty and different from `sep`, and `xs` non-empty and free of `sep`. -/
theorem CFGValidator_shape (v : List ES) (sep : ES) (h : CFGValidator v sep = true) :
    ∃ A xs, v = A :: sep :: xs ∧ A ≠ "" ∧ A ≠ sep ∧ xs ≠ [] ∧ sep ∉ xs := by
  obtain ⟨h1, ⟨a, ha, hne⟩, h2, h3⟩ := (CFGValidator_iff v sep).1 h
  match v, h1, ha, h2, h3 with
  | v0 :: v1 :: v2 :: rest, _, ha, h2, h3 =>
    simp only [List.get?_cons_zero, Option.some.injEq] at ha
    simp only [List.get?_cons_succ, List.get?_cons_zero, Option.some.injEq] at h2
    subst ha
    subst h2
    refine ⟨v0, v2 :: rest, rfl, hne, ?_, by simp, ?_⟩
    · intro hh
      subst hh
      simp only [List.count_cons_self] at h3
      omega
    · intro hm
      have hpos : 0 < List.count v1 (v2 :: rest) := List.count_pos_iff.2 hm
      by_cases hh : v0 = v1
      · subst hh
        simp only [List.count_cons_self] at h3
        omega
      · rw [List.count_cons_of_ne (fun e => hh e.symm), List.count_cons_self] at h3
        omega

theorem Grammar.parse_wellformed (g : Grammar) (A : ES) (xs : List ES)
    (hA : A ≠ g.separator) (hx : g.separator ∉ xs) :
    g.parse (A :: g.separator :: xs) =
      (([[(g.translate_to_is A).1], ((g.translate_to_is A).2.translate_vec xs).1], 1),
        ((g.translate_to_is A).2.translate_vec xs).2) := by
  have hsep : ((g.translate_to_is A).2).separator = g.separator := by
    unfold Grammar.translate_to_is
    split
    · split <;> rfl
    · rfl
  unfold Grammar.parse CFGRuleParser
  simp only [ruleParserLoop, hA, ne_eq, not_false_eq_true, if_true, not_true_eq_false,
    if_false, List.nil_append]
  rw [ruleParserLoop_no_sep _ _ _ _ hx]
  simp [Grammar.translateSides, Grammar.translateSide, Grammar.translate_vec]

theorem Grammar.translateSide_length (g : Grammar) (esv : List ES) (acc : List Int) :
    (g.translateSide esv acc).1.length = acc.length + esv.length := by
  induction esv generalizing g acc with
  | nil => simp [Grammar.translateSide]
  | cons e rest ih =>
    simp only [Grammar.translateSide]
    rw [ih]
    simp only [List.length_append, List.length_singleton, List.length_cons, List.length_nil]
    omega

theorem Grammar.make_rule_wellformed (g : Grammar) (repr A : ES) (xs : List ES)
    (htok : tokenise repr ' ' = A :: g.separator :: xs)
    (hv : CFGValidator (tokenise repr ' ') g.separator = true) :
    g.make_rule repr =
        .ok (⟨[[(g.translate_to_is A).1], ((g.translate_to_is A).2.translate_vec xs).1], 1⟩,
          ((g.translate_to_is A).2.translate_vec xs).2) ∧
      (Rule.mk [[(g.translate_to_is A).1], ((g.translate_to_is A).2.translate_vec xs).1]
          1).get_lhs = [(g.translate_to_is A).1] ∧
      (Rule.mk [[(g.translate_to_is A).1], ((g.translate_to_is A).2.translate_vec xs).1]
          1).get_rhs = ((g.translate_to_is A).2.translate_vec xs).1 ∧
      ((g.translate_to_is A).2.translate_vec xs).1.length = xs.length ∧ xs ≠ [] := by
  obtain ⟨A', xs', e, _, hA, hxs, hx⟩ := CFGValidator_shape _ _ hv
  rw [htok] at e
  simp only [List.cons.injEq, true_and] at e
  obtain ⟨e1, e2⟩ := e
  subst e1
  subst e2
  refine ⟨?_, rfl, rfl, ?_, hxs⟩
  · unfold Grammar.make_rule
    rw [htok] at hv
    simp only [htok, hv, if_true]
    rw [Grammar.parse_wellformed g A xs hA hx]
    simp [Rule.construct]
  · unfold Grammar.translate_vec
    rw [Grammar.translateSide_length]
    simp

/-- C7. Rule construction from text: for a line accepted by the validator whose
tokens are `A :: sep :: xs`, `make_rule` returns the rule with the two sides
`[intern A]` and `[intern x1, ..., intern xk]` and `rhs_begin = 1`; the
interner afterwards is the one obtained by interning `A`, then `x1 ... xk`
from left to right, and nothing else (the separator is not interned); the
left-hand side is the single symbol of `A` and the right-hand side is not
empty. -/
theorem C7_make_rule (g : Grammar) (repr A : ES) (xs : List ES)
    (htok : tokenise repr ' ' = A :: g.separator :: xs)
    (hv : CFGValidator (tokenise repr ' ') g.separator = true) :
    g.make_rule repr =
        .ok (⟨[[(g.translate_to_is A).1], ((g.translate_to_is A).2.translate_vec xs).1], 1⟩,
          ((g.translate_to_is A).2.translate_vec xs).2) ∧
      (Rule.mk [[(g.translate_to_is A).1], ((g.translate_to_is A).2.translate_vec xs).1]
          1).get_lhs = [(g.translate_to_is A).1] ∧
      (Rule.mk [[(g.translate_to_is A).1], ((g.translate_to_is A).2.translate_vec xs).1]
          1).get_rhs = ((g.translate_to_is A).2.translate_vec xs).1 ∧
      ((g.translate_to_is A).2.translate_vec xs).1.length = xs.length ∧ xs ≠ [] :=
  Grammar.make_rule_wellformed g repr A xs htok hv

theorem C7_make_rule_witness :
    (Grammar.init false " " "-->").make_rule "NP --> Det N" =
        .ok (⟨[[((Grammar.init false " " "-->").translate_to_is "NP").1],
            (((Grammar.init false " " "-->").translate_to_is "NP").2.translate_vec
              ["Det", "N"]).1], 1⟩,
          (((Grammar.init false " " "-->").translate_to_is "NP").2.translate_vec
            ["Det", "N"]).2) ∧
      (Rule.mk [[((Grammar.init false " " "-->").translate_to_is "NP").1],
          (((Grammar.init false " " "-->").translate_to_is "NP").2.translate_vec
            ["Det", "N"]).1] 1).get_lhs
        = [((Grammar.init false " " "-->").translate_to_is "NP").1] ∧
      (Rule.mk [[((Grammar.init false " " "-->").translate_to_is "NP").1],
          (((Grammar.init false " " "-->").translate_to_is "NP").2.translate_vec
            ["Det", "N"]).1] 1).get_rhs
        = (((Grammar.init false " " "-->").translate_to_is "NP").2.translate_vec
            ["Det", "N"]).1 ∧
      (((Grammar.init false " " "-->").translate_to_is "NP").2.translate_vec
          ["Det", "N"]).1.length = ["Det", "N"].length ∧ ["Det", "N"] ≠ [] :=
  C7_make_rule (Grammar.init false " " "-->") "NP --> Det N" "NP" ["Det", "N"]
    (by decide) (by decide)

theorem Grammar.Ext.ext_refl (g : Grammar) : g.Ext g :=
  ⟨rfl, rfl, rfl, rfl, rfl, fun _ _ h => h⟩

theorem Grammar.Ext.ext_trans {g1 g2 g3 : Grammar} (a : g1.Ext g2) (b : g2.Ext g3) : g1.Ext g3 := by
  obtain ⟨a1, a2, a3, a4, a5, a7⟩ := a
  obtain ⟨b1, b2, b3, b4, b5, b7⟩ := b
  exact ⟨b1.trans a1, b2.trans a2, b3.trans a3, b4.trans a4, b5.trans a5,
    fun x i h => b7 x i (a7 x i h)⟩

theorem Translator.translate_find (t : Translator) (ht : t.WF) (s : ES) :
    s ∈ (t.translate_to_is s).2.es_entries ∧
      (t.translate_to_is s).2.find s = (t.translate_to_is s).1 := by
  unfold Translator.translate_to_is
  by_cases hf : t.find s = -1
  · have hn := (Translator.find_mem_iff t s).1 hf
    simp only [hf, if_true]
    refine ⟨by simp, ?_⟩
    unfold Translator.find
    simp only []
    rw [Translator.findFrom_append_new s _ 0 hn, ht.1]
    omega
  · have hm : s ∈ t.es_entries := by
      by_contra hc
      exact hf ((Translator.find_mem_iff t s).2 hc)
    simp only [hf, if_false]
    exact ⟨hm, trivial⟩

theorem Grammar.translate_known (g : Grammar) (s : ES) (i : Int) (h : g.id_of s = some i) :
    g.translate_to_is s = (i, g) := by
  unfold Grammar.id_of at h
  unfold Grammar.translate_to_is
  by_cases hb : g.soverload = true
  · rw [if_pos hb] at h ⊢
    rw [h]
  · rw [if_neg hb] at h ⊢
    by_cases hm : s ∈ g.translator.es_entries
    · rw [if_pos hm] at h
      simp only [Option.some.injEq] at h
      have hf : ¬ g.translator.find s = -1 := fun hh => (Translator.find_mem_iff _ s).1 hh hm
      have e : g.translator.translate_to_is s = (i, g.translator) := by
        subst h
        simp only [Translator.translate_to_is, hf, if_false]
      rw [e]
    · rw [if_neg hm] at h
      cases h

theorem Grammar.translate_to_is_spec (g : Grammar) (hw : g.InternWF) (s : ES) :
    (g.translate_to_is s).2.InternWF ∧ g.Ext (g.translate_to_is s).2 ∧
      (g.translate_to_is s).2.rules = g.rules ∧
      (g.translate_to_is s).2.id_of s = some (g.translate_to_is s).1 := by
  by_cases hs : g.soverload = true
  · obtain ⟨a, b, c, d⟩ := Grammar.translate_to_is_lex g hs (hw.1 hs) s
    have hfields : (g.translate_to_is s).2.separator = g.separator ∧
        (g.translate_to_is s).2.del = g.del ∧ (g.translate_to_is s).2.lexicon = g.lexicon ∧
        (g.translate_to_is s).2.rules = g.rules ∧ (g.translate_to_is s).2.start = g.start := by
      unfold Grammar.translate_to_is
      simp only [hs, if_true]
      split <;> exact ⟨rfl, rfl, rfl, rfl, rfl⟩
    obtain ⟨f1, f2, f3, f4, f5⟩ := hfields
    refine ⟨⟨fun _ => b, fun hh => by rw [a] at hh; cases hh⟩,
      ⟨a.trans hs.symm, f1, f2, f3, f5, ?_⟩, f4, ?_⟩
    · intro x i hx
      unfold Grammar.id_of at hx ⊢
      simp only [hs, if_true] at hx
      simp only [a, if_true]
      exact d x i hx
    · unfold Grammar.id_of
      simp only [a, if_true]
      exact c
  · have hs' : g.soverload = false := by simpa using hs
    have ht := hw.2 hs'
    have e : g.translate_to_is s = ((g.translator.translate_to_is s).1,
        { g with translator := (g.translator.translate_to_is s).2 }) := by
      simp [Grammar.translate_to_is, hs']
    rw [e]
    have hw2 := Translator.translate_to_is_WF _ ht s
    obtain ⟨ext, x1, _⟩ := Translator.translate_to_is_entries g.translator s
    refine ⟨⟨fun hh => by simp [hs'] at hh, fun _ => hw2⟩,
      ⟨rfl, rfl, rfl, rfl, rfl, ?_⟩, rfl, ?_⟩
    · intro x i hx
      unfold Grammar.id_of at hx ⊢
      simp only [hs', Bool.false_eq_true, if_false] at hx ⊢
      by_cases hm : x ∈ g.translator.es_entries
      · simp only [hm, if_true, Option.some.injEq] at hx
        have hm2 : x ∈ (g.translator.translate_to_is s).2.es_entries := by
          rw [x1]
          exact List.mem_append_left _ hm
        simp only [hm2, if_true, Option.some.injEq]
        rw [← hx]
        unfold Translator.find
        rw [x1]
        exact Translator.findFrom_append_mem x _ _ 0 hm
      · simp [hm] at hx
    · obtain ⟨m1, m2⟩ := Translator.translate_find _ ht s
      unfold Grammar.id_of
      simp only [hs', Bool.false_eq_true, if_false, m1, if_true, m2]

theorem Grammar.translateSide_spec (g : Grammar) (hw : g.InternWF) (xs : List ES)
    (acc : List Int) :
    (g.translateSide xs acc).2.InternWF ∧ g.Ext (g.translateSide xs acc).2 ∧
      (g.translateSide xs acc).2.rules = g.rules ∧
      (g.translateSide xs acc).1 =
        acc ++ xs.map (fun x => ((g.translateSide xs acc).2.translate_to_is x).1) ∧
      (∀ x ∈ xs, ∃ i, (g.translateSide xs acc).2.id_of x = some i) := by
  induction xs generalizing g acc with
  | nil => exact ⟨hw, Grammar.Ext.ext_refl g, rfl, by simp [Grammar.translateSide], by simp⟩
  | cons e rest ih =>
    obtain ⟨w1, e1, r1, k1⟩ := Grammar.translate_to_is_spec g hw e
    obtain ⟨w2, e2, r2, v2, k2⟩ := ih (g.translate_to_is e).2 w1 (acc ++ [(g.translate_to_is e).1])
    have hk : (g.translateSide (e :: rest) acc).2.id_of e = some (g.translate_to_is e).1 :=
      e2.2.2.2.2.2 _ _ k1
    refine ⟨w2, e1.ext_trans e2, r2.trans r1, ?_, ?_⟩
    · simp only [Grammar.translateSide] at v2 hk ⊢
      rw [v2, List.map_cons, Grammar.translate_known _ _ _ hk]
      simp
    · intro x hx
      rcases List.mem_cons.1 hx with h | h
      · subst h
        exact ⟨_, hk⟩
      · exact k2 x h

theorem Grammar.ruleOf_ext (g1 g2 : Grammar) (h : g1.Ext g2) (A : ES) (xs : List ES)
    (hA : ∃ i, g1.id_of A = some i) (hx : ∀ x ∈ xs, ∃ i, g1.id_of x = some i) :
    g2.ruleOf A xs = g1.ruleOf A xs := by
  unfold Grammar.ruleOf
  obtain ⟨i, hi⟩ := hA
  rw [Grammar.translate_known g1 A i hi, Grammar.translate_known g2 A i (h.2.2.2.2.2 _ _ hi)]
  congr 2
  congr 1
  apply List.map_congr_left
  intro x hxm
  obtain ⟨j, hj⟩ := hx x hxm
  rw [Grammar.translate_known g1 x j hj, Grammar.translate_known g2 x j (h.2.2.2.2.2 _ _ hj)]

/-- `make_rule` on a line accepted by the validator. -/
theorem Grammar.make_rule_spec (g : Grammar) (hw : g.InternWF) (repr : ES)
    (hv : CFGValidator (tokenise repr ' ') g.separator = true) :
    ∃ r g2 A xs, g.make_rule repr = .ok (r, g2) ∧ g2.InternWF ∧ g.Ext g2 ∧
      g2.rules = g.rules ∧ tokenise repr ' ' = A :: g.separator :: xs ∧ xs ≠ [] ∧
      r = g2.ruleOf A xs ∧ (∃ i, g2.id_of A = some i) ∧ (∀ x ∈ xs, ∃ i, g2.id_of x = some i) := by
  obtain ⟨A, xs, e, _, _, hxs, _⟩ := CFGValidator_shape _ _ hv
  obtain ⟨c1, _, _, _, _⟩ := Grammar.make_rule_wellformed g repr A xs e hv
  obtain ⟨w1, e1, r1, k1⟩ := Grammar.translate_to_is_spec g hw A
  obtain ⟨w2, e2, r2, v2, k2⟩ := Grammar.translateSide_spec (g.translate_to_is A).2 w1 xs []
  have hk : ((g.translate_to_is A).2.translate_vec xs).2.id_of A = some (g.translate_to_is A).1 :=
    e2.2.2.2.2.2 _ _ k1
  refine ⟨_, _, A, xs, c1, w2, e1.ext_trans e2, r2.trans r1, e, hxs, ?_, ⟨_, hk⟩, k2⟩
  unfold Grammar.ruleOf
  rw [Grammar.translate_known _ _ _ hk]
  unfold Grammar.translate_vec
  rw [v2]
  simp

theorem Grammar.make_rule_invalid (g : Grammar) (repr : ES)
    (hv : CFGValidator (tokenise repr ' ') g.separator = false) :
    g.make_rule repr = .error (Fault.malformed_rule (tokenise repr ' ')) := by
  unfold Grammar.make_rule
  simp [hv]

theorem mapFind_rulesInsert (m : List (List Int × List Rule)) (lhs : List Int) (r : Rule)
    (k : List Int) :
    mapFind (Grammar.rulesInsert m lhs r) k =
      if k = lhs then some (rulesetInsert ((mapFind m lhs).getD []) r) else mapFind m k := by
  induction m with
  | nil =>
    by_cases h : k = lhs
    · simp [Grammar.rulesInsert, mapFind, h]
    · have h2 : ¬ lhs = k := fun hh => h hh.symm
      simp [Grammar.rulesInsert, mapFind, h, h2]
  | cons e rest ih =>
    obtain ⟨a, rs⟩ := e
    by_cases ha : a = lhs
    · subst ha
      by_cases h : k = a
      · subst h
        simp [Grammar.rulesInsert, mapFind]
      · have h2 : ¬ a = k := fun hh => h hh.symm
        simp [Grammar.rulesInsert, mapFind, h, h2]
    · by_cases h : k = lhs
      · subst h
        simp only [Grammar.rulesInsert, ha, if_false, mapFind, if_true]
        rw [ih]
        simp
      · simp only [Grammar.rulesInsert, ha, if_false, mapFind, h]
        by_cases hak : a = k
        · simp [hak]
        · simp only [hak, if_false]
          rw [ih]
          simp [h]

theorem Grammar.rules_with_lhs_insert (g : Grammar) (r : Rule) (k : List Int) :
    (g.insert r).rules_with_lhs k =
      if k = r.get_lhs then rulesetInsert (g.rules_with_lhs k) r else g.rules_with_lhs k := by
  unfold Grammar.rules_with_lhs Grammar.insert
  simp only [mapFind_rulesInsert]
  by_cases h : k = r.get_lhs
  · subst h
    simp only [if_true]
    cases mapFind g.rules r.get_lhs <;> rfl
  · simp [h]

theorem rulesetInsert_mem (rs : List Rule) (r x : Rule) (b : Int)
    (hrs : ∀ y ∈ rs, y.rhs_begin = b) (hr : r.rhs_begin = b) :
    x ∈ rulesetInsert rs r ↔ x ∈ rs ∨ x = r := by
  unfold rulesetInsert
  by_cases h : rs.any (fun y => Rule.eq y r) = true
  · simp only [h, if_true]
    constructor
    · exact Or.inl
    · rintro (h1 | h1)
      · exact h1
      · subst h1
        obtain ⟨y, hy, hyr⟩ := List.any_eq_true.1 h
        simp only [Rule.eq, decide_eq_true_eq] at hyr
        have : y = x := by
          cases y
          cases x
          simp only [Rule.mk.injEq]
          simp only at hyr
          exact ⟨hyr.symm, (hrs _ hy).trans hr.symm⟩
        exact this ▸ hy
  · simp only [h, Bool.false_eq_true, if_false, List.mem_append, List.mem_singleton]

theorem rulesetInsert_nodup (rs : List Rule) (r : Rule) (h : rs.Nodup) :
    (rulesetInsert rs r).Nodup := by
  unfold rulesetInsert
  by_cases ha : rs.any (fun y => Rule.eq y r) = true
  · simpa [ha] using h
  · simp only [ha, Bool.false_eq_true, if_false]
    rw [List.nodup_append]
    refine ⟨h, List.nodup_singleton r, ?_⟩
    intro a ha1 ha2
    rw [List.mem_singleton] at ha2
    subst ha2
    apply ha
    rw [List.any_eq_true]
    exact ⟨a, ha1, by simp [Rule.eq]⟩

theorem Grammar.insert_ext (g : Grammar) (r : Rule) :
    g.Ext (g.insert r) ∧ ((g.insert r).InternWF ↔ g.InternWF) :=
  ⟨⟨rfl, rfl, rfl, rfl, rfl, fun _ _ h => h⟩, Iff.rfl⟩

theorem Grammar.insert_RulesWF (g : Grammar) (hr : g.RulesWF) (a : Int) (rhs : List Int)
    (hne : rhs ≠ []) : (g.insert ⟨[[a], rhs], 1⟩).RulesWF := by
  intro l
  rw [Grammar.rules_with_lhs_insert]
  by_cases h : l = (Rule.mk [[a], rhs] 1).get_lhs
  · simp only [h, if_true]
    refine ⟨rulesetInsert_nodup _ _ (hr _).1, ?_⟩
    intro x hx
    rw [rulesetInsert_mem _ _ _ 1 (fun y hy => ((hr _).2 y hy).1) rfl] at hx
    rcases hx with hx | hx
    · exact (hr _).2 x hx
    · subst hx
      exact ⟨rfl, a, rhs, rfl, hne, rfl⟩
  · simp only [h, if_false]
    exact hr l

theorem Grammar.ruleOf_shape (g : Grammar) (A : ES) (xs : List ES) (hx : xs ≠ []) :
    ∃ a rhs, g.ruleOf A xs = ⟨[[a], rhs], 1⟩ ∧ rhs ≠ [] ∧ a = (g.translate_to_is A).1 :=
  ⟨_, _, rfl, by simpa using hx, rfl⟩

/-- `fillLoop` on lines that are all empty or accepted by the validator. -/
theorem Grammar.fillLoop_ok (lines : List ES) (g : Grammar) (hw : g.InternWF) (hr : g.RulesWF)
    (hall : ∀ line ∈ lines, line.length ≠ 0 →
      CFGValidator (tokenise line ' ') g.separator = true) :
    ∃ g2, g.fillLoop lines = .ok g2 ∧ g2.InternWF ∧ g2.RulesWF ∧ g.Ext g2 ∧
      (∀ l r, r ∈ g2.rules_with_lhs l ↔
        (r ∈ g.rules_with_lhs l ∨ ∃ line ∈ lines, line.length ≠ 0 ∧
          ∃ A xs, tokenise line ' ' = A :: g.separator :: xs ∧ r = g2.ruleOf A xs ∧
            l = [(g2.translate_to_is A).1])) ∧
      (∀ line ∈ lines, line.length ≠ 0 → ∀ A xs,
        tokenise line ' ' = A :: g.separator :: xs →
          xs ≠ [] ∧ ∀ x ∈ A :: xs, ∃ i, g2.id_of x = some i) := by
  induction lines generalizing g with
  | nil =>
    exact ⟨g, rfl, hw, hr, Grammar.Ext.ext_refl g, fun l r => by simp, fun _ h => by simp at h⟩
  | cons line rest ih =>
    by_cases h0 : line.length = 0
    · obtain ⟨g2, a1, a2, a3, a4, a5, a6⟩ := ih g hw hr
        (fun x hx => hall x (List.mem_cons_of_mem _ hx))
      refine ⟨g2, by simp [Grammar.fillLoop, h0, a1], a2, a3, a4, ?_, ?_⟩
      · intro l r
        rw [a5 l r]
        constructor
        · rintro (h | ⟨x, hx, h⟩)
          · exact Or.inl h
          · exact Or.inr ⟨x, List.mem_cons_of_mem _ hx, h⟩
        · rintro (h | ⟨x, hx, h⟩)
          · exact Or.inl h
          · rcases List.mem_cons.1 hx with e | e
            · subst e
              exact absurd h0 h.1
            · exact Or.inr ⟨x, e, h⟩
      · intro x hx hx0
        rcases List.mem_cons.1 hx with e | e
        · subst e
          exact absurd h0 hx0
        · exact a6 x e hx0
    · have hv := hall line (List.mem_cons_self _ _) h0
      obtain ⟨r0, g1, A, xs, m1, m2, m3, m4, m5, m6, m7, m8, m9⟩ :=
        Grammar.make_rule_spec g hw line hv
      obtain ⟨a, rhs, s1, s2, s3⟩ := Grammar.ruleOf_shape g1 A xs m6
      have hr1 : g1.RulesWF := by
        intro l
        have : g1.rules_with_lhs l = g.rules_with_lhs l := by
          unfold Grammar.rules_with_lhs
          rw [m4]
        rw [this]
        exact hr l
      have hsep : (g1.insert r0).separator = g.separator := m3.2.1
      have hr2 : (g1.insert r0).RulesWF := by
        rw [m7, s1]
        exact Grammar.insert_RulesWF g1 hr1 a rhs s2
      obtain ⟨g2, a1, a2, a3, a4, a5, a6⟩ := ih (g1.insert r0)
        ((Grammar.insert_ext g1 r0).2.2 m2) hr2
        (fun x hx hx0 => by rw [hsep]; exact hall x (List.mem_cons_of_mem _ hx) hx0)
      have e12 : g1.Ext g2 := (Grammar.insert_ext g1 r0).1.ext_trans a4
      have hrule : g2.ruleOf A xs = r0 := by
        rw [m7]
        exact Grammar.ruleOf_ext g1 g2 e12 A xs m8 m9
      have hid : (g2.translate_to_is A).1 = a := by
        obtain ⟨i, hi⟩ := m8
        rw [s3, Grammar.translate_known g1 A i hi,
          Grammar.translate_known g2 A i (e12.2.2.2.2.2 _ _ hi)]
      refine ⟨g2, by simp [Grammar.fillLoop, h0, m1, a1], a2, a3, m3.ext_trans e12, ?_, ?_⟩
      · intro l r
        rw [a5 l r, Grammar.rules_with_lhs_insert, hsep]
        have hold : g1.rules_with_lhs l = g.rules_with_lhs l := by
          unfold Grammar.rules_with_lhs
          rw [m4]
        have hlhs : r0.get_lhs = [a] := by
          rw [m7, s1]
          rfl
        constructor
        · rintro (h | ⟨x, hx, h⟩)
          · by_cases hl : l = r0.get_lhs
            · rw [if_pos hl, rulesetInsert_mem _ _ _ 1 (fun y hy => ((hr1 _).2 y hy).1)
                (by rw [m7, s1])] at h
              rcases h with h | h
              · exact Or.inl (hold ▸ h)
              · refine Or.inr ⟨line, List.mem_cons_self _ _, h0, A, xs, m5, ?_, ?_⟩
                · rw [h, hrule]
                · rw [hl, hlhs, hid]
            · rw [if_neg hl] at h
              exact Or.inl (hold ▸ h)
          · exact Or.inr ⟨x, List.mem_cons_of_mem _ hx, h⟩
        · rintro (h | ⟨x, hx, h⟩)
          · left
            by_cases hl : l = r0.get_lhs
            · rw [if_pos hl, rulesetInsert_mem _ _ _ 1 (fun y hy => ((hr1 _).2 y hy).1)
                (by rw [m7, s1])]
              exact Or.inl (hold ▸ h)
            · rw [if_neg hl]
              exact hold ▸ h
          · rcases List.mem_cons.1 hx with e | e
            · subst e
              obtain ⟨_, A2, xs2, t1, t2, t3⟩ := h
              rw [m5] at t1
              simp only [List.cons.injEq, true_and] at t1
              obtain ⟨tA, tx⟩ := t1
              subst tA
              subst tx
              left
              have hl : l = r0.get_lhs := by rw [t3, hlhs, hid]
              rw [if_pos hl, rulesetInsert_mem _ _ _ 1 (fun y hy => ((hr1 _).2 y hy).1)
                (by rw [m7, s1])]
              right
              rw [t2, hrule]
            · exact Or.inr ⟨x, e, h⟩
      · intro x hx hx0 A2 xs2 t1
        rcases List.mem_cons.1 hx with e | e
        · subst e
          rw [m5] at t1
          simp only [List.cons.injEq, true_and] at t1
          obtain ⟨tA, tx⟩ := t1
          subst tA
          subst tx
          refine ⟨m6, ?_⟩
          intro y hy
          rcases List.mem_cons.1 hy with e | e
          · subst e
            obtain ⟨i, hi⟩ := m8
            exact ⟨i, e12.2.2.2.2.2 _ _ hi⟩
          · obtain ⟨i, hi⟩ := m9 y e
            exact ⟨i, e12.2.2.2.2.2 _ _ hi⟩
        · exact a6 x e hx0 A2 xs2 (by rw [hsep]; exact t1)

theorem Grammar.fillLoop_bad (lines : List ES) (g : Grammar) (hw : g.InternWF)
    (hbad : ∃ line ∈ lines, line.length ≠ 0 ∧
      CFGValidator (tokenise line ' ') g.separator = false) :
    ∃ toks, g.fillLoop lines = .error (Fault.malformed_rule toks) := by
  induction lines generalizing g with
  | nil =>
    obtain ⟨x, hx, _⟩ := hbad
    simp at hx
  | cons line rest ih =>
    by_cases h0 : line.length = 0
    · have hb : ∃ x ∈ rest, x.length ≠ 0 ∧ CFGValidator (tokenise x ' ') g.separator = false := by
        obtain ⟨x, hx, h1, h2⟩ := hbad
        rcases List.mem_cons.1 hx with e | e
        · subst e
          exact absurd h0 h1
        · exact ⟨x, e, h1, h2⟩
      obtain ⟨toks, ht⟩ := ih g hw hb
      exact ⟨toks, by simp [Grammar.fillLoop, h0, ht]⟩
    · by_cases hv : CFGValidator (tokenise line ' ') g.separator = true
      · obtain ⟨r0, g1, A, xs, m1, m2, m3, _⟩ := Grammar.make_rule_spec g hw line hv
        have hsep : (g1.insert r0).separator = g.separator := m3.2.1
        have hb : ∃ x ∈ rest, x.length ≠ 0 ∧
            CFGValidator (tokenise x ' ') (g1.insert r0).separator = false := by
          obtain ⟨x, hx, h1, h2⟩ := hbad
          rcases List.mem_cons.1 hx with e | e
          · subst e
            rw [hv] at h2
            cases h2
          · exact ⟨x, e, h1, by rw [hsep]; exact h2⟩
        obtain ⟨toks, ht⟩ := ih (g1.insert r0) ((Grammar.insert_ext g1 r0).2.2 m2) hb
        exact ⟨toks, by simp [Grammar.fillLoop, h0, m1, ht]⟩
      · have hv' : CFGValidator (tokenise line ' ') g.separator = false := by simpa using hv
        exact ⟨tokenise line ' ',
          by simp [Grammar.fillLoop, h0, Grammar.make_rule_invalid g line hv']⟩

theorem Grammar.InternWF_init (soverload : Bool) (del separator : ES) :
    (Grammar.init soverload del separator).InternWF :=
  ⟨fun _ => ⟨fun _ _ h => by simp [Grammar.init, mapFind] at h,
      fun _ _ h => by simp [Grammar.init, mapFind] at h⟩,
    fun _ => Translator.WF_new⟩

theorem Grammar.translate_to_is_start (g : Grammar) (r : Rule) (x : ES) :
    (({ g with start := r } : Grammar).translate_to_is x).1 = (g.translate_to_is x).1 := by
  unfold Grammar.translate_to_is
  dsimp only
  split
  · split <;> rfl
  · rfl

theorem Grammar.ruleOf_start (g : Grammar) (r : Rule) (A : ES) (xs : List ES) :
    ({ g with start := r } : Grammar).ruleOf A xs = g.ruleOf A xs := by
  unfold Grammar.ruleOf
  simp only [Grammar.translate_to_is_start]

/-- The constructor `Grammar(ss, s, separator)` when the start rule is accepted. -/
theorem Grammar.new_spec (soverload : Bool) (del ss s separator : ES)
    (hstart : CFGValidator (tokenise (ss ++ del ++ separator ++ del ++ s) ' ') separator = true) :
    ∃ g0 A xs, Grammar.new soverload del ss s separator = .ok g0 ∧ g0.InternWF ∧ g0.RulesWF ∧
      g0.rules = [] ∧ g0.separator = separator ∧ g0.soverload = soverload ∧ g0.del = del ∧
      g0.lexicon = [] ∧
      tokenise (ss ++ del ++ separator ++ del ++ s) ' ' = A :: separator :: xs ∧ xs ≠ [] ∧
      g0.start = g0.ruleOf A xs ∧ (∀ x ∈ A :: xs, ∃ i, g0.id_of x = some i) := by
  obtain ⟨r0, g1, A, xs, m1, m2, m3, m4, m5, m6, m7, m8, m9⟩ :=
    Grammar.make_rule_spec (Grammar.init soverload del separator)
      (Grammar.InternWF_init soverload del separator) _ hstart
  have h1 : Grammar.new soverload del ss s separator = .ok { g1 with start := r0 } := by
    unfold Grammar.new
    rw [m1]
  have h2 : ({ g1 with start := r0 } : Grammar).RulesWF := by
    intro l
    have : ({ g1 with start := r0 } : Grammar).rules_with_lhs l = [] := by
      unfold Grammar.rules_with_lhs
      simp only [m4]
      rfl
    rw [this]
    simp
  have h3 : ({ g1 with start := r0 } : Grammar).start
      = ({ g1 with start := r0 } : Grammar).ruleOf A xs := by
    rw [Grammar.ruleOf_start]
    exact m7
  have h4 : ∀ x ∈ A :: xs, ∃ i, ({ g1 with start := r0 } : Grammar).id_of x = some i := by
    intro x hx
    rcases List.mem_cons.1 hx with e | e
    · subst e
      exact m8
    · exact m9 x e
  exact ⟨{ g1 with start := r0 }, A, xs, h1, m2, h2, m4, m3.2.1, m3.1, m3.2.2.1, m3.2.2.2.1,
    m5, m6, h3, h4⟩

/-- The constructor `Grammar(is, ss, s, separator)` on a non-empty list of
lines that are all empty or accepted by the validator. -/
theorem Grammar.construct_spec (soverload : Bool) (del : ES) (lines : List ES)
    (ss s separator : ES)
    (hstart : CFGValidator (tokenise (ss ++ del ++ separator ++ del ++ s) ' ') separator = true)
    (hne : lines ≠ [])
    (hall : ∀ line ∈ lines, line.length ≠ 0 →
      CFGValidator (tokenise line ' ') separator = true) :
    ∃ g A0 xs0, Grammar.construct soverload del lines ss s separator = .ok g ∧
      g.InternWF ∧ g.RulesWF ∧ g.soverload = soverload ∧ g.separator = separator ∧
      g.lexicon = [] ∧
      tokenise (ss ++ del ++ separator ++ del ++ s) ' ' = A0 :: separator :: xs0 ∧ xs0 ≠ [] ∧
      g.start = g.ruleOf A0 xs0 ∧ (∀ x ∈ A0 :: xs0, ∃ i, g.id_of x = some i) ∧
      (∀ l r, r ∈ g.rules_with_lhs l ↔
        ∃ line ∈ lines, line.length ≠ 0 ∧
          ∃ A xs, tokenise line ' ' = A :: separator :: xs ∧ r = g.ruleOf A xs ∧
            l = [(g.translate_to_is A).1]) ∧
      (∀ line ∈ lines, line.length ≠ 0 → ∀ A xs,
        tokenise line ' ' = A :: separator :: xs →
          xs ≠ [] ∧ ∀ x ∈ A :: xs, ∃ i, g.id_of x = some i) := by
  obtain ⟨g0, A0, xs0, n1, n2, n3, n4, n5, n6, n7, n8, n9, n10, n11, n12⟩ :=
    Grammar.new_spec soverload del ss s separator hstart
  obtain ⟨g, f1, f2, f3, f4, f5, f6⟩ := Grammar.fillLoop_ok lines g0 n2 n3
    (fun line hl h0 => by rw [n5]; exact hall line hl h0)
  have hlen : ¬ lines.length = 0 := fun h => hne (List.length_eq_zero.1 h)
  refine ⟨g, A0, xs0, ?_, f2, f3, f4.1.trans n6, f4.2.1.trans n5, f4.2.2.2.1.trans n8,
    n9, n10, ?_, ?_, ?_, ?_⟩
  · unfold Grammar.construct Grammar.fill
    rw [n1]
    simp only [hlen, if_false]
    exact f1
  · rw [f4.2.2.2.2.1, n11]
    exact (Grammar.ruleOf_ext g0 g f4 A0 xs0 (n12 A0 (List.mem_cons_self _ _))
      (fun x hx => n12 x (List.mem_cons_of_mem _ hx))).symm
  · intro x hx
    obtain ⟨i, hi⟩ := n12 x hx
    exact ⟨i, f4.2.2.2.2.2 _ _ hi⟩
  · intro l r
    rw [f5 l r, n5]
    have : g0.rules_with_lhs l = [] := by
      unfold Grammar.rules_with_lhs
      rw [n4]
      rfl
    rw [this]
    simp
  · intro line hl h0 A xs ht
    exact f6 line hl h0 A xs (by rw [n5]; exact ht)

/-- A construction that succeeds had a well-formed start rule, a non-empty list
of lines, and only lines that are empty or accepted by the validator. -/
theorem Grammar.construct_ok_inv (soverload : Bool) (del : ES) (lines : List ES)
    (ss s separator : ES) (g : Grammar)
    (hc : Grammar.construct soverload del lines ss s separator = .ok g) :
    CFGValidator (tokenise (ss ++ del ++ separator ++ del ++ s) ' ') separator = true ∧
      lines ≠ [] ∧
      ∀ line ∈ lines, line.length ≠ 0 → CFGValidator (tokenise line ' ') separator = true := by
  have hstart : CFGValidator (tokenise (ss ++ del ++ separator ++ del ++ s) ' ') separator
      = true := by
    by_contra hv
    have hv' : CFGValidator (tokenise (ss ++ del ++ separator ++ del ++ s) ' ')
        (Grammar.init soverload del separator).separator = false := by simpa using hv
    have := Grammar.make_rule_invalid (Grammar.init soverload del separator) _ hv'
    unfold Grammar.construct Grammar.new at hc
    rw [this] at hc
    cases hc
  obtain ⟨g0, A0, xs0, n1, n2, n3, n4, n5, _⟩ :=
    Grammar.new_spec soverload del ss s separator hstart
  unfold Grammar.construct Grammar.fill at hc
  rw [n1] at hc
  simp only at hc
  have hne : lines ≠ [] := by
    intro h
    subst h
    simp at hc
  have hlen : ¬ lines.length = 0 := fun h => hne (List.length_eq_zero.1 h)
  simp only [hlen, if_false] at hc
  refine ⟨hstart, hne, ?_⟩
  intro line hl h0
  by_contra hv
  have hv' : CFGValidator (tokenise line ' ') g0.separator = false := by
    rw [n5]
    simpa using hv
  obtain ⟨toks, ht⟩ := Grammar.fillLoop_bad lines g0 n2 ⟨line, hl, h0, hv'⟩
  rw [ht] at hc
  cases hc

theorem Grammar.id_of_inj (g : Grammar) (hw : g.InternWF) (a b : ES) (i : Int)
    (ha : g.id_of a = some i) (hb : g.id_of b = some i) : a = b := by
  unfold Grammar.id_of at ha hb
  by_cases hs : g.soverload = true
  · rw [if_pos hs] at ha hb
    have h1 := (hw.1 hs).1 _ _ ha
    have h2 := (hw.1 hs).1 _ _ hb
    rw [h1] at h2
    exact Option.some.inj h2
  · rw [if_neg hs] at ha hb
    by_cases hma : a ∈ g.translator.es_entries
    · by_cases hmb : b ∈ g.translator.es_entries
      · rw [if_pos hma] at ha
        rw [if_pos hmb] at hb
        obtain ⟨_, _, ga⟩ := Translator.findFrom_mem a _ 0 (le_refl _) hma
        obtain ⟨_, _, gb⟩ := Translator.findFrom_mem b _ 0 (le_refl _) hmb
        have ea : Translator.findFrom a g.translator.es_entries 0 = i := Option.some.inj ha
        have eb : Translator.findFrom b g.translator.es_entries 0 = i := Option.some.inj hb
        rw [ea] at ga
        rw [eb, ga] at gb
        exact Option.some.inj gb
      · rw [if_neg hmb] at hb
        cases hb
    · rw [if_neg hma] at ha
      cases ha

theorem String.length_ne_zero_iff' (s : String) : s.length ≠ 0 ↔ s ≠ "" :=
  not_congr (String.length_eq_zero_iff' s)

theorem Grammar.rules_with_lhs_construct (soverload : Bool) (del : ES) (lines : List ES)
    (ss s separator : ES) (g : Grammar)
    (hc : Grammar.construct soverload del lines ss s separator = .ok g) (l : List Int) :
    (∀ r, r ∈ g.rules_with_lhs l ↔
        ∃ line ∈ lines, line ≠ "" ∧ ∃ A xs, tokenise line ' ' = A :: separator :: xs ∧
          r = g.ruleOf A xs ∧ r.get_lhs = l) ∧
      (g.rules_with_lhs l).Nodup ∧ (∀ r ∈ g.rules_with_lhs l, r.get_lhs = l) ∧
      ((∀ line ∈ lines, ∀ A xs, tokenise line ' ' = A :: separator :: xs →
          (g.ruleOf A xs).get_lhs ≠ l) → g.rules_with_lhs l = []) := by
  obtain ⟨hstart, hne, hall⟩ := Grammar.construct_ok_inv _ _ _ _ _ _ g hc
  obtain ⟨g', A0, xs0, c1, c2, c3, _, _, _, _, _, _, _, c5, _⟩ :=
    Grammar.construct_spec soverload del lines ss s separator hstart hne hall
  rw [hc] at c1
  cases c1
  have hiff : ∀ r, r ∈ g.rules_with_lhs l ↔
      ∃ line ∈ lines, line ≠ "" ∧ ∃ A xs, tokenise line ' ' = A :: separator :: xs ∧
        r = g.ruleOf A xs ∧ r.get_lhs = l := by
    intro r
    rw [c5]
    constructor
    · rintro ⟨line, hl, h0, A, xs, ht, hr, hk⟩
      exact ⟨line, hl, (String.length_ne_zero_iff' line).1 h0, A, xs, ht, hr,
        by rw [hr, hk]; rfl⟩
    · rintro ⟨line, hl, h0, A, xs, ht, hr, hk⟩
      exact ⟨line, hl, (String.length_ne_zero_iff' line).2 h0, A, xs, ht, hr,
        by rw [← hk, hr]; rfl⟩
  refine ⟨hiff, (c3 l).1, ?_, ?_⟩
  · intro r hr
    obtain ⟨_, _, _, _, _, _, _, hk⟩ := (hiff r).1 hr
    exact hk
  · intro hno
    apply List.eq_nil_iff_forall_not_mem.2
    intro r hr
    obtain ⟨line, hl, _, A, xs, ht, hrr, hk⟩ := (hiff r).1 hr
    exact hno line hl A xs ht (hrr ▸ hk)

/-- C9. Rule index lookup after construction from `lines`: `rules_with_lhs l`
holds exactly the rules made from the input lines whose left-hand side is `l`,
each once; every rule under key `l` has left-hand side `l`; the set is empty
when no input rule has left-hand side `l`. -/
theorem C9_rules_with_lhs (soverload : Bool) (del : ES) (lines : List ES)
    (ss s separator : ES) (g : Grammar)
    (hc : Grammar.construct soverload del lines ss s separator = .ok g) (l : List Int) :
    (∀ r, r ∈ g.rules_with_lhs l ↔
        ∃ line ∈ lines, line ≠ "" ∧ ∃ A xs, tokenise line ' ' = A :: separator :: xs ∧
          r = g.ruleOf A xs ∧ r.get_lhs = l) ∧
      (g.rules_with_lhs l).Nodup ∧ (∀ r ∈ g.rules_with_lhs l, r.get_lhs = l) ∧
      ((∀ line ∈ lines, ∀ A xs, tokenise line ' ' = A :: separator :: xs →
          (g.ruleOf A xs).get_lhs ≠ l) → g.rules_with_lhs l = []) :=
  Grammar.rules_with_lhs_construct soverload del lines ss s separator g hc l


theorem C9_rules_with_lhs_witness :
    ∃ g, Grammar.construct false " " ["S --> NP VP", "S --> NP VP", "NP --> Det N"] "$" "S" "-->"
        = .ok g ∧
      ((∀ r, r ∈ g.rules_with_lhs [1] ↔
          ∃ line ∈ ["S --> NP VP", "S --> NP VP", "NP --> Det N"], line ≠ "" ∧
            ∃ A xs, tokenise line ' ' = A :: "-->" :: xs ∧
              r = g.ruleOf A xs ∧ r.get_lhs = [1]) ∧
        (g.rules_with_lhs [1]).Nodup ∧ (∀ r ∈ g.rules_with_lhs [1], r.get_lhs = [1]) ∧
        ((∀ line ∈ ["S --> NP VP", "S --> NP VP", "NP --> Det N"], ∀ A xs,
            tokenise line ' ' = A :: "-->" :: xs →
              (g.ruleOf A xs).get_lhs ≠ [1]) → g.rules_with_lhs [1] = [])) :=
  ⟨_, rfl, C9_rules_with_lhs false " " ["S --> NP VP", "S --> NP VP", "NP --> Det N"]
    "$" "S" "-->" _ rfl [1]⟩

theorem tokenise_length_zero (line : ES) (h : line.length = 0) : tokenise line ' ' = [] := by
  have : line = "" := (String.length_eq_zero_iff' line).1 h
  subst this
  rfl

theorem Grammar.start_in_index (soverload : Bool) (del : ES) (lines : List ES)
    (ss s separator : ES) (g : Grammar)
    (hc : Grammar.construct soverload del lines ss s separator = .ok g)
    (htok : tokenise (ss ++ del ++ separator ++ del ++ s) ' ' = [ss, separator, s]) :
    g.start = g.ruleOf ss [s] ∧
      (g.start ∈ g.rules_with_lhs g.start.get_lhs ↔
        ∃ line ∈ lines, tokenise line ' ' = [ss, separator, s]) := by
  obtain ⟨hstart, hne, hall⟩ := Grammar.construct_ok_inv _ _ _ _ _ _ g hc
  obtain ⟨g', A0, xs0, c1, c2, c3, _, _, _, c4, _, c6, c7, c5, c8⟩ :=
    Grammar.construct_spec soverload del lines ss s separator hstart hne hall
  rw [hc] at c1
  cases c1
  rw [htok] at c4
  simp only [List.cons.injEq, true_and] at c4
  obtain ⟨e1, e2⟩ := c4
  subst e1
  subst e2
  refine ⟨c6, ?_⟩
  rw [c5]
  constructor
  · rintro ⟨line, hl, h0, A, xs, ht, hr, hk⟩
    refine ⟨line, hl, ?_⟩
    obtain ⟨_, hkn⟩ := c8 line hl h0 A xs ht
    rw [c6] at hr
    unfold Grammar.ruleOf at hr
    simp only [Rule.mk.injEq, List.cons.injEq, and_true, List.map_cons, List.map_nil] at hr
    obtain ⟨hA, hxs⟩ := hr
    have key : ∀ a b, (∃ i, g.id_of a = some i) → (∃ i, g.id_of b = some i) →
        (g.translate_to_is a).1 = (g.translate_to_is b).1 → a = b := by
      intro a b ⟨i, hi⟩ ⟨j, hj⟩ hab
      rw [Grammar.translate_known g a i hi, Grammar.translate_known g b j hj] at hab
      simp only at hab
      subst hab
      exact Grammar.id_of_inj g c2 a b i hi hj
    have eA : ss = A := key ss A (c7 ss (List.mem_cons_self _ _))
      (hkn A (List.mem_cons_self _ _)) hA
    match xs, hxs, hkn with
    | [x], hxs, hkn =>
      simp only [List.map_cons, List.map_nil, List.cons.injEq, and_true] at hxs
      have ex : s = x := key s x (c7 s (by simp)) (hkn x (by simp)) hxs
      rw [ht, eA, ex]
    | [], hxs, _ => simp at hxs
    | _ :: _ :: _, hxs, _ => simp at hxs
  · rintro ⟨line, hl, ht⟩
    have h0 : line.length ≠ 0 := by
      intro h
      rw [tokenise_length_zero line h] at ht
      cases ht
    exact ⟨line, hl, h0, ss, [s], ht, c6, by rw [c6]; rfl⟩

/-- C10 (amended). After a grammar is constructed from any list of lines, the
start rule `$ -> S` is the rule held in the field `start`; it is found by
`rules_with_lhs(LHS(start))` exactly when one of the input lines is itself the
rule `$ --> S`. -/
theorem C10_start_rule (soverload : Bool) (del : ES) (lines : List ES)
    (ss s separator : ES) (g : Grammar)
    (hc : Grammar.construct soverload del lines ss s separator = .ok g)
    (htok : tokenise (ss ++ del ++ separator ++ del ++ s) ' ' = [ss, separator, s]) :
    g.start = g.ruleOf ss [s] ∧
      (g.start ∈ g.rules_with_lhs g.start.get_lhs ↔
        ∃ line ∈ lines, tokenise line ' ' = [ss, separator, s]) :=
  Grammar.start_in_index soverload del lines ss s separator g hc htok

theorem C10_start_rule_witness :
    ∃ g, Grammar.construct false " " ["S --> NP VP", "$ --> S"] "$" "S" "-->" = .ok g ∧
      (g.start = g.ruleOf "$" ["S"] ∧
        (g.start ∈ g.rules_with_lhs g.start.get_lhs ↔
          ∃ line ∈ ["S --> NP VP", "$ --> S"], tokenise line ' ' = ["$", "-->", "S"])) :=
  ⟨_, rfl, C10_start_rule false " " ["S --> NP VP", "$ --> S"] "$" "S" "-->" _ rfl rfl⟩

/-- C10, counterexample: the grammar constructed from the single well-formed
line `S --> NP VP` does not have its start rule in the rule index: the set
found under the left-hand side of the start rule is empty. -/
theorem C10_counterexample :
    ∃ g, Grammar.construct false " " ["S --> NP VP"] "$" "S" "-->" = .ok g ∧
      g.start = ⟨[[0], [1]], 1⟩ ∧ g.rules_with_lhs g.start.get_lhs = [] ∧
      g.start ∉ g.rules_with_lhs g.start.get_lhs :=
  ⟨_, rfl, rfl, rfl, by decide⟩

/-! ## Item sets -/

theorem EarleyItem.eq_iff (a b : EarleyItem) (h : a.rule.rhs_begin = b.rule.rhs_begin) :
    EarleyItem.eq a b = true ↔ a = b := by
  obtain ⟨d1, f1, t1, ⟨s1, b1⟩⟩ := a
  obtain ⟨d2, f2, t2, ⟨s2, b2⟩⟩ := b
  simp only at h
  subst h
  simp only [EarleyItem.eq, Rule.eq, Bool.and_eq_true, decide_eq_true_eq, EarleyItem.mk.injEq,
    Rule.mk.injEq, and_true]
  constructor
  · rintro ⟨⟨⟨h1, h2⟩, h3⟩, h4⟩
    exact ⟨h2.symm, h3.symm, h4.symm, h1.symm⟩
  · rintro ⟨h1, h2, h3, h4⟩
    exact ⟨⟨⟨h4.symm, h1.symm⟩, h2.symm⟩, h3.symm⟩

theorem itemsetContains_iff (s : List EarleyItem) (x : EarleyItem)
    (hs : ∀ y ∈ s, y.rule.rhs_begin = 1) (hx : x.rule.rhs_begin = 1) :
    itemsetContains s x = true ↔ x ∈ s := by
  unfold itemsetContains
  rw [List.any_eq_true]
  constructor
  · rintro ⟨y, hy, he⟩
    have := (EarleyItem.eq_iff y x ((hs y hy).trans hx.symm)).1 he
    exact this ▸ hy
  · intro h
    exact ⟨x, h, (EarleyItem.eq_iff x x rfl).2 rfl⟩

theorem itemsetInsert_eq (s : List EarleyItem) (x : EarleyItem)
    (hs : ∀ y ∈ s, y.rule.rhs_begin = 1) (hx : x.rule.rhs_begin = 1) :
    itemsetInsert s x = if x ∈ s then s else s ++ [x] := by
  unfold itemsetInsert
  by_cases h : x ∈ s
  · rw [if_pos h, if_pos ((itemsetContains_iff s x hs hx).2 h)]
  · rw [if_neg h, if_neg (fun hh => h ((itemsetContains_iff s x hs hx).1 hh))]

/-- Inserting a range into a set appends the elements that are new, once. -/
theorem itemsetInsertAll_spec (xs s : List EarleyItem)
    (hs : ∀ y ∈ s, y.rule.rhs_begin = 1) (hx : ∀ y ∈ xs, y.rule.rhs_begin = 1) :
    ∃ ext, itemsetInsertAll s xs = s ++ ext ∧ (∀ y ∈ ext, y ∈ xs ∧ y ∉ s) ∧
      (∀ y ∈ xs, y ∈ s ∨ y ∈ ext) := by
  induction xs generalizing s with
  | nil => exact ⟨[], by simp [itemsetInsertAll], by simp, by simp⟩
  | cons x rest ih =>
    have hx1 := hx x (List.mem_cons_self _ _)
    have hrest : ∀ y ∈ rest, y.rule.rhs_begin = 1 := fun y hy => hx y (List.mem_cons_of_mem _ hy)
    have e : itemsetInsertAll s (x :: rest) = itemsetInsertAll (itemsetInsert s x) rest := rfl
    rw [e, itemsetInsert_eq s x hs hx1]
    by_cases h : x ∈ s
    · rw [if_pos h]
      obtain ⟨ext, e1, e2, e3⟩ := ih s hs hrest
      refine ⟨ext, e1, fun y hy => ⟨List.mem_cons_of_mem _ (e2 y hy).1, (e2 y hy).2⟩, ?_⟩
      intro y hy
      rcases List.mem_cons.1 hy with h1 | h1
      · exact Or.inl (h1 ▸ h)
      · exact e3 y h1
    · rw [if_neg h]
      have hs2 : ∀ y ∈ s ++ [x], y.rule.rhs_begin = 1 := by
        intro y hy
        rcases List.mem_append.1 hy with h1 | h1
        · exact hs y h1
        · rw [List.mem_singleton] at h1
          exact h1 ▸ hx1
      obtain ⟨ext, e1, e2, e3⟩ := ih (s ++ [x]) hs2 hrest
      refine ⟨x :: ext, by rw [e1]; simp, ?_, ?_⟩
      · intro y hy
        rcases List.mem_cons.1 hy with h1 | h1
        · subst h1
          exact ⟨List.mem_cons_self _ _, h⟩
        · exact ⟨List.mem_cons_of_mem _ (e2 y h1).1,
            fun hh => (e2 y h1).2 (List.mem_append_left _ hh)⟩
      · intro y hy
        rcases List.mem_cons.1 hy with h1 | h1
        · subst h1
          exact Or.inr (List.mem_cons_self _ _)
        · rcases e3 y h1 with h2 | h2
          · rcases List.mem_append.1 h2 with h3 | h3
            · exact Or.inl h3
            · rw [List.mem_singleton] at h3
              exact Or.inr (h3 ▸ List.mem_cons_self _ _)
          · exact Or.inr (List.mem_cons_of_mem _ h2)

/-! ## Shape of rules and items -/

theorem Grammar.rule_shape (g : Grammar) (hg : g.ParseWF) (r : Rule) (hr : g.IsRuleOrStart r) :
    r.rhs_begin = 1 ∧ ∃ a rhs, r.sides = [[a], rhs] ∧ rhs ≠ [] ∧ r.get_lhs = [a] ∧
      r.get_rhs = rhs := by
  obtain ⟨_, _, hrw, ss, rhs, hst, hne⟩ := hg
  rcases hr with h | ⟨l, hl⟩
  · subst h
    rw [hst]
    exact ⟨rfl, ss, rhs, rfl, hne, rfl, rfl⟩
  · obtain ⟨h1, a, rhs', h2, h3, _⟩ := (hrw l).2 r hl
    refine ⟨h1, a, rhs', h2, h3, ?_, ?_⟩
    · simp [Rule.get_lhs, h2]
    · simp [Rule.get_rhs, h2, h1]

theorem GItem.rb_grammar {g : Grammar} {tags : List Int} {pwm : List (Int × List ES)} {w : List ES}
    {it : EarleyItem} (hg : g.ParseWF) (h : GItem g tags pwm w it) : it.rule.rhs_begin = 1 :=
  (Grammar.rule_shape g hg it.rule h.1).1

theorem SItem.rb_start {gi : Grammar} {tags : List Int} {pwm : List (Int × List ES)} {w : List ES}
    {it : EarleyItem} (h : SItem gi tags pwm w it) : it.rule.rhs_begin = 1 := by
  obtain ⟨T, wid, words, word, h1, _⟩ := h
  rw [h1]

theorem ItemSound.rb_sound {g gi : Grammar} {tags : List Int} {pwm : List (Int × List ES)}
    {w : List ES} {it : EarleyItem} (hg : g.ParseWF) (h : ItemSound g gi tags pwm w it) :
    it.rule.rhs_begin = 1 := by
  rcases h with h | h
  · exact GItem.rb_grammar hg h
  · exact SItem.rb_start h

theorem SItem.complete {gi : Grammar} {tags : List Int} {pwm : List (Int × List ES)}
    {w : List ES} {it : EarleyItem} (h : SItem gi tags pwm w it) :
    it.complete = true ∧ ∃ T, it.get_lhs = T ∧ T ∈ tags ∧ it.rule.get_lhs = [T] := by
  obtain ⟨T, wid, words, word, h1, h2, _, _, h5, _⟩ := h
  refine ⟨?_, T, ?_, h5, ?_⟩
  · simp [EarleyItem.complete, h1, h2, Rule.get_rhs]
  · simp [EarleyItem.get_lhs, h1, Rule.get_lhs]
  · simp [h1, Rule.get_lhs]

theorem SItem.ext_start {g1 g2 : Grammar} {tags : List Int} {pwm : List (Int × List ES)}
    {w : List ES} {it : EarleyItem} (he : g1.Ext g2) (h : SItem g1 tags pwm w it) :
    SItem g2 tags pwm w it := by
  obtain ⟨T, wid, words, word, h1, h2, h3, h4, h5, h6, h7, h8⟩ := h
  exact ⟨T, wid, words, word, h1, h2, h3, h4, h5, h6, h7, he.2.2.2.2.2 _ _ h8⟩

theorem ItemSound.ext_sound {g g1 g2 : Grammar} {tags : List Int} {pwm : List (Int × List ES)}
    {w : List ES} {it : EarleyItem} (he : g1.Ext g2) (h : ItemSound g g1 tags pwm w it) :
    ItemSound g g2 tags pwm w it := by
  rcases h with h | h
  · exact Or.inl h
  · exact Or.inr (SItem.ext_start he h)

/-! ## Derivations and slices -/

theorem Derives.append {R : Rule → Prop} {tags : List Int} {pwm : List (Int × List ES)}
    {a b : List Int} {u v : List ES} (h1 : Derives R tags pwm a u)
    (h2 : Derives R tags pwm b v) : Derives R tags pwm (a ++ b) (u ++ v) := by
  induction h1 with
  | nil => simpa using h2
  | rule r A rest u1 v1 hr hl _ _ _ ih2 =>
    rw [List.cons_append, List.append_assoc]
    exact Derives.rule r A _ _ _ hr hl (by assumption) ih2
  | tag T words word rest v1 ht hm hw _ ih =>
    rw [List.cons_append, List.cons_append]
    exact Derives.tag T words word _ _ ht hm hw ih

theorem Derives.mono {R R2 : Rule → Prop} {tags : List Int} {pwm : List (Int × List ES)}
    {a : List Int} {u : List ES} (hR : ∀ r, R r → R2 r) (h : Derives R tags pwm a u) :
    Derives R2 tags pwm a u := by
  induction h with
  | nil => exact Derives.nil
  | rule r A rest u1 v1 hr hl _ _ ih1 ih2 => exact Derives.rule r A _ _ _ (hR r hr) hl ih1 ih2
  | tag T words word rest v1 ht hm hw _ ih => exact Derives.tag T words word _ _ ht hm hw ih

theorem Derives.ne_nil {R : Rule → Prop} {tags : List Int} {pwm : List (Int × List ES)}
    {a : List Int} {u : List ES} (hR : ∀ r, R r → r.get_rhs ≠ [])
    (h : Derives R tags pwm a u) (ha : a ≠ []) : u ≠ [] := by
  induction h with
  | nil => exact absurd rfl ha
  | rule r A rest u1 v1 hr hl _ _ ih1 _ =>
    intro hh
    exact ih1 (hR r hr) (List.append_eq_nil.1 hh).1
  | tag T words word rest v1 ht hm hw _ _ => simp

theorem slice_self (w : List ES) (a : Nat) : slice w a a = [] := by
  simp [slice]

theorem slice_length (w : List ES) (a b : Nat) (hb : b ≤ w.length) :
    (slice w a b).length = b - a := by
  simp only [slice, List.length_take, List.length_drop]
  omega

theorem slice_append (w : List ES) (a b c : Nat) (hab : a ≤ b) (hbc : b ≤ c) :
    slice w a b ++ slice w b c = slice w a c := by
  unfold slice
  have e1 : c - a = (b - a) + (c - b) := by omega
  have e2 : List.drop b w = List.drop (b - a) (List.drop a w) := by
    rw [List.drop_drop]
    congr 1
    omega
  rw [e1, e2, List.take_add]

theorem slice_succ (w : List ES) (a : Nat) (word : ES) (h : w[a]? = some word) :
    slice w a (a + 1) = [word] := by
  unfold slice
  have hlt : a < w.length := by
    rcases Nat.lt_or_ge a w.length with hh | hh
    · exact hh
    · rw [List.getElem?_eq_none hh] at h
      cases h
  have e : a + 1 - a = 1 := by omega
  rw [e, List.drop_eq_getElem_cons hlt]
  rw [List.getElem?_eq_getElem hlt] at h
  simp only [Option.some.injEq] at h
  simp [h]

theorem slice_all (w : List ES) : slice w 0 w.length = w := by
  simp [slice]

theorem slice_prefix (w u : List ES) (j : Nat) (h : u <+: w.drop j) :
    slice w j (j + u.length) = u := by
  unfold slice
  obtain ⟨t, ht⟩ := h
  have e : j + u.length - j = u.length := by omega
  rw [e, ← ht]
  simp

theorem EarleyItem.take_succ (it : EarleyItem) (h : it.complete = false) :
    it.rule.get_rhs.take (it.dot + 1) = it.rule.get_rhs.take it.dot ++ [it.next] := by
  have hlt : it.dot < it.rule.get_rhs.length := by
    simpa [EarleyItem.complete] using h
  rw [List.take_succ]
  congr 1
  simp [EarleyItem.next, List.getD, List.getElem?_eq_getElem hlt]

/-! ## Predict -/

theorem EarleyParser.Base.cell {g : Grammar} {tags : List Int} {pwm : List (Int × List ES)}
    {w : List ES} {p : EarleyParser} (hb : p.Base g tags pwm w) {k : Nat}
    (hk : k ≤ w.length) : ∃ cell, p.chart.chart[k]? = some cell := by
  have hlen := hb.2.2.2.2.2.2.1
  exact ⟨_, List.getElem?_eq_getElem (by omega)⟩

theorem EarleyParser.Base.soverload {g : Grammar} {tags : List Int}
    {pwm : List (Int × List ES)} {w : List ES} {p : EarleyParser} (hg : g.ParseWF)
    (hb : p.Base g tags pwm w) : p.grammar.soverload = false :=
  hb.1.1.trans hg.1

theorem GItem.predicted {g : Grammar} {tags : List Int} {pwm : List (Int × List ES)}
    {w : List ES} {k : Nat} (hk : k ≤ w.length) (r : Rule) (l : List Int)
    (hr : r ∈ g.rules_with_lhs l) : GItem g tags pwm w ⟨0, k, k, r⟩ :=
  ⟨Or.inr ⟨l, hr⟩, Nat.zero_le _, le_refl _, hk, by
    simp only [List.take_zero, slice_self]
    exact Derives.nil⟩

theorem EarleyParser.predictLoop_spec (g : Grammar) (tags : List Int)
    (pwm : List (Int × List ES)) (w : List ES) (k : Nat) (hg : g.ParseWF) (hk : k ≤ w.length)
    (item : EarleyItem) (hto : item.to_ = k) (l : List Int) (rs : List Rule)
    (hrs : ∀ r ∈ rs, r ∈ g.rules_with_lhs l) (p : EarleyParser) (hb : p.Base g tags pwm w)
    (hw : p.Work g tags pwm w k) (b : Bool) (cell : List EarleyItem)
    (hc : p.chart.chart[k]? = some cell) :
    ∃ ext b2, predictLoop item rs b p
        = .ok (b2, { p with predict_buffer := p.predict_buffer ++ ext }) ∧
      (b2 = true ↔ b = true ∨ ext ≠ []) ∧
      (∀ y ∈ ext, (∃ r ∈ rs, y = ⟨0, k, k, r⟩) ∧ y ∉ cell ∧ y ∉ p.to_process ∧
        y ∉ p.predict_buffer) ∧
      (∀ r ∈ rs, (⟨0, k, k, r⟩ : EarleyItem) ∈ cell ∨ (⟨0, k, k, r⟩ : EarleyItem) ∈ p.to_process ∨
        (⟨0, k, k, r⟩ : EarleyItem) ∈ p.predict_buffer ++ ext) := by
  induction rs generalizing p b with
  | nil =>
    refine ⟨[], b, ?_, by simp, by simp, by simp⟩
    simp [predictLoop]
  | cons r rest ih =>
    have hso := EarleyParser.Base.soverload hg hb
    have hgi : GItem g tags pwm w ⟨0, k, k, r⟩ :=
      GItem.predicted hk r l (hrs r (List.mem_cons_self _ _))
    have hrb : (⟨0, k, k, r⟩ : EarleyItem).rule.rhs_begin = 1 := GItem.rb_grammar hg hgi
    have hcell : ∀ y ∈ cell, y.rule.rhs_begin = 1 := fun y hy =>
      ItemSound.rb_sound hg (hb.2.2.2.2.2.2.2.2 k cell hc y hy).2
    have htp : ∀ y ∈ p.to_process, y.rule.rhs_begin = 1 := fun y hy =>
      ItemSound.rb_sound hg (hw.1 y hy).2
    have hpb : ∀ y ∈ p.predict_buffer, y.rule.rhs_begin = 1 := fun y hy =>
      GItem.rb_grammar hg (hw.2.1 y hy).2
    have hrest : ∀ r ∈ rest, r ∈ g.rules_with_lhs l := fun r hr =>
      hrs r (List.mem_cons_of_mem _ hr)
    by_cases hnew : (⟨0, k, k, r⟩ : EarleyItem) ∉ cell ∧ (⟨0, k, k, r⟩ : EarleyItem) ∉ p.to_process ∧
        (⟨0, k, k, r⟩ : EarleyItem) ∉ p.predict_buffer
    · obtain ⟨n1, n2, n3⟩ := hnew
      have hw2 : EarleyParser.Work g tags pwm w k
          { p with predict_buffer := p.predict_buffer ++ [⟨0, k, k, r⟩] } := by
        refine ⟨hw.1, ?_, hw.2.2⟩
        intro y hy
        rcases List.mem_append.1 hy with h1 | h1
        · exact hw.2.1 y h1
        · rw [List.mem_singleton] at h1
          subst h1
          exact ⟨rfl, hgi⟩
      obtain ⟨ext, b2, e1, e2, e3, e4⟩ :=
        ih hrest { p with predict_buffer := p.predict_buffer ++ [⟨0, k, k, r⟩] } hb hw2 true hc
      refine ⟨⟨0, k, k, r⟩ :: ext, b2, ?_, ?_, ?_, ?_⟩
      · simp only [predictLoop, hso, Bool.false_and, Bool.false_eq_true, if_false, hto,
          EarleyChart.contains, hc]
        have c1 : itemsetContains cell ⟨0, k, k, r⟩ = false := by
          rw [Bool.eq_false_iff]
          exact fun hh => n1 ((itemsetContains_iff _ _ hcell hrb).1 hh)
        have c2 : itemsetContains p.to_process ⟨0, k, k, r⟩ = false := by
          rw [Bool.eq_false_iff]
          exact fun hh => n2 ((itemsetContains_iff _ _ htp hrb).1 hh)
        have c3 : itemsetContains p.predict_buffer ⟨0, k, k, r⟩ = false := by
          rw [Bool.eq_false_iff]
          exact fun hh => n3 ((itemsetContains_iff _ _ hpb hrb).1 hh)
        simp only [c1, c2, c3, Bool.not_false, Bool.and_self, if_true]
        rw [itemsetInsert_eq _ _ hpb hrb, if_neg n3, e1]
        simp
      · rw [e2]
        simp
      · intro y hy
        rcases List.mem_cons.1 hy with h1 | h1
        · subst h1
          exact ⟨⟨r, List.mem_cons_self _ _, rfl⟩, n1, n2, n3⟩
        · obtain ⟨⟨r2, hr2, hy2⟩, m1, m2, m3⟩ := e3 y h1
          exact ⟨⟨r2, List.mem_cons_of_mem _ hr2, hy2⟩, m1, m2,
            fun hh => m3 (List.mem_append_left _ hh)⟩
      · intro r2 hr2
        rcases List.mem_cons.1 hr2 with h1 | h1
        · subst h1
          exact Or.inr (Or.inr (by simp))
        · rcases e4 r2 h1 with h2 | h2 | h2
          · exact Or.inl h2
          · exact Or.inr (Or.inl h2)
          · exact Or.inr (Or.inr (by simpa using h2))
    · obtain ⟨ext, b2, e1, e2, e3, e4⟩ := ih hrest p hb hw b hc
      have hold : (⟨0, k, k, r⟩ : EarleyItem) ∈ cell ∨ (⟨0, k, k, r⟩ : EarleyItem) ∈ p.to_process ∨
          (⟨0, k, k, r⟩ : EarleyItem) ∈ p.predict_buffer := by
        by_contra hh
        push_neg at hh
        exact hnew hh
      refine ⟨ext, b2, ?_, e2, ?_, ?_⟩
      · simp only [predictLoop, hso, Bool.false_and, Bool.false_eq_true, if_false, hto,
          EarleyChart.contains, hc]
        have c : (!itemsetContains cell ⟨0, k, k, r⟩ &&
            !itemsetContains p.to_process ⟨0, k, k, r⟩ &&
            !itemsetContains p.predict_buffer ⟨0, k, k, r⟩) = false := by
          rcases hold with h | h | h
          · simp [(itemsetContains_iff _ _ hcell hrb).2 h]
          · simp [(itemsetContains_iff _ _ htp hrb).2 h]
          · simp [(itemsetContains_iff _ _ hpb hrb).2 h]
        simp only [c, Bool.false_eq_true, if_false]
        exact e1
      · intro y hy
        obtain ⟨⟨r2, hr2, hy2⟩, m⟩ := e3 y hy
        exact ⟨⟨r2, List.mem_cons_of_mem _ hr2, hy2⟩, m⟩
      · intro r2 hr2
        rcases List.mem_cons.1 hr2 with h1 | h1
        · subst h1
          rcases hold with h | h | h
          · exact Or.inl h
          · exact Or.inr (Or.inl h)
          · exact Or.inr (Or.inr (List.mem_append_left _ h))
        · exact e4 r2 h1

/-! ## Complete -/

/-- A complete sound item is a constituent: its left-hand symbol derives the
tokens of its span. -/
theorem ItemSound.derives_lhs {g gi : Grammar} {tags : List Int} {pwm : List (Int × List ES)}
    {w : List ES} {it : EarleyItem} (hg : g.ParseWF) (h : ItemSound g gi tags pwm w it)
    (hc : it.complete = true) :
    Derives g.IsRuleOrStart tags pwm [it.get_lhs] (slice w it.from_ it.to_) ∧
      it.from_ ≤ it.to_ ∧ it.to_ ≤ w.length := by
  rcases h with h | h
  · obtain ⟨h1, h2, h3, h4, h5⟩ := h
    obtain ⟨_, a, rhs, _, _, hl, hr⟩ := Grammar.rule_shape g hg it.rule h1
    have hdot : it.rule.get_rhs.length ≤ it.dot := by
      simpa [EarleyItem.complete] using hc
    rw [List.take_of_length_le hdot] at h5
    have := Derives.rule it.rule a [] _ [] h1 hl h5 Derives.nil
    rw [List.append_nil] at this
    refine ⟨?_, h3, h4⟩
    have e : it.get_lhs = a := by simp [EarleyItem.get_lhs, hl]
    rw [e]
    exact this
  · obtain ⟨T, wid, words, word, h1, h2, h3, h4, h5, h6, h7, _⟩ := h
    have hlt : it.from_ < w.length := by
      rcases Nat.lt_or_ge it.from_ w.length with hh | hh
      · exact hh
      · rw [List.getElem?_eq_none hh] at h4
        cases h4
    refine ⟨?_, by omega, by omega⟩
    have e : it.get_lhs = T := by simp [EarleyItem.get_lhs, h1, Rule.get_lhs]
    rw [e, h3, slice_succ w it.from_ word h4]
    exact Derives.tag T words word [] [] h5 h6 h7 Derives.nil

/-- Advancing the dot of an incomplete sound item over a constituent. -/
theorem GItem.advance_dot {g gi : Grammar} {tags : List Int} {pwm : List (Int × List ES)}
    {w : List ES} {it2 : EarleyItem} {k : Nat} (h : ItemSound g gi tags pwm w it2)
    (hinc : it2.complete = false) (hk : it2.to_ ≤ k) (hkn : k ≤ w.length)
    (hd : Derives g.IsRuleOrStart tags pwm [it2.next] (slice w it2.to_ k)) :
    GItem g tags pwm w ⟨it2.dot + 1, it2.from_, k, it2.rule⟩ := by
  rcases h with h | h
  · obtain ⟨h1, h2, h3, h4, h5⟩ := h
    have hlt : it2.dot < it2.rule.get_rhs.length := by
      simpa [EarleyItem.complete] using hinc
    refine ⟨h1, hlt, le_trans h3 hk, hkn, ?_⟩
    show Derives g.IsRuleOrStart tags pwm (it2.rule.get_rhs.take (it2.dot + 1))
      (slice w it2.from_ k)
    rw [EarleyItem.take_succ it2 hinc, ← slice_append w it2.from_ it2.to_ k h3 hk]
    exact Derives.append h5 hd
  · rw [(SItem.complete h).1] at hinc
    cases hinc

theorem EarleyParser.completeLoop_spec (g : Grammar) (tags : List Int)
    (pwm : List (Int × List ES)) (w : List ES) (k : Nat) (hg : g.ParseWF) (hk : k ≤ w.length)
    (item : EarleyItem) (hto : item.to_ = k) (hfk : item.from_ ≤ k)
    (hd : Derives g.IsRuleOrStart tags pwm [item.get_lhs] (slice w item.from_ k))
    (items2 : List EarleyItem) (p : EarleyParser)
    (h2 : ∀ it2 ∈ items2, it2.to_ = item.from_ ∧ ItemSound g p.grammar tags pwm w it2)
    (hb : p.Base g tags pwm w) (hw : p.Work g tags pwm w k) (b : Bool)
    (cell : List EarleyItem) (hc : p.chart.chart[k]? = some cell) :
    ∃ ext b2, completeLoop item items2 b p
        = .ok (b2, { p with complete_buffer := p.complete_buffer ++ ext }) ∧
      (b2 = true ↔ b = true ∨ ext ≠ []) ∧
      (∀ y ∈ ext, (y.to_ = k ∧ GItem g tags pwm w y) ∧ y ∉ cell ∧ y ∉ p.to_process ∧
        y ∉ p.complete_buffer) ∧
      (∀ it2 ∈ items2, it2.complete = false → it2.next = item.get_lhs →
        (⟨it2.dot + 1, it2.from_, k, it2.rule⟩ : EarleyItem) ∈ cell ∨
        (⟨it2.dot + 1, it2.from_, k, it2.rule⟩ : EarleyItem) ∈ p.to_process ∨
        (⟨it2.dot + 1, it2.from_, k, it2.rule⟩ : EarleyItem) ∈ p.complete_buffer ++ ext) := by
  induction items2 generalizing p b with
  | nil =>
    refine ⟨[], b, ?_, by simp, by simp, by simp⟩
    simp [completeLoop]
  | cons it2 rest ih =>
    have hcell : ∀ y ∈ cell, y.rule.rhs_begin = 1 := fun y hy =>
      ItemSound.rb_sound hg (hb.2.2.2.2.2.2.2.2 k cell hc y hy).2
    have htp : ∀ y ∈ p.to_process, y.rule.rhs_begin = 1 := fun y hy =>
      ItemSound.rb_sound hg (hw.1 y hy).2
    have hcb : ∀ y ∈ p.complete_buffer, y.rule.rhs_begin = 1 := fun y hy =>
      GItem.rb_grammar hg (hw.2.2 y hy).2
    have hrest : ∀ x ∈ rest, x.to_ = item.from_ ∧ ItemSound g p.grammar tags pwm w x :=
      fun x hx => h2 x (List.mem_cons_of_mem _ hx)
    by_cases hcond : it2.complete = false ∧ item.get_lhs = it2.next
    · obtain ⟨hinc, hnext⟩ := hcond
      obtain ⟨ht2, hs2⟩ := h2 it2 (List.mem_cons_self _ _)
      have hgi : GItem g tags pwm w ⟨it2.dot + 1, it2.from_, k, it2.rule⟩ :=
        GItem.advance_dot hs2 hinc (by omega) hk (by rw [← hnext, ht2]; exact hd)
      have hrb : (⟨it2.dot + 1, it2.from_, k, it2.rule⟩ : EarleyItem).rule.rhs_begin = 1 :=
        GItem.rb_grammar hg hgi
      by_cases hnew : (⟨it2.dot + 1, it2.from_, k, it2.rule⟩ : EarleyItem) ∉ cell ∧
          (⟨it2.dot + 1, it2.from_, k, it2.rule⟩ : EarleyItem) ∉ p.to_process ∧
          (⟨it2.dot + 1, it2.from_, k, it2.rule⟩ : EarleyItem) ∉ p.complete_buffer
      · obtain ⟨n1, n2, n3⟩ := hnew
        have hw2 : EarleyParser.Work g tags pwm w k { p with complete_buffer :=
            p.complete_buffer ++ [⟨it2.dot + 1, it2.from_, k, it2.rule⟩] } := by
          refine ⟨hw.1, hw.2.1, ?_⟩
          intro y hy
          rcases List.mem_append.1 hy with h1 | h1
          · exact hw.2.2 y h1
          · rw [List.mem_singleton] at h1
            subst h1
            exact ⟨rfl, hgi⟩
        obtain ⟨ext, b2, e1, e2, e3, e4⟩ := ih { p with complete_buffer :=
            p.complete_buffer ++ [⟨it2.dot + 1, it2.from_, k, it2.rule⟩] } hrest hb hw2 true hc
        refine ⟨⟨it2.dot + 1, it2.from_, k, it2.rule⟩ :: ext, b2, ?_, ?_, ?_, ?_⟩
        · simp only [completeLoop, hinc, hnext, Bool.not_false, decide_True, Bool.and_self,
            if_true, hto, EarleyChart.contains, hc]
          have c1 : itemsetContains cell ⟨it2.dot + 1, it2.from_, k, it2.rule⟩ = false := by
            rw [Bool.eq_false_iff]
            exact fun hh => n1 ((itemsetContains_iff _ _ hcell hrb).1 hh)
          have c2 : itemsetContains p.to_process ⟨it2.dot + 1, it2.from_, k, it2.rule⟩
              = false := by
            rw [Bool.eq_false_iff]
            exact fun hh => n2 ((itemsetContains_iff _ _ htp hrb).1 hh)
          have c3 : itemsetContains p.complete_buffer ⟨it2.dot + 1, it2.from_, k, it2.rule⟩
              = false := by
            rw [Bool.eq_false_iff]
            exact fun hh => n3 ((itemsetContains_iff _ _ hcb hrb).1 hh)
          simp only [c1, c2, c3, Bool.not_false, Bool.and_self, if_true]
          rw [itemsetInsert_eq _ _ hcb hrb, if_neg n3, e1]
          simp
        · rw [e2]
          simp
        · intro y hy
          rcases List.mem_cons.1 hy with h1 | h1
          · subst h1
            exact ⟨⟨rfl, hgi⟩, n1, n2, n3⟩
          · obtain ⟨m0, m1, m2, m3⟩ := e3 y h1
            exact ⟨m0, m1, m2, fun hh => m3 (List.mem_append_left _ hh)⟩
        · intro x hx hxi hxn
          rcases List.mem_cons.1 hx with h1 | h1
          · subst h1
            exact Or.inr (Or.inr (by simp))
          · rcases e4 x h1 hxi hxn with h3 | h3 | h3
            · exact Or.inl h3
            · exact Or.inr (Or.inl h3)
            · exact Or.inr (Or.inr (by simpa using h3))
      · obtain ⟨ext, b2, e1, e2, e3, e4⟩ := ih p hrest hb hw b hc
        have hold : (⟨it2.dot + 1, it2.from_, k, it2.rule⟩ : EarleyItem) ∈ cell ∨
            (⟨it2.dot + 1, it2.from_, k, it2.rule⟩ : EarleyItem) ∈ p.to_process ∨
            (⟨it2.dot + 1, it2.from_, k, it2.rule⟩ : EarleyItem) ∈ p.complete_buffer := by
          by_contra hh
          push_neg at hh
          exact hnew hh
        refine ⟨ext, b2, ?_, e2, e3, ?_⟩
        · simp only [completeLoop, hinc, hnext, Bool.not_false, decide_True, Bool.and_self,
            if_true, hto, EarleyChart.contains, hc]
          have c : (!itemsetContains cell ⟨it2.dot + 1, it2.from_, k, it2.rule⟩ &&
              !itemsetContains p.to_process ⟨it2.dot + 1, it2.from_, k, it2.rule⟩ &&
              !itemsetContains p.complete_buffer ⟨it2.dot + 1, it2.from_, k, it2.rule⟩)
              = false := by
            rcases hold with h | h | h
            · simp [(itemsetContains_iff _ _ hcell hrb).2 h]
            · simp [(itemsetContains_iff _ _ htp hrb).2 h]
            · simp [(itemsetContains_iff _ _ hcb hrb).2 h]
          simp only [c, Bool.false_eq_true, if_false]
          exact e1
        · intro x hx hxi hxn
          rcases List.mem_cons.1 hx with h1 | h1
          · subst h1
            rcases hold with h | h | h
            · exact Or.inl h
            · exact Or.inr (Or.inl h)
            · exact Or.inr (Or.inr (List.mem_append_left _ h))
          · exact e4 x h1 hxi hxn
    · obtain ⟨ext, b2, e1, e2, e3, e4⟩ := ih p hrest hb hw b hc
      refine ⟨ext, b2, ?_, e2, e3, ?_⟩
      · have c : (!it2.complete && decide (item.get_lhs = it2.next)) = false := by
          by_cases h1 : it2.complete = true
          · simp [h1]
          · have h1' : it2.complete = false := by simpa using h1
            have h2' : ¬ item.get_lhs = it2.next := fun hh => hcond ⟨h1', hh⟩
            simp [h1', h2']
        simp only [completeLoop, c, Bool.false_eq_true, if_false]
        exact e1
      · intro x hx hxi hxn
        rcases List.mem_cons.1 hx with h1 | h1
        · subst h1
          exact absurd ⟨hxi, hxn.symm⟩ hcond
        · exact e4 x h1 hxi hxn

/-! ## Scan -/

theorem EarleyParser.Grow.grow_refl (k : Nat) (p : EarleyParser) : p.Grow k p :=
  ⟨Grammar.Ext.ext_refl _, rfl, rfl, rfl, rfl, rfl, rfl, rfl, rfl, fun _ _ => rfl,
    fun cell h => ⟨[], by simpa using h⟩, ⟨[], by simp⟩, ⟨[], by simp⟩⟩

theorem EarleyParser.scan_spec (g : Grammar) (tags : List Int) (pwm : List (Int × List ES))
    (w : List ES) (k : Nat) (hg : g.ParseWF) (hk : k ≤ w.length) (item : EarleyItem)
    (hto : item.to_ = k) (htag : item.next ∈ tags) (p : EarleyParser)
    (hb : p.Base g tags pwm w) (hw : p.Work g tags pwm w k) :
    (k = w.length ∧ (∃ words, mapFind pwm item.next = some words ∧ "$" ∈ words) ∧
        p.scan item = .error (Fault.index_exceeds (w.length + 1))) ∨
      ∃ q, p.scan item = .ok q ∧ q.Base g tags pwm w ∧ q.Work g tags pwm w k ∧ p.Grow k q ∧
        q.predict_buffer = p.predict_buffer ∧ q.complete_buffer = p.complete_buffer ∧
        (∀ words word, mapFind pwm item.next = some words → w[k]? = some word → word ∈ words →
          ∃ x cell, q.chart.chart[k + 1]? = some cell ∧ x ∈ cell ∧ x.complete = true ∧
            x.get_lhs = item.next ∧ x.from_ = k) := by
  obtain ⟨b1, b2, b3, b4, b5, b6, b7, b8, b9⟩ := hb
  have hb : p.Base g tags pwm w := ⟨b1, b2, b3, b4, b5, b6, b7, b8, b9⟩
  unfold EarleyParser.scan
  cases hm : mapFind pwm item.next with
  | none =>
    right
    have hm2 : mapFind p.pwm item.next = none := by rw [b5]; exact hm
    rw [hm2]
    refine ⟨p, rfl, hb, hw, EarleyParser.Grow.grow_refl k p, rfl, rfl, ?_⟩
    intro words word h1
    cases h1
  | some words =>
    have hm2 : mapFind p.pwm item.next = some words := by rw [b5]; exact hm
    rw [hm2]
    simp only
    have htok : ∃ word, p.chart.tokens[k]? = some word ∧
        ((k < w.length ∧ w[k]? = some word) ∨ (k = w.length ∧ word = "$")) := by
      rw [b6]
      rcases Nat.lt_or_ge k w.length with hlt | hge
      · refine ⟨w[k], ?_, Or.inl ⟨hlt, List.getElem?_eq_getElem hlt⟩⟩
        rw [List.getElem?_append_left hlt, List.getElem?_eq_getElem hlt]
      · have e : k = w.length := by omega
        subst e
        exact ⟨"$", by simp, Or.inr ⟨rfl, rfl⟩⟩
    obtain ⟨word, ht1, ht2⟩ := htok
    simp only [EarleyChart.get_word, hto, ht1]
    by_cases hin : word ∈ words
    · simp only [hin, if_true, Rule.construct, List.length_cons, List.length_nil,
        Nat.reduceAdd, Nat.one_le_ofNat, Nat.cast_one]
      simp only [show (1 : Nat) ≤ 2 by omega, if_true, EarleyChart.cellInsertAll]
      rcases ht2 with ⟨hlt, hwk⟩ | ⟨he, hword⟩
      · right
        obtain ⟨cell, hcell⟩ : ∃ cell, p.chart.chart[k + 1]? = some cell :=
          EarleyParser.Base.cell hb (by omega : k + 1 ≤ w.length)
        obtain ⟨w1, e1, r1, k1⟩ := Grammar.translate_to_is_spec p.grammar b3 word
        have hsi : SItem (p.grammar.translate_to_is word).2 tags pwm w
            ⟨1, k, k + 1, ⟨[[item.next], [(p.grammar.translate_to_is word).1]], 1⟩⟩ :=
          ⟨item.next, _, words, word, rfl, rfl, rfl, hwk, htag, hm, hin, k1⟩
        have hrbc : ∀ y ∈ cell, y.rule.rhs_begin = 1 := fun y hy =>
          ItemSound.rb_sound hg (b9 (k + 1) cell hcell y hy).2
        obtain ⟨ext, x1, x2, x3⟩ := itemsetInsertAll_spec
          [⟨1, k, k + 1, ⟨[[item.next], [(p.grammar.translate_to_is word).1]], 1⟩⟩] cell hrbc
          (fun y hy => by rw [List.mem_singleton] at hy; rw [hy])
        simp only [hcell]
        refine ⟨_, rfl, ?_, ?_, ?_, rfl, rfl, ?_⟩
        · refine ⟨b1.ext_trans e1, r1.trans b2, w1, b4, b5, b6, by simpa using b7, b8, ?_⟩
          intro j c hj y hy
          simp only at hj
          by_cases hjk : j = k + 1
          · subst hjk
            rw [List.getElem?_set_self (by omega)] at hj
            simp only [Option.some.injEq] at hj
            subst hj
            rw [x1] at hy
            rcases List.mem_append.1 hy with h1 | h1
            · exact ⟨(b9 _ cell hcell y h1).1, ItemSound.ext_sound e1 (b9 _ cell hcell y h1).2⟩
            · have := (x2 y h1).1
              rw [List.mem_singleton] at this
              subst this
              exact ⟨rfl, Or.inr hsi⟩
          · rw [List.getElem?_set_ne (fun hh => hjk hh.symm)] at hj
            exact ⟨(b9 j c hj y hy).1, ItemSound.ext_sound e1 (b9 j c hj y hy).2⟩
        · exact ⟨fun y hy => ⟨(hw.1 y hy).1, ItemSound.ext_sound e1 (hw.1 y hy).2⟩, hw.2.1, hw.2.2⟩
        · refine ⟨e1, r1, rfl, rfl, rfl, rfl, rfl, rfl, by simp, ?_, ?_, ⟨[], by simp⟩,
            ⟨[], by simp⟩⟩
          · intro j hj
            simp only
            rw [List.getElem?_set_ne (fun hh => hj hh.symm)]
          · intro c hc
            rw [hcell] at hc
            simp only [Option.some.injEq] at hc
            subst hc
            refine ⟨ext, ?_⟩
            simp only
            rw [List.getElem?_set_self (by omega), x1]
        · intro words2 word2 h1 h2 h3
          rw [hwk] at h2
          simp only [Option.some.injEq] at h2
          subst h2
          refine ⟨⟨1, k, k + 1, ⟨[[item.next], [(p.grammar.translate_to_is word).1]], 1⟩⟩,
            cell ++ ext, ?_, ?_, ?_, ?_, rfl⟩
          · simp only
            rw [List.getElem?_set_self (by omega), x1]
          · rcases x3 _ (List.mem_singleton_self _) with h4 | h4
            · exact List.mem_append_left _ h4
            · exact List.mem_append_right _ h4
          · simp [EarleyItem.complete, Rule.get_rhs]
          · simp [EarleyItem.get_lhs, Rule.get_lhs]
      · left
        subst hword
        refine ⟨he, ⟨words, rfl, hin⟩, ?_⟩
        have hnone : p.chart.chart[w.length + 1]? = none := by
          apply List.getElem?_eq_none
          omega
        simp only [he, hnone]
    · right
      simp only [hin, if_false]
      refine ⟨p, rfl, hb, hw, EarleyParser.Grow.grow_refl k p, rfl, rfl, ?_⟩
      intro words2 word2 h1 h2 h3
      cases h1
      rcases ht2 with ⟨_, hwk⟩ | ⟨he, _⟩
      · rw [hwk] at h2
        simp only [Option.some.injEq] at h2
        subst h2
        exact absurd h3 hin
      · rw [List.getElem?_eq_none (by omega)] at h2
        cases h2

/-! ## One item of the pass -/

theorem Grammar.rules_with_lhs_congr (g1 g2 : Grammar) (h : g1.rules = g2.rules)
    (l : List Int) : g1.rules_with_lhs l = g2.rules_with_lhs l := by
  unfold Grammar.rules_with_lhs
  rw [h]

theorem EarleyParser.InTarget.grow_target {k : Nat} {p q : EarleyParser} (h : p.Grow k q)
    {x : EarleyItem} (hx : p.InTarget k x) : q.InTarget k x := by
  obtain ⟨_, _, _, _, g5, _, _, _, _, g10, _, ⟨e1, g12⟩, ⟨e2, g13⟩⟩ := h
  rcases hx with ⟨cell, hc, hm⟩ | hx | hx | hx
  · exact Or.inl ⟨cell, by rw [g10 k (by omega)]; exact hc, hm⟩
  · exact Or.inr (Or.inl (g5 ▸ hx))
  · exact Or.inr (Or.inr (Or.inl (by rw [g12]; exact List.mem_append_left _ hx)))
  · exact Or.inr (Or.inr (Or.inr (by rw [g13]; exact List.mem_append_left _ hx)))

theorem EarleyParser.Handled.grow_handled {g : Grammar} {tags : List Int} {pwm : List (Int × List ES)}
    {w : List ES} {k : Nat} {p q : EarleyParser} (h : p.Grow k q) {it : EarleyItem}
    (hx : p.Handled g tags pwm w k it) : q.Handled g tags pwm w k it := by
  obtain ⟨h1, h2, h3⟩ := hx
  refine ⟨fun a b r hr => EarleyParser.InTarget.grow_target h (h1 a b r hr), ?_, ?_⟩
  · intro a b words word c d e
    obtain ⟨x, cell, x1, x2, x3⟩ := h2 a b words word c d e
    obtain ⟨ext, he⟩ := h.2.2.2.2.2.2.2.2.2.2.1 cell x1
    exact ⟨x, cell ++ ext, he, List.mem_append_left _ x2, x3⟩
  · intro a b cell hc it2 hi2 c d
    have hj : it.from_ ≠ k + 1 := by omega
    rw [h.2.2.2.2.2.2.2.2.2.1 _ hj] at hc
    exact EarleyParser.InTarget.grow_target h (h3 a b cell hc it2 hi2 c d)

theorem EarleyParser.Grow.grow_trans {k : Nat} {p q r : EarleyParser} (h1 : p.Grow k q)
    (h2 : q.Grow k r) : p.Grow k r := by
  obtain ⟨a1, a2, a3, a4, a5, a6, a7, a8, a9, a10, a11, ⟨x1, a12⟩, ⟨y1, a13⟩⟩ := h1
  obtain ⟨b1, b2, b3, b4, b5, b6, b7, b8, b9, b10, b11, ⟨x2, b12⟩, ⟨y2, b13⟩⟩ := h2
  refine ⟨a1.ext_trans b1, b2.trans a2, b3.trans a3, b4.trans a4, b5.trans a5, b6.trans a6,
    b7.trans a7, b8.trans a8, b9.trans a9, fun j hj => (b10 j hj).trans (a10 j hj), ?_,
    ⟨x1 ++ x2, by rw [b12, a12, List.append_assoc]⟩,
    ⟨y1 ++ y2, by rw [b13, a13, List.append_assoc]⟩⟩
  intro cell hc
  obtain ⟨e1, he1⟩ := a11 cell hc
  obtain ⟨e2, he2⟩ := b11 _ he1
  exact ⟨e1 ++ e2, by rw [he2, List.append_assoc]⟩


theorem EarleyParser.processItem_spec (g : Grammar) (tags : List Int)
    (pwm : List (Int × List ES)) (w : List ES) (k : Nat) (hg : g.ParseWF) (hk : k ≤ w.length)
    (item : EarleyItem) (hto : item.to_ = k) (p : EarleyParser) (hb : p.Base g tags pwm w)
    (hw : p.Work g tags pwm w k) (hs : ItemSound g p.grammar tags pwm w item)
    (np nc : Bool) (hf : p.Fresh k np nc) :
    (k = w.length ∧ item.complete = false ∧ item.next ∈ tags ∧
        (∃ words, mapFind pwm item.next = some words ∧ "$" ∈ words) ∧
        processItem (p, np, nc) item = .error (Fault.index_exceeds (w.length + 1))) ∨
      ∃ q np2 nc2, processItem (p, np, nc) item = .ok (q, np2, nc2) ∧ q.Base g tags pwm w ∧
        q.Work g tags pwm w k ∧ q.Fresh k np2 nc2 ∧ p.Grow k q ∧
        q.Handled g tags pwm w k item := by
  have hso := EarleyParser.Base.soverload hg hb
  have htags : p.tags = tags := hb.2.2.2.1
  obtain ⟨cell, hc⟩ := EarleyParser.Base.cell hb hk
  have hgetD : (p.chart.chart[k]?).getD [] = cell := by rw [hc]; rfl
  obtain ⟨f1, f2, f3⟩ := hf
  by_cases hcomp : item.complete = true
  · right
    obtain ⟨hd, hfk, _⟩ := ItemSound.derives_lhs hg hs hcomp
    rw [hto] at hd hfk
    obtain ⟨cell2, hc2⟩ := EarleyParser.Base.cell hb (le_trans hfk hk)
    obtain ⟨ext, b2, e1, e2, e3, e4⟩ := EarleyParser.completeLoop_spec g tags pwm w k hg hk
      item hto hfk hd cell2 p (fun it2 hi2 => hb.2.2.2.2.2.2.2.2 _ cell2 hc2 it2 hi2) hb hw
      false cell hc
    refine ⟨{ p with complete_buffer := p.complete_buffer ++ ext }, np, nc || b2, ?_, hb,
      ?_, ?_, ?_, ?_⟩
    · simp only [processItem, hso, hcomp, Bool.not_true, Bool.false_and, Bool.false_eq_true,
        if_false, if_true, EarleyParser.complete, EarleyChart.cell, hc2, e1]
    · refine ⟨hw.1, hw.2.1, ?_⟩
      intro y hy
      rcases List.mem_append.1 hy with h1 | h1
      · exact hw.2.2 y h1
      · exact (e3 y h1).1
    · refine ⟨f1, ?_, ?_⟩
      · simp only [Bool.or_eq_true, e2, Bool.false_eq_true, false_or, f2, ne_eq,
          List.append_eq_nil, not_and]
        tauto
      · intro y hy
        simp only at hy ⊢
        rw [hgetD]
        rcases hy with h1 | h1
        · have := f3 y (Or.inl h1)
          rw [hgetD] at this
          exact this
        · rcases List.mem_append.1 h1 with h2 | h2
          · have := f3 y (Or.inr h2)
            rw [hgetD] at this
            exact this
          · exact ⟨(e3 y h2).2.1, (e3 y h2).2.2.1⟩
    · exact ⟨Grammar.Ext.ext_refl _, rfl, rfl, rfl, rfl, rfl, rfl, rfl, rfl, fun _ _ => rfl,
        fun c h => ⟨[], by simpa using h⟩, ⟨[], by simp⟩, ⟨ext, rfl⟩⟩
    · refine ⟨fun h => ?_, fun h => ?_, ?_⟩
      · rw [hcomp] at h
        cases h
      · rw [hcomp] at h
        cases h
      intro _ _ c hcc it2 hi2 hinc hnext
      rw [hc2] at hcc
      simp only [Option.some.injEq] at hcc
      subst hcc
      rcases e4 it2 hi2 hinc hnext with h | h | h
      · exact Or.inl ⟨cell, hc, h⟩
      · exact Or.inr (Or.inl h)
      · exact Or.inr (Or.inr (Or.inr h))
  · have hinc : item.complete = false := by simpa using hcomp
    by_cases htag : item.next ∈ tags
    · rcases EarleyParser.scan_spec g tags pwm w k hg hk item hto htag p hb hw with
        ⟨h1, h2, h3⟩ | ⟨q, h1, h2, h3, h4, h5, h6, h7⟩
      · left
        refine ⟨h1, hinc, htag, h2, ?_⟩
        simp only [processItem, hso, hinc, htags, htag, Bool.false_eq_true, if_false,
          Bool.not_false, decide_True, Bool.not_true, Bool.and_false, Bool.and_self, if_true,
          h3]
      · right
        refine ⟨q, np, nc, ?_, h2, h3, ?_, h4, ?_⟩
        · simp only [processItem, hso, hinc, htags, htag, Bool.false_eq_true, if_false,
            Bool.not_false, decide_True, Bool.not_true, Bool.and_false, Bool.and_self, if_true,
            h1]
        · refine ⟨by rw [h5]; exact f1, by rw [h6]; exact f2, ?_⟩
          intro y hy
          rw [h5, h6] at hy
          rw [h4.2.2.2.2.2.2.2.2.2.1 k (by omega), h4.2.2.2.2.1]
          exact f3 y hy
        · refine ⟨fun _ h => absurd htag h, fun _ _ => h7, fun h => ?_⟩
          rw [hinc] at h
          cases h
    · right
      obtain ⟨ext, b2, e1, e2, e3, e4⟩ := EarleyParser.predictLoop_spec g tags pwm w k hg hk
        item hto [item.next] (g.rules_with_lhs [item.next]) (fun r hr => hr) p hb hw false
        cell hc
      refine ⟨{ p with predict_buffer := p.predict_buffer ++ ext }, np || b2, nc, ?_, hb,
        ?_, ?_, ?_, ?_⟩
      · simp only [processItem, hso, hinc, htags, htag, Bool.false_eq_true, if_false,
          Bool.not_false, decide_False, Bool.and_self, if_true, EarleyParser.predict,
          Grammar.rules_with_lhs_congr p.grammar g hb.2.1, e1, Bool.and_false]
      · refine ⟨hw.1, ?_, hw.2.2⟩
        intro y hy
        rcases List.mem_append.1 hy with h1 | h1
        · exact hw.2.1 y h1
        · obtain ⟨⟨r, hr, hy2⟩, _⟩ := e3 y h1
          subst hy2
          exact ⟨rfl, GItem.predicted hk r _ hr⟩
      · refine ⟨?_, f2, ?_⟩
        · simp only [Bool.or_eq_true, e2, Bool.false_eq_true, false_or, f1, ne_eq,
            List.append_eq_nil, not_and]
          tauto
        · intro y hy
          simp only at hy ⊢
          rw [hgetD]
          rcases hy with h1 | h1
          · rcases List.mem_append.1 h1 with h2 | h2
            · have := f3 y (Or.inl h2)
              rw [hgetD] at this
              exact this
            · exact ⟨(e3 y h2).2.1, (e3 y h2).2.2.1⟩
          · have := f3 y (Or.inr h1)
            rw [hgetD] at this
            exact this
      · exact ⟨Grammar.Ext.ext_refl _, rfl, rfl, rfl, rfl, rfl, rfl, rfl, rfl, fun _ _ => rfl,
          fun c h => ⟨[], by simpa using h⟩, ⟨ext, rfl⟩, ⟨[], by simp⟩⟩
      · refine ⟨?_, fun _ h => absurd h htag, fun h => ?_⟩
        · intro _ _ r hr
          rcases e4 r hr with h | h | h
          · exact Or.inl ⟨cell, hc, h⟩
          · exact Or.inr (Or.inl h)
          · exact Or.inr (Or.inr (Or.inl h))
        · rw [hinc] at h
          cases h

/-! ## One pass: the loop over `to_process` and `merge` -/

theorem EarleyParser.processAll_spec (g : Grammar) (tags : List Int)
    (pwm : List (Int × List ES)) (w : List ES) (k : Nat) (hg : g.ParseWF) (hk : k ≤ w.length)
    (items : List EarleyItem) (p : EarleyParser) (hb : p.Base g tags pwm w)
    (hw : p.Work g tags pwm w k)
    (hi : ∀ it ∈ items, it.to_ = k ∧ ItemSound g p.grammar tags pwm w it)
    (np nc : Bool) (hf : p.Fresh k np nc) :
    (SentinelWord tags pwm ∧
        processAll items (p, np, nc) = .error (Fault.index_exceeds (w.length + 1))) ∨
      ∃ q np2 nc2, processAll items (p, np, nc) = .ok (q, np2, nc2) ∧ q.Base g tags pwm w ∧
        q.Work g tags pwm w k ∧ q.Fresh k np2 nc2 ∧ p.Grow k q ∧
        ∀ it ∈ items, q.Handled g tags pwm w k it := by
  induction items generalizing p np nc with
  | nil =>
    right
    exact ⟨p, np, nc, rfl, hb, hw, hf, EarleyParser.Grow.grow_refl k p, by simp⟩
  | cons item rest ih =>
    obtain ⟨hto, hs⟩ := hi item (List.mem_cons_self _ _)
    rcases EarleyParser.processItem_spec g tags pwm w k hg hk item hto p hb hw hs np nc hf with
      ⟨_, _, h3, ⟨words, h4, h5⟩, h6⟩ | ⟨q1, a1, a2, e1, e2, e3, e4, e5, e6⟩
    · left
      refine ⟨⟨item.next, h3, words, h4, h5⟩, ?_⟩
      simp only [processAll, h6]
    · have hi2 : ∀ it ∈ rest, it.to_ = k ∧ ItemSound g q1.grammar tags pwm w it := by
        intro it hit
        obtain ⟨x1, x2⟩ := hi it (List.mem_cons_of_mem _ hit)
        exact ⟨x1, ItemSound.ext_sound e5.1 x2⟩
      rcases ih q1 e2 e3 hi2 a1 a2 e4 with ⟨h1, h2⟩ | ⟨q, b1, b2, r1, r2, r3, r4, r5, r6⟩
      · left
        refine ⟨h1, ?_⟩
        simp only [processAll, e1, h2]
      · right
        refine ⟨q, b1, b2, ?_, r2, r3, r4, e5.grow_trans r5, ?_⟩
        · simp only [processAll, e1, r1]
        · intro it hit
          rcases List.mem_cons.1 hit with h | h
          · subst h
            exact EarleyParser.Handled.grow_handled r5 e6
          · exact r6 it h


theorem EarleyParser.merge_spec (g : Grammar) (tags : List Int) (pwm : List (Int × List ES))
    (w : List ES) (k : Nat) (hg : g.ParseWF) (hk : k ≤ w.length) (p : EarleyParser)
    (hb : p.Base g tags pwm w) (hw : p.Work g tags pwm w k) (cell : List EarleyItem)
    (hc : p.chart.chart[k]? = some cell) :
    ∃ q ext, p.merge k = .ok q ∧ q.grammar = p.grammar ∧ q.tags = p.tags ∧ q.pwm = p.pwm ∧
      q.chart.tokens = p.chart.tokens ∧ q.chart.final_item = p.chart.final_item ∧
      q.chart.chart = p.chart.chart.set k (cell ++ ext) ∧
      (∀ y ∈ ext, y ∈ p.to_process ∧ y ∉ cell) ∧ (∀ y ∈ p.to_process, y ∈ cell ∨ y ∈ ext) ∧
      (∀ y, y ∈ q.to_process ↔ y ∈ p.predict_buffer ∨ y ∈ p.complete_buffer) ∧
      q.predict_buffer = [] ∧ q.complete_buffer = [] ∧ q.Base g tags pwm w ∧
      q.Work g tags pwm w k := by
  obtain ⟨b1, b2, b3, b4, b5, b6, b7, b8, b9⟩ := hb
  have hrbc : ∀ y ∈ cell, y.rule.rhs_begin = 1 := fun y hy =>
    ItemSound.rb_sound hg (b9 k cell hc y hy).2
  have hrbt : ∀ y ∈ p.to_process, y.rule.rhs_begin = 1 := fun y hy =>
    ItemSound.rb_sound hg (hw.1 y hy).2
  have hrbp : ∀ y ∈ p.predict_buffer, y.rule.rhs_begin = 1 := fun y hy =>
    GItem.rb_grammar hg (hw.2.1 y hy).2
  have hrbq : ∀ y ∈ p.complete_buffer, y.rule.rhs_begin = 1 := fun y hy =>
    GItem.rb_grammar hg (hw.2.2 y hy).2
  obtain ⟨ext, x1, x2, x3⟩ := itemsetInsertAll_spec p.to_process cell hrbc hrbt
  obtain ⟨e2, y1, y2, y3⟩ := itemsetInsertAll_spec p.predict_buffer [] (by simp) hrbp
  have hrb2 : ∀ y ∈ itemsetInsertAll [] p.predict_buffer, y.rule.rhs_begin = 1 := by
    intro y hy
    rw [y1] at hy
    exact hrbp y (y2 y (by simpa using hy)).1
  obtain ⟨e3, z1, z2, z3⟩ := itemsetInsertAll_spec p.complete_buffer
    (itemsetInsertAll [] p.predict_buffer) hrb2 hrbq
  have hmem : ∀ y, y ∈ itemsetInsertAll (itemsetInsertAll [] p.predict_buffer)
      p.complete_buffer ↔ y ∈ p.predict_buffer ∨ y ∈ p.complete_buffer := by
    intro y
    rw [z1, y1]
    simp only [List.nil_append, List.mem_append]
    constructor
    · rintro (h | h)
      · exact Or.inl (y2 y h).1
      · exact Or.inr (z2 y h).1
    · rintro (h | h)
      · rcases y3 y h with h1 | h1
        · simp at h1
        · exact Or.inl h1
      · rcases z3 y h with h1 | h1
        · rw [y1] at h1
          exact Or.inl (by simpa using h1)
        · exact Or.inr h1
  refine ⟨{ p with
      chart := { p.chart with chart := p.chart.chart.set k (itemsetInsertAll cell p.to_process) },
      to_process := itemsetInsertAll (itemsetInsertAll [] p.predict_buffer) p.complete_buffer,
      complete_buffer := [], predict_buffer := [] },
    ext, ?_, rfl, rfl, rfl, rfl, rfl, ?_, x2, x3, hmem, rfl, rfl, ?_, ?_⟩
  · simp only [EarleyParser.merge, EarleyChart.cellInsertAll, hc]
  · simp only [x1]
  · refine ⟨b1, b2, b3, b4, b5, b6, by simpa using b7, b8, ?_⟩
    intro j c hj y hy
    simp only at hj
    by_cases hjk : j = k
    · subst hjk
      rw [List.getElem?_set_self (by omega)] at hj
      simp only [Option.some.injEq] at hj
      subst hj
      rw [x1] at hy
      rcases List.mem_append.1 hy with h1 | h1
      · exact b9 _ cell hc y h1
      · exact hw.1 y (x2 y h1).1
    · rw [List.getElem?_set_ne (fun hh => hjk hh.symm)] at hj
      exact b9 j c hj y hy
  · refine ⟨?_, by simp, by simp⟩
    intro y hy
    rcases (hmem y).1 hy with h | h
    · exact ⟨(hw.2.1 y h).1, Or.inl (hw.2.1 y h).2⟩
    · exact ⟨(hw.2.2 y h).1, Or.inl (hw.2.2 y h).2⟩

/-! ## The fixpoint loop of one cell -/

theorem filter_length_lt {α : Type} (l : List α) (P Q : α → Bool)
    (hQP : ∀ x ∈ l, Q x = true → P x = true) (hy : ∃ y ∈ l, P y = true ∧ Q y = false) :
    (l.filter Q).length < (l.filter P).length := by
  induction l with
  | nil =>
    obtain ⟨y, hy, _⟩ := hy
    simp at hy
  | cons a rest ih =>
    have hle : (rest.filter Q).length ≤ (rest.filter P).length := by
      clear ih hy
      induction rest with
      | nil => simp
      | cons b r ih2 =>
        have hb := hQP b (List.mem_cons_of_mem _ (List.mem_cons_self _ _))
        have ih3 := ih2 (fun x hx => hQP x (by
          rcases List.mem_cons.1 hx with h | h
          · exact h ▸ List.mem_cons_self _ _
          · exact List.mem_cons_of_mem _ (List.mem_cons_of_mem _ h)))
        by_cases hq : Q b = true
        · simp only [List.filter_cons, hq, hb hq, if_true, List.length_cons]
          omega
        · by_cases hp : P b = true
          · simp only [List.filter_cons, hq, hp, if_true, if_false, List.length_cons,
              Bool.false_eq_true]
            omega
          · simp only [List.filter_cons, hq, hp, if_false, Bool.false_eq_true]
            exact ih3
    obtain ⟨y, hym, hyP, hyQ⟩ := hy
    rcases List.mem_cons.1 hym with h | h
    · subst h
      simp only [List.filter_cons, hyP, hyQ, if_true, Bool.false_eq_true, if_false,
        List.length_cons]
      omega
    · have ih2 := ih (fun x hx => hQP x (List.mem_cons_of_mem _ hx)) ⟨y, h, hyP, hyQ⟩
      have ha := hQP a (List.mem_cons_self _ _)
      by_cases hq : Q a = true
      · simp only [List.filter_cons, hq, ha hq, if_true, List.length_cons]
        omega
      · by_cases hp : P a = true
        · simp only [List.filter_cons, hq, hp, if_true, if_false, List.length_cons,
            Bool.false_eq_true]
          omega
        · simp only [List.filter_cons, hq, hp, if_false, Bool.false_eq_true]
          exact ih2

theorem mapFind_mem {κ ν : Type} [DecidableEq κ] (m : List (κ × ν)) (k : κ) (v : ν)
    (h : mapFind m k = some v) : (k, v) ∈ m := by
  induction m with
  | nil => simp [mapFind] at h
  | cons e rest ih =>
    obtain ⟨a, b⟩ := e
    by_cases ha : a = k
    · simp only [mapFind, ha, if_true, Option.some.injEq] at h
      subst h
      subst ha
      exact List.mem_cons_self _ _
    · simp only [mapFind, ha, if_false] at h
      exact List.mem_cons_of_mem _ (ih h)

theorem Grammar.mem_allRules (g : Grammar) (r : Rule) (h : g.IsRuleOrStart r) :
    r ∈ g.allRules := by
  unfold Grammar.allRules
  rcases h with h | ⟨l, hl⟩
  · subst h
    exact List.mem_cons_self _ _
  · apply List.mem_cons_of_mem
    unfold Grammar.rules_with_lhs at hl
    cases hm : mapFind g.rules l with
    | none =>
      rw [hm] at hl
      simp at hl
    | some rs =>
      rw [hm] at hl
      simp only at hl
      rw [List.mem_flatMap]
      exact ⟨(l, rs), mapFind_mem _ _ _ hm, hl⟩

theorem GItem.mem_universe {g : Grammar} {tags : List Int} {pwm : List (Int × List ES)}
    {w : List ES} {it : EarleyItem} (h : GItem g tags pwm w it) :
    it ∈ itemUniverse g w.length := by
  obtain ⟨h1, h2, h3, h4, _⟩ := h
  unfold itemUniverse
  simp only [List.mem_flatMap, List.mem_range, List.mem_map]
  exact ⟨it.rule, Grammar.mem_allRules g _ h1, it.dot, by omega, it.from_, by omega, it.to_,
    by omega, rfl⟩

theorem EarleyParser.CellStep.step_refl (k : Nat) (p : EarleyParser) : p.CellStep k p :=
  ⟨fun _ _ _ => rfl, fun j cell h => ⟨[], by simpa using h⟩⟩

theorem EarleyParser.CellStep.step_trans {k : Nat} {p q r : EarleyParser} (h1 : p.CellStep k q)
    (h2 : q.CellStep k r) : p.CellStep k r := by
  refine ⟨fun j a b => (h2.1 j a b).trans (h1.1 j a b), ?_⟩
  intro j cell hc
  obtain ⟨e1, he1⟩ := h1.2 j cell hc
  obtain ⟨e2, he2⟩ := h2.2 j _ he1
  exact ⟨e1 ++ e2, by rw [he2, List.append_assoc]⟩

/-- One pass of the fixpoint loop: the loop over `to_process`, then `merge`. -/
theorem EarleyParser.pass_spec (g : Grammar) (tags : List Int) (pwm : List (Int × List ES))
    (w : List ES) (k : Nat) (hg : g.ParseWF) (hk : k ≤ w.length) (p : EarleyParser)
    (hp : p.PassInv g tags pwm w k) :
    (SentinelWord tags pwm ∧ processAll p.to_process (p, false, false)
        = .error (Fault.index_exceeds (w.length + 1))) ∨
      ∃ p1 np nc q, processAll p.to_process (p, false, false) = .ok (p1, np, nc) ∧
        p1.merge k = .ok q ∧ q.PassInv g tags pwm w k ∧ p.CellStep k q ∧
        (∀ it ∈ (q.chart.chart[k]?).getD [], q.Handled g tags pwm w k it) ∧
        ((np || nc) = false → q.to_process = []) ∧
        ((np || nc) = true → q.pending g w.length k < p.pending g w.length k) := by
  obtain ⟨hb, hw, hpb, hcb, hh⟩ := hp
  obtain ⟨cell, hc⟩ := EarleyParser.Base.cell hb hk
  have hgetD : (p.chart.chart[k]?).getD [] = cell := by rw [hc]; rfl
  have hfresh : p.Fresh k false false := by
    refine ⟨by simp [hpb], by simp [hcb], ?_⟩
    intro y hy
    rw [hpb, hcb] at hy
    simp at hy
  rcases EarleyParser.processAll_spec g tags pwm w k hg hk p.to_process p hb hw
      (fun it hit => hw.1 it hit) false false hfresh with
    h | ⟨p1, np, nc, r1, r2, r3, r4, r5, r6⟩
  · exact Or.inl h
  · right
    have hc1 : p1.chart.chart[k]? = some cell := by
      rw [r5.2.2.2.2.2.2.2.2.2.1 k (by omega)]
      exact hc
    have htp1 : p1.to_process = p.to_process := r5.2.2.2.2.1
    obtain ⟨q, ext, m1, m2, m3, m4, m5, m6, m7, m8, m9, m10, m11, m12, m13, m14⟩ :=
      EarleyParser.merge_spec g tags pwm w k hg hk p1 r2 r3 cell hc1
    have hlen1 : k < p1.chart.chart.length := by
      have := r2.2.2.2.2.2.2.1
      omega
    have hqk : q.chart.chart[k]? = some (cell ++ ext) := by
      rw [m7, List.getElem?_set_self hlen1]
    have hqj : ∀ j, j ≠ k → q.chart.chart[j]? = p1.chart.chart[j]? := by
      intro j hj
      rw [m7, List.getElem?_set_ne (fun hh => hj hh.symm)]
    have hIT : ∀ x, p1.InTarget k x → q.InTarget k x := by
      intro x hx
      rcases hx with ⟨c, hcc, hm⟩ | hx | hx | hx
      · rw [hc1] at hcc
        simp only [Option.some.injEq] at hcc
        subst hcc
        exact Or.inl ⟨_, hqk, List.mem_append_left _ hm⟩
      · rcases m9 x hx with h | h
        · exact Or.inl ⟨_, hqk, List.mem_append_left _ h⟩
        · exact Or.inl ⟨_, hqk, List.mem_append_right _ h⟩
      · exact Or.inr (Or.inl ((m10 x).2 (Or.inl hx)))
      · exact Or.inr (Or.inl ((m10 x).2 (Or.inr hx)))
    have hH : ∀ it, p1.Handled g tags pwm w k it → q.Handled g tags pwm w k it := by
      intro it ⟨h1, h2, h3⟩
      refine ⟨fun a b r hr => hIT _ (h1 a b r hr), ?_, ?_⟩
      · intro a b words word c d e
        obtain ⟨x, cl, x1, x2⟩ := h2 a b words word c d e
        exact ⟨x, cl, by rw [hqj (k + 1) (by omega)]; exact x1, x2⟩
      · intro a b cl hcl it2 hi2 c d
        rw [hqj _ (by omega)] at hcl
        exact hIT _ (h3 a b cl hcl it2 hi2 c d)
    have hall : ∀ it ∈ (q.chart.chart[k]?).getD [], q.Handled g tags pwm w k it := by
      intro it hit
      rw [hqk] at hit
      simp only [Option.getD_some] at hit
      apply hH
      rcases List.mem_append.1 hit with h | h
      · rcases hh it (by rw [hgetD]; exact h) with h1 | h1
        · exact r6 it h1
        · exact EarleyParser.Handled.grow_handled r5 h1
      · exact r6 it (htp1 ▸ (m8 it h).1)
    refine ⟨p1, np, nc, q, r1, m1, ⟨m13, m14, m11, m12, fun it hit => Or.inr (hall it hit)⟩,
      ⟨?_, ?_⟩, hall, ?_, ?_⟩
    · intro j hj1 hj2
      rw [hqj j hj1, r5.2.2.2.2.2.2.2.2.2.1 j hj2]
    · intro j c hjc
      by_cases hjk : j = k
      · subst hjk
        rw [hc] at hjc
        simp only [Option.some.injEq] at hjc
        subst hjc
        exact ⟨ext, hqk⟩
      · rw [hqj j hjk]
        by_cases hjk1 : j = k + 1
        · subst hjk1
          exact r5.2.2.2.2.2.2.2.2.2.2.1 c hjc
        · rw [r5.2.2.2.2.2.2.2.2.2.1 j hjk1]
          exact ⟨[], by simpa using hjc⟩
    · intro hfl
      simp only [Bool.or_eq_false_iff] at hfl
      have e1 : p1.predict_buffer = [] := by
        by_contra hne
        have := r4.1.2 hne
        rw [hfl.1] at this
        cases this
      have e2 : p1.complete_buffer = [] := by
        by_contra hne
        have := r4.2.1.2 hne
        rw [hfl.2] at this
        cases this
      apply List.eq_nil_iff_forall_not_mem.2
      intro y hy
      have := (m10 y).1 hy
      rw [e1, e2] at this
      simp at this
    · intro hfl
      have hex : ∃ y, y ∈ p1.predict_buffer ∨ y ∈ p1.complete_buffer := by
        simp only [Bool.or_eq_true] at hfl
        rcases hfl with h | h
        · obtain ⟨y, hy⟩ := List.exists_mem_of_ne_nil _ (r4.1.1 h)
          exact ⟨y, Or.inl hy⟩
        · obtain ⟨y, hy⟩ := List.exists_mem_of_ne_nil _ (r4.2.1.1 h)
          exact ⟨y, Or.inr hy⟩
      obtain ⟨y, hy⟩ := hex
      have hyG : GItem g tags pwm w y := by
        rcases hy with h | h
        · exact (r3.2.1 y h).2
        · exact (r3.2.2 y h).2
      have hyF := r4.2.2 y hy
      rw [hc1] at hyF
      simp only [Option.getD_some] at hyF
      unfold EarleyParser.pending
      apply filter_length_lt
      · intro x _ hx
        simp only [Bool.and_eq_true, Bool.not_eq_true', decide_eq_false_iff_not] at hx ⊢
        rw [hqk] at hx
        simp only [Option.getD_some, List.mem_append, not_or] at hx
        rw [hgetD]
        refine ⟨hx.1.1, ?_⟩
        intro hxt
        rcases m9 x (htp1 ▸ hxt) with h | h
        · exact hx.1.1 h
        · exact hx.1.2 h
      · refine ⟨y, GItem.mem_universe hyG, ?_, ?_⟩
        · simp only [Bool.and_eq_true, Bool.not_eq_true', decide_eq_false_iff_not]
          rw [hgetD]
          exact ⟨hyF.1, htp1 ▸ hyF.2⟩
        · have : y ∈ q.to_process := (m10 y).2 hy
          simp [this]

/-- The `do ... while` loop of cell `k`: it ends in the index fault of Scan
(only when some tag has `"$"` among its words), or runs out of fuel (only with
fuel not above the number of pending items), or returns a state whose working
sets are empty and whose cell `k` has all consequences of its items. -/
theorem EarleyParser.fixpoint_spec (g : Grammar) (tags : List Int)
    (pwm : List (Int × List ES)) (w : List ES) (k : Nat) (hg : g.ParseWF) (hk : k ≤ w.length)
    (fuel : Nat) (p : EarleyParser) (hp : p.PassInv g tags pwm w k) :
    (SentinelWord tags pwm ∧
        fixpoint fuel k p = .error (Fault.index_exceeds (w.length + 1))) ∨
      (fixpoint fuel k p = .error Fault.fuel ∧ fuel ≤ p.pending g w.length k) ∨
      ∃ q, fixpoint fuel k p = .ok q ∧ q.Base g tags pwm w ∧ q.to_process = [] ∧
        q.predict_buffer = [] ∧ q.complete_buffer = [] ∧ p.CellStep k q ∧
        ∀ it ∈ (q.chart.chart[k]?).getD [], q.Handled g tags pwm w k it := by
  induction fuel generalizing p with
  | zero =>
    right
    left
    exact ⟨rfl, Nat.zero_le _⟩
  | succ fuel ih =>
    rcases EarleyParser.pass_spec g tags pwm w k hg hk p hp with
      ⟨h1, h2⟩ | ⟨p1, np, nc, q, a1, a2, a3, a4, a5, a6, a7⟩
    · left
      refine ⟨h1, ?_⟩
      simp only [fixpoint, h2]
    · by_cases hfl : (np || nc) = true
      · have hlt := a7 hfl
        rcases ih q a3 with ⟨h1, h2⟩ | ⟨h1, h2⟩ | ⟨q2, c1, c2, c3, c4, c5, c6, c7⟩
        · left
          refine ⟨h1, ?_⟩
          simp only [fixpoint, a1, a2, hfl, if_true, h2]
        · right
          left
          refine ⟨?_, by omega⟩
          simp only [fixpoint, a1, a2, hfl, if_true, h1]
        · right
          right
          refine ⟨q2, ?_, c2, c3, c4, c5, a4.step_trans c6, c7⟩
          simp only [fixpoint, a1, a2, hfl, if_true, c1]
      · right
        right
        have hfl' : (np || nc) = false := by simpa using hfl
        refine ⟨q, ?_, a3.1, a6 hfl', a3.2.2.1, a3.2.2.2.1, a4, a5⟩
        simp only [fixpoint, a1, a2, hfl', Bool.false_eq_true, if_false]

theorem EarleyParser.pending_le (g : Grammar) (n k : Nat) (p : EarleyParser) :
    p.pending g n k ≤ (itemUniverse g n).length :=
  List.length_filter_le _ _

/-- Items of a sound chart: a complete item spans at least one token. -/
theorem ItemSound.from_lt_to {g gi : Grammar} {tags : List Int} {pwm : List (Int × List ES)}
    {w : List ES} {it : EarleyItem} (hg : g.ParseWF) (h : ItemSound g gi tags pwm w it)
    (hc : it.complete = true) : it.from_ < it.to_ := by
  rcases h with h | h
  · obtain ⟨h1, h2, h3, h4, h5⟩ := h
    obtain ⟨_, a, rhs, _, hne, _, hr⟩ := Grammar.rule_shape g hg it.rule h1
    have hdot : it.rule.get_rhs.length ≤ it.dot := by
      simpa [EarleyItem.complete] using hc
    rw [List.take_of_length_le hdot] at h5
    have hnn := Derives.ne_nil (fun r hr2 => by
      obtain ⟨_, _, _, _, hne2, _, hr3⟩ := Grammar.rule_shape g hg r hr2
      rw [hr3]
      exact hne2) h5 (by rw [hr]; exact hne)
    have hl := slice_length w it.from_ it.to_ h4
    have : (slice w it.from_ it.to_).length ≠ 0 := fun hh => hnn (List.length_eq_zero.1 hh)
    omega
  · obtain ⟨T, wid, words, word, h1, h2, h3, _⟩ := h
    omega

/-- When the sweep of cell `k` has ended, cell `k` is closed. -/
theorem Closed.of_handled (g : Grammar) (tags : List Int) (pwm : List (Int × List ES))
    (w : List ES) (k : Nat) (q : EarleyParser) (h1 : q.to_process = [])
    (h2 : q.predict_buffer = []) (h3 : q.complete_buffer = [])
    (h : ∀ it ∈ (q.chart.chart[k]?).getD [], q.Handled g tags pwm w k it) :
    Closed g tags pwm w q.chart.chart k := by
  intro cell hc it hit
  have hIT : ∀ x, q.InTarget k x → x ∈ cell := by
    intro x hx
    rcases hx with ⟨c, hcc, hm⟩ | hx | hx | hx
    · rw [hc] at hcc
      simp only [Option.some.injEq] at hcc
      exact hcc ▸ hm
    · rw [h1] at hx
      simp at hx
    · rw [h2] at hx
      simp at hx
    · rw [h3] at hx
      simp at hx
  obtain ⟨a, b, c⟩ := h it (by rw [hc]; exact hit)
  exact ⟨fun x y r hr => hIT _ (a x y r hr), b,
    fun x y cell2 hc2 it2 hi2 z u => hIT _ (c x y cell2 hc2 it2 hi2 z u)⟩

/-- A closed cell stays closed when it and the cells before it are unchanged
and the next cell grows. -/
theorem Closed.stable (g : Grammar) (tags : List Int) (pwm : List (Int × List ES))
    (w : List ES) (c1 c2 : List (List EarleyItem)) (j : Nat)
    (hsame : ∀ i, i ≤ j → c2[i]? = c1[i]?)
    (hgrow : ∀ cell, c1[j + 1]? = some cell → ∃ ext, c2[j + 1]? = some (cell ++ ext))
    (h : Closed g tags pwm w c1 j) : Closed g tags pwm w c2 j := by
  intro cell hc it hit
  rw [hsame j (le_refl _)] at hc
  obtain ⟨a, b, c⟩ := h cell hc it hit
  refine ⟨a, ?_, ?_⟩
  · intro x y words word m1 m2 m3
    obtain ⟨z, cell2, z1, z2, z3⟩ := b x y words word m1 m2 m3
    obtain ⟨ext, he⟩ := hgrow cell2 z1
    exact ⟨z, cell2 ++ ext, he, List.mem_append_left _ z2, z3⟩
  · intro x y cell2 hc2 it2 hi2 z u
    rw [hsame _ (by omega)] at hc2
    exact c x y cell2 hc2 it2 hi2 z u

/-! ## The sweep over the cells and `parse` -/

theorem EarleyParser.sweepCells_spec (g : Grammar) (tags : List Int)
    (pwm : List (Int × List ES)) (w : List ES) (hg : g.ParseWF) (fuel cnt : Nat)
    (index : Nat) (p : EarleyParser) (hcnt : index + cnt = w.length + 1)
    (hb : p.Base g tags pwm w) (h1 : p.to_process = []) (h2 : p.predict_buffer = [])
    (h3 : p.complete_buffer = [])
    (hcl : ∀ j, j < index → Closed g tags pwm w p.chart.chart j) :
    (SentinelWord tags pwm ∧
        sweepCells fuel cnt index p = .error (Fault.index_exceeds (w.length + 1))) ∨
      (sweepCells fuel cnt index p = .error Fault.fuel ∧
        fuel ≤ (itemUniverse g w.length).length) ∨
      ∃ q, sweepCells fuel cnt index p = .ok q ∧ q.Base g tags pwm w ∧ q.to_process = [] ∧
        q.predict_buffer = [] ∧ q.complete_buffer = [] ∧ p.ChartGrows q ∧
        ∀ j, j ≤ w.length → Closed g tags pwm w q.chart.chart j := by
  induction cnt generalizing index p with
  | zero =>
    right
    right
    have hsz : ¬ index < p.chart.size := by
      unfold EarleyChart.size
      rw [hb.2.2.2.2.2.2.1]
      omega
    refine ⟨p, ?_, hb, h1, h2, h3, fun j cell h => ⟨[], by simpa using h⟩,
      fun j hj => hcl j (by omega)⟩
    simp only [sweepCells, hsz, if_false]
  | succ cnt ih =>
    have hk : index ≤ w.length := by omega
    have hsz : index < p.chart.size := by
      unfold EarleyChart.size
      rw [hb.2.2.2.2.2.2.1]
      omega
    obtain ⟨cell, hc⟩ := EarleyParser.Base.cell hb hk
    have hrbc : ∀ y ∈ cell, y.rule.rhs_begin = 1 := fun y hy =>
      ItemSound.rb_sound hg (hb.2.2.2.2.2.2.2.2 index cell hc y hy).2
    obtain ⟨ext, x1, x2, x3⟩ := itemsetInsertAll_spec cell [] (by simp) hrbc
    have hpass : EarleyParser.PassInv g tags pwm w index
        { p with to_process := itemsetInsertAll p.to_process cell } := by
      refine ⟨hb, ⟨?_, by rw [h2]; simp, by rw [h3]; simp⟩, h2, h3, ?_⟩
      · intro it hit
        simp only [h1, x1, List.nil_append] at hit
        exact hb.2.2.2.2.2.2.2.2 index cell hc it (x2 it hit).1
      · intro it hit
        left
        simp only [h1, x1, List.nil_append]
        have : it ∈ cell := by
          rw [hc] at hit
          exact hit
        rcases x3 it this with h | h
        · simp at h
        · exact h
    rcases EarleyParser.fixpoint_spec g tags pwm w index hg hk fuel _ hpass with
      ⟨a1, a2⟩ | ⟨a1, a2⟩ | ⟨q1, a1, a2, a3, a4, a5, a6, a7⟩
    · left
      refine ⟨a1, ?_⟩
      simp only [sweepCells, hsz, if_true, EarleyChart.cell, hc, a2]
    · right
      left
      refine ⟨?_, le_trans a2 (EarleyParser.pending_le _ _ _ _)⟩
      simp only [sweepCells, hsz, if_true, EarleyChart.cell, hc, a1]
    · have hcl1 : ∀ j, j < index + 1 → Closed g tags pwm w q1.chart.chart j := by
        intro j hj
        by_cases hji : j = index
        · subst hji
          exact Closed.of_handled g tags pwm w j q1 a3 a4 a5 a7
        · apply Closed.stable g tags pwm w p.chart.chart q1.chart.chart j
          · intro i hi
            exact a6.1 i (by omega) (by omega)
          · intro c hcc
            exact a6.2 (j + 1) c hcc
          · exact hcl j (by omega)
      rcases ih (index + 1) q1 (by omega) a2 a3 a4 a5 hcl1 with
        ⟨c1, c2⟩ | ⟨c1, c2⟩ | ⟨q, c1, c2, c3, c4, c5, c6, c7⟩
      · left
        refine ⟨c1, ?_⟩
        simp only [sweepCells, hsz, if_true, EarleyChart.cell, hc, a1, c2]
      · right
        left
        refine ⟨?_, c2⟩
        simp only [sweepCells, hsz, if_true, EarleyChart.cell, hc, a1, c1]
      · right
        right
        refine ⟨q, ?_, c2, c3, c4, c5, ?_, c7⟩
        · simp only [sweepCells, hsz, if_true, EarleyChart.cell, hc, a1, c1]
        · intro j c hjc
          obtain ⟨e1, he1⟩ := a6.2 j c hjc
          obtain ⟨e2, he2⟩ := c6 j _ he1
          exact ⟨e1 ++ e2, by rw [he2, List.append_assoc]⟩

theorem EarleyChart.initialise_clear (c : EarleyChart) (w : List ES) (startrule : Rule) :
    c.clear.initialise w startrule = .ok
      { chart := [⟨0, 0, 0, startrule⟩] :: List.replicate w.length [],
        tokens := w ++ ["$"],
        final_item := ⟨startrule.get_rhs.length, 0, w.length, startrule⟩ } := by
  have e : resizeCells [] (w.length + 1) = [] :: List.replicate w.length [] := by
    simp [resizeCells, List.replicate_succ]
  simp [EarleyChart.initialise, EarleyChart.clear, EarleyChart.insert, e, itemsetInsert,
    itemsetContains]

/-- The chart after `initialise` satisfies the invariant. -/
theorem EarleyParser.Base_initial (g : Grammar) (tags : List Int) (pwm : List (Int × List ES))
    (w : List ES) (p : EarleyParser) (hr : p.Ready g tags pwm) :
    EarleyParser.Base g tags pwm w
      { p with chart :=
        { chart := [⟨0, 0, 0, g.start⟩] :: List.replicate w.length [],
          tokens := w ++ ["$"],
          final_item := ⟨g.start.get_rhs.length, 0, w.length, g.start⟩ } } := by
  obtain ⟨r1, r2, r3, r4, r5, _⟩ := hr
  refine ⟨r1, r2, r3, r4, r5, rfl, by simp, rfl, ?_⟩
  intro j cell hj it hit
  simp only at hj
  cases j with
  | zero =>
    simp only [List.getElem?_cons_zero, Option.some.injEq] at hj
    subst hj
    rw [List.mem_singleton] at hit
    subst hit
    refine ⟨rfl, Or.inl ⟨Or.inl rfl, Nat.zero_le _, le_refl _, Nat.zero_le _, ?_⟩⟩
    simp only [List.take_zero, slice_self]
    exact Derives.nil
  | succ j =>
    simp only [List.getElem?_cons_succ] at hj
    have : cell = [] := by
      rw [List.getElem?_replicate] at hj
      split at hj
      · simp only [Option.some.injEq] at hj
        exact hj.symm
      · cases hj
    subst this
    simp at hit

/-- `parse` on a ready parser: it ends in the index fault of Scan (only when
some tag has `"$"` among its words), or runs out of fuel (only with fuel not
above the size of the item universe), or returns; then the chart is sound, all
cells are closed, cell 0 holds the start item, and the answer says whether the
final item is in the last cell. -/
theorem EarleyParser.parse_spec (g : Grammar) (tags : List Int) (pwm : List (Int × List ES))
    (w : List ES) (hg : g.ParseWF) (fuel : Nat) (p : EarleyParser)
    (hr : p.Ready g tags pwm) :
    (SentinelWord tags pwm ∧ p.parse fuel w = .error (Fault.index_exceeds (w.length + 1))) ∨
      (p.parse fuel w = .error Fault.fuel ∧ fuel ≤ (itemUniverse g w.length).length) ∨
      ∃ q b cell, p.parse fuel w = .ok (b, q) ∧ q.Base g tags pwm w ∧ q.Ready g tags pwm ∧
        (∀ j, j ≤ w.length → Closed g tags pwm w q.chart.chart j) ∧
        (∃ c0, q.chart.chart[0]? = some c0 ∧ (⟨0, 0, 0, g.start⟩ : EarleyItem) ∈ c0) ∧
        q.chart.chart[w.length]? = some cell ∧
        (b = true ↔ (⟨g.start.get_rhs.length, 0, w.length, g.start⟩ : EarleyItem) ∈ cell) := by
  have hstart : p.grammar.start = g.start := hr.1.2.2.2.2.1
  have hinit := EarleyChart.initialise_clear p.chart w g.start
  have hb0 := EarleyParser.Base_initial g tags pwm w p hr
  rcases EarleyParser.sweepCells_spec g tags pwm w hg fuel (w.length + 1) 0 _ (by omega) hb0
      hr.2.2.2.2.2.1 hr.2.2.2.2.2.2.1 hr.2.2.2.2.2.2.2 (fun j hj => by omega) with
    ⟨a1, a2⟩ | ⟨a1, a2⟩ | ⟨q, a1, a2, a3, a4, a5, a6, a7⟩
  · left
    refine ⟨a1, ?_⟩
    simp only [EarleyParser.parse, hstart, hinit, EarleyChart.size, List.length_cons,
      List.length_replicate, a2]
  · right
    left
    refine ⟨?_, a2⟩
    simp only [EarleyParser.parse, hstart, hinit, EarleyChart.size, List.length_cons,
      List.length_replicate, a1]
  · right
    right
    obtain ⟨cell, hc⟩ := EarleyParser.Base.cell a2 (le_refl w.length)
    have hlast : q.chart.chart.getLast? = some cell := by
      rw [List.getLast?_eq_getElem?, a2.2.2.2.2.2.2.1]
      simpa using hc
    have hfin : q.chart.get_final = ⟨g.start.get_rhs.length, 0, w.length, g.start⟩ :=
      a2.2.2.2.2.2.2.2.1
    have hrbc : ∀ y ∈ cell, y.rule.rhs_begin = 1 := fun y hy =>
      ItemSound.rb_sound hg (a2.2.2.2.2.2.2.2.2 _ cell hc y hy).2
    have hrbf : (⟨g.start.get_rhs.length, 0, w.length, g.start⟩ : EarleyItem).rule.rhs_begin
        = 1 := (Grammar.rule_shape g hg g.start (Or.inl rfl)).1
    refine ⟨q, itemsetContains cell q.chart.get_final, cell, ?_, a2,
      ⟨a2.1, a2.2.1, a2.2.2.1, a2.2.2.2.1, a2.2.2.2.2.1, a3, a4, a5⟩, a7, ?_, hc, ?_⟩
    · simp only [EarleyParser.parse, hstart, hinit, EarleyChart.size, List.length_cons,
        List.length_replicate, a1, hlast]
    · obtain ⟨ext, he⟩ := a6 0 [⟨0, 0, 0, g.start⟩] (by simp)
      exact ⟨_, he, by simp⟩
    · rw [hfin]
      exact itemsetContains_iff cell _ hrbc hrbf

/-! ## Soundness of recognition -/

theorem EarleyParser.Ready_new (g : Grammar) (hg : g.ParseWF) (tags : List Int)
    (pwm : List (Int × List ES)) : (EarleyParser.new g tags pwm).Ready g tags pwm :=
  ⟨Grammar.Ext.ext_refl g, rfl, hg.2.1, rfl, rfl, rfl, rfl, rfl⟩

theorem EarleyParser.parse_sound (g : Grammar) (tags : List Int) (pwm : List (Int × List ES))
    (w : List ES) (hg : g.ParseWF) (hss : ∀ ss, g.start.get_lhs = [ss] → ss ∉ tags)
    (fuel : Nat) (p : EarleyParser) (hr : p.Ready g tags pwm) (b : Bool) (q : EarleyParser)
    (hrun : p.parse fuel w = .ok (b, q)) :
    (b = true → Derives g.IsRuleOrStart tags pwm g.start.get_rhs w) ∧
      ∀ (j : Nat) (cell : List EarleyItem), q.chart.chart[j]? = some cell → ∀ it ∈ cell,
        it.to_ = j ∧ (GItem g tags pwm w it ∨ SItem q.grammar tags pwm w it) := by
  rcases EarleyParser.parse_spec g tags pwm w hg fuel p hr with
    ⟨_, a2⟩ | ⟨a1, _⟩ | ⟨q2, b2, cell, a1, a2, a3, a4, a5, a6, a7⟩
  · rw [a2] at hrun
    cases hrun
  · rw [a1] at hrun
    cases hrun
  · rw [a1] at hrun
    simp only [Except.ok.injEq, Prod.mk.injEq] at hrun
    obtain ⟨e1, e2⟩ := hrun
    subst e1
    subst e2
    refine ⟨?_, a2.2.2.2.2.2.2.2.2⟩
    intro hb
    have hfin := a7.1 hb
    rcases (a2.2.2.2.2.2.2.2.2 _ cell a6 _ hfin).2 with h | h
    · obtain ⟨_, _, _, _, h5⟩ := h
      simp only [List.take_length] at h5
      rw [slice_all] at h5
      exact h5
    · obtain ⟨_, T, hT1, hT2, hT3⟩ := SItem.complete h
      exact absurd hT2 (hss T hT3)

/-- C2 (amended). Soundness of recognition in the tag-filtered build: when
`parse(w)` returns true, `w` is derivable from the right-hand side `S` of the
start rule by the rules of the grammar, the start rule `$ -> S` itself, and the
terminal rules `T -> word` (`T` a tag, `word` in `pwm[T]`); and every item
`(A -> alpha . beta, from, to)` of the chart that `parse` returns lies in the
cell `to` and is either an item over a rule of the grammar or the start rule
whose `alpha` derives `tokens[from..to)`, or a scanned item `T -> word .` over
the token at `from`. -/
theorem C2_soundness (g : Grammar) (tags : List Int) (pwm : List (Int × List ES))
    (w : List ES) (hg : g.ParseWF) (hss : ∀ ss, g.start.get_lhs = [ss] → ss ∉ tags)
    (fuel : Nat) (b : Bool) (q : EarleyParser)
    (hrun : (EarleyParser.new g tags pwm).parse fuel w = .ok (b, q)) :
    (b = true → Derives g.IsRuleOrStart tags pwm g.start.get_rhs w) ∧
      ∀ (j : Nat) (cell : List EarleyItem), q.chart.chart[j]? = some cell → ∀ it ∈ cell,
        it.to_ = j ∧ (GItem g tags pwm w it ∨ SItem q.grammar tags pwm w it) :=
  EarleyParser.parse_sound g tags pwm w hg hss fuel _ (EarleyParser.Ready_new g hg tags pwm)
    b q hrun

/-- Grammars constructed from text in the tag-filtered build are well-formed. -/
theorem Grammar.construct_ParseWF (del : ES) (lines : List ES) (ss s separator : ES)
    (g : Grammar) (hc : Grammar.construct false del lines ss s separator = .ok g) :
    g.ParseWF := by
  obtain ⟨hstart, hne, hall⟩ := Grammar.construct_ok_inv _ _ _ _ _ _ g hc
  obtain ⟨g', A0, xs0, c1, c2, c3, c4, _, _, _, c8, c9, _⟩ :=
    Grammar.construct_spec false del lines ss s separator hstart hne hall
  rw [hc] at c1
  cases c1
  obtain ⟨a, rhs, s1, s2, _⟩ := Grammar.ruleOf_shape g A0 xs0 c8
  exact ⟨c4, c2, c3, a, rhs, by rw [c9, s1], s2⟩

theorem C2_soundness_witness :
    ∃ g q, Grammar.construct false " " ["S --> NP VP", "NP --> Det N", "VP --> V NP"]
        "$" "S" "-->" = .ok g ∧
      (EarleyParser.new g [4, 5, 6] [(4, ["the"]), (5, ["dog", "cat"]), (6, ["sees"])]).parse 20
        ["the", "dog", "sees", "the", "cat"] = .ok (true, q) ∧
      ((true = true → Derives g.IsRuleOrStart [4, 5, 6]
          [(4, ["the"]), (5, ["dog", "cat"]), (6, ["sees"])] g.start.get_rhs
          ["the", "dog", "sees", "the", "cat"]) ∧
        ∀ (j : Nat) (cell : List EarleyItem), q.chart.chart[j]? = some cell → ∀ it ∈ cell,
          it.to_ = j ∧
            (GItem g [4, 5, 6] [(4, ["the"]), (5, ["dog", "cat"]), (6, ["sees"])]
                ["the", "dog", "sees", "the", "cat"] it ∨
              SItem q.grammar [4, 5, 6] [(4, ["the"]), (5, ["dog", "cat"]), (6, ["sees"])]
                ["the", "dog", "sees", "the", "cat"] it)) :=
  ⟨_, _, rfl, rfl, C2_soundness _ [4, 5, 6] [(4, ["the"]), (5, ["dog", "cat"]), (6, ["sees"])]
    ["the", "dog", "sees", "the", "cat"]
    (Grammar.construct_ParseWF " " ["S --> NP VP", "NP --> Det N", "VP --> V NP"] "$" "S" "-->"
      _ rfl)
    (fun ss h => by
      have e : ss = 0 := by
        have h2 : [(0 : Int)] = [ss] := h
        simpa using h2.symm
      subst e
      decide)
    20 true _ rfl⟩

/-! ## Inversion of derivations -/

theorem Derives.nil_inv {R : Rule → Prop} {tags : List Int} {pwm : List (Int × List ES)}
    {x : List ES} (h : Derives R tags pwm [] x) : x = [] := by
  generalize hs : ([] : List Int) = s at h
  cases h with
  | nil => rfl
  | rule r A rest u v _ _ _ _ => cases hs
  | tag T words word rest v _ _ _ _ => cases hs

theorem Derives.cons_inv {R : Rule → Prop} {tags : List Int} {pwm : List (Int × List ES)}
    {A : Int} {rest : List Int} {x : List ES} (h : Derives R tags pwm (A :: rest) x) :
    (∃ r u v, R r ∧ r.get_lhs = [A] ∧ Derives R tags pwm r.get_rhs u ∧
        Derives R tags pwm rest v ∧ x = u ++ v) ∨
      (∃ words word v, A ∈ tags ∧ mapFind pwm A = some words ∧ word ∈ words ∧
        Derives R tags pwm rest v ∧ x = word :: v) := by
  generalize hs : A :: rest = s at h
  cases h with
  | nil => cases hs
  | rule r A2 rest2 u v h1 h2 h3 h4 =>
    simp only [List.cons.injEq] at hs
    obtain ⟨e1, e2⟩ := hs
    subst e1
    subst e2
    exact Or.inl ⟨r, u, v, h1, h2, h3, h4, rfl⟩
  | tag T words word rest2 v h1 h2 h3 h4 =>
    simp only [List.cons.injEq] at hs
    obtain ⟨e1, e2⟩ := hs
    subst e1
    subst e2
    exact Or.inr ⟨words, word, v, h1, h2, h3, h4, rfl⟩

/-- C2, counterexample: for the grammar `S --> T`, `S --> $ U` with the tags
`T`, `U` and the words `t` of `T` and `u` of `U` (all rules have one left-hand
symbol and a non-empty right-hand side, `$` is not a tag), `parse` returns true
on `t u`, but `t u` is not derivable from `S` by the rules of the grammar and
the terminal rules: the symbol `$` of `S --> $ U` has no rule in the grammar;
the recognizer completes it with the start rule `$ -> S`. -/
theorem C2_counterexample :
    ∃ g q, Grammar.construct false " " ["S --> T", "S --> $ U"] "$" "S" "-->" = .ok g ∧
      g.start = ⟨[[0], [1]], 1⟩ ∧ (0 : Int) ∉ [(2 : Int), 3] ∧
      (EarleyParser.new g [2, 3] [(2, ["t"]), (3, ["u"])]).parse 20 ["t", "u"]
        = .ok (true, q) ∧
      ¬ Derives g.IsRule [2, 3] [(2, ["t"]), (3, ["u"])] g.start.get_rhs ["t", "u"] := by
  refine ⟨Grammar.mk false " " ⟨4, ["$", "S", "T", "U"]⟩ [] [] "-->" [] ⟨[[0], [1]], 1⟩
    [([1], [⟨[[1], [2]], 1⟩, ⟨[[1], [0, 3]], 1⟩])], _, rfl, rfl, by decide, rfl, ?_⟩
  intro h
  have hrule : ∀ r : Rule, Grammar.IsRule
      (Grammar.mk false " " ⟨4, ["$", "S", "T", "U"]⟩ [] [] "-->" [] ⟨[[0], [1]], 1⟩
        [([1], [⟨[[1], [2]], 1⟩, ⟨[[1], [0, 3]], 1⟩])]) r →
      r = ⟨[[1], [2]], 1⟩ ∨ r = ⟨[[1], [0, 3]], 1⟩ := by
    intro r ⟨l, hl⟩
    simp only [Grammar.rules_with_lhs, mapFind] at hl
    split at hl
    · simp at hl
    · rename_i rs hrs
      split at hrs
      · simp only [Option.some.injEq] at hrs
        subst hrs
        simpa using hl
      · cases hrs
  rcases Derives.cons_inv h with
    ⟨r, u, v, h1, h2, h3, h4, h5⟩ | ⟨words, word, v, h1, _⟩
  · have hv := Derives.nil_inv h4
    subst hv
    rw [List.append_nil] at h5
    subst h5
    rcases hrule r h1 with e | e
    · subst e
      rcases Derives.cons_inv h3 with
        ⟨r2, u2, v2, k1, k2, _⟩ | ⟨words, word, v, _, _, _, k4, k5⟩
      · rcases hrule r2 k1 with e | e
        · subst e
          simp [Rule.get_lhs] at k2
        · subst e
          simp [Rule.get_lhs] at k2
      · have hv := Derives.nil_inv k4
        subst hv
        simp at k5
    · subst e
      rcases Derives.cons_inv h3 with
        ⟨r2, u2, v2, k1, k2, _⟩ | ⟨words, word, v, k1, _⟩
      · rcases hrule r2 k1 with e | e
        · subst e
          simp [Rule.get_lhs] at k2
        · subst e
          simp [Rule.get_lhs] at k2
      · simp at k1
  · simp at h1

/-! ## Completeness of recognition -/

theorem EarleyItem.next_of_rhs (it : EarleyItem) (pre post : List Int) (A : Int)
    (h : it.rule.get_rhs = pre ++ A :: post) (hd : pre.length = it.dot) :
    it.complete = false ∧ it.next = A := by
  constructor
  · simp only [EarleyItem.complete, h, List.length_append, List.length_cons,
      decide_eq_false_iff_not, not_le]
    omega
  · simp only [EarleyItem.next, h, List.getD, ← hd]
    rw [List.get?_eq_getElem?, List.getElem?_append_right (le_refl _)]
    simp

/-- In a chart whose cells are all closed, an item with the dot before `alpha`
reaches the dot behind `alpha` over every token sequence that `alpha` derives. -/
theorem Closed.advance_over (g : Grammar) (tags : List Int) (pwm : List (Int × List ES))
    (w : List ES) (hg : g.ParseWF) (htag : ∀ T ∈ tags, ∀ r, g.IsRule r → r.get_lhs ≠ [T])
    (ch : List (List EarleyItem)) (hlen : ch.length = w.length + 1)
    (hcl : ∀ j, j ≤ w.length → Closed g tags pwm w ch j)
    (alpha : List Int) (u : List ES) (hd : Derives g.IsRule tags pwm alpha u) :
    ∀ (it : EarleyItem) (j : Nat) (cell : List EarleyItem) (pre post : List Int),
      ch[j]? = some cell → it ∈ cell → it.to_ = j →
      it.rule.get_rhs = pre ++ alpha ++ post → pre.length = it.dot → u <+: w.drop j →
      ∃ cell2, ch[j + u.length]? = some cell2 ∧
        (⟨it.dot + alpha.length, it.from_, j + u.length, it.rule⟩ : EarleyItem) ∈ cell2 := by
  induction hd with
  | nil =>
    intro it j cell pre post hc hit hto _ _ _
    refine ⟨cell, by simpa using hc, ?_⟩
    have : (⟨it.dot + ([] : List Int).length, it.from_, j + ([] : List ES).length, it.rule⟩ :
        EarleyItem) = it := by
      cases it
      simp only [List.length_nil, Nat.add_zero, EarleyItem.mk.injEq, true_and, and_true]
      exact hto.symm
    rw [this]
    exact hit
  | rule r A rest u v hr hl _ _ ih1 ih2 =>
    intro it j cell pre post hc hit hto hrhs hdot hpre
    have hju : j + (u ++ v).length ≤ w.length := by
      have := hpre.length_le
      simp only [List.length_drop] at this
      have hj : j < ch.length := by
        rcases Nat.lt_or_ge j ch.length with hh | hh
        · exact hh
        · rw [List.getElem?_eq_none hh] at hc
          cases hc
      omega
    have hlen_uv : (u ++ v).length = u.length + v.length := List.length_append _ _
    obtain ⟨hinc, hnext⟩ := EarleyItem.next_of_rhs it pre (rest ++ post) A
      (by rw [hrhs]; simp) hdot
    have hA : A ∉ tags := fun hA => htag A hA r hr hl
    -- the rule `r` is found under its left-hand side
    obtain ⟨l, hrl⟩ := hr
    obtain ⟨_, a, rhs, hs1, hs2, hs3⟩ := (hg.2.2.1 l).2 r hrl
    have hla : r.get_lhs = [a] := by simp [Rule.get_lhs, hs1]
    have hlA : l = [A] := by rw [hs3, ← hla, hl]
    subst hlA
    have hrne : r.get_rhs ≠ [] := by
      obtain ⟨_, _, _, _, h1, _, h2⟩ := Grammar.rule_shape g hg r (Or.inr ⟨_, hrl⟩)
      rw [h2]
      exact h1
    -- Predict puts the item of `r` into cell `j`
    have hpred := ((hcl j (by omega)) cell hc it hit).1 hinc (by rw [hnext]; exact hA) r
      (by rw [hnext]; exact hrl)
    have hpu : u <+: w.drop j := by
      obtain ⟨t, ht⟩ := hpre
      exact ⟨v ++ t, by rw [← ht]; simp⟩
    obtain ⟨cell2, hc2, hm2⟩ := ih1 ⟨0, j, j, r⟩ j cell [] [] hc hpred rfl (by simp) rfl hpu
    simp only [Nat.zero_add] at hm2
    -- Complete advances the dot of `it` over `A`
    have hune : u ≠ [] := Derives.ne_nil (R := g.IsRule) (fun r2 hr2 => by
      obtain ⟨_, _, _, _, h1, _, h2⟩ := Grammar.rule_shape g hg r2 (Or.inr hr2)
      rw [h2]
      exact h1) (by assumption) hrne
    have hupos : 0 < u.length := List.length_pos.2 hune
    have hcomp := ((hcl (j + u.length) (by omega)) cell2 hc2 _ hm2).2.2
      (by simp [EarleyItem.complete]) (by simp only; omega) cell hc it hit hinc
      (by rw [hnext]; simp [EarleyItem.get_lhs, hl])
    have hpv : v <+: w.drop (j + u.length) := by
      obtain ⟨t, ht⟩ := hpre
      refine ⟨t, ?_⟩
      have : w.drop (j + u.length) = (w.drop j).drop u.length := by
        rw [List.drop_drop]
      rw [this, ← ht]
      simp
    obtain ⟨cell3, hc3, hm3⟩ := ih2 ⟨it.dot + 1, it.from_, j + u.length, it.rule⟩
      (j + u.length) cell2 (pre ++ [A]) post hc2 hcomp rfl (by rw [hrhs]; simp)
      (by simp [hdot]) hpv
    refine ⟨cell3, by rw [hlen_uv, ← Nat.add_assoc]; exact hc3, ?_⟩
    simp only [List.length_cons, hlen_uv] at hm3 ⊢
    have e1 : it.dot + (rest.length + 1) = it.dot + 1 + rest.length := by omega
    have e2 : j + (u.length + v.length) = j + u.length + v.length := by omega
    rw [e1, e2]
    exact hm3
  | tag T words word rest v hT hm hw _ ih =>
    intro it j cell pre post hc hit hto hrhs hdot hpre
    obtain ⟨hinc, hnext⟩ := EarleyItem.next_of_rhs it pre (rest ++ post) T
      (by rw [hrhs]; simp) hdot
    have hwj : w[j]? = some word := by
      obtain ⟨t, ht⟩ := hpre
      have := congrArg (fun l => l[0]?) ht
      simp only [List.cons_append, List.getElem?_cons_zero, List.getElem?_drop,
        Nat.add_zero] at this
      exact this.symm
    have hjn : j < w.length := by
      rcases Nat.lt_or_ge j w.length with hh | hh
      · exact hh
      · rw [List.getElem?_eq_none hh] at hwj
        cases hwj
    obtain ⟨x, cell2, hc2, hx1, hx2, hx3, hx4⟩ := ((hcl j (by omega)) cell hc it hit).2.1 hinc
      (by rw [hnext]; exact hT) words word (by rw [hnext]; exact hm) hwj hw
    have hcomp := ((hcl (j + 1) (by omega)) cell2 hc2 x hx1).2.2 hx2 (by omega) cell
      (by rw [hx4]; exact hc) it hit hinc (by rw [hx3])
    have hpv : v <+: w.drop (j + 1) := by
      obtain ⟨t, ht⟩ := hpre
      refine ⟨t, ?_⟩
      have : w.drop (j + 1) = (w.drop j).drop 1 := by
        rw [List.drop_drop]
      rw [this, ← ht]
      simp
    obtain ⟨cell3, hc3, hm3⟩ := ih ⟨it.dot + 1, it.from_, j + 1, it.rule⟩
      (j + 1) cell2 (pre ++ [T]) post hc2 hcomp rfl (by rw [hrhs]; simp)
      (by simp [hdot]) hpv
    refine ⟨cell3, ?_, ?_⟩
    · simp only [List.length_cons]
      rw [show j + (v.length + 1) = j + 1 + v.length by omega]
      exact hc3
    · simp only [List.length_cons] at hm3 ⊢
      have e1 : it.dot + (rest.length + 1) = it.dot + 1 + rest.length := by omega
      have e2 : j + (v.length + 1) = j + 1 + v.length := by omega
      rw [e1, e2]
      exact hm3

theorem EarleyParser.parse_complete (g : Grammar) (tags : List Int)
    (pwm : List (Int × List ES)) (w : List ES) (hg : g.ParseWF)
    (htag : ∀ T ∈ tags, ∀ r, g.IsRule r → r.get_lhs ≠ [T])
    (hsent : ¬ SentinelWord tags pwm)
    (hder : Derives g.IsRule tags pwm g.start.get_rhs w)
    (p : EarleyParser) (hr : p.Ready g tags pwm) (fuel : Nat)
    (hfuel : (itemUniverse g w.length).length < fuel) :
    ∃ q cell, p.parse fuel w = .ok (true, q) ∧ q.chart.chart[w.length]? = some cell ∧
      q.chart.get_final = ⟨g.start.get_rhs.length, 0, w.length, g.start⟩ ∧
      q.chart.get_final ∈ cell := by
  rcases EarleyParser.parse_spec g tags pwm w hg fuel p hr with
    ⟨a1, _⟩ | ⟨_, a2⟩ | ⟨q, b, cell, a1, a2, a3, a4, ⟨c0, a5, a6⟩, a7, a8⟩
  · exact absurd a1 hsent
  · omega
  · obtain ⟨cell2, hc2, hm2⟩ := Closed.advance_over g tags pwm w hg htag q.chart.chart
      a2.2.2.2.2.2.2.1 a4 g.start.get_rhs w hder ⟨0, 0, 0, g.start⟩ 0 c0 [] [] a5 a6 rfl
      (by simp) rfl (by simp)
    simp only [Nat.zero_add] at hc2 hm2
    rw [a7] at hc2
    simp only [Option.some.injEq] at hc2
    subst hc2
    have hb : b = true := a8.2 hm2
    subst hb
    have hfin : q.chart.get_final = ⟨g.start.get_rhs.length, 0, w.length, g.start⟩ :=
      a2.2.2.2.2.2.2.2.1
    exact ⟨q, cell, a1, a7, hfin, by rw [hfin]; exact hm2⟩

/-- Completeness of recognition in the tag-filtered build on the inputs on which
no item scans the end marker: for a well-formed grammar (every rule has one
left-hand symbol and a non-empty right-hand side) in which no tag is the
left-hand side of a rule, and a tag-to-words map in which no tag has the string
`"$"` among its words: if
`w` is derivable from the right-hand side `S` of the start rule by the rules of
the grammar and the terminal rules `T -> word`, then `parse(w)` returns true
(for every fuel above the size of the item universe), and the final item
`($ -> S ., 0, n)` is in cell `n`. -/
theorem parse_complete_new (g : Grammar) (tags : List Int) (pwm : List (Int × List ES))
    (w : List ES) (hg : g.ParseWF)
    (htag : ∀ T ∈ tags, ∀ r, g.IsRule r → r.get_lhs ≠ [T])
    (hsent : ¬ SentinelWord tags pwm)
    (hder : Derives g.IsRule tags pwm g.start.get_rhs w)
    (fuel : Nat) (hfuel : (itemUniverse g w.length).length < fuel) :
    ∃ q cell, (EarleyParser.new g tags pwm).parse fuel w = .ok (true, q) ∧
      q.chart.chart[w.length]? = some cell ∧
      q.chart.get_final = ⟨g.start.get_rhs.length, 0, w.length, g.start⟩ ∧
      q.chart.get_final ∈ cell :=
  EarleyParser.parse_complete g tags pwm w hg htag hsent hder _
    (EarleyParser.Ready_new g hg tags pwm) fuel hfuel

/-! ## Fuel -/

theorem EarleyParser.fixpoint_mono (fuel : Nat) (k : Nat) (p : EarleyParser)
    (r : Except Fault EarleyParser) (h : fixpoint fuel k p = r) (hr : r ≠ .error Fault.fuel) :
    fixpoint (fuel + 1) k p = r := by
  induction fuel generalizing p with
  | zero =>
    simp only [fixpoint] at h
    exact absurd h.symm hr
  | succ fuel ih =>
    rw [fixpoint] at h ⊢
    cases hpa : processAll p.to_process (p, false, false) with
    | error e =>
      rw [hpa] at h
      exact h
    | ok st =>
      obtain ⟨p1, np, nc⟩ := st
      rw [hpa] at h
      simp only at h ⊢
      cases hm : p1.merge k with
      | error e =>
        rw [hm] at h
        exact h
      | ok p2 =>
        rw [hm] at h
        simp only at h ⊢
        by_cases hfl : (np || nc) = true
        · rw [if_pos hfl] at h ⊢
          exact ih p2 h
        · rw [if_neg hfl] at h ⊢
          exact h

theorem EarleyParser.sweepCells_mono (fuel cnt index : Nat) (p : EarleyParser)
    (r : Except Fault EarleyParser) (h : sweepCells fuel cnt index p = r)
    (hr : r ≠ .error Fault.fuel) : sweepCells (fuel + 1) cnt index p = r := by
  induction cnt generalizing index p with
  | zero =>
    simp only [sweepCells] at h ⊢
    exact h
  | succ cnt ih =>
    rw [sweepCells] at h ⊢
    by_cases hsz : index < p.chart.size
    · rw [if_pos hsz] at h ⊢
      cases hc : p.chart.cell index with
      | error e =>
        rw [hc] at h
        exact h
      | ok cell =>
        rw [hc] at h
        simp only at h ⊢
        cases hf : fixpoint fuel index
            { p with to_process := itemsetInsertAll p.to_process cell } with
        | error e =>
          rw [hf] at h
          simp only at h
          have hne : (Except.error e : Except Fault EarleyParser) ≠ .error Fault.fuel := by
            rw [h]
            exact hr
          rw [EarleyParser.fixpoint_mono fuel index _ _ hf hne]
          exact h
        | ok p1 =>
          rw [hf] at h
          simp only at h
          rw [EarleyParser.fixpoint_mono fuel index _ _ hf (by simp)]
          exact ih (index + 1) p1 h
    · rw [if_neg hsz] at h ⊢
      exact h

theorem EarleyParser.parse_mono (fuel : Nat) (p : EarleyParser) (w : List ES)
    (r : Except Fault (Bool × EarleyParser)) (h : p.parse fuel w = r)
    (hr : r ≠ .error Fault.fuel) : p.parse (fuel + 1) w = r := by
  unfold EarleyParser.parse at h ⊢
  cases hi : p.chart.clear.initialise w p.grammar.start with
  | error e =>
    rw [hi] at h
    exact h
  | ok c =>
    rw [hi] at h
    simp only at h ⊢
    cases hs : sweepCells fuel c.size 0 { p with chart := c } with
    | error e =>
      rw [hs] at h
      simp only at h
      have hne : (Except.error e : Except Fault EarleyParser) ≠ .error Fault.fuel := by
        intro hh
        cases hh
        exact hr h.symm
      rw [EarleyParser.sweepCells_mono fuel _ 0 _ _ hs hne]
      exact h
    | ok p1 =>
      rw [hs] at h
      rw [EarleyParser.sweepCells_mono fuel _ 0 _ _ hs (by simp)]
      exact h

theorem EarleyParser.parse_mono_le (fuel fuel2 : Nat) (hle : fuel ≤ fuel2) (p : EarleyParser)
    (w : List ES) (r : Except Fault (Bool × EarleyParser)) (h : p.parse fuel w = r)
    (hr : r ≠ .error Fault.fuel) : p.parse fuel2 w = r := by
  induction fuel2 with
  | zero =>
    have : fuel = 0 := by omega
    subst this
    exact h
  | succ n ih =>
    by_cases hn : fuel ≤ n
    · exact EarleyParser.parse_mono n p w r (ih hn) hr
    · have : fuel = n + 1 := by omega
      subst this
      exact h

/-- A run that ends without running out of fuel fixes the result of every run:
each run gives that result or runs out of fuel. -/
theorem EarleyParser.parse_fuel_cases (fuel : Nat) (p : EarleyParser) (w : List ES)
    (r : Except Fault (Bool × EarleyParser)) (h : p.parse fuel w = r)
    (hr : r ≠ .error Fault.fuel) (fuel2 : Nat) :
    p.parse fuel2 w = r ∨ p.parse fuel2 w = .error Fault.fuel := by
  by_cases hf : p.parse fuel2 w = .error Fault.fuel
  · exact Or.inr hf
  · left
    rcases Nat.le_total fuel fuel2 with hle | hle
    · exact EarleyParser.parse_mono_le fuel fuel2 hle p w r h hr
    · have := EarleyParser.parse_mono_le fuel2 fuel hle p w _ rfl hf
      rw [← this, h]

theorem Grammar.IsRule.mem_index {g : Grammar} {r : Rule} (h : g.IsRule r) :
    r ∈ g.rules.flatMap (fun e => e.2) := by
  obtain ⟨l, hl⟩ := h
  unfold Grammar.rules_with_lhs at hl
  cases hm : mapFind g.rules l with
  | none =>
    rw [hm] at hl
    simp at hl
  | some rs =>
    rw [hm] at hl
    simp only at hl
    rw [List.mem_flatMap]
    exact ⟨(l, rs), mapFind_mem _ _ _ hm, hl⟩

set_option maxRecDepth 100000 in
/-- Instance: the grammar `S --> NP VP`, `NP --> Det N`, `VP --> V NP` with the
tags `Det`, `N`, `V` recognises `the dog sees the cat`. -/
theorem parse_complete_new_example :
    ∃ g, Grammar.construct false " " ["S --> NP VP", "NP --> Det N", "VP --> V NP"]
        "$" "S" "-->" = .ok g ∧
      ∃ q cell,
        (EarleyParser.new g [4, 5, 6] [(4, ["the"]), (5, ["dog", "cat"]), (6, ["sees"])]).parse
          400 ["the", "dog", "sees", "the", "cat"] = .ok (true, q) ∧
        q.chart.chart[["the", "dog", "sees", "the", "cat"].length]? = some cell ∧
        q.chart.get_final = ⟨g.start.get_rhs.length, 0,
          ["the", "dog", "sees", "the", "cat"].length, g.start⟩ ∧
        q.chart.get_final ∈ cell := by
  refine ⟨_, rfl, parse_complete_new _ [4, 5, 6] [(4, ["the"]), (5, ["dog", "cat"]), (6, ["sees"])]
    ["the", "dog", "sees", "the", "cat"]
    (Grammar.construct_ParseWF " " ["S --> NP VP", "NP --> Det N", "VP --> V NP"] "$" "S" "-->"
      _ rfl) ?_ ?_ ?_ 400 ?_⟩
  · intro T hT r hr
    have hr2 := Grammar.IsRule.mem_index hr
    clear hr
    revert T r
    decide
  · rintro ⟨T, hT, words, hw, hm⟩
    simp only [List.mem_cons, List.mem_singleton, List.not_mem_nil, or_false] at hT
    rcases hT with e | e | e <;> subst e <;> simp [mapFind] at hw <;> subst hw <;>
      simp at hm
  · exact Derives.rule ⟨[[1], [2, 3]], 1⟩ 1 [] ["the", "dog", "sees", "the", "cat"] []
      ⟨[1], by decide⟩ rfl
      (Derives.rule ⟨[[2], [4, 5]], 1⟩ 2 [3] ["the", "dog"] ["sees", "the", "cat"]
        ⟨[2], by decide⟩ rfl
        (Derives.tag 4 ["the"] "the" [5] ["dog"] (by decide) rfl (by decide)
          (Derives.tag 5 ["dog", "cat"] "dog" [] [] (by decide) rfl (by decide) Derives.nil))
        (Derives.rule ⟨[[3], [6, 2]], 1⟩ 3 [] ["sees", "the", "cat"] []
          ⟨[3], by decide⟩ rfl
          (Derives.tag 6 ["sees"] "sees" [2] ["the", "cat"] (by decide) rfl (by decide)
            (Derives.rule ⟨[[2], [4, 5]], 1⟩ 2 [] ["the", "cat"] []
              ⟨[2], by decide⟩ rfl
              (Derives.tag 4 ["the"] "the" [5] ["cat"] (by decide) rfl (by decide)
                (Derives.tag 5 ["dog", "cat"] "cat" [] [] (by decide) rfl (by decide)
                  Derives.nil))
              Derives.nil))
          Derives.nil))
      Derives.nil
  · decide


/-- C1. Completeness of recognition fails where the end marker can be scanned:
`initialise` appends the ordinary string `"$"` to the tokens as the end marker.
For the grammar `S --> T`, `S --> S T` with the tag `T` whose word is `"$"`
(all rules have one left-hand symbol and a non-empty right-hand side, no tag is
a left-hand side, the symbol `$` is not a tag), the one-token sentence `"$"` is
derivable from `S`, but `parse` does not return true with any fuel: the item
`(S -> S . T, 0, 1)` of the last cell scans the end marker, the insertion into
cell 2 fails the index guard of the chart, and the run ends in that fault. -/
theorem C1_end_marker_breaks_completeness :
    ∃ g, Grammar.construct false " " ["S --> T", "S --> S T"] "$" "S" "-->" = .ok g ∧
      g.ParseWF ∧ g.start = ⟨[[0], [1]], 1⟩ ∧ (0 : Int) ∉ [(2 : Int)] ∧
      (∀ T ∈ [(2 : Int)], ∀ r, g.IsRule r → r.get_lhs ≠ [T]) ∧
      Derives g.IsRule [2] [(2, ["$"])] g.start.get_rhs ["$"] ∧
      (EarleyParser.new g [2] [(2, ["$"])]).parse 20 ["$"]
        = .error (Fault.index_exceeds 2) ∧
      ∀ fuel q, (EarleyParser.new g [2] [(2, ["$"])]).parse fuel ["$"] ≠ .ok (true, q) := by
  refine ⟨Grammar.mk false " " ⟨3, ["$", "S", "T"]⟩ [] [] "-->" [] ⟨[[0], [1]], 1⟩
    [([1], [⟨[[1], [2]], 1⟩, ⟨[[1], [1, 2]], 1⟩])], rfl,
    Grammar.construct_ParseWF " " ["S --> T", "S --> S T"] "$" "S" "-->" _ rfl, rfl,
    by decide, ?_, ?_, rfl, ?_⟩
  · intro T hT r hr
    have hr2 := Grammar.IsRule.mem_index hr
    clear hr
    revert T r
    decide
  · exact Derives.rule ⟨[[1], [2]], 1⟩ 1 [] ["$"] [] ⟨[1], by decide⟩ rfl
      (Derives.tag 2 ["$"] "$" [] [] (by decide) rfl (by decide) Derives.nil) Derives.nil
  · intro fuel q hq
    have h20 : (EarleyParser.new (Grammar.mk false " " ⟨3, ["$", "S", "T"]⟩ [] [] "-->" []
        ⟨[[0], [1]], 1⟩ [([1], [⟨[[1], [2]], 1⟩, ⟨[[1], [1, 2]], 1⟩])]) [2]
        [(2, ["$"])]).parse 20 ["$"] = .error (Fault.index_exceeds 2) := rfl
    rcases EarleyParser.parse_fuel_cases 20 _ ["$"] _ h20 (by simp) fuel with h | h
    · rw [h] at hq
      cases hq
    · rw [h] at hq
      cases hq

theorem Grammar.new_start (soverload : Bool) (del ss s separator : ES)
    (htok : tokenise (ss ++ del ++ separator ++ del ++ s) ' ' = [ss, separator, s])
    (h1 : ss ≠ "") (h2 : ss ≠ separator) (h3 : s ≠ separator) :
    ∃ g0, Grammar.new soverload del ss s separator = .ok g0 ∧
      g0.start = ⟨[[if soverload then 1 else 0],
        [if ss = s then (if soverload then 1 else 0) else (if soverload then 2 else 1)]], 1⟩ ∧
      g0.id_of ss = some (if soverload then 1 else 0) ∧
      g0.id_of s = some (if ss = s then (if soverload then 1 else 0)
        else (if soverload then 2 else 1)) ∧
      g0.rules = [] ∧
      (soverload = false → g0.translator.es_entries = if ss = s then [ss] else [ss, s]) ∧
      (soverload = true → g0.esism = if ss = s then [(ss, 1)] else [(ss, 1), (s, 2)]) := by
  have hv : CFGValidator [ss, separator, s] separator = true := by
    rw [CFGValidator_iff]
    refine ⟨by simp, ⟨ss, rfl, h1⟩, rfl, ?_⟩
    simp [List.count_cons, h2, h3]
  have hp : ruleParserLoop separator [ss, separator, s] [] [] = [[ss], [s]] := by
    simp [ruleParserLoop, h2, h3]
  cases soverload with
  | false =>
    by_cases e : ss = s
    · subst e
      refine ⟨⟨false, del, ⟨1, [ss]⟩, [], [], separator, [], ⟨[[0], [0]], 1⟩, []⟩,
        ?_, ?_, ?_, ?_, ?_, ?_, ?_⟩
      · simp [Grammar.new, Grammar.make_rule, Grammar.init, htok, hv, Grammar.parse, CFGRuleParser,
          hp, Grammar.translateSides, Grammar.translateSide, Grammar.translate_to_is,
          Translator.translate_to_is, Translator.find, Translator.findFrom, Translator.new,
          Rule.construct]
      all_goals simp [Grammar.id_of, Translator.find, Translator.findFrom]
    · refine ⟨⟨false, del, ⟨2, [ss, s]⟩, [], [], separator, [], ⟨[[0], [1]], 1⟩, []⟩,
        ?_, ?_, ?_, ?_, ?_, ?_, ?_⟩
      · simp [Grammar.new, Grammar.make_rule, Grammar.init, htok, hv, Grammar.parse, CFGRuleParser,
          hp, Grammar.translateSides, Grammar.translateSide, Grammar.translate_to_is,
          Translator.translate_to_is, Translator.find, Translator.findFrom, Translator.new,
          Rule.construct, e]
      all_goals simp [Grammar.id_of, Translator.find, Translator.findFrom, e]
  | true =>
    by_cases e : ss = s
    · subst e
      refine ⟨⟨true, del, Translator.new, [(ss, 1)], [(1, ss)], separator, [],
        ⟨[[1], [1]], 1⟩, []⟩, ?_, ?_, ?_, ?_, ?_, ?_, ?_⟩
      · simp [Grammar.new, Grammar.make_rule, Grammar.init, htok, hv, Grammar.parse, CFGRuleParser,
          hp, Grammar.translateSides, Grammar.translateSide, Grammar.translate_to_is,
          mapFind, mapInsert, Rule.construct]
      all_goals simp [Grammar.id_of, mapFind]
    · refine ⟨⟨true, del, Translator.new, [(ss, 1), (s, 2)], [(1, ss), (2, s)], separator, [],
        ⟨[[1], [2]], 1⟩, []⟩, ?_, ?_, ?_, ?_, ?_, ?_, ?_⟩
      · simp [Grammar.new, Grammar.make_rule, Grammar.init, htok, hv, Grammar.parse, CFGRuleParser,
          hp, Grammar.translateSides, Grammar.translateSide, Grammar.translate_to_is,
          mapFind, mapInsert, Rule.construct, e]
      all_goals simp [Grammar.id_of, mapFind, e]


theorem Grammar.construct_keeps_start (soverload : Bool) (del : ES) (lines : List ES)
    (ss s separator : ES) (g0 g : Grammar)
    (hn : Grammar.new soverload del ss s separator = .ok g0)
    (hc : Grammar.construct soverload del lines ss s separator = .ok g) :
    g.start = g0.start ∧ ∀ x i, g0.id_of x = some i → g.id_of x = some i := by
  obtain ⟨hstart, hne, hall⟩ := Grammar.construct_ok_inv _ _ _ _ _ _ g hc
  obtain ⟨g0', A, xs, n1, n2, n3, n4, n5, n6, n7, n8, n9, n10, n11, n12⟩ :=
    Grammar.new_spec soverload del ss s separator hstart
  rw [hn] at n1
  cases n1
  obtain ⟨g2, f1, f2, f3, f4, f5, f6⟩ := Grammar.fillLoop_ok lines g0 n2 n3
    (fun line hl h0 => by rw [n5]; exact hall line hl h0)
  have hlen : ¬ lines.length = 0 := fun h => hne (List.length_eq_zero.1 h)
  unfold Grammar.construct Grammar.fill at hc
  rw [hn] at hc
  simp only [hlen, if_false] at hc
  rw [f1] at hc
  cases hc
  exact ⟨f4.2.2.2.2.1, f4.2.2.2.2.2⟩

theorem tokeniseLoop_word (d : Char) (a : List Char) (rest tok : List Char) (toks : List ES)
    (ha : d ∉ a) :
    tokeniseLoop d (a ++ rest) tok toks = tokeniseLoop d rest (tok ++ a) toks := by
  induction a generalizing tok with
  | nil => simp
  | cons c cs ih =>
    have hc : c ≠ d := fun h => ha (by simp [h])
    have hcs : d ∉ cs := fun h => ha (by simp [h])
    rw [List.cons_append, tokeniseLoop, if_pos hc, ih _ hcs]
    simp

theorem tokenise_start_text (ss s separator : ES)
    (h1 : ss ≠ "" ∧ ' ' ∉ ss.data) (h2 : separator ≠ "" ∧ ' ' ∉ separator.data)
    (h3 : s ≠ "" ∧ ' ' ∉ s.data) :
    tokenise (ss ++ " " ++ separator ++ " " ++ s) ' ' = [ss, separator, s] := by
  have ne : ∀ x : String, x ≠ "" → x.data ≠ [] := by
    intro x hx h
    apply hx
    cases x
    simp_all
  have e1 := ne ss h1.1
  have e2 := ne separator h2.1
  have e3 := ne s h3.1
  unfold tokenise
  have hd : (ss ++ " " ++ separator ++ " " ++ s).data ++ [' ']
      = ss.data ++ (' ' :: (separator.data ++ (' ' :: (s.data ++ (' ' :: []))))) := by
    simp [String.data_append]
  rw [hd, tokeniseLoop_word _ _ _ _ _ h1.2]
  simp only [List.nil_append, tokeniseLoop, ne_eq, not_true_eq_false, if_false, e1,
    not_false_eq_true, if_true]
  rw [tokeniseLoop_word _ _ _ _ _ h2.2]
  simp only [List.nil_append, tokeniseLoop, ne_eq, not_true_eq_false, if_false, e2,
    not_false_eq_true, if_true]
  rw [tokeniseLoop_word _ _ _ _ _ h3.2]
  simp only [List.nil_append, tokeniseLoop, ne_eq, not_true_eq_false, if_false, e3,
    not_false_eq_true, if_true, List.cons_append]

/-- C11 (amended). The start rule is constructed first.  Let the text
`ss del separator del s` of the start rule split into the three tokens `ss`,
`separator`, `s`, with `ss` non-empty and `ss`, `s` different from the
separator.  Then the constructor without input returns a grammar whose start
rule has left-hand side `[intern(ss)]` and right-hand side `[intern(s)]`, whose
interner holds exactly `ss` and `s` and whose rule index is empty; the ids are
`0` and `1` in the tag-filtered build and `1` and `2` in the `SOVERLOAD` build
(one id for both when `ss = s`).  Every grammar constructed from input lines
has the same start rule and the same ids for `ss` and `s`, whatever the
lines. -/
theorem C11_start_rule_first (soverload : Bool) (del ss s separator : ES)
    (htok : tokenise (ss ++ del ++ separator ++ del ++ s) ' ' = [ss, separator, s])
    (h1 : ss ≠ "") (h2 : ss ≠ separator) (h3 : s ≠ separator) :
    ∃ g0, Grammar.new soverload del ss s separator = .ok g0 ∧
      g0.start = ⟨[[if soverload then 1 else 0],
        [if ss = s then (if soverload then 1 else 0) else (if soverload then 2 else 1)]], 1⟩ ∧
      g0.id_of ss = some (if soverload then 1 else 0) ∧
      g0.id_of s = some (if ss = s then (if soverload then 1 else 0)
        else (if soverload then 2 else 1)) ∧
      g0.rules = [] ∧
      (soverload = false → g0.translator.es_entries = if ss = s then [ss] else [ss, s]) ∧
      (soverload = true → g0.esism = if ss = s then [(ss, 1)] else [(ss, 1), (s, 2)]) ∧
      ∀ lines g, Grammar.construct soverload del lines ss s separator = .ok g →
        g.start = g0.start ∧ g.id_of ss = some (if soverload then 1 else 0) ∧
        g.id_of s = some (if ss = s then (if soverload then 1 else 0)
          else (if soverload then 2 else 1)) := by
  obtain ⟨g0, a1, a2, a3, a4, a5, a6, a7⟩ :=
    Grammar.new_start soverload del ss s separator htok h1 h2 h3
  refine ⟨g0, a1, a2, a3, a4, a5, a6, a7, fun lines g hc => ?_⟩
  obtain ⟨b1, b2⟩ := Grammar.construct_keeps_start soverload del lines ss s separator g0 g a1 hc
  exact ⟨b1, b2 _ _ a3, b2 _ _ a4⟩

theorem C11_start_rule_first_witness :
    ∃ g0, Grammar.new false " " "$" "S" "-->" = .ok g0 ∧
      g0.start = ⟨[[if false then 1 else 0],
        [if "$" = "S" then (if false then 1 else 0) else (if false then 2 else 1)]], 1⟩ ∧
      g0.id_of "$" = some (if false then 1 else 0) ∧
      g0.id_of "S" = some (if "$" = "S" then (if false then 1 else 0)
        else (if false then 2 else 1)) ∧
      g0.rules = [] ∧
      (false = false → g0.translator.es_entries = if "$" = "S" then ["$"] else ["$", "S"]) ∧
      (false = true → g0.esism = if "$" = "S" then [("$", 1)] else [("$", 1), ("S", 2)]) ∧
      ∀ lines g, Grammar.construct false " " lines "$" "S" "-->" = .ok g →
        g.start = g0.start ∧ g.id_of "$" = some (if false then 1 else 0) ∧
        g.id_of "S" = some (if "$" = "S" then (if false then 1 else 0)
          else (if false then 2 else 1)) :=
  C11_start_rule_first false " " "$" "S" "-->" (by decide) (by decide) (by decide) (by decide)

/-- C11, counterexample: in the `SOVERLOAD` build the interner of the grammar
issues `esism.size() + 1`, so the super-start symbol `$` and the start symbol
`S` get the ids `1` and `2`, not `0` and `1`: the start rule is
`[[1], [2]]`. -/
theorem C11_counterexample :
    ∃ g0, Grammar.new true " " "$" "S" "-->" = .ok g0 ∧
      g0.start = ⟨[[1], [2]], 1⟩ ∧ g0.id_of "$" = some 1 ∧ g0.id_of "S" = some 2 ∧
      g0.id_of "$" ≠ some 0 ∧ g0.id_of "S" ≠ some 1 :=
  ⟨_, rfl, rfl, rfl, rfl, by decide, by decide⟩

theorem hashStep_lt (hash : Nat) (t : Int) : hashStep hash t < 2 ^ 64 := by
  unfold hashStep
  exact Nat.mod_lt _ (by norm_num)

theorem foldl_hashStep_lt (side : List Int) (hash : Nat) (h : hash < 2 ^ 64) :
    side.foldl hashStep hash < 2 ^ 64 := by
  induction side generalizing hash with
  | nil => exact h
  | cons t rest ih => exact ih _ (hashStep_lt hash t)

theorem hash_code_lt (r : Rule) : hash_code r < 2 ^ 64 := by
  unfold hash_code
  generalize hh : (0x9e3779b9 : Nat) = hash
  have h : hash < 2 ^ 64 := by
    rw [← hh]
    norm_num
  clear hh
  induction r.sides generalizing hash with
  | nil => exact h
  | cons side rest ih => exact ih _ (foldl_hashStep_lt side hash h)

theorem Rule.eq_iff_sides (a b : Rule) : Rule.eq a b = true ↔ a.sides = b.sides := by
  unfold Rule.eq
  simp only [decide_eq_true_eq]
  exact eq_comm

theorem hash_code_congr (a b : Rule) (h : Rule.eq a b = true) : hash_code a = hash_code b := by
  unfold hash_code
  rw [(Rule.eq_iff_sides a b).1 h]

/-- C12. Rule hash is consistent with rule equality: `operator==` of two rules
holds exactly when their `sides` are equal, whatever their `rhs_begin`; equal
rules have the same `hash_code`, and `hash_code` is a value of arithmetic
modulo `2^64` computed from the symbols of the sides only. -/
theorem C12_rule_hash_consistent (a b : Rule) :
    (Rule.eq a b = true ↔ a.sides = b.sides) ∧
      (Rule.eq a b = true → hash_code a = hash_code b) ∧
      (∀ k : Int, Rule.eq a ⟨a.sides, k⟩ = true ∧ hash_code ⟨a.sides, k⟩ = hash_code a) ∧
      hash_code a < 2 ^ 64 :=
  ⟨Rule.eq_iff_sides a b, hash_code_congr a b,
    fun k => ⟨(Rule.eq_iff_sides a ⟨a.sides, k⟩).2 rfl, rfl⟩, hash_code_lt a⟩

theorem C12_rule_hash_consistent_witness :
    Rule.eq ⟨[[1], [2, 3]], 1⟩ ⟨[[1], [2, 3]], 0⟩ = true ∧
      hash_code ⟨[[1], [2, 3]], 1⟩ = hash_code ⟨[[1], [2, 3]], 0⟩ :=
  ⟨by decide, (C12_rule_hash_consistent ⟨[[1], [2, 3]], 1⟩ ⟨[[1], [2, 3]], 0⟩).2.1 (by decide)⟩

theorem item_hash_congr (std_hash : Nat → Nat) (a b : EarleyItem)
    (h : EarleyItem.eq a b = true) : item_hash std_hash a = item_hash std_hash b := by
  unfold EarleyItem.eq at h
  simp only [Bool.and_eq_true, decide_eq_true_eq] at h
  obtain ⟨⟨⟨h1, h2⟩, h3⟩, h4⟩ := h
  unfold item_hash hash_combine
  rw [hash_code_congr a.rule b.rule h1, h2, h3, h4]

/-- C13. Item hash is consistent with item equality: two items that are equal
under `operator==` (equal rule, dot, from and to) have the same hash value
`hash_combine(from + to, hash_combine(dot, rule))`, whatever the library
function `std::hash<size_t>` is. -/
theorem C13_item_hash_consistent (std_hash : Nat → Nat) (a b : EarleyItem)
    (h : EarleyItem.eq a b = true) : item_hash std_hash a = item_hash std_hash b :=
  item_hash_congr std_hash a b h

theorem C13_item_hash_consistent_witness :
    EarleyItem.eq ⟨1, 0, 2, ⟨[[1], [2, 3]], 1⟩⟩ ⟨1, 0, 2, ⟨[[1], [2, 3]], 0⟩⟩ = true ∧
      item_hash (fun n => n) ⟨1, 0, 2, ⟨[[1], [2, 3]], 1⟩⟩
        = item_hash (fun n => n) ⟨1, 0, 2, ⟨[[1], [2, 3]], 0⟩⟩ :=
  ⟨by decide, C13_item_hash_consistent (fun n => n) _ _ (by decide)⟩

theorem EarleyItem.complete_next (i : EarleyItem) (hd : i.dot ≤ i.rule.get_rhs.length) :
    (i.complete = true ↔ i.dot = i.rule.get_rhs.length) ∧
      (i.complete = false → i.rule.get_rhs[i.dot]? = some i.next) := by
  unfold EarleyItem.complete EarleyItem.next
  constructor
  · simp only [decide_eq_true_eq]
    omega
  · intro h
    simp only [decide_eq_false_iff_not, not_le] at h
    rw [List.getD_eq_getElem?_getD, List.getElem?_eq_getElem h]
    rfl

/-- C14. For every item whose rule has a right-hand side (the index
`rhs_begin` points at a side) and whose dot lies in `[0, |RHS|]`: `complete()`
returns true if and only if `dot = |RHS|`, and when the item is incomplete
`next()` returns `RHS[dot]`. -/
theorem C14_complete_next (i : EarleyItem)
    (hr : 0 ≤ i.rule.rhs_begin ∧ i.rule.rhs_begin.toNat < i.rule.sides.length)
    (hd : i.dot ≤ i.rule.get_rhs.length) :
    i.rule.sides[i.rule.rhs_begin.toNat]? = some i.rule.get_rhs ∧
      (i.complete = true ↔ i.dot = i.rule.get_rhs.length) ∧
      (i.complete = false → i.rule.get_rhs[i.dot]? = some i.next) := by
  refine ⟨?_, EarleyItem.complete_next i hd⟩
  unfold Rule.get_rhs
  rw [if_pos hr.1, List.getD_eq_getElem?_getD, List.getElem?_eq_getElem hr.2]
  rfl

theorem C14_complete_next_witness :
    (⟨1, 0, 1, ⟨[[1], [2, 3]], 1⟩⟩ : EarleyItem).rule.sides[(1 : Int).toNat]?
        = some (⟨1, 0, 1, ⟨[[1], [2, 3]], 1⟩⟩ : EarleyItem).rule.get_rhs ∧
      ((⟨1, 0, 1, ⟨[[1], [2, 3]], 1⟩⟩ : EarleyItem).complete = true ↔
        1 = (⟨1, 0, 1, ⟨[[1], [2, 3]], 1⟩⟩ : EarleyItem).rule.get_rhs.length) ∧
      ((⟨1, 0, 1, ⟨[[1], [2, 3]], 1⟩⟩ : EarleyItem).complete = false →
        (⟨1, 0, 1, ⟨[[1], [2, 3]], 1⟩⟩ : EarleyItem).rule.get_rhs[1]?
          = some (⟨1, 0, 1, ⟨[[1], [2, 3]], 1⟩⟩ : EarleyItem).next) :=
  C14_complete_next ⟨1, 0, 1, ⟨[[1], [2, 3]], 1⟩⟩ (by decide) (by decide)

theorem itemsetContains_insert (s : List EarleyItem) (x : EarleyItem) :
    itemsetContains (itemsetInsert s x) x = true := by
  unfold itemsetInsert
  by_cases h : itemsetContains s x = true
  · rw [if_pos h]
    exact h
  · rw [if_neg h]
    unfold itemsetContains
    rw [List.any_append]
    simp [EarleyItem.eq, Rule.eq]

theorem itemsetInsert_present (s : List EarleyItem) (x : EarleyItem)
    (h : itemsetContains s x = true) : itemsetInsert s x = s := by
  unfold itemsetInsert
  rw [if_pos h]

theorem EarleyChart.insert_spec (c : EarleyChart) (index : Nat) (item : EarleyItem)
    (h : index < c.chart.length) :
    ∃ cell, c.chart[index]? = some cell ∧
      c.insert index item = .ok { c with chart := c.chart.set index (itemsetInsert cell item) } := by
  refine ⟨c.chart[index], List.getElem?_eq_getElem h, ?_⟩
  unfold EarleyChart.insert
  rw [if_neg (by omega), List.getElem?_eq_getElem h]

/-- C16. Chart insertion is idempotent: for an index below the number of
cells, `insert(i, item)` returns a chart in which `contains(i, item)` is true,
every other cell, the tokens and the final item are unchanged and the number
of cells is the same; when the item is already in cell `i` the chart is
unchanged; inserting the item a second time changes nothing. -/
theorem C16_insert_idempotent (c : EarleyChart) (index : Nat) (item : EarleyItem)
    (h : index < c.chart.length) :
    ∃ c2, c.insert index item = .ok c2 ∧ c2.contains index item = .ok true ∧
      (∀ j, j ≠ index → c2.chart[j]? = c.chart[j]?) ∧
      c2.tokens = c.tokens ∧ c2.final_item = c.final_item ∧
      c2.chart.length = c.chart.length ∧
      (c.contains index item = .ok true → c2 = c) ∧
      c2.insert index item = .ok c2 := by
  obtain ⟨cell, hc, hi⟩ := EarleyChart.insert_spec c index item h
  have hget : (c.chart.set index (itemsetInsert cell item))[index]?
      = some (itemsetInsert cell item) := by
    rw [List.getElem?_set_self h]
  refine ⟨_, hi, ?_, ?_, rfl, rfl, by simp, ?_, ?_⟩
  · unfold EarleyChart.contains
    simp only [hget, itemsetContains_insert]
  · intro j hj
    simp only
    rw [List.getElem?_set_ne (Ne.symm hj)]
  · intro hcon
    unfold EarleyChart.contains at hcon
    rw [hc] at hcon
    simp only [Except.ok.injEq] at hcon
    rw [itemsetInsert_present cell item hcon]
    have : c.chart.set index cell = c.chart := by
      apply List.ext_getElem?
      intro j
      by_cases hj : index = j
      · subst hj
        rw [List.getElem?_set_self h, hc]
      · rw [List.getElem?_set_ne hj]
    rw [this]
  · have h2 : index < (c.chart.set index (itemsetInsert cell item)).length := by simpa using h
    obtain ⟨cell2, hc2, hi2⟩ := EarleyChart.insert_spec
      { c with chart := c.chart.set index (itemsetInsert cell item) } index item h2
    rw [hi2]
    simp only at hc2
    rw [hget] at hc2
    simp only [Option.some.injEq] at hc2
    subst hc2
    rw [itemsetInsert_present _ item (itemsetContains_insert cell item)]
    simp

theorem C16_insert_idempotent_witness :
    ∃ c2, (EarleyChart.mk [[], []] ["a", "$"] EarleyItem.empty).insert 1
        ⟨1, 0, 1, ⟨[[2], [3]], 1⟩⟩ = .ok c2 ∧
      c2.contains 1 ⟨1, 0, 1, ⟨[[2], [3]], 1⟩⟩ = .ok true ∧
      (∀ j, j ≠ 1 → c2.chart[j]? = (EarleyChart.mk [[], []] ["a", "$"] EarleyItem.empty).chart[j]?) ∧
      c2.tokens = (EarleyChart.mk [[], []] ["a", "$"] EarleyItem.empty).tokens ∧
      c2.final_item = (EarleyChart.mk [[], []] ["a", "$"] EarleyItem.empty).final_item ∧
      c2.chart.length = (EarleyChart.mk [[], []] ["a", "$"] EarleyItem.empty).chart.length ∧
      ((EarleyChart.mk [[], []] ["a", "$"] EarleyItem.empty).contains 1
          ⟨1, 0, 1, ⟨[[2], [3]], 1⟩⟩ = .ok true →
        c2 = EarleyChart.mk [[], []] ["a", "$"] EarleyItem.empty) ∧
      c2.insert 1 ⟨1, 0, 1, ⟨[[2], [3]], 1⟩⟩ = .ok c2 :=
  C16_insert_idempotent (EarleyChart.mk [[], []] ["a", "$"] EarleyItem.empty) 1
    ⟨1, 0, 1, ⟨[[2], [3]], 1⟩⟩ (by decide)

/-! ## Frame properties of the operations of the sweep -/

theorem mem_itemsetInsert (s : List EarleyItem) (x y : EarleyItem)
    (h : y ∈ itemsetInsert s x) : y ∈ s ∨ y = x := by
  unfold itemsetInsert at h
  split at h
  · exact Or.inl h
  · simpa using h

theorem mem_itemsetInsertAll (xs s : List EarleyItem) (y : EarleyItem)
    (h : y ∈ itemsetInsertAll s xs) : y ∈ s ∨ y ∈ xs := by
  induction xs generalizing s with
  | nil => exact Or.inl h
  | cons x rest ih =>
    unfold itemsetInsertAll at h
    rw [List.foldl_cons] at h
    rcases ih (itemsetInsert s x) h with h1 | h1
    · rcases mem_itemsetInsert s x y h1 with h2 | h2
      · exact Or.inl h2
      · exact Or.inr (h2 ▸ List.mem_cons_self _ _)
    · exact Or.inr (List.mem_cons_of_mem _ h1)

theorem itemsetInsert_ne_nil (s : List EarleyItem) (x : EarleyItem) : itemsetInsert s x ≠ [] := by
  unfold itemsetInsert
  split
  · rename_i h
    intro hs
    rw [hs] at h
    simp [itemsetContains] at h
  · simp

theorem itemsetInsertAll_nil (s : List EarleyItem) : itemsetInsertAll s [] = s := rfl

/-- `predict` changes the predict buffer only: it adds items `(r, 0, to, to)`
for rules `r` of the set it loops over, and returns true exactly when it has
added one. -/
theorem EarleyParser.predictLoop_frame (item : EarleyItem) (rules : List Rule) (any_new : Bool)
    (p : EarleyParser) (b : Bool) (q : EarleyParser)
    (h : EarleyParser.predictLoop item rules any_new p = .ok (b, q)) :
    q = { p with predict_buffer := q.predict_buffer } ∧
      (∀ y ∈ q.predict_buffer, y ∈ p.predict_buffer ∨
        ∃ r ∈ rules, y = ⟨0, item.to_, item.to_, r⟩) ∧
      (∀ y ∈ p.predict_buffer, y ∈ q.predict_buffer) ∧
      (any_new = true → b = true) ∧
      (b = false → q.predict_buffer = p.predict_buffer) ∧
      (b = true → any_new = true ∨ q.predict_buffer ≠ []) := by
  induction rules generalizing any_new p with
  | nil =>
    simp only [EarleyParser.predictLoop, Except.ok.injEq, Prod.mk.injEq] at h
    obtain ⟨h1, h2⟩ := h
    subst h1
    subst h2
    exact ⟨rfl, fun y hy => Or.inl hy, fun y hy => hy, fun h => h, fun _ => rfl, fun h => Or.inl h⟩
  | cons r rest ih =>
    rw [EarleyParser.predictLoop] at h
    split at h
    · obtain ⟨a1, a2, a3, a4, a5, a6⟩ := ih any_new p h
      exact ⟨a1, fun y hy => (a2 y hy).imp id (fun ⟨r', hr', e⟩ =>
        ⟨r', List.mem_cons_of_mem _ hr', e⟩), a3, a4, a5, a6⟩
    · simp only at h
      split at h
      · cases h
      · split at h
        · obtain ⟨a1, a2, a3, a4, a5, a6⟩ := ih true _ h
          simp only at a1 a2 a3 a5 a6
          refine ⟨?_, ?_, ?_, fun _ => a4 rfl, ?_, ?_⟩
          · rw [a1]
          · intro y hy
            rcases a2 y hy with h1 | ⟨r', hr', e⟩
            · rcases mem_itemsetInsert _ _ _ h1 with h2 | h2
              · exact Or.inl h2
              · exact Or.inr ⟨r, List.mem_cons_self _ _, h2⟩
            · exact Or.inr ⟨r', List.mem_cons_of_mem _ hr', e⟩
          · intro y hy
            apply a3
            unfold itemsetInsert
            split
            · exact hy
            · exact List.mem_append_left _ hy
          · intro hb
            rw [a4 rfl] at hb
            cases hb
          · intro _
            right
            intro hq
            have hne := itemsetInsert_ne_nil p.predict_buffer ⟨0, item.to_, item.to_, r⟩
            obtain ⟨y, hy⟩ := List.exists_mem_of_ne_nil _ hne
            have := a3 y hy
            rw [hq] at this
            simp at this
        · obtain ⟨a1, a2, a3, a4, a5, a6⟩ := ih any_new p h
          exact ⟨a1, fun y hy => (a2 y hy).imp id (fun ⟨r', hr', e⟩ =>
            ⟨r', List.mem_cons_of_mem _ hr', e⟩), a3, a4, a5, a6⟩


/-- `complete` changes the complete buffer only: it adds items
`(item2.rule, item2.dot + 1, item2.from, item.to)` for incomplete items `item2`
of the cell it loops over, and returns true exactly when it has added one. -/
theorem EarleyParser.completeLoop_frame (item : EarleyItem) (cell : List EarleyItem)
    (any_new : Bool) (p : EarleyParser) (b : Bool) (q : EarleyParser)
    (h : EarleyParser.completeLoop item cell any_new p = .ok (b, q)) :
    q = { p with complete_buffer := q.complete_buffer } ∧
      (∀ y ∈ q.complete_buffer, y ∈ p.complete_buffer ∨
        ∃ item2 ∈ cell, item2.complete = false ∧ item.get_lhs = item2.next ∧
          y = ⟨item2.dot + 1, item2.from_, item.to_, item2.rule⟩) ∧
      (∀ y ∈ p.complete_buffer, y ∈ q.complete_buffer) ∧
      (any_new = true → b = true) ∧
      (b = false → q.complete_buffer = p.complete_buffer) ∧
      (b = true → any_new = true ∨ q.complete_buffer ≠ []) := by
  induction cell generalizing any_new p with
  | nil =>
    simp only [EarleyParser.completeLoop, Except.ok.injEq, Prod.mk.injEq] at h
    obtain ⟨h1, h2⟩ := h
    subst h1
    subst h2
    exact ⟨rfl, fun y hy => Or.inl hy, fun y hy => hy, fun h => h, fun _ => rfl, fun h => Or.inl h⟩
  | cons item2 rest ih =>
    rw [EarleyParser.completeLoop] at h
    split at h
    · rename_i hcond
      simp only [Bool.and_eq_true, Bool.not_eq_true', decide_eq_true_eq] at hcond
      simp only at h
      split at h
      · cases h
      · split at h
        · obtain ⟨a1, a2, a3, a4, a5, a6⟩ := ih true _ h
          simp only at a1 a2 a3 a5 a6
          refine ⟨?_, ?_, ?_, fun _ => a4 rfl, ?_, ?_⟩
          · rw [a1]
          · intro y hy
            rcases a2 y hy with h1 | ⟨i2, hi2, e⟩
            · rcases mem_itemsetInsert _ _ _ h1 with h2 | h2
              · exact Or.inl h2
              · exact Or.inr ⟨item2, List.mem_cons_self _ _, hcond.1, hcond.2, h2⟩
            · exact Or.inr ⟨i2, List.mem_cons_of_mem _ hi2, e⟩
          · intro y hy
            apply a3
            unfold itemsetInsert
            split
            · exact hy
            · exact List.mem_append_left _ hy
          · intro hb
            rw [a4 rfl] at hb
            cases hb
          · intro _
            right
            intro hq
            have hne := itemsetInsert_ne_nil p.complete_buffer
              ⟨item2.dot + 1, item2.from_, item.to_, item2.rule⟩
            obtain ⟨y, hy⟩ := List.exists_mem_of_ne_nil _ hne
            have := a3 y hy
            rw [hq] at this
            simp at this
        · obtain ⟨a1, a2, a3, a4, a5, a6⟩ := ih any_new p h
          exact ⟨a1, fun y hy => (a2 y hy).imp id (fun ⟨i2, hi2, e⟩ =>
            ⟨i2, List.mem_cons_of_mem _ hi2, e⟩), a3, a4, a5, a6⟩
    · obtain ⟨a1, a2, a3, a4, a5, a6⟩ := ih any_new p h
      exact ⟨a1, fun y hy => (a2 y hy).imp id (fun ⟨i2, hi2, e⟩ =>
        ⟨i2, List.mem_cons_of_mem _ hi2, e⟩), a3, a4, a5, a6⟩

/-- `scan` changes the interner of the grammar and cell `item.to + 1`, to which
it adds at most the item `(next -> word ., item.to, item.to + 1)`. -/
theorem EarleyParser.scan_frame (p : EarleyParser) (item : EarleyItem) (q : EarleyParser)
    (h : p.scan item = .ok q) :
    q = { p with grammar := q.grammar, chart := q.chart } ∧
      q.chart.tokens = p.chart.tokens ∧ q.chart.final_item = p.chart.final_item ∧
      q.chart.chart.length = p.chart.chart.length ∧
      (∀ j, j ≠ item.to_ + 1 → q.chart.chart[j]? = p.chart.chart[j]?) ∧
      (∀ cell, p.chart.chart[item.to_ + 1]? = some cell →
        ∃ ext, q.chart.chart[item.to_ + 1]? = some (cell ++ ext) ∧
          ∀ y ∈ ext, ∃ word, p.chart.tokens[item.to_]? = some word ∧
            y = ⟨1, item.to_, item.to_ + 1,
              ⟨[[item.next], [(p.grammar.translate_to_is word).1]], 1⟩⟩) ∧
      (q.grammar = p.grammar ∨
        ∃ word, p.chart.tokens[item.to_]? = some word ∧
          q.grammar = (p.grammar.translate_to_is word).2 ∧
          item.to_ + 1 < p.chart.chart.length) := by
  unfold EarleyParser.scan at h
  have triv : p = { p with grammar := p.grammar, chart := p.chart } ∧
      p.chart.tokens = p.chart.tokens ∧ p.chart.final_item = p.chart.final_item ∧
      p.chart.chart.length = p.chart.chart.length ∧
      (∀ j, j ≠ item.to_ + 1 → p.chart.chart[j]? = p.chart.chart[j]?) ∧
      (∀ cell, p.chart.chart[item.to_ + 1]? = some cell →
        ∃ ext, p.chart.chart[item.to_ + 1]? = some (cell ++ ext) ∧
          ∀ y ∈ ext, ∃ word, p.chart.tokens[item.to_]? = some word ∧
            y = ⟨1, item.to_, item.to_ + 1,
              ⟨[[item.next], [(p.grammar.translate_to_is word).1]], 1⟩⟩) ∧
      (p.grammar = p.grammar ∨
        ∃ word, p.chart.tokens[item.to_]? = some word ∧
          p.grammar = (p.grammar.translate_to_is word).2 ∧
          item.to_ + 1 < p.chart.chart.length) :=
    ⟨rfl, rfl, rfl, rfl, fun _ _ => rfl, fun cell hc => ⟨[], by simpa using hc, by simp⟩,
      Or.inl rfl⟩
  split at h
  · cases h
    exact triv
  · rename_i words hm
    unfold EarleyChart.get_word at h
    rcases Option.eq_none_or_eq_some (p.chart.tokens[item.to_]?) with hw | ⟨word, hw⟩
    · rw [hw] at h
      cases h
    · rw [hw] at h
      simp only at h
      by_cases hin : word ∈ words
      · rw [if_pos hin] at h
        simp only [Rule.construct, List.length_cons, List.length_nil, Nat.reduceAdd,
          Nat.one_le_ofNat, if_true] at h
        unfold EarleyChart.cellInsertAll at h
        rcases Option.eq_none_or_eq_some (p.chart.chart[item.to_ + 1]?) with hc | ⟨cell0, hc⟩
        · rw [hc] at h
          cases h
        · rw [hc] at h
          simp only [Except.ok.injEq] at h
          subst h
          have hlt : item.to_ + 1 < p.chart.chart.length := by
            by_contra hn
            rw [List.getElem?_eq_none (by omega)] at hc
            cases hc
          refine ⟨rfl, rfl, rfl, by simp, ?_, ?_, Or.inr ⟨word, hw, rfl, hlt⟩⟩
          · intro j hj
            simp only
            rw [List.getElem?_set_ne (Ne.symm hj)]
          · intro cell hcell
            rw [hc] at hcell
            simp only [Option.some.injEq] at hcell
            subst hcell
            simp only
            rw [List.getElem?_set_self hlt]
            simp only [itemsetInsertAll, List.foldl_cons, List.foldl_nil, Nat.cast_ofNat]
            unfold itemsetInsert
            split
            · exact ⟨[], by simp, by simp⟩
            · refine ⟨_, rfl, ?_⟩
              intro y hy
              simp only [List.mem_singleton] at hy
              exact ⟨word, hw, hy⟩
      · rw [if_neg hin] at h
        cases h
        exact triv

/-- `merge(index)` moves `to_process` into cell `index` and the two buffers
into `to_process`. -/
theorem EarleyParser.merge_frame (p : EarleyParser) (index : Nat) (q : EarleyParser)
    (h : p.merge index = .ok q) :
    ∃ cell, p.chart.chart[index]? = some cell ∧
      q = { p with
        chart := { p.chart with
          chart := (p.chart.chart.set index (itemsetInsertAll cell p.to_process)) },
        to_process := itemsetInsertAll (itemsetInsertAll [] p.predict_buffer) p.complete_buffer,
        complete_buffer := [], predict_buffer := [] } := by
  unfold EarleyParser.merge EarleyChart.cellInsertAll at h
  cases hc : p.chart.chart[index]? with
  | none =>
    rw [hc] at h
    cases h
  | some cell =>
    rw [hc] at h
    simp only [Except.ok.injEq] at h
    exact ⟨cell, rfl, h.symm⟩

/-! ## Invariants of the points of a run -/

theorem EarleyItem.complete_false_lt (it : EarleyItem) (h : it.complete = false) :
    it.dot + 1 ≤ it.rule.get_rhs.length := by
  unfold EarleyItem.complete at h
  simp only [decide_eq_false_iff_not, not_le] at h
  omega

/-- One iteration of the `for` loop keeps the invariant. -/
theorem ParsePoint.Inv_item (n k : Nat) (p : EarleyParser) (np nc : Bool) (item : EarleyItem)
    (rest : List EarleyItem) (st : EarleyParser × Bool × Bool)
    (hi : ParsePoint.Inv n ⟨k, p, np, nc, item :: rest, true⟩)
    (h : EarleyParser.processItem (p, np, nc) item = .ok st) :
    ParsePoint.Inv n ⟨k, st.1, st.2.1, st.2.2, rest, true⟩ ∧ st.1.to_process = p.to_process := by
  obtain ⟨i1, i2, i3, i4, i5, i6, i7, _⟩ := hi
  simp only at i1 i2 i3 i4 i5 i6
  have i7 : k ≤ n := i7 rfl
  have hit : item ∈ p.to_process := i6 item (List.mem_cons_self _ _)
  obtain ⟨hto, hfrom, hdot⟩ := i3 item (Or.inl hit)
  unfold EarleyParser.processItem at h
  simp only at h
  -- the state after the call of `predict`, if any
  have key : ∀ (p1 : EarleyParser) (new_p : Bool),
      (if (if p.grammar.soverload = true then !item.complete
          else !item.complete && !decide (item.next ∈ p.tags)) = true then
        match p.predict item with
        | .ok (b, p1) => Except.ok (p1, np || b)
        | .error e => .error e
      else .ok (p, np)) = .ok (p1, new_p) →
      p1 = { p with predict_buffer := p1.predict_buffer } ∧
        (∀ y ∈ p1.predict_buffer, y.to_ = k ∧ y.InBounds) ∧
        (new_p = false → p1.predict_buffer = []) := by
    intro p1 new_p hp
    by_cases hcnd : (if p.grammar.soverload = true then !item.complete
        else !item.complete && !decide (item.next ∈ p.tags)) = true
    · rw [if_pos hcnd] at hp
      rcases hpr : p.predict item with e | ⟨b, p1'⟩
      · rw [hpr] at hp
        cases hp
      · rw [hpr] at hp
        simp only [Except.ok.injEq, Prod.mk.injEq] at hp
        obtain ⟨e1, e2⟩ := hp
        subst e1
        subst e2
        obtain ⟨a1, a2, _, _, a5, _⟩ := EarleyParser.predictLoop_frame _ _ _ _ _ _ hpr
        refine ⟨a1, ?_, ?_⟩
        · intro y hy
          rcases a2 y hy with h1 | ⟨r, _, e⟩
          · exact i3 y (Or.inr (Or.inl h1))
          · subst e
            exact ⟨hto, le_refl _, Nat.zero_le _⟩
        · intro hf
          simp only [Bool.or_eq_false_iff] at hf
          rw [a5 hf.2]
          exact i4 hf.1
    · rw [if_neg hcnd] at hp
      simp only [Except.ok.injEq, Prod.mk.injEq] at hp
      obtain ⟨e1, e2⟩ := hp
      subst e1
      subst e2
      exact ⟨rfl, fun y hy => i3 y (Or.inr (Or.inl hy)), i4⟩
  split at h
  · cases h
  · rename_i p1 new_p hp
    obtain ⟨k1, k2, k3⟩ := key p1 new_p hp
    have f1 : p1.chart = p.chart := by rw [k1]
    have f2 : p1.to_process = p.to_process := by rw [k1]
    have f3 : p1.complete_buffer = p.complete_buffer := by rw [k1]
    split at h
    · -- scan
      split at h
      · rename_i p2 hs
        simp only [Except.ok.injEq] at h
        subst h
        obtain ⟨s1, _, _, s4, s5, s6, _⟩ := EarleyParser.scan_frame p1 item p2 hs
        have g1 : p2.to_process = p.to_process := by rw [s1]; exact f2
        have g2 : p2.predict_buffer = p1.predict_buffer := by rw [s1]
        have g3 : p2.complete_buffer = p.complete_buffer := by rw [s1]; exact f3
        refine ⟨⟨?_, ?_, ?_, ?_, ?_, ?_, fun _ => i7, fun hh => by cases hh⟩, g1⟩
        · simp only
          rw [s4, f1]
          exact i1
        · intro j cell hc it hin
          simp only at hc
          by_cases hj : j = item.to_ + 1
          · subst hj
            have hlt : item.to_ + 1 < p1.chart.chart.length := by
              by_contra hn
              have : item.to_ + 1 < p2.chart.chart.length := by
                by_contra hn2
                rw [List.getElem?_eq_none (by omega)] at hc
                cases hc
              omega
            obtain ⟨ext, e1, e2⟩ := s6 _ (List.getElem?_eq_getElem hlt)
            rw [e1] at hc
            simp only [Option.some.injEq] at hc
            subst hc
            rcases List.mem_append.1 hin with h1 | h1
            · apply i2 (item.to_ + 1) (p1.chart.chart[item.to_ + 1])
              · rw [← f1]
                exact List.getElem?_eq_getElem hlt
              · exact h1
            · obtain ⟨word, _, e⟩ := e2 it h1
              subst e
              refine ⟨rfl, Nat.le_succ _, ?_⟩
              simp [Rule.get_rhs]
          · rw [s5 j hj, f1] at hc
            exact i2 j cell hc it hin
        · intro it hin
          simp only at hin ⊢
          rw [g1, g2, g3] at hin
          rcases hin with h1 | h1 | h1
          · exact i3 it (Or.inl h1)
          · exact k2 it h1
          · exact i3 it (Or.inr (Or.inr h1))
        · intro hf
          simp only at hf ⊢
          rw [g2]
          exact k3 hf
        · intro hf
          simp only at hf ⊢
          rw [g3]
          exact i5 hf
        · intro it hin
          simp only at hin ⊢
          rw [g1]
          exact i6 it (List.mem_cons_of_mem _ hin)
      · cases h
    · split at h
      · -- complete
        rename_i hcomp
        split at h
        · rename_i b p2 hc
          simp only [Except.ok.injEq] at h
          subst h
          unfold EarleyParser.complete at hc
          split at hc
          · cases hc
          · rename_i cell hcell
            obtain ⟨c1, c2, _, _, c5, _⟩ :=
              EarleyParser.completeLoop_frame item cell false p1 b p2 hc
            have hcell2 : p.chart.chart[item.from_]? = some cell := by
              unfold EarleyChart.cell at hcell
              rw [f1] at hcell
              split at hcell
              · cases hcell
              · rename_i cc hcc
                simp only [Except.ok.injEq] at hcell
                rw [hcc, hcell]
            have g1 : p2.to_process = p.to_process := by rw [c1]; exact f2
            have g2 : p2.predict_buffer = p1.predict_buffer := by rw [c1]
            have g4 : p2.chart = p.chart := by rw [c1]; exact f1
            refine ⟨⟨?_, ?_, ?_, ?_, ?_, ?_, fun _ => i7, fun hh => by cases hh⟩, g1⟩
            · simp only
              rw [g4]
              exact i1
            · intro j cl hj it hin
              simp only at hj
              rw [g4] at hj
              exact i2 j cl hj it hin
            · intro it hin
              simp only at hin ⊢
              rw [g1, g2] at hin
              rcases hin with h1 | h1 | h1
              · exact i3 it (Or.inl h1)
              · exact k2 it h1
              · rcases c2 it h1 with h2 | ⟨item2, hi2, hinc, _, e⟩
                · rw [f3] at h2
                  exact i3 it (Or.inr (Or.inr h2))
                · subst e
                  obtain ⟨t2, b1, _⟩ := i2 _ cell hcell2 item2 hi2
                  refine ⟨hto, ?_, EarleyItem.complete_false_lt item2 hinc⟩
                  simp only
                  omega
            · intro hf
              simp only at hf ⊢
              rw [g2]
              exact k3 hf
            · intro hf
              simp only [Bool.or_eq_false_iff] at hf
              simp only
              rw [c5 hf.2, f3]
              exact i5 hf.1
            · intro it hin
              simp only at hin ⊢
              rw [g1]
              exact i6 it (List.mem_cons_of_mem _ hin)
        · cases h
      · simp only [Except.ok.injEq] at h
        subst h
        refine ⟨⟨?_, ?_, ?_, k3, ?_, ?_, fun _ => i7, fun hh => by cases hh⟩, f2⟩
        · simp only
          rw [f1]
          exact i1
        · intro j cl hj it hin
          simp only at hj
          rw [f1] at hj
          exact i2 j cl hj it hin
        · intro it hin
          simp only at hin ⊢
          rw [f2, f3] at hin
          rcases hin with h1 | h1 | h1
          · exact i3 it (Or.inl h1)
          · exact k2 it h1
          · exact i3 it (Or.inr (Or.inr h1))
        · intro hf
          simp only at hf ⊢
          rw [f3]
          exact i5 hf
        · intro it hin
          simp only at hin ⊢
          rw [f2]
          exact i6 it (List.mem_cons_of_mem _ hin)


theorem ParsePoint.Inv_merge (n k : Nat) (p p2 : EarleyParser) (np nc : Bool)
    (hi : ParsePoint.Inv n ⟨k, p, np, nc, [], true⟩) (hm : p.merge k = .ok p2) :
    ParsePoint.Inv n ⟨k, p2, false, false, p2.to_process, true⟩ ∧
      ((np || nc) = false → p2.to_process = []) := by
  obtain ⟨i1, i2, i3, i4, i5, _, i7, _⟩ := hi
  simp only at i1 i2 i3 i4 i5
  have i7 : k ≤ n := i7 rfl
  obtain ⟨cell, hc, e⟩ := EarleyParser.merge_frame p k p2 hm
  subst e
  refine ⟨⟨by simpa using i1, ?_, ?_, fun _ => rfl, fun _ => rfl, fun it h => h, fun _ => i7,
    fun hh => by cases hh⟩, ?_⟩
  · intro j cl hj it hin
    simp only at hj
    by_cases hjk : j = k
    · subst hjk
      rw [List.getElem?_set_self (by omega)] at hj
      simp only [Option.some.injEq] at hj
      subst hj
      rcases mem_itemsetInsertAll _ _ _ hin with h1 | h1
      · exact i2 j cell hc it h1
      · exact i3 it (Or.inl h1)
    · rw [List.getElem?_set_ne (Ne.symm hjk)] at hj
      exact i2 j cl hj it hin
  · intro it hin
    simp only [List.not_mem_nil, or_false] at hin
    rcases mem_itemsetInsertAll _ _ _ hin with h1 | h1
    · rcases mem_itemsetInsertAll _ _ _ h1 with h2 | h2
      · simp at h2
      · exact i3 it (Or.inr (Or.inl h2))
    · exact i3 it (Or.inr (Or.inr h1))
  · intro hf
    simp only [Bool.or_eq_false_iff] at hf
    simp only
    rw [i4 hf.1, i5 hf.2]
    rfl

/-- Every point of a run of `parse` on a parser whose working sets are empty
satisfies the invariant. -/
theorem EarleyParser.Reaches_inv (p0 : EarleyParser) (w : List ES)
    (h0 : p0.to_process = [] ∧ p0.predict_buffer = [] ∧ p0.complete_buffer = [])
    (pt : ParsePoint) (h : EarleyParser.Reaches p0 w pt) : ParsePoint.Inv w.length pt := by
  induction h with
  | start c cell hc hs hcell =>
    rw [EarleyChart.initialise_clear] at hc
    simp only [Except.ok.injEq] at hc
    subst hc
    simp only [EarleyChart.cell, List.getElem?_cons_zero, Except.ok.injEq] at hcell
    subst hcell
    rw [h0.1]
    have hmem : ∀ it ∈ itemsetInsertAll [] [(⟨0, 0, 0, p0.grammar.start⟩ : EarleyItem)],
        it.to_ = 0 ∧ it.InBounds := by
      intro it hin
      rcases mem_itemsetInsertAll _ _ _ hin with h1 | h1
      · simp at h1
      · simp only [List.mem_singleton] at h1
        subst h1
        exact ⟨rfl, le_refl _, Nat.zero_le _⟩
    refine ⟨by simp, ?_, ?_, fun _ => h0.2.1, fun _ => h0.2.2, fun it h => h,
      fun _ => Nat.zero_le _, fun hh => by cases hh⟩
    · intro j cl hj it hin
      simp only at hj
      cases j with
      | zero =>
        simp only [List.getElem?_cons_zero, Option.some.injEq] at hj
        subst hj
        simp only [List.mem_singleton] at hin
        subst hin
        exact ⟨rfl, le_refl _, Nat.zero_le _⟩
      | succ j =>
        simp only [List.getElem?_cons_succ] at hj
        rw [List.getElem?_replicate] at hj
        split at hj
        · simp only [Option.some.injEq] at hj
          subst hj
          simp at hin
        · cases hj
    · intro it hin
      simp only at hin
      rw [h0.2.1, h0.2.2] at hin
      simp only [List.not_mem_nil, or_false] at hin
      exact hmem it hin
  | item pt item rest st _ hr ht hp ih =>
    obtain ⟨k, p, np, nc, todo, running⟩ := pt
    simp only at hr ht hp
    subst hr
    subst ht
    exact (ParsePoint.Inv_item w.length k p np nc item rest st ih hp).1
  | again pt p2 _ hr ht _ hm ih =>
    obtain ⟨k, p, np, nc, todo, running⟩ := pt
    simp only at hr ht hm
    subst hr
    subst ht
    exact (ParsePoint.Inv_merge w.length k p p2 np nc ih hm).1
  | next pt p2 cell _ hr ht hf hm hlt hcell ih =>
    obtain ⟨k, p, np, nc, todo, running⟩ := pt
    simp only at hr ht hm hf hlt hcell
    subst hr
    subst ht
    obtain ⟨⟨i1, i2, i3, _, _, _, _, _⟩, he⟩ := ParsePoint.Inv_merge w.length k p p2 np nc ih hm
    simp only at i1 i2 i3
    have he := he hf
    unfold EarleyChart.size at hlt
    have hc2 : p2.chart.chart[k + 1]? = some cell := by
      unfold EarleyChart.cell at hcell
      split at hcell
      · cases hcell
      · rename_i cc hcc
        simp only [Except.ok.injEq] at hcell
        rw [hcc, hcell]
    have hpb : p2.predict_buffer = [] ∧ p2.complete_buffer = [] := by
      obtain ⟨_, _, e⟩ := EarleyParser.merge_frame p k p2 hm
      rw [e]
      exact ⟨rfl, rfl⟩
    refine ⟨i1, i2, ?_, fun _ => hpb.1, fun _ => hpb.2, fun it h => h,
      fun _ => (by show k + 1 ≤ w.length; omega), fun hh => by cases hh⟩
    intro it hin
    simp only at hin
    rw [hpb.1, hpb.2, he] at hin
    simp only [List.not_mem_nil, or_false] at hin
    rcases mem_itemsetInsertAll _ _ _ hin with h1 | h1
    · simp at h1
    · exact i2 (k + 1) cell hc2 it h1
  | done pt p2 _ hr ht hf hm _ ih =>
    obtain ⟨k, p, np, nc, todo, running⟩ := pt
    simp only at hr ht hm hf
    subst hr
    subst ht
    obtain ⟨⟨i1, i2, i3, _, _, _, _, _⟩, he⟩ := ParsePoint.Inv_merge w.length k p p2 np nc ih hm
    simp only at i1 i2 i3
    have he := he hf
    have hpb : p2.predict_buffer = [] ∧ p2.complete_buffer = [] := by
      obtain ⟨_, _, e⟩ := EarleyParser.merge_frame p k p2 hm
      rw [e]
      exact ⟨rfl, rfl⟩
    refine ⟨i1, i2, ?_, fun _ => hpb.1, fun _ => hpb.2, (fun it h => by simp at h),
      (fun hh => by cases hh), fun _ => ⟨he, hpb.1, hpb.2⟩⟩
    intro it hin
    simp only at hin
    rw [hpb.1, hpb.2, he] at hin
    simp at hin


/-! ## The states of `parse` are points of the run -/

theorem EarleyParser.processAll_reaches (p0 : EarleyParser) (w : List ES) (k : Nat)
    (items : List EarleyItem) (p : EarleyParser) (np nc : Bool)
    (st : EarleyParser × Bool × Bool)
    (hr : EarleyParser.Reaches p0 w ⟨k, p, np, nc, items, true⟩)
    (h : EarleyParser.processAll items (p, np, nc) = .ok st) :
    EarleyParser.Reaches p0 w ⟨k, st.1, st.2.1, st.2.2, [], true⟩ := by
  induction items generalizing p np nc with
  | nil =>
    simp only [EarleyParser.processAll, Except.ok.injEq] at h
    subst h
    exact hr
  | cons item rest ih =>
    rw [EarleyParser.processAll] at h
    rcases hpi : EarleyParser.processItem (p, np, nc) item with e | st1
    · rw [hpi] at h
      cases h
    · rw [hpi] at h
      simp only at h
      obtain ⟨p1, np1, nc1⟩ := st1
      exact ih p1 np1 nc1 (EarleyParser.Reaches.item _ item rest _ hr rfl rfl hpi) h

theorem EarleyParser.fixpoint_reaches (p0 : EarleyParser) (w : List ES) (k fuel : Nat)
    (p q : EarleyParser)
    (hr : EarleyParser.Reaches p0 w ⟨k, p, false, false, p.to_process, true⟩)
    (h : EarleyParser.fixpoint fuel k p = .ok q) :
    ∃ p1 np nc, EarleyParser.Reaches p0 w ⟨k, p1, np, nc, [], true⟩ ∧ (np || nc) = false ∧
      p1.merge k = .ok q := by
  induction fuel generalizing p with
  | zero =>
    simp only [EarleyParser.fixpoint] at h
    cases h
  | succ fuel ih =>
    rw [EarleyParser.fixpoint] at h
    rcases hpa : EarleyParser.processAll p.to_process (p, false, false) with e | st
    · rw [hpa] at h
      cases h
    · rw [hpa] at h
      obtain ⟨p1, np, nc⟩ := st
      simp only at h
      have hr1 := EarleyParser.processAll_reaches p0 w k _ p false false _ hr hpa
      simp only at hr1
      rcases hm : p1.merge k with e | p2
      · rw [hm] at h
        cases h
      · rw [hm] at h
        simp only at h
        by_cases hf : (np || nc) = true
        · rw [if_pos hf] at h
          exact ih p2 (EarleyParser.Reaches.again _ p2 hr1 rfl rfl hf hm) h
        · rw [if_neg hf] at h
          simp only [Except.ok.injEq] at h
          subst h
          exact ⟨p1, np, nc, hr1, by simpa using hf, hm⟩

theorem EarleyParser.sweepCells_reaches (p0 : EarleyParser) (w : List ES) (fuel cnt k : Nat)
    (p1 p q : EarleyParser) (np nc : Bool)
    (hr : EarleyParser.Reaches p0 w ⟨k, p1, np, nc, [], true⟩) (hf : (np || nc) = false)
    (hm : p1.merge k = .ok p)
    (h : EarleyParser.sweepCells fuel cnt (k + 1) p = .ok q) :
    ∃ k2, EarleyParser.Reaches p0 w ⟨k2, q, false, false, [], false⟩ := by
  induction cnt generalizing k p1 p np nc with
  | zero =>
    simp only [EarleyParser.sweepCells] at h
    split at h
    · cases h
    · rename_i hlt
      simp only [Except.ok.injEq] at h
      subst h
      exact ⟨k + 1, EarleyParser.Reaches.done _ p hr rfl rfl hf hm hlt⟩
  | succ cnt ih =>
    rw [EarleyParser.sweepCells] at h
    by_cases hlt : k + 1 < p.chart.size
    · rw [if_pos hlt] at h
      rcases hc : p.chart.cell (k + 1) with e | cell
      · rw [hc] at h
        cases h
      · rw [hc] at h
        simp only at h
        rcases hfx : EarleyParser.fixpoint fuel (k + 1)
            { p with to_process := itemsetInsertAll p.to_process cell } with e | p2
        · rw [hfx] at h
          cases h
        · rw [hfx] at h
          simp only at h
          have hr1 := EarleyParser.Reaches.next _ p cell hr rfl rfl hf hm hlt hc
          obtain ⟨p3, np3, nc3, r3, f3, m3⟩ :=
            EarleyParser.fixpoint_reaches p0 w (k + 1) fuel _ p2 hr1 hfx
          exact ih (k + 1) p3 p2 np3 nc3 r3 f3 m3 h
    · rw [if_neg hlt] at h
      simp only [Except.ok.injEq] at h
      subst h
      exact ⟨k + 1, EarleyParser.Reaches.done _ p hr rfl rfl hf hm hlt⟩

/-- The state in which `parse` returns is the last point of the run. -/
theorem EarleyParser.parse_reaches (p0 : EarleyParser) (w : List ES) (fuel : Nat) (b : Bool)
    (q : EarleyParser) (h : p0.parse fuel w = .ok (b, q)) :
    ∃ k, EarleyParser.Reaches p0 w ⟨k, q, false, false, [], false⟩ := by
  unfold EarleyParser.parse at h
  have hinit := EarleyChart.initialise_clear p0.chart w p0.grammar.start
  rw [hinit] at h
  simp only at h
  rcases hs : EarleyParser.sweepCells fuel (w.length + 1) 0
      { p0 with chart :=
        { chart := [⟨0, 0, 0, p0.grammar.start⟩] :: List.replicate w.length [],
          tokens := w ++ ["$"],
          final_item := ⟨p0.grammar.start.get_rhs.length, 0, w.length, p0.grammar.start⟩ } }
    with e | p1
  · simp only [EarleyChart.size, List.length_cons, List.length_replicate] at h
    rw [hs] at h
    cases h
  · simp only [EarleyChart.size, List.length_cons, List.length_replicate] at h
    rw [hs] at h
    simp only at h
    have hq : p1 = q := by
      split at h
      · cases h
      · simp only [Except.ok.injEq, Prod.mk.injEq] at h
        exact h.2
    subst hq
    rw [EarleyParser.sweepCells] at hs
    simp only [EarleyChart.size, List.length_cons, List.length_replicate, Nat.zero_lt_succ,
      if_true, EarleyChart.cell, List.getElem?_cons_zero] at hs
    rcases hfx : EarleyParser.fixpoint fuel 0
        { p0 with
          chart :=
            { chart := [⟨0, 0, 0, p0.grammar.start⟩] :: List.replicate w.length [],
              tokens := w ++ ["$"],
              final_item := ⟨p0.grammar.start.get_rhs.length, 0, w.length, p0.grammar.start⟩ },
          to_process := itemsetInsertAll p0.to_process [⟨0, 0, 0, p0.grammar.start⟩] }
      with e | p2
    · rw [hfx] at hs
      cases hs
    · rw [hfx] at hs
      simp only at hs
      have hr0 := @EarleyParser.Reaches.start p0 w _
        [⟨0, 0, 0, p0.grammar.start⟩] hinit (by simp [EarleyChart.size])
        (by simp [EarleyChart.cell])
      obtain ⟨p3, np3, nc3, r3, f3, m3⟩ := EarleyParser.fixpoint_reaches p0 w 0 fuel _ p2 hr0 hfx
      exact EarleyParser.sweepCells_reaches p0 w fuel w.length 0 p3 p2 p1 np3 nc3 r3 f3 m3 hs


theorem EarleyParser.parse_inv (p0 : EarleyParser) (w : List ES)
    (h0 : p0.to_process = [] ∧ p0.predict_buffer = [] ∧ p0.complete_buffer = [])
    (fuel : Nat) (b : Bool) (q : EarleyParser) (h : p0.parse fuel w = .ok (b, q)) :
    q.chart.chart.length = w.length + 1 ∧
      (∀ (j : Nat) (cell : List EarleyItem), q.chart.chart[j]? = some cell →
        ∀ it ∈ cell, it.to_ = j ∧ it.InBounds) ∧
      q.to_process = [] ∧ q.predict_buffer = [] ∧ q.complete_buffer = [] := by
  obtain ⟨k, hr⟩ := EarleyParser.parse_reaches p0 w fuel b q h
  obtain ⟨i1, i2, _, _, _, _, _, i8⟩ := EarleyParser.Reaches_inv p0 w h0 _ hr
  exact ⟨i1, i2, i8 rfl⟩

/-- C17. Cell/position invariant: on a parser whose working sets are empty (a
new parser, or one whose last call of `parse` has returned), at every point of
the run of `parse` and in the state in which it returns, every item stored in
chart cell `j` has `to = j`; this holds for every grammar, tag set,
tag-to-words map and sentence, in both builds. -/
theorem C17_cell_position (p0 : EarleyParser) (w : List ES)
    (h0 : p0.to_process = [] ∧ p0.predict_buffer = [] ∧ p0.complete_buffer = []) :
    (∀ pt, EarleyParser.Reaches p0 w pt →
      ∀ (j : Nat) (cell : List EarleyItem), pt.parser.chart.chart[j]? = some cell →
        ∀ it ∈ cell, it.to_ = j) ∧
    (∀ fuel b q, p0.parse fuel w = .ok (b, q) →
      (∃ k, EarleyParser.Reaches p0 w ⟨k, q, false, false, [], false⟩) ∧
        ∀ (j : Nat) (cell : List EarleyItem), q.chart.chart[j]? = some cell →
          ∀ it ∈ cell, it.to_ = j) :=
  ⟨fun pt hr j cell hc it hin => ((EarleyParser.Reaches_inv p0 w h0 pt hr).2.1 j cell hc it hin).1,
    fun fuel b q h => ⟨EarleyParser.parse_reaches p0 w fuel b q h,
      fun j cell hc it hin => ((EarleyParser.parse_inv p0 w h0 fuel b q h).2.1 j cell hc it hin).1⟩⟩

theorem C17_cell_position_witness :
    Grammar.construct false " " ["S --> NP VP", "NP --> Det N", "VP --> V NP"] "$" "S" "-->"
        = .ok (Grammar.mk false " " ⟨7, ["$", "S", "NP", "VP", "Det", "N", "V"]⟩ [] [] "-->" []
          ⟨[[0], [1]], 1⟩
          [([1], [⟨[[1], [2, 3]], 1⟩]), ([2], [⟨[[2], [4, 5]], 1⟩]), ([3], [⟨[[3], [6, 2]], 1⟩])]) ∧
      ∃ q, (EarleyParser.new
        (Grammar.mk false " " ⟨7, ["$", "S", "NP", "VP", "Det", "N", "V"]⟩ [] [] "-->" []
          ⟨[[0], [1]], 1⟩
          [([1], [⟨[[1], [2, 3]], 1⟩]), ([2], [⟨[[2], [4, 5]], 1⟩]), ([3], [⟨[[3], [6, 2]], 1⟩])])
        [4, 5, 6] [(4, ["the"]), (5, ["dog", "cat"]), (6, ["sees"])]).parse 20
          ["the", "dog", "sees", "the", "cat"] = .ok (true, q) ∧
        ∀ (j : Nat) (cell : List EarleyItem), q.chart.chart[j]? = some cell →
          ∀ it ∈ cell, it.to_ = j := by
  refine ⟨rfl, _, rfl, ?_⟩
  exact ((C17_cell_position
    (EarleyParser.new
        (Grammar.mk false " " ⟨7, ["$", "S", "NP", "VP", "Det", "N", "V"]⟩ [] [] "-->" []
          ⟨[[0], [1]], 1⟩
          [([1], [⟨[[1], [2, 3]], 1⟩]), ([2], [⟨[[2], [4, 5]], 1⟩]), ([3], [⟨[[3], [6, 2]], 1⟩])])
      [4, 5, 6] [(4, ["the"]), (5, ["dog", "cat"]), (6, ["sees"])])
    ["the", "dog", "sees", "the", "cat"] ⟨rfl, rfl, rfl⟩).2 20 true _ rfl).2

/-- C18. Item bounds invariant: on a parser whose working sets are empty, at
every point of the run of `parse` on a sentence of `n` tokens and in the state
in which it returns, every item in the chart satisfies `from <= to <= n` and
`dot <= |RHS(rule)|` (positions and dots are natural numbers, so `0 <=` holds
by type); this holds for every grammar, in particular for those whose rules
have a non-empty right-hand side. -/
theorem C18_item_bounds (p0 : EarleyParser) (w : List ES)
    (h0 : p0.to_process = [] ∧ p0.predict_buffer = [] ∧ p0.complete_buffer = []) :
    (∀ pt, EarleyParser.Reaches p0 w pt →
      ∀ (j : Nat) (cell : List EarleyItem), pt.parser.chart.chart[j]? = some cell →
        ∀ it ∈ cell, it.from_ ≤ it.to_ ∧ it.to_ ≤ w.length ∧
          it.dot ≤ it.rule.get_rhs.length) ∧
    (∀ fuel b q, p0.parse fuel w = .ok (b, q) →
      ∀ (j : Nat) (cell : List EarleyItem), q.chart.chart[j]? = some cell →
        ∀ it ∈ cell, it.from_ ≤ it.to_ ∧ it.to_ ≤ w.length ∧
          it.dot ≤ it.rule.get_rhs.length) := by
  have key : ∀ pt, ParsePoint.Inv w.length pt →
      ∀ (j : Nat) (cell : List EarleyItem), pt.parser.chart.chart[j]? = some cell →
        ∀ it ∈ cell, it.from_ ≤ it.to_ ∧ it.to_ ≤ w.length ∧
          it.dot ≤ it.rule.get_rhs.length := by
    intro pt hi j cell hc it hin
    obtain ⟨i1, i2, _⟩ := hi
    obtain ⟨a, b, c⟩ := i2 j cell hc it hin
    have hj : j < pt.parser.chart.chart.length := by
      by_contra hn
      rw [List.getElem?_eq_none (by omega)] at hc
      cases hc
    exact ⟨b, by omega, c⟩
  refine ⟨fun pt hr => key pt (EarleyParser.Reaches_inv p0 w h0 pt hr), fun fuel b q h => ?_⟩
  obtain ⟨k, hr⟩ := EarleyParser.parse_reaches p0 w fuel b q h
  exact key _ (EarleyParser.Reaches_inv p0 w h0 _ hr)

theorem C18_item_bounds_witness :
    Grammar.construct false " " ["S --> NP VP", "NP --> Det N", "VP --> V NP"] "$" "S" "-->"
        = .ok (Grammar.mk false " " ⟨7, ["$", "S", "NP", "VP", "Det", "N", "V"]⟩ [] [] "-->" []
          ⟨[[0], [1]], 1⟩
          [([1], [⟨[[1], [2, 3]], 1⟩]), ([2], [⟨[[2], [4, 5]], 1⟩]), ([3], [⟨[[3], [6, 2]], 1⟩])]) ∧
      ∃ q, (EarleyParser.new
        (Grammar.mk false " " ⟨7, ["$", "S", "NP", "VP", "Det", "N", "V"]⟩ [] [] "-->" []
          ⟨[[0], [1]], 1⟩
          [([1], [⟨[[1], [2, 3]], 1⟩]), ([2], [⟨[[2], [4, 5]], 1⟩]), ([3], [⟨[[3], [6, 2]], 1⟩])])
        [4, 5, 6] [(4, ["the"]), (5, ["dog", "cat"]), (6, ["sees"])]).parse 20
          ["the", "dog", "sees", "the", "cat"] = .ok (true, q) ∧
        ∀ (j : Nat) (cell : List EarleyItem), q.chart.chart[j]? = some cell →
          ∀ it ∈ cell, it.from_ ≤ it.to_ ∧ it.to_ ≤ ["the", "dog", "sees", "the", "cat"].length ∧
            it.dot ≤ it.rule.get_rhs.length := by
  refine ⟨rfl, _, rfl, ?_⟩
  exact (C18_item_bounds
    (EarleyParser.new
        (Grammar.mk false " " ⟨7, ["$", "S", "NP", "VP", "Det", "N", "V"]⟩ [] [] "-->" []
          ⟨[[0], [1]], 1⟩
          [([1], [⟨[[1], [2, 3]], 1⟩]), ([2], [⟨[[2], [4, 5]], 1⟩]), ([3], [⟨[[3], [6, 2]], 1⟩])])
      [4, 5, 6] [(4, ["the"]), (5, ["dog", "cat"]), (6, ["sees"])])
    ["the", "dog", "sees", "the", "cat"] ⟨rfl, rfl, rfl⟩).2 20 true _ rfl

/-! ## Repeatability of `parse` -/

theorem EarleyParser.Later.same (p : EarleyParser) (h : p.grammar.InternWF) : p.Later p :=
  ⟨Grammar.Ext.ext_refl _, h, rfl, rfl, rfl, rfl⟩

theorem EarleyParser.Later.of_eq (p q : EarleyParser) (hw : p.grammar.InternWF)
    (h1 : q.grammar = p.grammar) (h2 : q.tags = p.tags) (h3 : q.pwm = p.pwm)
    (h4 : q.scanned_buffer = p.scanned_buffer) : p.Later q := by
  unfold EarleyParser.Later
  rw [h1]
  exact ⟨Grammar.Ext.ext_refl _, hw, rfl, h2, h3, h4⟩

theorem EarleyParser.Later.chain {p q r : EarleyParser} (a : p.Later q) (b : q.Later r) :
    p.Later r :=
  ⟨a.1.ext_trans b.1, b.2.1, b.2.2.1.trans a.2.2.1, b.2.2.2.1.trans a.2.2.2.1,
    b.2.2.2.2.1.trans a.2.2.2.2.1, b.2.2.2.2.2.trans a.2.2.2.2.2⟩

theorem EarleyParser.scan_later (p : EarleyParser) (item : EarleyItem) (q : EarleyParser)
    (h : p.scan item = .ok q) (hw : p.grammar.InternWF) : p.Later q := by
  obtain ⟨s1, _, _, _, _, _, s7⟩ := EarleyParser.scan_frame p item q h
  have e1 : q.tags = p.tags := by rw [s1]
  have e2 : q.pwm = p.pwm := by rw [s1]
  have e3 : q.scanned_buffer = p.scanned_buffer := by rw [s1]
  rcases s7 with e | ⟨word, _, e, _⟩
  · exact EarleyParser.Later.of_eq p q hw e e1 e2 e3
  · obtain ⟨a, b, c, _⟩ := Grammar.translate_to_is_spec p.grammar hw word
    unfold EarleyParser.Later
    rw [e]
    exact ⟨b, a, c, e1, e2, e3⟩

theorem EarleyParser.processItem_later (st : EarleyParser × Bool × Bool) (item : EarleyItem)
    (st2 : EarleyParser × Bool × Bool) (h : EarleyParser.processItem st item = .ok st2)
    (hw : st.1.grammar.InternWF) : st.1.Later st2.1 := by
  obtain ⟨p, np, nc⟩ := st
  simp only at hw ⊢
  unfold EarleyParser.processItem at h
  simp only at h
  have key : ∀ (p1 : EarleyParser) (new_p : Bool),
      (if (if p.grammar.soverload = true then !item.complete
          else !item.complete && !decide (item.next ∈ p.tags)) = true then
        match p.predict item with
        | .ok (b, p1) => Except.ok (p1, np || b)
        | .error e => .error e
      else .ok (p, np)) = .ok (p1, new_p) →
      p1 = { p with predict_buffer := p1.predict_buffer } := by
    intro p1 new_p hp
    by_cases hcnd : (if p.grammar.soverload = true then !item.complete
        else !item.complete && !decide (item.next ∈ p.tags)) = true
    · rw [if_pos hcnd] at hp
      rcases hpr : p.predict item with e | ⟨b, p1'⟩
      · rw [hpr] at hp
        cases hp
      · rw [hpr] at hp
        simp only [Except.ok.injEq, Prod.mk.injEq] at hp
        obtain ⟨e1, e2⟩ := hp
        subst e1
        exact (EarleyParser.predictLoop_frame _ _ _ _ _ _ hpr).1
    · rw [if_neg hcnd] at hp
      simp only [Except.ok.injEq, Prod.mk.injEq] at hp
      rw [← hp.1]
  split at h
  · cases h
  · rename_i p1 new_p hp
    have k1 := key p1 new_p hp
    have l1 : p.Later p1 :=
      EarleyParser.Later.of_eq p p1 hw (by rw [k1]) (by rw [k1]) (by rw [k1]) (by rw [k1])
    split at h
    · split at h
      · rename_i p2 hs
        simp only [Except.ok.injEq] at h
        subst h
        exact l1.chain (EarleyParser.scan_later p1 item p2 hs l1.2.1)
      · cases h
    · split at h
      · split at h
        · rename_i b p2 hc
          simp only [Except.ok.injEq] at h
          subst h
          unfold EarleyParser.complete at hc
          split at hc
          · cases hc
          · obtain ⟨c1, _⟩ := EarleyParser.completeLoop_frame _ _ _ _ _ _ hc
            exact l1.chain (EarleyParser.Later.of_eq p1 p2 l1.2.1 (by rw [c1]) (by rw [c1])
              (by rw [c1]) (by rw [c1]))
        · cases h
      · simp only [Except.ok.injEq] at h
        subst h
        exact l1

theorem EarleyParser.processAll_later (items : List EarleyItem)
    (st st2 : EarleyParser × Bool × Bool) (h : EarleyParser.processAll items st = .ok st2)
    (hw : st.1.grammar.InternWF) : st.1.Later st2.1 := by
  induction items generalizing st with
  | nil =>
    simp only [EarleyParser.processAll, Except.ok.injEq] at h
    subst h
    exact EarleyParser.Later.same _ hw
  | cons item rest ih =>
    rw [EarleyParser.processAll] at h
    rcases hpi : EarleyParser.processItem st item with e | st1
    · rw [hpi] at h
      cases h
    · rw [hpi] at h
      simp only at h
      have l1 := EarleyParser.processItem_later st item st1 hpi hw
      exact l1.chain (ih st1 h l1.2.1)

theorem EarleyParser.merge_later (p : EarleyParser) (index : Nat) (q : EarleyParser)
    (h : p.merge index = .ok q) (hw : p.grammar.InternWF) : p.Later q := by
  obtain ⟨cell, _, e⟩ := EarleyParser.merge_frame p index q h
  exact EarleyParser.Later.of_eq p q hw (by rw [e]) (by rw [e]) (by rw [e]) (by rw [e])

theorem EarleyParser.fixpoint_later (fuel k : Nat) (p q : EarleyParser)
    (h : EarleyParser.fixpoint fuel k p = .ok q) (hw : p.grammar.InternWF) : p.Later q := by
  induction fuel generalizing p with
  | zero =>
    simp only [EarleyParser.fixpoint] at h
    cases h
  | succ fuel ih =>
    rw [EarleyParser.fixpoint] at h
    rcases hpa : EarleyParser.processAll p.to_process (p, false, false) with e | st
    · rw [hpa] at h
      cases h
    · rw [hpa] at h
      obtain ⟨p1, np, nc⟩ := st
      simp only at h
      have l1 : p.Later p1 := EarleyParser.processAll_later _ _ _ hpa hw
      rcases hm : p1.merge k with e | p2
      · rw [hm] at h
        cases h
      · rw [hm] at h
        simp only at h
        have l2 := l1.chain (EarleyParser.merge_later p1 k p2 hm l1.2.1)
        by_cases hf : (np || nc) = true
        · rw [if_pos hf] at h
          exact l2.chain (ih p2 h l2.2.1)
        · rw [if_neg hf] at h
          simp only [Except.ok.injEq] at h
          subst h
          exact l2

theorem EarleyParser.sweepCells_later (fuel cnt index : Nat) (p q : EarleyParser)
    (h : EarleyParser.sweepCells fuel cnt index p = .ok q) (hw : p.grammar.InternWF) :
    p.Later q := by
  induction cnt generalizing index p with
  | zero =>
    simp only [EarleyParser.sweepCells] at h
    split at h
    · cases h
    · simp only [Except.ok.injEq] at h
      subst h
      exact EarleyParser.Later.same _ hw
  | succ cnt ih =>
    rw [EarleyParser.sweepCells] at h
    by_cases hlt : index < p.chart.size
    · rw [if_pos hlt] at h
      rcases hc : p.chart.cell index with e | cell
      · rw [hc] at h
        cases h
      · rw [hc] at h
        simp only at h
        rcases hfx : EarleyParser.fixpoint fuel index
            { p with to_process := itemsetInsertAll p.to_process cell } with e | p2
        · rw [hfx] at h
          cases h
        · rw [hfx] at h
          simp only at h
          have l1 : p.Later p2 := by
            have := EarleyParser.fixpoint_later fuel index _ p2 hfx hw
            exact this
          exact l1.chain (ih (index + 1) p2 h l1.2.1)
    · rw [if_neg hlt] at h
      simp only [Except.ok.injEq] at h
      subst h
      exact EarleyParser.Later.same _ hw

theorem EarleyParser.parse_later (fuel : Nat) (p : EarleyParser) (w : List ES) (b : Bool)
    (q : EarleyParser) (h : p.parse fuel w = .ok (b, q)) (hw : p.grammar.InternWF) :
    p.Later q := by
  unfold EarleyParser.parse at h
  rw [EarleyChart.initialise_clear] at h
  simp only at h
  split at h
  · cases h
  · rename_i p1 hs
    split at h
    · cases h
    · simp only [Except.ok.injEq, Prod.mk.injEq] at h
      rw [← h.2]
      have := EarleyParser.sweepCells_later _ _ _ _ _ hs hw
      exact this

theorem EarleyParser.predictLoop_swap (item : EarleyItem) (rules : List Rule) (any_new : Bool)
    (p : EarleyParser) (b : Bool) (q : EarleyParser) (g2 : Grammar)
    (h : EarleyParser.predictLoop item rules any_new p = .ok (b, q))
    (hs : g2.soverload = p.grammar.soverload) (hl : g2.lexicon = p.grammar.lexicon) :
    EarleyParser.predictLoop item rules any_new { p with grammar := g2 }
      = .ok (b, { q with grammar := g2 }) := by
  induction rules generalizing any_new p with
  | nil =>
    simp only [EarleyParser.predictLoop, Except.ok.injEq, Prod.mk.injEq] at h ⊢
    obtain ⟨h1, h2⟩ := h
    subst h1
    subst h2
    exact ⟨rfl, rfl⟩
  | cons r rest ih =>
    rw [EarleyParser.predictLoop] at h ⊢
    simp only [Grammar.is_word, hs, hl] at h ⊢
    by_cases hc : (p.grammar.soverload && decide (r.get_rhs.headD 0 ∈ p.grammar.lexicon)) = true
    · rw [if_pos hc] at h ⊢
      exact ih any_new p h hs hl
    · rw [if_neg hc] at h ⊢
      rcases hcon : p.chart.contains item.to_ ⟨0, item.to_, item.to_, r⟩ with e | c
      · rw [hcon] at h
        cases h
      · rw [hcon] at h
        simp only at h ⊢
        by_cases hn : (!c && !itemsetContains p.to_process ⟨0, item.to_, item.to_, r⟩ &&
            !itemsetContains p.predict_buffer ⟨0, item.to_, item.to_, r⟩) = true
        · rw [if_pos hn] at h ⊢
          exact ih true _ h hs hl
        · rw [if_neg hn] at h ⊢
          exact ih any_new p h hs hl

theorem EarleyParser.completeLoop_swap (item : EarleyItem) (cell : List EarleyItem)
    (any_new : Bool) (p : EarleyParser) (b : Bool) (q : EarleyParser) (g2 : Grammar)
    (h : EarleyParser.completeLoop item cell any_new p = .ok (b, q)) :
    EarleyParser.completeLoop item cell any_new { p with grammar := g2 }
      = .ok (b, { q with grammar := g2 }) := by
  induction cell generalizing any_new p with
  | nil =>
    simp only [EarleyParser.completeLoop, Except.ok.injEq, Prod.mk.injEq] at h ⊢
    obtain ⟨h1, h2⟩ := h
    subst h1
    subst h2
    exact ⟨rfl, rfl⟩
  | cons item2 rest ih =>
    rw [EarleyParser.completeLoop] at h ⊢
    by_cases hc : (!item2.complete && decide (item.get_lhs = item2.next)) = true
    · rw [if_pos hc] at h ⊢
      simp only at h ⊢
      rcases hcon : p.chart.contains item.to_ ⟨item2.dot + 1, item2.from_, item.to_, item2.rule⟩
        with e | c
      · rw [hcon] at h
        cases h
      · rw [hcon] at h
        simp only at h ⊢
        by_cases hn : (!c && !itemsetContains p.to_process
              ⟨item2.dot + 1, item2.from_, item.to_, item2.rule⟩ &&
            !itemsetContains p.complete_buffer
              ⟨item2.dot + 1, item2.from_, item.to_, item2.rule⟩) = true
        · rw [if_pos hn] at h ⊢
          exact ih true _ h
        · rw [if_neg hn] at h ⊢
          exact ih any_new p h
    · rw [if_neg hc] at h ⊢
      exact ih any_new p h

theorem EarleyParser.merge_swap (p : EarleyParser) (index : Nat) (q : EarleyParser)
    (g2 : Grammar) (h : p.merge index = .ok q) :
    EarleyParser.merge { p with grammar := g2 } index = .ok { q with grammar := g2 } := by
  unfold EarleyParser.merge at h ⊢
  simp only at h ⊢
  rcases hc : p.chart.cellInsertAll index p.to_process with e | c
  · rw [hc] at h
    cases h
  · rw [hc] at h
    simp only [Except.ok.injEq] at h ⊢
    rw [← h]

/-- `scan` with the interner replaced by one that knows the scanned word under
the id the first run gave it. -/
theorem EarleyParser.scan_swap (p : EarleyParser) (item : EarleyItem) (q : EarleyParser)
    (g2 : Grammar) (h : p.scan item = .ok q) (hw : p.grammar.InternWF)
    (hx : ∀ x i, q.grammar.id_of x = some i → g2.id_of x = some i) :
    EarleyParser.scan { p with grammar := g2 } item = .ok { q with grammar := g2 } := by
  unfold EarleyParser.scan at h ⊢
  simp only at h ⊢
  rcases Option.eq_none_or_eq_some (mapFind p.pwm item.next) with hm | ⟨words, hm⟩
  · rw [hm] at h ⊢
    simp only [Except.ok.injEq] at h ⊢
    rw [← h]
  · rw [hm] at h ⊢
    simp only at h ⊢
    rcases hg : p.chart.get_word item.to_ with e | word
    · rw [hg] at h
      cases h
    · rw [hg] at h
      simp only at h ⊢
      by_cases hin : word ∈ words
      · rw [if_pos hin] at h ⊢
        simp only [Rule.construct, List.length_cons, List.length_nil, Nat.reduceAdd,
          Nat.one_le_ofNat, if_true] at h ⊢
        rcases hc : p.chart.cellInsertAll (item.to_ + 1)
            [⟨1, item.to_, item.to_ + 1,
              ⟨[[item.next], [(p.grammar.translate_to_is word).1]], (1 : Nat)⟩⟩] with e | c
        · rw [hc] at h
          cases h
        · rw [hc] at h
          simp only [Except.ok.injEq] at h
          have hq : q.grammar = (p.grammar.translate_to_is word).2 := by rw [← h]
          obtain ⟨_, _, _, k⟩ := Grammar.translate_to_is_spec p.grammar hw word
          rw [← hq] at k
          have k2 := Grammar.translate_known g2 word _ (hx _ _ k)
          rw [k2]
          simp only
          rw [hc]
          simp only [Except.ok.injEq]
          rw [← h]
      · rw [if_neg hin] at h ⊢
        simp only [Except.ok.injEq] at h ⊢
        rw [← h]


theorem Grammar.rules_with_lhs_eq (g g2 : Grammar) (h : g2.rules = g.rules) (l : List Int) :
    g2.rules_with_lhs l = g.rules_with_lhs l := by
  unfold Grammar.rules_with_lhs
  rw [h]

theorem EarleyParser.processItem_swap (p : EarleyParser) (np nc : Bool) (item : EarleyItem)
    (st2 : EarleyParser × Bool × Bool) (g2 : Grammar)
    (h : EarleyParser.processItem (p, np, nc) item = .ok st2) (hw : p.grammar.InternWF)
    (hx : ∀ x i, st2.1.grammar.id_of x = some i → g2.id_of x = some i)
    (hs : g2.soverload = p.grammar.soverload) (hl : g2.lexicon = p.grammar.lexicon)
    (hr : g2.rules = p.grammar.rules) :
    EarleyParser.processItem ({ p with grammar := g2 }, np, nc) item
      = .ok ({ st2.1 with grammar := g2 }, st2.2.1, st2.2.2) := by
  unfold EarleyParser.processItem at h ⊢
  simp only at h ⊢
  rw [hs]
  -- the call of `predict`, if any
  have key : ∀ (p1 : EarleyParser) (new_p : Bool),
      (if (if p.grammar.soverload = true then !item.complete
          else !item.complete && !decide (item.next ∈ p.tags)) = true then
        match p.predict item with
        | .ok (b, p1) => Except.ok (p1, np || b)
        | .error e => .error e
      else .ok (p, np)) = .ok (p1, new_p) →
      (if (if p.grammar.soverload = true then !item.complete
          else !item.complete && !decide (item.next ∈ p.tags)) = true then
        match EarleyParser.predict { p with grammar := g2 } item with
        | .ok (b, p1) => Except.ok (p1, np || b)
        | .error e => .error e
      else .ok ({ p with grammar := g2 }, np)) = .ok ({ p1 with grammar := g2 }, new_p) ∧
        p1.grammar = p.grammar ∧ p1.tags = p.tags := by
    intro p1 new_p hp
    by_cases hcnd : (if p.grammar.soverload = true then !item.complete
        else !item.complete && !decide (item.next ∈ p.tags)) = true
    · rw [if_pos hcnd] at hp ⊢
      rcases hpr : p.predict item with e | ⟨b, p1'⟩
      · rw [hpr] at hp
        cases hp
      · rw [hpr] at hp
        simp only [Except.ok.injEq, Prod.mk.injEq] at hp
        obtain ⟨e1, e2⟩ := hp
        subst e1
        subst e2
        have hfr := (EarleyParser.predictLoop_frame _ _ _ _ _ _ hpr).1
        unfold EarleyParser.predict at hpr ⊢
        have := EarleyParser.predictLoop_swap _ _ _ _ _ _ g2 hpr hs hl
        simp only
        rw [Grammar.rules_with_lhs_eq p.grammar g2 hr, this]
        exact ⟨rfl, by rw [hfr], by rw [hfr]⟩
    · rw [if_neg hcnd] at hp ⊢
      simp only [Except.ok.injEq, Prod.mk.injEq] at hp
      obtain ⟨e1, e2⟩ := hp
      subst e1
      subst e2
      exact ⟨rfl, rfl, rfl⟩
  split at h
  · cases h
  · rename_i p1 new_p hp
    obtain ⟨k1, k2, k3⟩ := key p1 new_p hp
    rw [k1]
    simp only
    have hw1 : p1.grammar.InternWF := by rw [k2]; exact hw
    by_cases hsc : (!item.complete && decide (item.next ∈ p1.tags)) = true
    · rw [if_pos hsc] at h ⊢
      rcases hscan : p1.scan item with e | p2
      · rw [hscan] at h
        cases h
      · rw [hscan] at h
        simp only [Except.ok.injEq] at h
        subst h
        rw [EarleyParser.scan_swap p1 item p2 g2 hscan hw1 hx]
    · rw [if_neg hsc] at h ⊢
      by_cases hcp : item.complete = true
      · rw [if_pos hcp] at h ⊢
        rcases hcm : p1.complete item with e | ⟨b, p2⟩
        · rw [hcm] at h
          cases h
        · rw [hcm] at h
          simp only [Except.ok.injEq] at h
          subst h
          unfold EarleyParser.complete at hcm ⊢
          simp only
          rcases hcell : p1.chart.cell item.from_ with e | cell
          · rw [hcell] at hcm
            cases hcm
          · rw [hcell] at hcm
            simp only at hcm ⊢
            rw [EarleyParser.completeLoop_swap item cell false p1 b p2 g2 hcm]
      · rw [if_neg hcp] at h ⊢
        simp only [Except.ok.injEq] at h
        subst h
        rfl

theorem EarleyParser.processAll_swap (items : List EarleyItem) (p : EarleyParser) (np nc : Bool)
    (st2 : EarleyParser × Bool × Bool) (g2 : Grammar)
    (h : EarleyParser.processAll items (p, np, nc) = .ok st2) (hw : p.grammar.InternWF)
    (hx : ∀ x i, st2.1.grammar.id_of x = some i → g2.id_of x = some i)
    (hs : g2.soverload = p.grammar.soverload) (hl : g2.lexicon = p.grammar.lexicon)
    (hr : g2.rules = p.grammar.rules) :
    EarleyParser.processAll items ({ p with grammar := g2 }, np, nc)
      = .ok ({ st2.1 with grammar := g2 }, st2.2.1, st2.2.2) := by
  induction items generalizing p np nc with
  | nil =>
    simp only [EarleyParser.processAll, Except.ok.injEq] at h ⊢
    subst h
    rfl
  | cons item rest ih =>
    rw [EarleyParser.processAll] at h ⊢
    rcases hpi : EarleyParser.processItem (p, np, nc) item with e | st1
    · rw [hpi] at h
      cases h
    · rw [hpi] at h
      simp only at h
      obtain ⟨p1, np1, nc1⟩ := st1
      have l1 : p.Later p1 := EarleyParser.processItem_later _ item _ hpi hw
      have l2 : p1.Later st2.1 := EarleyParser.processAll_later rest _ _ h l1.2.1
      rw [EarleyParser.processItem_swap p np nc item _ g2 hpi hw
        (fun x i hxi => hx x i (l2.1.2.2.2.2.2 x i hxi)) hs hl hr]
      simp only
      exact ih p1 np1 nc1 h l1.2.1 (hs.trans l1.1.1.symm) (hl.trans l1.1.2.2.2.1.symm)
        (hr.trans l1.2.2.1.symm)

theorem EarleyParser.fixpoint_swap (fuel k : Nat) (p q : EarleyParser) (g2 : Grammar)
    (h : EarleyParser.fixpoint fuel k p = .ok q) (hw : p.grammar.InternWF)
    (hx : ∀ x i, q.grammar.id_of x = some i → g2.id_of x = some i)
    (hs : g2.soverload = p.grammar.soverload) (hl : g2.lexicon = p.grammar.lexicon)
    (hr : g2.rules = p.grammar.rules) :
    EarleyParser.fixpoint fuel k { p with grammar := g2 } = .ok { q with grammar := g2 } := by
  induction fuel generalizing p with
  | zero =>
    simp only [EarleyParser.fixpoint] at h
    cases h
  | succ fuel ih =>
    rw [EarleyParser.fixpoint] at h ⊢
    rcases hpa : EarleyParser.processAll p.to_process (p, false, false) with e | st
    · rw [hpa] at h
      cases h
    · rw [hpa] at h
      obtain ⟨p1, np, nc⟩ := st
      simp only at h
      have l1 : p.Later p1 := EarleyParser.processAll_later _ _ _ hpa hw
      rcases hm : p1.merge k with e | p2
      · rw [hm] at h
        cases h
      · rw [hm] at h
        simp only at h
        have l2 : p1.Later p2 := EarleyParser.merge_later p1 k p2 hm l1.2.1
        have l12 := l1.chain l2
        have l3 : p2.Later q := by
          by_cases hf : (np || nc) = true
          · rw [if_pos hf] at h
            exact EarleyParser.fixpoint_later fuel k p2 q h l12.2.1
          · rw [if_neg hf] at h
            simp only [Except.ok.injEq] at h
            subst h
            exact EarleyParser.Later.same _ l12.2.1
        have hx1 : ∀ x i, p1.grammar.id_of x = some i → g2.id_of x = some i :=
          fun x i hxi => hx x i ((l2.chain l3).1.2.2.2.2.2 x i hxi)
        have e1 := EarleyParser.processAll_swap p.to_process p false false _ g2 hpa hw hx1 hs hl hr
        simp only at e1 ⊢
        rw [e1]
        simp only
        rw [EarleyParser.merge_swap p1 k p2 g2 hm]
        simp only
        by_cases hf : (np || nc) = true
        · rw [if_pos hf] at h ⊢
          exact ih p2 h l12.2.1 (hs.trans l12.1.1.symm) (hl.trans l12.1.2.2.2.1.symm)
            (hr.trans l12.2.2.1.symm)
        · rw [if_neg hf] at h ⊢
          simp only [Except.ok.injEq] at h
          subst h
          rfl

theorem EarleyParser.sweepCells_swap (fuel cnt index : Nat) (p q : EarleyParser) (g2 : Grammar)
    (h : EarleyParser.sweepCells fuel cnt index p = .ok q) (hw : p.grammar.InternWF)
    (hx : ∀ x i, q.grammar.id_of x = some i → g2.id_of x = some i)
    (hs : g2.soverload = p.grammar.soverload) (hl : g2.lexicon = p.grammar.lexicon)
    (hr : g2.rules = p.grammar.rules) :
    EarleyParser.sweepCells fuel cnt index { p with grammar := g2 }
      = .ok { q with grammar := g2 } := by
  induction cnt generalizing index p with
  | zero =>
    simp only [EarleyParser.sweepCells] at h ⊢
    by_cases hlt : index < p.chart.size
    · rw [if_pos hlt] at h
      cases h
    · rw [if_neg hlt] at h ⊢
      simp only [Except.ok.injEq] at h
      subst h
      rfl
  | succ cnt ih =>
    rw [EarleyParser.sweepCells] at h ⊢
    simp only at h ⊢
    by_cases hlt : index < p.chart.size
    · rw [if_pos hlt] at h ⊢
      rcases hc : p.chart.cell index with e | cell
      · rw [hc] at h
        cases h
      · rw [hc] at h
        simp only at h ⊢
        rcases hfx : EarleyParser.fixpoint fuel index
            { p with to_process := itemsetInsertAll p.to_process cell } with e | p2
        · rw [hfx] at h
          cases h
        · rw [hfx] at h
          simp only at h
          have l1 : p.Later p2 := by
            have := EarleyParser.fixpoint_later fuel index _ p2 hfx hw
            exact this
          have l2 : p2.Later q := EarleyParser.sweepCells_later fuel cnt (index + 1) p2 q h l1.2.1
          have e1 := EarleyParser.fixpoint_swap fuel index _ p2 g2 hfx hw
            (fun x i hxi => hx x i (l2.1.2.2.2.2.2 x i hxi)) hs hl hr
          simp only at e1
          rw [e1]
          simp only
          exact ih (index + 1) p2 h l1.2.1 (hs.trans l1.1.1.symm) (hl.trans l1.1.2.2.2.1.symm)
            (hr.trans l1.2.2.1.symm)
    · rw [if_neg hlt] at h ⊢
      simp only [Except.ok.injEq] at h
      subst h
      rfl

/-- A run of `parse` that returns is repeated, with the same answer and the
same chart and working sets, by every parser that differs in the interner of
its grammar and in its chart only, when that interner knows the strings of the
interner after the first run under the same ids. -/
theorem EarleyParser.parse_swap (fuel : Nat) (p : EarleyParser) (w : List ES) (b : Bool)
    (q : EarleyParser) (g2 : Grammar) (c2 : EarleyChart)
    (h : p.parse fuel w = .ok (b, q)) (hw : p.grammar.InternWF)
    (hx : ∀ x i, q.grammar.id_of x = some i → g2.id_of x = some i)
    (hs : g2.soverload = p.grammar.soverload) (hl : g2.lexicon = p.grammar.lexicon)
    (hr : g2.rules = p.grammar.rules) (hst : g2.start = p.grammar.start) :
    EarleyParser.parse fuel { p with grammar := g2, chart := c2 } w
      = .ok (b, { q with grammar := g2 }) := by
  unfold EarleyParser.parse at h ⊢
  rw [EarleyChart.initialise_clear] at h ⊢
  simp only at h ⊢
  rw [hst]
  rcases hsw : EarleyParser.sweepCells fuel
      (EarleyChart.size
        { chart := [⟨0, 0, 0, p.grammar.start⟩] :: List.replicate w.length [],
          tokens := w ++ ["$"],
          final_item := ⟨p.grammar.start.get_rhs.length, 0, w.length, p.grammar.start⟩ }) 0
      { p with chart :=
        { chart := [⟨0, 0, 0, p.grammar.start⟩] :: List.replicate w.length [],
          tokens := w ++ ["$"],
          final_item := ⟨p.grammar.start.get_rhs.length, 0, w.length, p.grammar.start⟩ } }
    with e | p1
  · rw [hsw] at h
    cases h
  · rw [hsw] at h
    simp only at h
    have hq : p1 = q := by
      split at h
      · cases h
      · simp only [Except.ok.injEq, Prod.mk.injEq] at h
        exact h.2
    subst hq
    have e1 := EarleyParser.sweepCells_swap fuel _ 0 _ p1 g2 hsw hw hx hs hl hr
    simp only at e1
    rw [e1]
    simp only
    split at h
    · cases h
    · simp only [Except.ok.injEq, Prod.mk.injEq] at h ⊢
      exact ⟨h.1, trivial⟩

theorem EarleyParser.AfterCalls_inv (q p2 : EarleyParser) (h : EarleyParser.AfterCalls q p2)
    (hw : q.grammar.InternWF)
    (h0 : q.to_process = [] ∧ q.predict_buffer = [] ∧ q.complete_buffer = []) :
    q.Later p2 ∧ p2.to_process = [] ∧ p2.predict_buffer = [] ∧ p2.complete_buffer = [] := by
  induction h with
  | same => exact ⟨EarleyParser.Later.same q hw, h0⟩
  | call p1 p2 fuel sentence b _ hp ih =>
    obtain ⟨l1, e1⟩ := ih
    exact ⟨l1.chain (EarleyParser.parse_later fuel p1 sentence b p2 hp l1.2.1),
      (EarleyParser.parse_inv p1 sentence e1 fuel b p2 hp).2.2⟩

theorem EarleyParser.parse_repeat (p : EarleyParser) (w : List ES) (hw : p.grammar.InternWF)
    (h0 : p.to_process = [] ∧ p.predict_buffer = [] ∧ p.complete_buffer = [])
    (fuel : Nat) (b : Bool) (q : EarleyParser) (h : p.parse fuel w = .ok (b, q))
    (fuel2 : Nat) (hle : fuel ≤ fuel2) (p2 : EarleyParser)
    (ha : EarleyParser.AfterCalls q p2) :
    ∃ q2, p2.parse fuel2 w = .ok (b, q2) ∧ q2.chart = q.chart ∧
      q2.to_process = [] ∧ q2.predict_buffer = [] ∧ q2.complete_buffer = [] := by
  have h2 : p.parse fuel2 w = .ok (b, q) :=
    EarleyParser.parse_mono_le fuel fuel2 hle p w _ h (by simp)
  have lq : p.Later q := EarleyParser.parse_later fuel p w b q h hw
  have eq0 := (EarleyParser.parse_inv p w h0 fuel b q h).2.2
  obtain ⟨l2, e2⟩ := EarleyParser.AfterCalls_inv q p2 ha lq.2.1 eq0
  have l02 := lq.chain l2
  have hp2 : p2 = { p with grammar := p2.grammar, chart := p2.chart } := by
    obtain ⟨g, c, t, m, pb, cb, sb, tp⟩ := p2
    obtain ⟨_, _, _, a4, a5, a6⟩ := l02
    simp only at a4 a5 a6 e2
    simp only [EarleyParser.mk.injEq, true_and]
    exact ⟨a4, a5, e2.2.1.trans h0.2.1.symm, e2.2.2.trans h0.2.2.symm, a6,
      e2.1.trans h0.1.symm⟩
  have key := EarleyParser.parse_swap fuel2 p w b q p2.grammar p2.chart h2 hw
    l2.1.2.2.2.2.2 l02.1.1 l02.1.2.2.2.1 l02.2.2.1 l02.1.2.2.2.2.1
  rw [← hp2] at key
  exact ⟨_, key, rfl, eq0⟩

/-- C19. Repeatability of `parse`: let `parse(w)` return the answer `b` on a
recognizer whose interner is well formed and whose working sets are empty (a
new recognizer, or one whose earlier calls have returned), and let `q` be the
recognizer afterwards.  Then on `q` itself, and on every state reached from `q`
by further calls of `parse` on any sentences, `parse(w)` returns the same
answer `b` and leaves a chart equal to the chart of `q` (cells, tokens and
final item), and the working sets are empty again.  The second run may use any
fuel not below that of the first. -/
theorem C19_parse_repeatable (p : EarleyParser) (w : List ES) (hw : p.grammar.InternWF)
    (h0 : p.to_process = [] ∧ p.predict_buffer = [] ∧ p.complete_buffer = [])
    (fuel : Nat) (b : Bool) (q : EarleyParser) (h : p.parse fuel w = .ok (b, q))
    (fuel2 : Nat) (hle : fuel ≤ fuel2) (p2 : EarleyParser)
    (ha : EarleyParser.AfterCalls q p2) :
    ∃ q2, p2.parse fuel2 w = .ok (b, q2) ∧ q2.chart = q.chart ∧
      q2.to_process = [] ∧ q2.predict_buffer = [] ∧ q2.complete_buffer = [] :=
  EarleyParser.parse_repeat p w hw h0 fuel b q h fuel2 hle p2 ha

theorem C19_parse_repeatable_witness :
    ∃ q q1, (EarleyParser.new
        (Grammar.mk false " " ⟨7, ["$", "S", "NP", "VP", "Det", "N", "V"]⟩ [] [] "-->" []
          ⟨[[0], [1]], 1⟩
          [([1], [⟨[[1], [2, 3]], 1⟩]), ([2], [⟨[[2], [4, 5]], 1⟩]), ([3], [⟨[[3], [6, 2]], 1⟩])])
        [4, 5, 6] [(4, ["the"]), (5, ["dog", "cat"]), (6, ["sees"])]).parse 20
          ["the", "dog", "sees", "the", "cat"] = .ok (true, q) ∧
      q.grammar.translator.es_entries
        = ["$", "S", "NP", "VP", "Det", "N", "V", "the", "dog", "sees", "cat"] ∧
      q.parse 20 ["the", "cat"] = .ok (false, q1) ∧
      ∃ q2, q1.parse 20 ["the", "dog", "sees", "the", "cat"] = .ok (true, q2) ∧
        q2.chart = q.chart ∧
        q2.to_process = [] ∧ q2.predict_buffer = [] ∧ q2.complete_buffer = [] := by
  refine ⟨_, _, rfl, rfl, rfl, ?_⟩
  exact C19_parse_repeatable
    (EarleyParser.new
      (Grammar.mk false " " ⟨7, ["$", "S", "NP", "VP", "Det", "N", "V"]⟩ [] [] "-->" []
        ⟨[[0], [1]], 1⟩
        [([1], [⟨[[1], [2, 3]], 1⟩]), ([2], [⟨[[2], [4, 5]], 1⟩]), ([3], [⟨[[3], [6, 2]], 1⟩])])
      [4, 5, 6] [(4, ["the"]), (5, ["dog", "cat"]), (6, ["sees"])])
    ["the", "dog", "sees", "the", "cat"]
    ⟨(fun hh => by cases hh), (fun _ => ⟨rfl, by decide⟩)⟩ ⟨rfl, rfl, rfl⟩ 20 true _ rfl 20
    (le_refl _) _
    (EarleyParser.AfterCalls.call _ _ 20 ["the", "cat"] false EarleyParser.AfterCalls.same rfl)

/-! ## What one call of `predict`, `complete` and `scan` adds -/

theorem EarleyItem.eq_self (x : EarleyItem) : EarleyItem.eq x x = true := by
  simp [EarleyItem.eq, Rule.eq]

theorem itemsetContains_of_mem (s : List EarleyItem) (y : EarleyItem) (h : y ∈ s) :
    itemsetContains s y = true := by
  unfold itemsetContains
  rw [List.any_eq_true]
  exact ⟨y, h, EarleyItem.eq_self y⟩

theorem itemsetInsert_keeps (s : List EarleyItem) (x y : EarleyItem) (h : y ∈ s) :
    y ∈ itemsetInsert s x := by
  unfold itemsetInsert
  split
  · exact h
  · exact List.mem_append_left _ h

theorem itemsetInsertAll_keeps (xs s : List EarleyItem) (y : EarleyItem) (h : y ∈ s) :
    y ∈ itemsetInsertAll s xs := by
  induction xs generalizing s with
  | nil => exact h
  | cons x rest ih =>
    unfold itemsetInsertAll
    rw [List.foldl_cons]
    exact ih _ (itemsetInsert_keeps s x y h)

theorem itemsetContains_insert_mono (s : List EarleyItem) (x y : EarleyItem)
    (h : itemsetContains s y = true) : itemsetContains (itemsetInsert s x) y = true := by
  unfold itemsetContains at h ⊢
  rw [List.any_eq_true] at h ⊢
  obtain ⟨z, hz, e⟩ := h
  exact ⟨z, itemsetInsert_keeps s x z hz, e⟩

/-- What `predict` leaves behind: every item it has added is `(r, 0, to, to)`
for a rule of the set that passes the lexicon filter, and was in none of cell
`to`, `to_process` and the buffer; every such rule has its item in one of the
three afterwards. -/
theorem EarleyParser.predictLoop_post (item : EarleyItem) (rules : List Rule) (any_new : Bool)
    (p : EarleyParser) (b : Bool) (q : EarleyParser)
    (h : EarleyParser.predictLoop item rules any_new p = .ok (b, q)) :
    (∀ y ∈ q.predict_buffer, y ∈ p.predict_buffer ∨
      ∃ r ∈ rules, (p.grammar.soverload && p.grammar.is_word (r.get_rhs.headD 0)) = false ∧
        y = ⟨0, item.to_, item.to_, r⟩ ∧ p.chart.contains item.to_ y = .ok false ∧
        itemsetContains p.to_process y = false) ∧
    (∀ r ∈ rules, (p.grammar.soverload && p.grammar.is_word (r.get_rhs.headD 0)) = false →
      p.chart.contains item.to_ ⟨0, item.to_, item.to_, r⟩ = .ok true ∨
      itemsetContains p.to_process ⟨0, item.to_, item.to_, r⟩ = true ∨
      itemsetContains q.predict_buffer ⟨0, item.to_, item.to_, r⟩ = true) := by
  induction rules generalizing any_new p with
  | nil =>
    simp only [EarleyParser.predictLoop, Except.ok.injEq, Prod.mk.injEq] at h
    obtain ⟨h1, h2⟩ := h
    subst h1
    subst h2
    exact ⟨fun y hy => Or.inl hy, fun r hr => by simp at hr⟩
  | cons r rest ih =>
    have hmono : ∀ (p1 : EarleyParser) (a : Bool),
        EarleyParser.predictLoop item rest a p1 = .ok (b, q) →
        ∀ y, itemsetContains p1.predict_buffer y = true →
          itemsetContains q.predict_buffer y = true := by
      intro p1 a h1 y hy
      obtain ⟨_, _, a3, _⟩ := EarleyParser.predictLoop_frame item rest a p1 b q h1
      unfold itemsetContains at hy ⊢
      rw [List.any_eq_true] at hy ⊢
      obtain ⟨z, hz, e⟩ := hy
      exact ⟨z, a3 z hz, e⟩
    rw [EarleyParser.predictLoop] at h
    by_cases hf : (p.grammar.soverload && p.grammar.is_word (r.get_rhs.headD 0)) = true
    · rw [if_pos hf] at h
      obtain ⟨a1, a2⟩ := ih any_new p h
      refine ⟨fun y hy => (a1 y hy).imp id (fun ⟨r2, hr2, e⟩ =>
        ⟨r2, List.mem_cons_of_mem _ hr2, e⟩), ?_⟩
      intro r2 hr2 hf2
      rcases List.mem_cons.1 hr2 with e | e
      · subst e
        rw [hf] at hf2
        cases hf2
      · exact a2 r2 e hf2
    · rw [if_neg hf] at h
      simp only at h
      rcases hcon : p.chart.contains item.to_ ⟨0, item.to_, item.to_, r⟩ with e | c
      · rw [hcon] at h
        cases h
      · rw [hcon] at h
        simp only at h
        by_cases hn : (!c && !itemsetContains p.to_process ⟨0, item.to_, item.to_, r⟩ &&
            !itemsetContains p.predict_buffer ⟨0, item.to_, item.to_, r⟩) = true
        · rw [if_pos hn] at h
          simp only [Bool.and_eq_true, Bool.not_eq_true'] at hn
          obtain ⟨⟨n1, n2⟩, n3⟩ := hn
          subst n1
          obtain ⟨a1, a2⟩ := ih true _ h
          simp only at a1 a2
          refine ⟨?_, ?_⟩
          · intro y hy
            rcases a1 y hy with h1 | ⟨r2, hr2, e⟩
            · rcases mem_itemsetInsert _ _ _ h1 with h2 | h2
              · exact Or.inl h2
              · subst h2
                exact Or.inr ⟨r, List.mem_cons_self _ _, by simpa using hf, rfl, hcon, n2⟩
            · exact Or.inr ⟨r2, List.mem_cons_of_mem _ hr2, e⟩
          · intro r2 hr2 hf2
            rcases List.mem_cons.1 hr2 with e | e
            · subst e
              right
              right
              exact hmono _ true h _ (itemsetContains_insert _ _)
            · exact a2 r2 e hf2
        · rw [if_neg hn] at h
          obtain ⟨a1, a2⟩ := ih any_new p h
          refine ⟨fun y hy => (a1 y hy).imp id (fun ⟨r2, hr2, e⟩ =>
            ⟨r2, List.mem_cons_of_mem _ hr2, e⟩), ?_⟩
          intro r2 hr2 hf2
          rcases List.mem_cons.1 hr2 with e | e
          · subst e
            simp only [Bool.and_eq_true, Bool.not_eq_true', not_and, Bool.not_eq_false] at hn
            by_cases c1 : c = true
            · subst c1
              exact Or.inl hcon
            · have c1 : c = false := by simpa using c1
              by_cases c2 : itemsetContains p.to_process ⟨0, item.to_, item.to_, r2⟩ = true
              · exact Or.inr (Or.inl c2)
              · have c2 : itemsetContains p.to_process ⟨0, item.to_, item.to_, r2⟩ = false := by
                  simpa using c2
                exact Or.inr (Or.inr (hmono p any_new h _ (hn ⟨c1, c2⟩)))
          · exact a2 r2 e hf2

/-- What `complete` leaves behind: every item it has added advances an
incomplete item of the cell over the left-hand symbol of `item` and was in none
of cell `item.to`, `to_process` and the buffer; every such advanced item is in
one of the three afterwards. -/
theorem EarleyParser.completeLoop_post (item : EarleyItem) (cell : List EarleyItem)
    (any_new : Bool) (p : EarleyParser) (b : Bool) (q : EarleyParser)
    (h : EarleyParser.completeLoop item cell any_new p = .ok (b, q)) :
    (∀ y ∈ q.complete_buffer, y ∈ p.complete_buffer ∨
      ∃ item2 ∈ cell, item2.complete = false ∧ item.get_lhs = item2.next ∧
        y = ⟨item2.dot + 1, item2.from_, item.to_, item2.rule⟩ ∧
        p.chart.contains item.to_ y = .ok false ∧ itemsetContains p.to_process y = false) ∧
    (∀ item2 ∈ cell, item2.complete = false → item.get_lhs = item2.next →
      p.chart.contains item.to_ ⟨item2.dot + 1, item2.from_, item.to_, item2.rule⟩ = .ok true ∨
      itemsetContains p.to_process ⟨item2.dot + 1, item2.from_, item.to_, item2.rule⟩ = true ∨
      itemsetContains q.complete_buffer ⟨item2.dot + 1, item2.from_, item.to_, item2.rule⟩
        = true) := by
  induction cell generalizing any_new p with
  | nil =>
    simp only [EarleyParser.completeLoop, Except.ok.injEq, Prod.mk.injEq] at h
    obtain ⟨h1, h2⟩ := h
    subst h1
    subst h2
    exact ⟨fun y hy => Or.inl hy, fun r hr => by simp at hr⟩
  | cons i2 rest ih =>
    have hmono : ∀ (p1 : EarleyParser) (a : Bool),
        EarleyParser.completeLoop item rest a p1 = .ok (b, q) →
        ∀ y, itemsetContains p1.complete_buffer y = true →
          itemsetContains q.complete_buffer y = true := by
      intro p1 a h1 y hy
      obtain ⟨_, _, a3, _⟩ := EarleyParser.completeLoop_frame item rest a p1 b q h1
      unfold itemsetContains at hy ⊢
      rw [List.any_eq_true] at hy ⊢
      obtain ⟨z, hz, e⟩ := hy
      exact ⟨z, a3 z hz, e⟩
    rw [EarleyParser.completeLoop] at h
    by_cases hf : (!i2.complete && decide (item.get_lhs = i2.next)) = true
    · rw [if_pos hf] at h
      simp only [Bool.and_eq_true, Bool.not_eq_true', decide_eq_true_eq] at hf
      simp only at h
      rcases hcon : p.chart.contains item.to_ ⟨i2.dot + 1, i2.from_, item.to_, i2.rule⟩
        with e | c
      · rw [hcon] at h
        cases h
      · rw [hcon] at h
        simp only at h
        by_cases hn : (!c && !itemsetContains p.to_process
              ⟨i2.dot + 1, i2.from_, item.to_, i2.rule⟩ &&
            !itemsetContains p.complete_buffer ⟨i2.dot + 1, i2.from_, item.to_, i2.rule⟩) = true
        · rw [if_pos hn] at h
          simp only [Bool.and_eq_true, Bool.not_eq_true'] at hn
          obtain ⟨⟨n1, n2⟩, n3⟩ := hn
          subst n1
          obtain ⟨a1, a2⟩ := ih true _ h
          simp only at a1 a2
          refine ⟨?_, ?_⟩
          · intro y hy
            rcases a1 y hy with h1 | ⟨r2, hr2, e⟩
            · rcases mem_itemsetInsert _ _ _ h1 with h2 | h2
              · exact Or.inl h2
              · subst h2
                exact Or.inr ⟨i2, List.mem_cons_self _ _, hf.1, hf.2, rfl, hcon, n2⟩
            · exact Or.inr ⟨r2, List.mem_cons_of_mem _ hr2, e⟩
          · intro r2 hr2 hc1 hc2
            rcases List.mem_cons.1 hr2 with e | e
            · subst e
              right
              right
              exact hmono _ true h _ (itemsetContains_insert _ _)
            · exact a2 r2 e hc1 hc2
        · rw [if_neg hn] at h
          obtain ⟨a1, a2⟩ := ih any_new p h
          refine ⟨fun y hy => (a1 y hy).imp id (fun ⟨r2, hr2, e⟩ =>
            ⟨r2, List.mem_cons_of_mem _ hr2, e⟩), ?_⟩
          intro r2 hr2 hc1 hc2
          rcases List.mem_cons.1 hr2 with e | e
          · subst e
            simp only [Bool.and_eq_true, Bool.not_eq_true', not_and, Bool.not_eq_false] at hn
            by_cases c1 : c = true
            · subst c1
              exact Or.inl hcon
            · have c1 : c = false := by simpa using c1
              by_cases c2 : itemsetContains p.to_process
                  ⟨r2.dot + 1, r2.from_, item.to_, r2.rule⟩ = true
              · exact Or.inr (Or.inl c2)
              · have c2 : itemsetContains p.to_process
                    ⟨r2.dot + 1, r2.from_, item.to_, r2.rule⟩ = false := by
                  simpa using c2
                exact Or.inr (Or.inr (hmono p any_new h _ (hn ⟨c1, c2⟩)))
          · exact a2 r2 e hc1 hc2
    · rw [if_neg hf] at h
      obtain ⟨a1, a2⟩ := ih any_new p h
      refine ⟨fun y hy => (a1 y hy).imp id (fun ⟨r2, hr2, e⟩ =>
        ⟨r2, List.mem_cons_of_mem _ hr2, e⟩), ?_⟩
      intro r2 hr2 hc1 hc2
      rcases List.mem_cons.1 hr2 with e | e
      · subst e
        exfalso
        apply hf
        simp [hc1, hc2]
      · exact a2 r2 e hc1 hc2

/-- When the token of cell `item.to` is a word of the tag after the dot, `scan`
has put the item `(next -> word ., item.to, item.to + 1)` into the next cell,
and the interner knows the word under the id in that item. -/
theorem EarleyParser.scan_post (p : EarleyParser) (item : EarleyItem) (q : EarleyParser)
    (h : p.scan item = .ok q) (words : List ES) (word : ES)
    (hm : mapFind p.pwm item.next = some words) (ht : p.chart.tokens[item.to_]? = some word)
    (hin : word ∈ words) :
    q.grammar = (p.grammar.translate_to_is word).2 ∧
      ∃ cell, q.chart.chart[item.to_ + 1]? = some cell ∧
        itemsetContains cell ⟨1, item.to_, item.to_ + 1,
          ⟨[[item.next], [(p.grammar.translate_to_is word).1]], 1⟩⟩ = true := by
  unfold EarleyParser.scan at h
  rw [hm] at h
  simp only [EarleyChart.get_word, ht, hin, if_true, Rule.construct, List.length_cons,
    List.length_nil, Nat.reduceAdd, Nat.one_le_ofNat] at h
  unfold EarleyChart.cellInsertAll at h
  rcases Option.eq_none_or_eq_some (p.chart.chart[item.to_ + 1]?) with hc | ⟨cell0, hc⟩
  · rw [hc] at h
    cases h
  · rw [hc] at h
    simp only [Except.ok.injEq] at h
    subst h
    have hlt : item.to_ + 1 < p.chart.chart.length := by
      by_contra hn
      rw [List.getElem?_eq_none (by omega)] at hc
      cases hc
    refine ⟨rfl, _, List.getElem?_set_self hlt, ?_⟩
    simp only [itemsetInsertAll, List.foldl_cons, List.foldl_nil, Nat.cast_ofNat]
    exact itemsetContains_insert _ _

/-- The only way in which an iteration of the `for` loop ends the program, when
the cells `item.to` and `item.from` and the token of `item.to` exist: `scan`
finds the token among the words of the tag after the dot and there is no cell
`item.to + 1`. -/
theorem EarleyParser.processItem_fault (p : EarleyParser) (np nc : Bool) (item : EarleyItem)
    (e : Fault) (h : EarleyParser.processItem (p, np, nc) item = .error e)
    (h1 : ∃ c, p.chart.chart[item.to_]? = some c)
    (h2 : ∃ c, p.chart.chart[item.from_]? = some c)
    (h3 : ∃ word, p.chart.tokens[item.to_]? = some word) :
    e = Fault.index_exceeds (item.to_ + 1) ∧ p.chart.chart[item.to_ + 1]? = none ∧
      item.complete = false ∧ item.next ∈ p.tags ∧
      ∃ words word, mapFind p.pwm item.next = some words ∧
        p.chart.tokens[item.to_]? = some word ∧ word ∈ words := by
  obtain ⟨c1, hc1⟩ := h1
  obtain ⟨c2, hc2⟩ := h2
  obtain ⟨word, hword⟩ := h3
  have hpl : ∀ (rules : List Rule) (a : Bool) (p1 : EarleyParser), p1.chart = p.chart →
      ∃ r, EarleyParser.predictLoop item rules a p1 = .ok r := by
    intro rules
    induction rules with
    | nil => exact fun a p1 _ => ⟨_, rfl⟩
    | cons r rest ih =>
      intro a p1 hp1
      rw [EarleyParser.predictLoop]
      split
      · exact ih a p1 hp1
      · simp only [EarleyChart.contains, hp1, hc1]
        split
        · exact ih true _ rfl
        · exact ih a p1 hp1
  have hcl : ∀ (cell : List EarleyItem) (a : Bool) (p1 : EarleyParser), p1.chart = p.chart →
      ∃ r, EarleyParser.completeLoop item cell a p1 = .ok r := by
    intro cell
    induction cell with
    | nil => exact fun a p1 _ => ⟨_, rfl⟩
    | cons i2 rest ih =>
      intro a p1 hp1
      rw [EarleyParser.completeLoop]
      split
      · simp only [EarleyChart.contains, hp1, hc1]
        split
        · exact ih true _ rfl
        · exact ih a p1 hp1
      · exact ih a p1 hp1
  unfold EarleyParser.processItem at h
  simp only at h
  have key : ∃ p1 new_p,
      (if (if p.grammar.soverload = true then !item.complete
          else !item.complete && !decide (item.next ∈ p.tags)) = true then
        match p.predict item with
        | .ok (b, p1) => Except.ok (p1, np || b)
        | .error e => .error e
      else .ok (p, np)) = .ok (p1, new_p) ∧ p1 = { p with predict_buffer := p1.predict_buffer } := by
    by_cases hcnd : (if p.grammar.soverload = true then !item.complete
        else !item.complete && !decide (item.next ∈ p.tags)) = true
    · rw [if_pos hcnd]
      obtain ⟨⟨b, p1⟩, hr⟩ := hpl (p.grammar.rules_with_lhs [item.next]) false p rfl
      have hpr : p.predict item = .ok (b, p1) := hr
      rw [hpr]
      exact ⟨p1, np || b, rfl, (EarleyParser.predictLoop_frame _ _ _ _ _ _ hr).1⟩
    · rw [if_neg hcnd]
      exact ⟨p, np, rfl, rfl⟩
  obtain ⟨p1, new_p, k1, k2⟩ := key
  rw [k1] at h
  simp only at h
  have f1 : p1.chart = p.chart := by rw [k2]
  have f2 : p1.tags = p.tags := by rw [k2]
  have f3 : p1.pwm = p.pwm := by rw [k2]
  by_cases hsc : (!item.complete && decide (item.next ∈ p1.tags)) = true
  · rw [if_pos hsc] at h
    simp only [Bool.and_eq_true, Bool.not_eq_true', decide_eq_true_eq] at hsc
    rw [f2] at hsc
    rcases hscan : p1.scan item with e2 | p2
    · rw [hscan] at h
      simp only [Except.error.injEq] at h
      subst h
      unfold EarleyParser.scan at hscan
      rw [f3] at hscan
      rcases Option.eq_none_or_eq_some (mapFind p.pwm item.next) with hm | ⟨words, hm⟩
      · rw [hm] at hscan
        cases hscan
      · rw [hm] at hscan
        simp only [EarleyChart.get_word, f1, hword] at hscan
        by_cases hin : word ∈ words
        · rw [if_pos hin] at hscan
          simp only [Rule.construct, List.length_cons, List.length_nil, Nat.reduceAdd,
            Nat.one_le_ofNat, if_true, EarleyChart.cellInsertAll, f1] at hscan
          rcases Option.eq_none_or_eq_some (p.chart.chart[item.to_ + 1]?) with hc | ⟨cell0, hc⟩
          · rw [hc] at hscan
            simp only [Except.error.injEq] at hscan
            exact ⟨hscan.symm, hc, hsc.1, hsc.2, words, word, hm, hword, hin⟩
          · rw [hc] at hscan
            cases hscan
        · rw [if_neg hin] at hscan
          cases hscan
    · rw [hscan] at h
      cases h
  · rw [if_neg hsc] at h
    by_cases hcp : item.complete = true
    · rw [if_pos hcp] at h
      exfalso
      obtain ⟨⟨b, p2⟩, hr⟩ := hcl c2 false p1 f1
      have : p1.complete item = .ok (b, p2) := by
        unfold EarleyParser.complete EarleyChart.cell
        rw [f1, hc2]
        exact hr
      rw [this] at h
      cases h
    · rw [if_neg hcp] at h
      cases h

/-- Summary of one iteration of the `for` loop of `parse` on the item `item`:
what stays as it is, where the items that are new come from, and which items
are present afterwards. -/
theorem EarleyParser.processItem_post (p : EarleyParser) (np nc : Bool) (item : EarleyItem)
    (st : EarleyParser × Bool × Bool)
    (h : EarleyParser.processItem (p, np, nc) item = .ok st) :
    (st.1.to_process = p.to_process ∧ st.1.tags = p.tags ∧ st.1.pwm = p.pwm ∧
      st.1.chart.tokens = p.chart.tokens ∧ st.1.chart.final_item = p.chart.final_item ∧
      st.1.chart.chart.length = p.chart.chart.length ∧
      (∀ j, j ≠ item.to_ + 1 → st.1.chart.chart[j]? = p.chart.chart[j]?)) ∧
    (∀ cell, p.chart.chart[item.to_ + 1]? = some cell →
      ∃ ext, st.1.chart.chart[item.to_ + 1]? = some (cell ++ ext) ∧
        ∀ y ∈ ext, item.complete = false ∧ item.next ∈ p.tags ∧
          ∃ words word, mapFind p.pwm item.next = some words ∧
            p.chart.tokens[item.to_]? = some word ∧ word ∈ words ∧
            y = ⟨1, item.to_, item.to_ + 1,
              ⟨[[item.next], [(p.grammar.translate_to_is word).1]], 1⟩⟩) ∧
    (st.1.grammar = p.grammar ∨
      ∃ word, p.chart.tokens[item.to_]? = some word ∧
        st.1.grammar = (p.grammar.translate_to_is word).2 ∧
        item.to_ + 1 < p.chart.chart.length) ∧
    ((∀ y ∈ st.1.predict_buffer, y ∈ p.predict_buffer ∨
        (item.complete = false ∧ (p.grammar.soverload = true ∨ item.next ∉ p.tags) ∧
          ∃ r ∈ p.grammar.rules_with_lhs [item.next],
            (p.grammar.soverload && p.grammar.is_word (r.get_rhs.headD 0)) = false ∧
            y = ⟨0, item.to_, item.to_, r⟩ ∧ p.chart.contains item.to_ y = .ok false ∧
            itemsetContains p.to_process y = false)) ∧
      (∀ y ∈ p.predict_buffer, y ∈ st.1.predict_buffer)) ∧
    ((∀ y ∈ st.1.complete_buffer, y ∈ p.complete_buffer ∨
        (item.complete = true ∧ ∃ cell, p.chart.chart[item.from_]? = some cell ∧
          ∃ item2 ∈ cell, item2.complete = false ∧ item.get_lhs = item2.next ∧
            y = ⟨item2.dot + 1, item2.from_, item.to_, item2.rule⟩ ∧
            p.chart.contains item.to_ y = .ok false ∧
            itemsetContains p.to_process y = false)) ∧
      (∀ y ∈ p.complete_buffer, y ∈ st.1.complete_buffer)) ∧
    (item.complete = false → (p.grammar.soverload = true ∨ item.next ∉ p.tags) →
      ∀ r ∈ p.grammar.rules_with_lhs [item.next],
        (p.grammar.soverload && p.grammar.is_word (r.get_rhs.headD 0)) = false →
        p.chart.contains item.to_ ⟨0, item.to_, item.to_, r⟩ = .ok true ∨
        itemsetContains p.to_process ⟨0, item.to_, item.to_, r⟩ = true ∨
        itemsetContains st.1.predict_buffer ⟨0, item.to_, item.to_, r⟩ = true) ∧
    (item.complete = false → item.next ∈ p.tags → ∀ words word,
      mapFind p.pwm item.next = some words → p.chart.tokens[item.to_]? = some word →
      word ∈ words →
        st.1.grammar = (p.grammar.translate_to_is word).2 ∧
        ∃ cell, st.1.chart.chart[item.to_ + 1]? = some cell ∧
          itemsetContains cell ⟨1, item.to_, item.to_ + 1,
            ⟨[[item.next], [(p.grammar.translate_to_is word).1]], 1⟩⟩ = true) ∧
    (item.complete = true → ∀ cell, p.chart.chart[item.from_]? = some cell →
      ∀ item2 ∈ cell, item2.complete = false → item.get_lhs = item2.next →
        p.chart.contains item.to_ ⟨item2.dot + 1, item2.from_, item.to_, item2.rule⟩ = .ok true ∨
        itemsetContains p.to_process ⟨item2.dot + 1, item2.from_, item.to_, item2.rule⟩ = true ∨
        itemsetContains st.1.complete_buffer
          ⟨item2.dot + 1, item2.from_, item.to_, item2.rule⟩ = true) := by
  unfold EarleyParser.processItem at h
  simp only at h
  have hcnd_iff : (if p.grammar.soverload = true then !item.complete
        else !item.complete && !decide (item.next ∈ p.tags)) = true ↔
      (item.complete = false ∧ (p.grammar.soverload = true ∨ item.next ∉ p.tags)) := by
    by_cases hs : p.grammar.soverload = true
    · simp [hs]
    · simp [hs]
  -- the call of `predict`, if any
  have key : ∀ (p1 : EarleyParser) (new_p : Bool),
      (if (if p.grammar.soverload = true then !item.complete
          else !item.complete && !decide (item.next ∈ p.tags)) = true then
        match p.predict item with
        | .ok (b, p1) => Except.ok (p1, np || b)
        | .error e => .error e
      else .ok (p, np)) = .ok (p1, new_p) →
      p1 = { p with predict_buffer := p1.predict_buffer } ∧
      ((∀ y ∈ p1.predict_buffer, y ∈ p.predict_buffer ∨
        (item.complete = false ∧ (p.grammar.soverload = true ∨ item.next ∉ p.tags) ∧
          ∃ r ∈ p.grammar.rules_with_lhs [item.next],
            (p.grammar.soverload && p.grammar.is_word (r.get_rhs.headD 0)) = false ∧
            y = ⟨0, item.to_, item.to_, r⟩ ∧ p.chart.contains item.to_ y = .ok false ∧
            itemsetContains p.to_process y = false)) ∧
        (∀ y ∈ p.predict_buffer, y ∈ p1.predict_buffer)) ∧
      (item.complete = false → (p.grammar.soverload = true ∨ item.next ∉ p.tags) →
        ∀ r ∈ p.grammar.rules_with_lhs [item.next],
          (p.grammar.soverload && p.grammar.is_word (r.get_rhs.headD 0)) = false →
          p.chart.contains item.to_ ⟨0, item.to_, item.to_, r⟩ = .ok true ∨
          itemsetContains p.to_process ⟨0, item.to_, item.to_, r⟩ = true ∨
          itemsetContains p1.predict_buffer ⟨0, item.to_, item.to_, r⟩ = true) := by
    intro p1 new_p hp
    by_cases hcnd : (if p.grammar.soverload = true then !item.complete
        else !item.complete && !decide (item.next ∈ p.tags)) = true
    · rw [if_pos hcnd] at hp
      rcases hpr : p.predict item with e | ⟨b, p1'⟩
      · rw [hpr] at hp
        cases hp
      · rw [hpr] at hp
        simp only [Except.ok.injEq, Prod.mk.injEq] at hp
        obtain ⟨e1, e2⟩ := hp
        subst e1
        subst e2
        obtain ⟨a1, _, a3, _⟩ := EarleyParser.predictLoop_frame _ _ _ _ _ _ hpr
        obtain ⟨b1, b2⟩ := EarleyParser.predictLoop_post _ _ _ _ _ _ hpr
        have hc2 := hcnd_iff.1 hcnd
        exact ⟨a1, ⟨fun y hy => (b1 y hy).imp id (fun hh => ⟨hc2.1, hc2.2, hh⟩), a3⟩,
          fun _ _ => b2⟩
    · rw [if_neg hcnd] at hp
      simp only [Except.ok.injEq, Prod.mk.injEq] at hp
      obtain ⟨e1, e2⟩ := hp
      subst e1
      subst e2
      exact ⟨rfl, ⟨fun y hy => Or.inl hy, fun y hy => hy⟩,
        fun h1 h2 => absurd (hcnd_iff.2 ⟨h1, h2⟩) hcnd⟩
  split at h
  · cases h
  · rename_i p1 new_p hp
    obtain ⟨k1, k2, k3⟩ := key p1 new_p hp
    have f1 : p1.chart = p.chart := by rw [k1]
    have f2 : p1.to_process = p.to_process := by rw [k1]
    have f3 : p1.complete_buffer = p.complete_buffer := by rw [k1]
    have f4 : p1.tags = p.tags := by rw [k1]
    have f5 : p1.pwm = p.pwm := by rw [k1]
    have f6 : p1.grammar = p.grammar := by rw [k1]
    by_cases hsc : (!item.complete && decide (item.next ∈ p1.tags)) = true
    · rw [if_pos hsc] at h
      simp only [Bool.and_eq_true, Bool.not_eq_true', decide_eq_true_eq] at hsc
      rw [f4] at hsc
      rcases hscan : p1.scan item with e | p2
      · rw [hscan] at h
        cases h
      · rw [hscan] at h
        simp only [Except.ok.injEq] at h
        subst h
        obtain ⟨s1, s2, s3, s4, s5, s6, s7⟩ := EarleyParser.scan_frame p1 item p2 hscan
        have g1 : p2.to_process = p.to_process := by rw [s1]; exact f2
        have g2 : p2.predict_buffer = p1.predict_buffer := by rw [s1]
        have g3 : p2.complete_buffer = p.complete_buffer := by rw [s1]; exact f3
        have g4 : p2.tags = p.tags := by rw [s1]; exact f4
        have g5 : p2.pwm = p.pwm := by rw [s1]; exact f5
        rw [f1] at s2 s3 s4 s5 s6
        rw [f6] at s6 s7
        rw [f1] at s7
        refine ⟨⟨g1, g4, g5, s2, s3, s4, s5⟩, ?_, s7, ?_, ?_, ?_, ?_, ?_⟩
        · intro cell hc
          obtain ⟨ext, e1, e2⟩ := s6 cell hc
          refine ⟨ext, e1, fun y hy => ?_⟩
          -- an item was added, so the word was found
          unfold EarleyParser.scan at hscan
          rw [f5] at hscan
          rcases Option.eq_none_or_eq_some (mapFind p.pwm item.next) with hm | ⟨words, hm⟩
          · rw [hm] at hscan
            simp only [Except.ok.injEq] at hscan
            rw [← hscan, f1, hc] at e1
            simp only [Option.some.injEq] at e1
            have : ext = [] := by simpa using e1.symm
            rw [this] at hy
            simp at hy
          · obtain ⟨word, hw, e⟩ := e2 y hy
            rw [hm] at hscan
            simp only [EarleyChart.get_word, f1, hw] at hscan
            by_cases hin : word ∈ words
            · exact ⟨hsc.1, hsc.2, words, word, hm, hw, hin, e⟩
            · rw [if_neg hin] at hscan
              simp only [Except.ok.injEq] at hscan
              rw [← hscan, f1, hc] at e1
              simp only [Option.some.injEq] at e1
              have : ext = [] := by simpa using e1.symm
              rw [this] at hy
              simp at hy
        · simp only
          rw [g2]
          exact k2
        · simp only
          rw [g3]
          exact ⟨fun y hy => Or.inl hy, fun y hy => hy⟩
        · simp only
          rw [g2]
          exact k3
        · intro _ _ words word hm hw hin
          have := EarleyParser.scan_post p1 item p2 hscan words word (by rw [f5]; exact hm)
            (by rw [f1]; exact hw) hin
          rw [f6] at this
          exact this
        · intro hcp
          rw [hcp] at hsc
          cases hsc.1
    · rw [if_neg hsc] at h
      have hsc2 : ¬ (item.complete = false ∧ item.next ∈ p.tags) := by
        intro hh
        apply hsc
        rw [f4]
        simp [hh.1, hh.2]
      by_cases hcp : item.complete = true
      · rw [if_pos hcp] at h
        rcases hcm : p1.complete item with e | ⟨b, p2⟩
        · rw [hcm] at h
          cases h
        · rw [hcm] at h
          simp only [Except.ok.injEq] at h
          subst h
          unfold EarleyParser.complete EarleyChart.cell at hcm
          rw [f1] at hcm
          rcases Option.eq_none_or_eq_some (p.chart.chart[item.from_]?) with hc | ⟨cell0, hc⟩
          · rw [hc] at hcm
            cases hcm
          · rw [hc] at hcm
            simp only at hcm
            obtain ⟨c1, _, c3, _⟩ := EarleyParser.completeLoop_frame _ _ _ _ _ _ hcm
            obtain ⟨d1, d2⟩ := EarleyParser.completeLoop_post _ _ _ _ _ _ hcm
            rw [f1, f2, f3] at d1
            rw [f1, f2] at d2
            rw [f3] at c3
            have g1 : p2.to_process = p.to_process := by rw [c1]; exact f2
            have g2 : p2.predict_buffer = p1.predict_buffer := by rw [c1]
            have g4 : p2.chart = p.chart := by rw [c1]; exact f1
            have g5 : p2.tags = p.tags := by rw [c1]; exact f4
            have g6 : p2.pwm = p.pwm := by rw [c1]; exact f5
            have g7 : p2.grammar = p.grammar := by rw [c1]; exact f6
            refine ⟨⟨g1, g5, g6, by rw [g4], by rw [g4], by rw [g4], fun j _ => by rw [g4]⟩,
              ?_, Or.inl g7, ?_, ?_, ?_, ?_, ?_⟩
            · intro cell hcell
              exact ⟨[], by simp only; rw [g4, hcell, List.append_nil], by simp⟩
            · simp only
              rw [g2]
              exact k2
            · refine ⟨fun y hy => (d1 y hy).imp id
                (fun ⟨i2, hi2, e⟩ => ⟨hcp, cell0, hc, i2, hi2, e⟩), c3⟩
            · simp only
              rw [g2]
              exact k3
            · intro hh hh2
              exact absurd ⟨hh, hh2⟩ hsc2
            · intro _ cell hcell i2 hi2 e1 e2
              rw [hc] at hcell
              simp only [Option.some.injEq] at hcell
              subst hcell
              exact d2 i2 hi2 e1 e2
      · rw [if_neg hcp] at h
        simp only [Except.ok.injEq] at h
        subst h
        refine ⟨⟨f2, f4, f5, by rw [f1], by rw [f1], by rw [f1], fun j _ => by rw [f1]⟩,
          ?_, Or.inl f6, k2, ?_, k3, ?_, ?_⟩
        · intro cell hcell
          exact ⟨[], by simp only; rw [f1, hcell, List.append_nil], by simp⟩
        · simp only
          rw [f3]
          exact ⟨fun y hy => Or.inl hy, fun y hy => hy⟩
        · intro hh hh2
          exact absurd ⟨hh, hh2⟩ hsc2
        · intro hh
          exact absurd hh hcp

/-! ## Interning the tokens of the sentence -/

theorem Grammar.translateSide_append (g : Grammar) (xs ys : List ES) (acc : List Int) :
    g.translateSide (xs ++ ys) acc
      = (g.translateSide xs acc).2.translateSide ys (g.translateSide xs acc).1 := by
  induction xs generalizing g acc with
  | nil => rfl
  | cons x rest ih =>
    simp only [List.cons_append, Grammar.translateSide]
    exact ih _ _

theorem Grammar.translateSide_snd (g : Grammar) (xs : List ES) (acc acc2 : List Int) :
    (g.translateSide xs acc).2 = (g.translateSide xs acc2).2 := by
  induction xs generalizing g acc acc2 with
  | nil => rfl
  | cons x rest ih =>
    simp only [Grammar.translateSide]
    exact ih _ _ _

theorem Grammar.internAll_nil (g : Grammar) : g.internAll [] = g := rfl

theorem Grammar.internAll_append (g : Grammar) (xs ys : List ES) :
    g.internAll (xs ++ ys) = (g.internAll xs).internAll ys := by
  unfold Grammar.internAll Grammar.translate_vec
  rw [Grammar.translateSide_append]
  exact Grammar.translateSide_snd _ _ _ _

theorem Grammar.internAll_snoc (g : Grammar) (xs : List ES) (x : ES) :
    g.internAll (xs ++ [x]) = ((g.internAll xs).translate_to_is x).2 := by
  rw [Grammar.internAll_append]
  rfl

theorem Grammar.internAll_spec (g : Grammar) (hw : g.InternWF) (xs : List ES) :
    (g.internAll xs).InternWF ∧ g.Ext (g.internAll xs) ∧ (g.internAll xs).rules = g.rules ∧
      ∀ x ∈ xs, ∃ i, (g.internAll xs).id_of x = some i := by
  obtain ⟨a, b, c, _, d⟩ := Grammar.translateSide_spec g hw xs []
  exact ⟨a, b, c, d⟩

theorem Grammar.internAll_take_ext (g : Grammar) (hw : g.InternWF) (w : List ES) (m : Nat) :
    (g.internAll (w.take m)).Ext (g.internAll w) := by
  have h : g.internAll w = (g.internAll (w.take m)).internAll (w.drop m) := by
    rw [← Grammar.internAll_append, List.take_append_drop]
  rw [h]
  exact (Grammar.internAll_spec _ (Grammar.internAll_spec g hw _).1 _).2.1

/-- Interning the token at position `k` after the first `m ≥ k` tokens gives
the interner after `max m (k + 1)` tokens. -/
theorem Grammar.internAll_token (g : Grammar) (hw : g.InternWF) (w : List ES) (m k : Nat)
    (word : ES) (hk : w[k]? = some word) (hkm : k ≤ m) :
    ((g.internAll (w.take m)).translate_to_is word).2 = g.internAll (w.take (max m (k + 1))) := by
  have hlt : k < w.length := by
    by_contra hn
    rw [List.getElem?_eq_none (by omega)] at hk
    cases hk
  by_cases hm : k + 1 ≤ m
  · have hmem : word ∈ w.take m := by
      rw [List.mem_iff_getElem?]
      refine ⟨k, ?_⟩
      rw [List.getElem?_take_of_lt (by omega)]
      exact hk
    obtain ⟨i, hi⟩ := (Grammar.internAll_spec g hw (w.take m)).2.2.2 word hmem
    rw [Grammar.translate_known _ _ _ hi, max_eq_left hm]
  · have e : m = k := by omega
    subst e
    have h2 : max m (m + 1) = m + 1 := by omega
    rw [h2, List.take_succ, hk]
    simp only [Option.toList_some]
    rw [Grammar.internAll_snoc]

/-! ## Shape of the items of the chart -/

theorem EarleyItem.Shaped.rb {g : Grammar} {it : EarleyItem} (h : it.Shaped g) :
    it.rule.rhs_begin = 1 := by
  rcases h with h | ⟨T, wid, e⟩
  · exact h.1
  · rw [e]

/-- A complete item of the chart spans at least one token. -/
theorem EarleyItem.Shaped.from_lt {g : Grammar} {it : EarleyItem} (h : it.Shaped g)
    (hb : it.from_ ≤ it.to_) (hc : it.complete = true) : it.from_ < it.to_ := by
  rcases h with ⟨_, _, h3, h4⟩ | ⟨T, wid, e⟩
  · by_contra hn
    have e : it.from_ = it.to_ := by omega
    have hd := h4 e
    unfold EarleyItem.complete at hc
    simp only [decide_eq_true_eq] at hc
    rw [hd] at hc
    exact h3 (List.length_eq_zero.1 (by omega))
  · have : it.to_ = it.from_ + 1 := by
      rw [e]
    omega

/-- An incomplete item of the chart is over a rule of the grammar. -/
theorem EarleyItem.Shaped.of_incomplete {g : Grammar} {it : EarleyItem} (h : it.Shaped g)
    (hc : it.complete = false) : it.OfGrammar g := by
  rcases h with h | ⟨T, wid, e⟩
  · exact h
  · exfalso
    rw [e] at hc
    simp [EarleyItem.complete, Rule.get_rhs] at hc

theorem Grammar.WF.rule_mem {g : Grammar} (hg : g.WF) (r : Rule) (l : List Int)
    (hr : r ∈ g.rules_with_lhs l) :
    r.rhs_begin = 1 ∧ r ∈ g.allRules ∧ r.get_rhs ≠ [] := by
  obtain ⟨h1, a, rhs, h2, h3, _⟩ := (hg.2.1 l).2 r hr
  refine ⟨h1, ?_, ?_⟩
  · unfold Grammar.allRules
    exact List.mem_cons_of_mem _ (Grammar.IsRule.mem_index ⟨l, hr⟩)
  · obtain ⟨s, b⟩ := r
    simp only at h1 h2
    subst h1
    subst h2
    simpa [Rule.get_rhs] using h3

theorem Grammar.WF.start_shape {g : Grammar} (hg : g.WF) :
    g.start.rhs_begin = 1 ∧ g.start ∈ g.allRules ∧ g.start.get_rhs ≠ [] := by
  obtain ⟨_, _, ss, rhs, e, hne⟩ := hg
  refine ⟨by rw [e], List.mem_cons_self _ _, ?_⟩
  rw [e]
  simpa [Rule.get_rhs] using hne

/-- The id under which the interner after the whole sentence knows the token at
position `k` is the id the interner after `m ≥ k` tokens returns for it. -/
theorem Grammar.internAll_id (g : Grammar) (hw : g.InternWF) (w : List ES) (m k : Nat)
    (word : ES) (hk : w[k]? = some word) (hkm : k ≤ m) :
    (g.internAll w).id_of word = some ((g.internAll (w.take m)).translate_to_is word).1 := by
  have h1 := (Grammar.translate_to_is_spec (g.internAll (w.take m))
    (Grammar.internAll_spec g hw _).1 word).2.2.2
  rw [Grammar.internAll_token g hw w m k word hk hkm] at h1
  exact (Grammar.internAll_take_ext g hw w _).2.2.2.2.2 _ _ h1

theorem ParsePoint.Sound_item (p0 : EarleyParser) (w : List ES) (k : Nat) (p : EarleyParser)
    (np nc : Bool) (item : EarleyItem) (rest : List EarleyItem)
    (st : EarleyParser × Bool × Bool) (hg : p0.grammar.WF)
    (hi : ParsePoint.Inv w.length ⟨k, p, np, nc, item :: rest, true⟩)
    (hs : ParsePoint.Sound p0 w ⟨k, p, np, nc, item :: rest, true⟩)
    (h : EarleyParser.processItem (p, np, nc) item = .ok st) :
    ParsePoint.Sound p0 w ⟨k, st.1, st.2.1, st.2.2, rest, true⟩ := by
  obtain ⟨i1, i2, i3, i4, i5, i6, i7, i8⟩ := hi
  obtain ⟨s1, s2, s3, s4, s5, m, m1, m2, m3, m4⟩ := hs
  simp only at i1 i2 i3 i4 i5 i6 i7 i8 s1 s2 s3 s4 s5 m2 m3 m4
  obtain ⟨⟨f1, f2, f3, f4, f5, f6, f7⟩, q2, q3, ⟨q4, q4m⟩, ⟨q5, q5m⟩, _, q7, _⟩ :=
    EarleyParser.processItem_post p np nc item st h
  have hitem : item ∈ p.to_process := i6 item (List.mem_cons_self _ _)
  have hto : item.to_ = k := (i3 item (Or.inl hitem)).1
  have hib : item.InBounds := (i3 item (Or.inl hitem)).2
  obtain ⟨hsh, hded⟩ := s4 item hitem
  have hkm : k ≤ m := by
    by_contra hn
    have := (m4 (by omega)).1
    rw [this] at hitem
    cases hitem
  have hlater : p0.Later st.1 :=
    EarleyParser.Later.chain s1 (EarleyParser.processItem_later (p, np, nc) item st h s1.2.1)
  obtain ⟨e1, e2, e3, e4, e5, e6⟩ := s1
  have htok : ∀ word, p.chart.tokens[k]? = some word → k + 1 < p.chart.chart.length →
      w[k]? = some word := by
    intro word hw hlt
    rw [s2, List.getElem?_append_left (by omega)] at hw
    exact hw
  rw [hto] at q2 q3 q7 f7
  -- the scanned items
  have hscan : ∀ (cell ext : List EarleyItem), p.chart.chart[k + 1]? = some cell →
      (∀ y ∈ ext, item.complete = false ∧ item.next ∈ p.tags ∧
          ∃ words word, mapFind p.pwm item.next = some words ∧
            p.chart.tokens[k]? = some word ∧ word ∈ words ∧
            y = ⟨1, k, k + 1,
              ⟨[[item.next], [(p.grammar.translate_to_is word).1]], 1⟩⟩) →
      ∀ y ∈ ext, y.Shaped p0.grammar ∧
        Ded p0.grammar p0.tags p0.pwm w (p0.grammar.internAll w).id_of y := by
    intro cell ext hc hext y hy
    obtain ⟨c1, c2, words, word, c3, c4, c5, c6⟩ := hext y hy
    have hlt : k + 1 < p.chart.chart.length := by
      by_contra hn
      rw [List.getElem?_eq_none (by omega)] at hc
      cases hc
    have hwk := htok word c4 hlt
    have hid := Grammar.internAll_id p0.grammar hg.1 w m k word hwk hkm
    rw [← m2] at hid
    rw [e4] at c2
    rw [e5] at c3
    have hd := Ded.scan item words word _ hded c1 c2 c3 (by rw [hto]; exact hwk) c5 hid
    rw [hto] at hd
    rw [c6]
    exact ⟨Or.inr ⟨_, _, rfl⟩, hd⟩
  refine ⟨hlater, by rw [f4]; exact s2, ?_, ?_, ?_, ?_⟩
  · -- the cells
    intro j cell2 hj it hit
    by_cases hjk : j = k + 1
    · subst hjk
      have hlt : k + 1 < p.chart.chart.length := by
        by_contra hn
        rw [List.getElem?_eq_none (by rw [f6]; omega)] at hj
        cases hj
      obtain ⟨ext, hx1, hx2⟩ := q2 _ (List.getElem?_eq_getElem hlt)
      rw [hx1] at hj
      cases hj
      rcases List.mem_append.1 hit with hm | hm
      · exact s3 _ _ (List.getElem?_eq_getElem hlt) it hm
      · exact hscan _ ext (List.getElem?_eq_getElem hlt) hx2 it hm
    · rw [f7 j hjk] at hj
      exact s3 j cell2 hj it hit
  · rw [f1]
    exact s4
  · -- the buffers
    rintro y (hy | hy)
    · rcases q4 y hy with hp | ⟨c1, c2, r, hr, c3, c4, _, _⟩
      · exact s5 y (Or.inl hp)
      · rw [Grammar.rules_with_lhs_eq _ _ e3] at hr
        obtain ⟨r1, r2, r3⟩ := hg.rule_mem r _ hr
        have c2b : p0.grammar.soverload = true ∨ item.next ∉ p0.tags := by
          rw [← e1.1, ← e4]
          exact c2
        have c3b : (p0.grammar.soverload && p0.grammar.is_word (r.get_rhs.headD 0)) = false := by
          simp only [Grammar.is_word, ← e1.1, ← e1.2.2.2.1]
          simpa [Grammar.is_word] using c3
        rw [c4]
        exact ⟨⟨r1, r2, r3, fun _ => rfl⟩, Ded.predict item r hded c1 c2b hr c3b⟩
    · rcases q5 y hy with hp | ⟨c1, cell, hc, it2, hi2, c2, c3, c4, _, _⟩
      · exact s5 y (Or.inr hp)
      · obtain ⟨sh2, d2⟩ := s3 _ _ hc it2 hi2
        obtain ⟨o1, o2, o3, o4⟩ := sh2.of_incomplete c2
        have hto2 : it2.to_ = item.from_ := (i2 _ _ hc it2 hi2).1
        have hb2 : it2.from_ ≤ it2.to_ := (i2 _ _ hc it2 hi2).2.1
        have hlt := hsh.from_lt hib.1 c1
        rw [c4]
        refine ⟨⟨o1, o2, o3, ?_⟩, Ded.complete item it2 hded d2 c1 hto2 c2 c3⟩
        intro he
        simp only at he
        omega
  · -- the interner
    by_cases hA : ∃ word, p.chart.tokens[k]? = some word ∧
        st.1.grammar = (p.grammar.translate_to_is word).2 ∧ k + 1 < p.chart.chart.length
    · obtain ⟨word, a1, a2, a3⟩ := hA
      have hwk := htok word a1 a3
      refine ⟨max m (k + 1), by omega, ?_, ?_, ?_⟩
      · rw [a2, m2]
        exact Grammar.internAll_token p0.grammar hg.1 w m k word hwk hkm
      · intro j cell2 hmj hj
        rw [f7 j (by omega)] at hj
        exact m3 j cell2 (by omega) hj
      · intro hlt
        exfalso
        simp only at hlt
        omega
    · have hgr : st.1.grammar = p.grammar := by
        rcases q3 with e | ⟨word, a1, a2, a3⟩
        · exact e
        · exact absurd ⟨word, a1, a2, a3⟩ hA
      refine ⟨m, m1, by rw [hgr]; exact m2, ?_, ?_⟩
      · intro j cell2 hmj hj
        by_cases hjk : j = k + 1
        · subst hjk
          have hlt : k + 1 < p.chart.chart.length := by
            by_contra hn
            rw [List.getElem?_eq_none (by rw [f6]; omega)] at hj
            cases hj
          obtain ⟨ext, hx1, hx2⟩ := q2 _ (List.getElem?_eq_getElem hlt)
          rw [hx1] at hj
          cases hj
          have hc0 := m3 _ _ hmj (List.getElem?_eq_getElem hlt)
          rw [hc0]
          rcases List.eq_nil_or_concat ext with hnil | ⟨l, y, hl⟩
          · rw [hnil]
            rfl
          · exfalso
            obtain ⟨c1, c2, words, word, c3, c4, c5, _⟩ := hx2 y (by rw [hl]; simp)
            exact hA ⟨word, c4, (q7 c1 c2 words word c3 c4 c5).1, hlt⟩
        · rw [f7 j hjk] at hj
          exact m3 j cell2 hmj hj
      · intro hlt
        exfalso
        simp only at hlt
        omega

theorem ParsePoint.Sound_merge (p0 : EarleyParser) (w : List ES) (k : Nat)
    (p p2 : EarleyParser) (np nc : Bool)
    (hs : ParsePoint.Sound p0 w ⟨k, p, np, nc, [], true⟩) (hm : p.merge k = .ok p2) :
    ∀ (a b : Bool) (t : List EarleyItem) (r : Bool), ParsePoint.Sound p0 w ⟨k, p2, a, b, t, r⟩ := by
  intro a b t r
  obtain ⟨s1, s2, s3, s4, s5, m, m1, m2, m3, m4⟩ := hs
  simp only at s1 s2 s3 s4 s5 m2 m3 m4
  have hl := EarleyParser.Later.chain s1 (EarleyParser.merge_later p k p2 hm s1.2.1)
  obtain ⟨cell, hc, e⟩ := EarleyParser.merge_frame p k p2 hm
  have hlen : k < p.chart.chart.length := by
    by_contra hn
    rw [List.getElem?_eq_none (by omega)] at hc
    cases hc
  subst e
  refine ⟨hl, s2, ?_, ?_, ?_, m, m1, m2, ?_, ?_⟩
  · intro j cl hj it hin
    simp only at hj
    by_cases hjk : j = k
    · subst hjk
      rw [List.getElem?_set_self hlen] at hj
      simp only [Option.some.injEq] at hj
      subst hj
      rcases mem_itemsetInsertAll _ _ _ hin with h1 | h1
      · exact s3 j cell hc it h1
      · exact s4 it h1
    · rw [List.getElem?_set_ne (Ne.symm hjk)] at hj
      exact s3 j cl hj it hin
  · intro it hin
    simp only at hin
    rcases mem_itemsetInsertAll _ _ _ hin with h1 | h1
    · rcases mem_itemsetInsertAll _ _ _ h1 with h2 | h2
      · simp at h2
      · exact ⟨Or.inl (s5 it (Or.inl h2)).1, (s5 it (Or.inl h2)).2⟩
    · exact ⟨Or.inl (s5 it (Or.inr h1)).1, (s5 it (Or.inr h1)).2⟩
  · intro it hin
    simp at hin
  · intro j cl hmj hj
    simp only at hj
    by_cases hjk : j = k
    · subst hjk
      rw [List.getElem?_set_self hlen] at hj
      simp only [Option.some.injEq] at hj
      subst hj
      rw [(m4 hmj).1, m3 j cell hmj hc]
      rfl
    · rw [List.getElem?_set_ne (Ne.symm hjk)] at hj
      exact m3 j cl hmj hj
  · intro hmk
    simp only at hmk
    simp only
    rw [(m4 hmk).2.1, (m4 hmk).2.2]
    simp [itemsetInsertAll]

/-- Every point of a run of `parse(w)` on a parser with a well-formed grammar
and empty working sets satisfies the soundness invariant. -/
theorem EarleyParser.Reaches_sound (p0 : EarleyParser) (w : List ES) (hg : p0.grammar.WF)
    (h0 : p0.to_process = [] ∧ p0.predict_buffer = [] ∧ p0.complete_buffer = [])
    (pt : ParsePoint) (h : EarleyParser.Reaches p0 w pt) : ParsePoint.Sound p0 w pt := by
  induction h with
  | start c cell hc hs hcell =>
    rw [EarleyChart.initialise_clear] at hc
    simp only [Except.ok.injEq] at hc
    subst hc
    simp only [EarleyChart.cell, List.getElem?_cons_zero, Except.ok.injEq] at hcell
    subst hcell
    rw [h0.1]
    obtain ⟨g1, g2, g3⟩ := hg.start_shape
    have hst : (⟨0, 0, 0, p0.grammar.start⟩ : EarleyItem).Shaped p0.grammar ∧
        Ded p0.grammar p0.tags p0.pwm w (p0.grammar.internAll w).id_of
          ⟨0, 0, 0, p0.grammar.start⟩ :=
      ⟨Or.inl ⟨g1, g2, g3, fun _ => rfl⟩, Ded.start⟩
    refine ⟨EarleyParser.Later.of_eq _ _ hg.1 rfl rfl rfl rfl, rfl, ?_, ?_, ?_, 0,
      Nat.zero_le _, rfl, ?_, ?_⟩
    · intro j cl hj it hin
      simp only at hj
      cases j with
      | zero =>
        simp only [List.getElem?_cons_zero, Option.some.injEq] at hj
        subst hj
        simp only [List.mem_singleton] at hin
        subst hin
        exact hst
      | succ j =>
        simp only [List.getElem?_cons_succ] at hj
        rw [List.getElem?_replicate] at hj
        split at hj
        · simp only [Option.some.injEq] at hj
          subst hj
          simp at hin
        · cases hj
    · intro it hin
      simp only at hin
      rcases mem_itemsetInsertAll _ _ _ hin with h1 | h1
      · simp at h1
      · simp only [List.mem_singleton] at h1
        subst h1
        exact hst
    · intro it hin
      simp only at hin
      rw [h0.2.1, h0.2.2] at hin
      simp at hin
    · intro j cl hmj hj
      simp only at hj
      cases j with
      | zero => omega
      | succ j =>
        simp only [List.getElem?_cons_succ] at hj
        rw [List.getElem?_replicate] at hj
        split at hj
        · simp only [Option.some.injEq] at hj
          exact hj.symm
        · cases hj
    · intro hlt
      simp only at hlt
      omega
  | item pt item rest st hreach hr ht hp ih =>
    have hi := EarleyParser.Reaches_inv p0 w h0 pt hreach
    obtain ⟨k, p, np, nc, todo, running⟩ := pt
    simp only at hr ht hp
    subst hr
    subst ht
    exact ParsePoint.Sound_item p0 w k p np nc item rest st hg hi ih hp
  | again pt p2 _ hr ht _ hm ih =>
    obtain ⟨k, p, np, nc, todo, running⟩ := pt
    simp only at hr ht hm
    subst hr
    subst ht
    exact ParsePoint.Sound_merge p0 w k p p2 np nc ih hm _ _ _ _
  | next pt p2 cell hreach hr ht hf hm hlt hcell ih =>
    have hi := EarleyParser.Reaches_inv p0 w h0 pt hreach
    obtain ⟨k, p, np, nc, todo, running⟩ := pt
    simp only at hr ht hm hf hlt hcell
    subst hr
    subst ht
    have he := (ParsePoint.Inv_merge w.length k p p2 np nc hi hm).2 hf
    obtain ⟨s1, s2, s3, s4, s5, m, m1, m2, m3, m4⟩ :=
      ParsePoint.Sound_merge p0 w k p p2 np nc ih hm false false [] true
    simp only at s1 s2 s3 s4 s5 m2 m3 m4
    have hc2 : p2.chart.chart[k + 1]? = some cell := by
      unfold EarleyChart.cell at hcell
      split at hcell
      · cases hcell
      · rename_i cc hcc
        simp only [Except.ok.injEq] at hcell
        rw [hcc, hcell]
    have hpb : p2.predict_buffer = [] ∧ p2.complete_buffer = [] := by
      obtain ⟨_, _, e⟩ := EarleyParser.merge_frame p k p2 hm
      rw [e]
      exact ⟨rfl, rfl⟩
    refine ⟨s1, s2, s3, ?_, s5, m, m1, m2, m3, ?_⟩
    · intro it hin
      simp only at hin
      rcases mem_itemsetInsertAll _ _ _ hin with h1 | h1
      · exact s4 it h1
      · exact s3 _ _ hc2 it h1
    · intro hlt2
      simp only at hlt2
      simp only
      rw [he, m3 _ _ hlt2 hc2]
      exact ⟨rfl, hpb.1, hpb.2⟩
  | done pt p2 hreach hr ht hf hm _ ih =>
    have hi := EarleyParser.Reaches_inv p0 w h0 pt hreach
    obtain ⟨k, p, np, nc, todo, running⟩ := pt
    simp only at hr ht hm hf
    subst hr
    subst ht
    have he := (ParsePoint.Inv_merge w.length k p p2 np nc hi hm).2 hf
    obtain ⟨s1, s2, s3, s4, s5, m, m1, m2, m3, m4⟩ :=
      ParsePoint.Sound_merge p0 w k p p2 np nc ih hm false false [] true
    have hpb : p2.predict_buffer = [] ∧ p2.complete_buffer = [] := by
      obtain ⟨_, _, e⟩ := EarleyParser.merge_frame p k p2 hm
      rw [e]
      exact ⟨rfl, rfl⟩
    exact ⟨s1, s2, s3, s4, s5, m, m1, m2, m3, fun _ => ⟨he, hpb.1, hpb.2⟩⟩

/-! ## The consequences of the visited items are present -/

theorem EarleyParser.InTarget_of_contains (k : Nat) (p q : EarleyParser) (y : EarleyItem)
    (hy : y.rule.rhs_begin = 1)
    (hcell : ∀ cell, p.chart.chart[k]? = some cell → ∀ z ∈ cell, z.rule.rhs_begin = 1)
    (htp : ∀ z ∈ p.to_process, z.rule.rhs_begin = 1)
    (hchart : q.chart.chart[k]? = p.chart.chart[k]?) (htpe : q.to_process = p.to_process)
    (buf : List EarleyItem) (hbuf : ∀ z ∈ buf, z.rule.rhs_begin = 1)
    (hin : ∀ z ∈ buf, z ∈ q.predict_buffer ∨ z ∈ q.complete_buffer)
    (h : p.chart.contains k y = .ok true ∨ itemsetContains p.to_process y = true ∨
      itemsetContains buf y = true) : q.InTarget k y := by
  rcases h with h | h | h
  · unfold EarleyChart.contains at h
    rcases Option.eq_none_or_eq_some (p.chart.chart[k]?) with hn | ⟨cell, hc⟩
    · rw [hn] at h
      cases h
    · rw [hc] at h
      simp only [Except.ok.injEq] at h
      exact Or.inl ⟨cell, by rw [hchart]; exact hc,
        (itemsetContains_iff cell y (hcell cell hc) hy).1 h⟩
  · exact Or.inr (Or.inl (by rw [htpe]; exact (itemsetContains_iff _ y htp hy).1 h))
  · exact Or.inr (Or.inr (hin y ((itemsetContains_iff _ y hbuf hy).1 h)))

theorem EarleyParser.Done_mono (p0 : EarleyParser) (w : List ES) (k : Nat)
    (p q : EarleyParser) (it : EarleyItem)
    (h1 : ∀ y, p.InTarget k y → q.InTarget k y)
    (h2 : ∀ cell, p.chart.chart[k + 1]? = some cell →
      ∃ ext, q.chart.chart[k + 1]? = some (cell ++ ext))
    (h3 : ∀ j, j < k → q.chart.chart[j]? = p.chart.chart[j]?)
    (hd : EarleyParser.Done p0 w k p it) : EarleyParser.Done p0 w k q it := by
  obtain ⟨d1, d2, d3⟩ := hd
  refine ⟨fun a b r hr c => h1 _ (d1 a b r hr c), ?_, ?_⟩
  · intro a b words word c d e
    obtain ⟨cell, wid, x1, x2, x3⟩ := d2 a b words word c d e
    obtain ⟨ext, hx⟩ := h2 cell x1
    exact ⟨cell ++ ext, wid, hx, List.mem_append_left _ x2, x3⟩
  · intro a b cell hc it2 hit2 c d
    rw [h3 _ b] at hc
    exact h1 _ (d3 a b cell hc it2 hit2 c d)

theorem ClosedCell_mono (p0 : EarleyParser) (w : List ES) (ch ch2 : List (List EarleyItem))
    (j : Nat) (h1 : ch2[j]? = ch[j]?)
    (h2 : ∀ cell, ch[j + 1]? = some cell → ∃ ext, ch2[j + 1]? = some (cell ++ ext))
    (h3 : ∀ i, i < j → ch2[i]? = ch[i]?)
    (hc : ClosedCell p0 w ch j) : ClosedCell p0 w ch2 j := by
  intro cell hcell it hit
  rw [h1] at hcell
  obtain ⟨d1, d2, d3⟩ := hc cell hcell it hit
  refine ⟨d1, ?_, ?_⟩
  · intro a b words word c d e
    obtain ⟨cell2, wid, x1, x2, x3⟩ := d2 a b words word c d e
    obtain ⟨ext, hx⟩ := h2 cell2 x1
    exact ⟨cell2 ++ ext, wid, hx, List.mem_append_left _ x2, x3⟩
  · intro a b cell2 hc2 it2 hit2 c d
    rw [h3 _ b] at hc2
    exact d3 a b cell2 hc2 it2 hit2 c d

theorem ParsePoint.Tracked_item (p0 : EarleyParser) (w : List ES) (k : Nat) (p : EarleyParser)
    (np nc : Bool) (item : EarleyItem) (rest : List EarleyItem)
    (st : EarleyParser × Bool × Bool) (hg : p0.grammar.WF)
    (hi : ParsePoint.Inv w.length ⟨k, p, np, nc, item :: rest, true⟩)
    (hs : ParsePoint.Sound p0 w ⟨k, p, np, nc, item :: rest, true⟩)
    (ht : ParsePoint.Tracked p0 w ⟨k, p, np, nc, item :: rest, true⟩)
    (h : EarleyParser.processItem (p, np, nc) item = .ok st) :
    ParsePoint.Tracked p0 w ⟨k, st.1, st.2.1, st.2.2, rest, true⟩ := by
  have hs2 := ParsePoint.Sound_item p0 w k p np nc item rest st hg hi hs h
  obtain ⟨i1, i2, i3, i4, i5, i6, i7, i8⟩ := hi
  obtain ⟨s1, s2, s3, s4, s5, m, m1, m2, m3, m4⟩ := hs
  obtain ⟨_, _, t3, _, t5, _⟩ := hs2
  obtain ⟨t1, t2⟩ := ht
  simp only at i1 i2 i3 i4 i5 i6 i7 i8 s1 s2 s3 s4 s5 m2 m3 m4 t1 t2 t3 t5
  obtain ⟨⟨f1, f2, f3, f4, f5, f6, f7⟩, q2, q3, ⟨q4, q4m⟩, ⟨q5, q5m⟩, q6, q7, q8⟩ :=
    EarleyParser.processItem_post p np nc item st h
  have hitem : item ∈ p.to_process := i6 item (List.mem_cons_self _ _)
  have hto : item.to_ = k := (i3 item (Or.inl hitem)).1
  obtain ⟨hsh, hded⟩ := s4 item hitem
  have hkm : k ≤ m := by
    by_contra hn
    have := (m4 (by omega)).1
    rw [this] at hitem
    cases hitem
  obtain ⟨e1, e2, e3, e4, e5, e6⟩ := s1
  rw [hto] at q2 q3 q6 q7 q8 f7
  have hck : st.1.chart.chart[k]? = p.chart.chart[k]? := f7 k (by omega)
  have hrbc : ∀ (j : Nat) (cell : List EarleyItem), p.chart.chart[j]? = some cell →
      ∀ z ∈ cell, z.rule.rhs_begin = 1 :=
    fun j cell hc z hz => (s3 j cell hc z hz).1.rb
  have hrbt : ∀ z ∈ p.to_process, z.rule.rhs_begin = 1 := fun z hz => (s4 z hz).1.rb
  have hmono : ∀ y, p.InTarget k y → st.1.InTarget k y := by
    rintro y (⟨cell, hc, hy⟩ | hy | hy | hy)
    · exact Or.inl ⟨cell, by rw [hck]; exact hc, hy⟩
    · exact Or.inr (Or.inl (by rw [f1]; exact hy))
    · exact Or.inr (Or.inr (Or.inl (q4m y hy)))
    · exact Or.inr (Or.inr (Or.inr (q5m y hy)))
  refine ⟨fun _ => ?_, ?_⟩
  · intro it hit
    simp only at hit ⊢
    rw [hck, f1] at hit
    rcases t1 trivial it hit with hin | hd
    · rcases List.mem_cons.1 hin with he | hr
      · subst he
        right
        refine ⟨?_, ?_, ?_⟩
        · intro hc htag r hr hfil
          have htag2 : p.grammar.soverload = true ∨ it.next ∉ p.tags := by
            rw [e1.1, e4]
            exact htag
          have hr2 : r ∈ p.grammar.rules_with_lhs [it.next] := by
            rw [Grammar.rules_with_lhs_eq _ _ e3]
            exact hr
          have hfil2 : (p.grammar.soverload && p.grammar.is_word (r.get_rhs.headD 0)) = false := by
            simp only [Grammar.is_word, e1.1, e1.2.2.2.1]
            simpa [Grammar.is_word] using hfil
          exact EarleyParser.InTarget_of_contains k p st.1 _ (hg.rule_mem r _ hr).1
            (hrbc k) hrbt hck f1 st.1.predict_buffer
            (fun z hz => (t5 z (Or.inl hz)).1.1) (fun z hz => Or.inl hz)
            (q6 hc htag2 r hr2 hfil2)
        · intro hc htag words word hmf hwk hmem
          have hklt : k < w.length := by
            by_contra hn
            rw [List.getElem?_eq_none (by omega)] at hwk
            cases hwk
          have htok : p.chart.tokens[k]? = some word := by
            rw [s2, List.getElem?_append_left hklt]
            exact hwk
          obtain ⟨_, cell, hcell, hcont⟩ := q7 hc (by rw [e4]; exact htag) words word
            (by rw [e5]; exact hmf) htok hmem
          have hid := Grammar.internAll_id p0.grammar hg.1 w m k word hwk hkm
          rw [← m2] at hid
          exact ⟨cell, _, hcell,
            (itemsetContains_iff cell _ (fun z hz => (t3 _ cell hcell z hz).1.rb) rfl).1 hcont,
            hid⟩
        · intro hc hlt cell hcell it2 hit2 hinc hlhs
          rw [f7 _ (by omega)] at hcell
          exact EarleyParser.InTarget_of_contains k p st.1 _ (hrbc _ cell hcell it2 hit2)
            (hrbc k) hrbt hck f1 st.1.complete_buffer
            (fun z hz => (t5 z (Or.inr hz)).1.1) (fun z hz => Or.inr hz)
            (q8 hc cell hcell it2 hit2 hinc hlhs)
      · exact Or.inl hr
    · right
      refine EarleyParser.Done_mono p0 w k p st.1 it hmono ?_ (fun j hj => f7 j (by omega)) hd
      intro cell hc
      obtain ⟨ext, hx, _⟩ := q2 cell hc
      exact ⟨ext, hx⟩
  · intro j hj
    simp only at hj ⊢
    refine ClosedCell_mono p0 w p.chart.chart st.1.chart.chart j (f7 j (by omega)) ?_
      (fun i hi => f7 i (by omega)) (t2 j hj)
    intro cell hc
    exact ⟨[], by rw [f7 (j + 1) (by omega), List.append_nil]; exact hc⟩

theorem itemsetInsertAll_mem (xs s : List EarleyItem) (y : EarleyItem)
    (hs : ∀ z ∈ s, z.rule.rhs_begin = 1) (hx : ∀ z ∈ xs, z.rule.rhs_begin = 1)
    (hy : y ∈ xs) : y ∈ itemsetInsertAll s xs := by
  obtain ⟨ext, e1, _, e3⟩ := itemsetInsertAll_spec xs s hs hx
  rw [e1]
  rcases e3 y hy with h | h
  · exact List.mem_append_left _ h
  · exact List.mem_append_right _ h

/-- After `merge` at the end of a pass over cell `k`: every item of cell `k`
has its consequences present, the cells before `k` are still closed, and cell
`k` is closed when the pass has added nothing. -/
theorem ParsePoint.Tracked_merge (p0 : EarleyParser) (w : List ES) (k : Nat)
    (p p2 : EarleyParser) (np nc : Bool)
    (hi : ParsePoint.Inv w.length ⟨k, p, np, nc, [], true⟩)
    (hs : ParsePoint.Sound p0 w ⟨k, p, np, nc, [], true⟩)
    (ht : ParsePoint.Tracked p0 w ⟨k, p, np, nc, [], true⟩)
    (hm : p.merge k = .ok p2) :
    (∀ it, it ∈ (p2.chart.chart[k]?).getD [] → EarleyParser.Done p0 w k p2 it) ∧
      (∀ j, j < k → ClosedCell p0 w p2.chart.chart j) ∧
      ((np || nc) = false → ClosedCell p0 w p2.chart.chart k) := by
  obtain ⟨i1, i2, i3, i4, i5, i6, i7, i8⟩ := hi
  obtain ⟨s1, s2, s3, s4, s5, m, m1, m2, m3, m4⟩ := hs
  obtain ⟨t1, t2⟩ := ht
  simp only at i1 i2 i3 i4 i5 i6 i7 i8 s1 s2 s3 s4 s5 m2 m3 m4 t1 t2
  obtain ⟨cell, hc, e⟩ := EarleyParser.merge_frame p k p2 hm
  have hlen : k < p.chart.chart.length := by
    by_contra hn
    rw [List.getElem?_eq_none (by omega)] at hc
    cases hc
  have hrbc : ∀ z ∈ cell, z.rule.rhs_begin = 1 := fun z hz => (s3 k cell hc z hz).1.rb
  have hrbt : ∀ z ∈ p.to_process, z.rule.rhs_begin = 1 := fun z hz => (s4 z hz).1.rb
  have hrbp : ∀ z ∈ p.predict_buffer, z.rule.rhs_begin = 1 :=
    fun z hz => (s5 z (Or.inl hz)).1.1
  have hrbq : ∀ z ∈ p.complete_buffer, z.rule.rhs_begin = 1 :=
    fun z hz => (s5 z (Or.inr hz)).1.1
  have hrb1 : ∀ z ∈ itemsetInsertAll [] p.predict_buffer, z.rule.rhs_begin = 1 := by
    intro z hz
    rcases mem_itemsetInsertAll _ _ _ hz with h1 | h1
    · simp at h1
    · exact hrbp z h1
  obtain ⟨ext, hext, _, _⟩ := itemsetInsertAll_spec p.to_process cell hrbc hrbt
  have hk2 : p2.chart.chart[k]? = some (itemsetInsertAll cell p.to_process) := by
    rw [e]
    simp only
    exact List.getElem?_set_self hlen
  have hne : ∀ j, j ≠ k → p2.chart.chart[j]? = p.chart.chart[j]? := by
    intro j hj
    rw [e]
    simp only
    exact List.getElem?_set_ne (Ne.symm hj)
  have htp2 : p2.to_process =
      itemsetInsertAll (itemsetInsertAll [] p.predict_buffer) p.complete_buffer := by
    rw [e]
  have hmono : ∀ y, p.InTarget k y → p2.InTarget k y := by
    rintro y (⟨cell1, hc1, hy⟩ | hy | hy | hy)
    · rw [hc] at hc1
      cases hc1
      exact Or.inl ⟨_, hk2, itemsetInsertAll_keeps _ _ _ hy⟩
    · exact Or.inl ⟨_, hk2, itemsetInsertAll_mem _ _ _ hrbc hrbt hy⟩
    · refine Or.inr (Or.inl ?_)
      rw [htp2]
      exact itemsetInsertAll_keeps _ _ _ (itemsetInsertAll_mem _ _ _ (by simp) hrbp hy)
    · refine Or.inr (Or.inl ?_)
      rw [htp2]
      exact itemsetInsertAll_mem _ _ _ hrb1 hrbq hy
  have hdone : ∀ it, EarleyParser.Done p0 w k p it → EarleyParser.Done p0 w k p2 it := by
    intro it hd
    refine EarleyParser.Done_mono p0 w k p p2 it hmono ?_ (fun j hj => hne j (by omega)) hd
    intro cl hcl
    exact ⟨[], by rw [hne (k + 1) (by omega), List.append_nil]; exact hcl⟩
  have hall : ∀ it, it ∈ (p2.chart.chart[k]?).getD [] → EarleyParser.Done p0 w k p2 it := by
    intro it hit
    rw [hk2] at hit
    simp only [Option.getD_some] at hit
    apply hdone
    rcases mem_itemsetInsertAll _ _ _ hit with h1 | h1
    · rcases t1 trivial it (Or.inl (by rw [hc]; exact h1)) with h2 | h2
      · simp at h2
      · exact h2
    · rcases t1 trivial it (Or.inr h1) with h2 | h2
      · simp at h2
      · exact h2
  refine ⟨hall, ?_, ?_⟩
  · intro j hj
    refine ClosedCell_mono p0 w p.chart.chart p2.chart.chart j (hne j (by omega)) ?_
      (fun i hi => hne i (by omega)) (t2 j hj)
    intro cl hcl
    by_cases hjk : j + 1 = k
    · rw [hjk] at hcl ⊢
      rw [hc] at hcl
      cases hcl
      exact ⟨ext, by rw [hk2, hext]⟩
    · exact ⟨[], by rw [hne (j + 1) hjk, List.append_nil]; exact hcl⟩
  · intro hf
    simp only [Bool.or_eq_false_iff] at hf
    have hpb := i4 hf.1
    have hcb := i5 hf.2
    have htp0 : p2.to_process = [] := by
      rw [htp2, hpb, hcb]
      rfl
    have hb0 : p2.predict_buffer = [] ∧ p2.complete_buffer = [] := by
      rw [e]
      exact ⟨rfl, rfl⟩
    have hin : ∀ y, p2.InTarget k y → y ∈ itemsetInsertAll cell p.to_process := by
      rintro y (⟨cell1, hc1, hy⟩ | hy | hy | hy)
      · rw [hk2] at hc1
        cases hc1
        exact hy
      · rw [htp0] at hy
        cases hy
      · rw [hb0.1] at hy
        cases hy
      · rw [hb0.2] at hy
        cases hy
    intro cl hcl it hit
    rw [hk2] at hcl
    cases hcl
    obtain ⟨d1, d2, d3⟩ := hall it (by rw [hk2]; exact hit)
    exact ⟨fun a b r hr c => hin _ (d1 a b r hr c), d2,
      fun a b cell2 hc2 it2 hit2 c d => hin _ (d3 a b cell2 hc2 it2 hit2 c d)⟩

/-- Every point of a run of `parse(w)` on a parser with a well-formed grammar
and empty working sets satisfies the closure invariant. -/
theorem EarleyParser.Reaches_tracked (p0 : EarleyParser) (w : List ES) (hg : p0.grammar.WF)
    (h0 : p0.to_process = [] ∧ p0.predict_buffer = [] ∧ p0.complete_buffer = [])
    (pt : ParsePoint) (h : EarleyParser.Reaches p0 w pt) : ParsePoint.Tracked p0 w pt := by
  induction h with
  | start c cell hc hs hcell =>
    rw [EarleyChart.initialise_clear] at hc
    simp only [Except.ok.injEq] at hc
    subst hc
    simp only [EarleyChart.cell, List.getElem?_cons_zero, Except.ok.injEq] at hcell
    subst hcell
    rw [h0.1]
    refine ⟨fun _ it hit => Or.inl ?_, fun j hj => by simp only at hj; omega⟩
    simp only [List.getElem?_cons_zero, Option.getD_some, List.mem_singleton, or_self_left] at hit ⊢
    have e : itemsetInsertAll [] [(⟨0, 0, 0, p0.grammar.start⟩ : EarleyItem)] =
        [⟨0, 0, 0, p0.grammar.start⟩] := by
      simp [itemsetInsertAll, itemsetInsert, itemsetContains]
    rw [e] at hit ⊢
    simpa using hit
  | item pt item rest st hreach hr ht hp ih =>
    have hi := EarleyParser.Reaches_inv p0 w h0 pt hreach
    have hs := EarleyParser.Reaches_sound p0 w hg h0 pt hreach
    obtain ⟨k, p, np, nc, todo, running⟩ := pt
    simp only at hr ht hp
    subst hr
    subst ht
    exact ParsePoint.Tracked_item p0 w k p np nc item rest st hg hi hs ih hp
  | again pt p2 hreach hr ht _ hm ih =>
    have hi := EarleyParser.Reaches_inv p0 w h0 pt hreach
    have hs := EarleyParser.Reaches_sound p0 w hg h0 pt hreach
    obtain ⟨k, p, np, nc, todo, running⟩ := pt
    simp only at hr ht hm
    subst hr
    subst ht
    obtain ⟨a, b, _⟩ := ParsePoint.Tracked_merge p0 w k p p2 np nc hi hs ih hm
    refine ⟨fun _ it hit => ?_, b⟩
    simp only at hit ⊢
    rcases hit with h1 | h1
    · exact Or.inr (a it h1)
    · exact Or.inl h1
  | next pt p2 cell hreach hr ht hf hm hlt hcell ih =>
    have hi := EarleyParser.Reaches_inv p0 w h0 pt hreach
    have hs := EarleyParser.Reaches_sound p0 w hg h0 pt hreach
    obtain ⟨k, p, np, nc, todo, running⟩ := pt
    simp only at hr ht hm hf hlt hcell
    subst hr
    subst ht
    obtain ⟨a, b, c⟩ := ParsePoint.Tracked_merge p0 w k p p2 np nc hi hs ih hm
    obtain ⟨_, _, s3, s4, _⟩ := ParsePoint.Sound_merge p0 w k p p2 np nc hs hm false false [] true
    simp only at s3 s4
    have hc2 : p2.chart.chart[k + 1]? = some cell := by
      unfold EarleyChart.cell at hcell
      split at hcell
      · cases hcell
      · rename_i cc hcc
        simp only [Except.ok.injEq] at hcell
        rw [hcc, hcell]
    refine ⟨fun _ it hit => Or.inl ?_, ?_⟩
    · simp only at hit ⊢
      rcases hit with h1 | h1
      · rw [hc2] at h1
        exact itemsetInsertAll_mem _ _ _ (fun z hz => (s4 z hz).1.rb)
          (fun z hz => (s3 _ _ hc2 z hz).1.rb) h1
      · exact h1
    · intro j hj
      simp only at hj ⊢
      by_cases hjk : j = k
      · subst hjk
        exact c hf
      · exact b j (by omega)
  | done pt p2 hreach hr ht hf hm _ ih =>
    have hi := EarleyParser.Reaches_inv p0 w h0 pt hreach
    have hs := EarleyParser.Reaches_sound p0 w hg h0 pt hreach
    obtain ⟨k, p, np, nc, todo, running⟩ := pt
    simp only at hr ht hm hf
    subst hr
    subst ht
    obtain ⟨a, b, c⟩ := ParsePoint.Tracked_merge p0 w k p p2 np nc hi hs ih hm
    refine ⟨(fun hh => by cases hh), ?_⟩
    intro j hj
    simp only at hj ⊢
    by_cases hjk : j = k
    · subst hjk
      exact c hf
    · exact b j (by omega)

/-- A flag that is set after the visit of an item was set before, or its
buffer is not empty. -/
theorem EarleyParser.processItem_flags (p : EarleyParser) (np nc : Bool) (item : EarleyItem)
    (st : EarleyParser × Bool × Bool)
    (h : EarleyParser.processItem (p, np, nc) item = .ok st) :
    (st.2.1 = true → np = true ∨ st.1.predict_buffer ≠ []) ∧
      (st.2.2 = true → nc = true ∨ st.1.complete_buffer ≠ []) := by
  unfold EarleyParser.processItem at h
  simp only at h
  have key : ∀ (p1 : EarleyParser) (new_p : Bool),
      (if (if p.grammar.soverload = true then !item.complete
          else !item.complete && !decide (item.next ∈ p.tags)) = true then
        match p.predict item with
        | .ok (b, p1) => Except.ok (p1, np || b)
        | .error e => .error e
      else .ok (p, np)) = .ok (p1, new_p) →
      p1 = { p with predict_buffer := p1.predict_buffer } ∧
        (new_p = true → np = true ∨ p1.predict_buffer ≠ []) := by
    intro p1 new_p hp
    by_cases hcnd : (if p.grammar.soverload = true then !item.complete
        else !item.complete && !decide (item.next ∈ p.tags)) = true
    · rw [if_pos hcnd] at hp
      rcases hpr : p.predict item with e | ⟨b, p1b⟩
      · rw [hpr] at hp
        cases hp
      · rw [hpr] at hp
        simp only [Except.ok.injEq, Prod.mk.injEq] at hp
        obtain ⟨e1, e2⟩ := hp
        subst e1
        subst e2
        obtain ⟨a1, _, _, _, _, a6⟩ := EarleyParser.predictLoop_frame _ _ _ _ _ _ hpr
        refine ⟨a1, ?_⟩
        intro hf
        simp only [Bool.or_eq_true] at hf
        rcases hf with hf | hf
        · exact Or.inl hf
        · rcases a6 hf with hh | hh
          · cases hh
          · exact Or.inr hh
    · rw [if_neg hcnd] at hp
      simp only [Except.ok.injEq, Prod.mk.injEq] at hp
      obtain ⟨e1, e2⟩ := hp
      subst e1
      subst e2
      exact ⟨rfl, fun hf => Or.inl hf⟩
  split at h
  · cases h
  · rename_i p1 new_p hp
    obtain ⟨k1, k2⟩ := key p1 new_p hp
    have f3 : p1.complete_buffer = p.complete_buffer := by rw [k1]
    split at h
    · split at h
      · rename_i p2 hs
        simp only [Except.ok.injEq] at h
        subst h
        obtain ⟨s1, _⟩ := EarleyParser.scan_frame p1 item p2 hs
        have g2 : p2.predict_buffer = p1.predict_buffer := by rw [s1]
        refine ⟨fun hf => ?_, fun hf => Or.inl hf⟩
        simp only at hf ⊢
        rw [g2]
        exact k2 hf
      · cases h
    · split at h
      · split at h
        · rename_i b p2 hc
          simp only [Except.ok.injEq] at h
          subst h
          unfold EarleyParser.complete at hc
          split at hc
          · cases hc
          · rename_i cell hcell
            obtain ⟨c1, _, _, _, _, c6⟩ := EarleyParser.completeLoop_frame _ _ _ _ _ _ hc
            have g2 : p2.predict_buffer = p1.predict_buffer := by rw [c1]
            refine ⟨fun hf => ?_, fun hf => ?_⟩
            · simp only at hf ⊢
              rw [g2]
              exact k2 hf
            · simp only [Bool.or_eq_true] at hf ⊢
              rcases hf with hf | hf
              · exact Or.inl hf
              · rcases c6 hf with hh | hh
                · cases hh
                · exact Or.inr hh
        · cases h
      · simp only [Except.ok.injEq] at h
        subst h
        exact ⟨fun hf => k2 hf, fun hf => Or.inl hf⟩

theorem itemsetContains_false (s : List EarleyItem) (y : EarleyItem)
    (h : itemsetContains s y = false) : y ∉ s := by
  intro hy
  rw [itemsetContains_of_mem s y hy] at h
  cases h

theorem ParsePoint.Novel_item (n k : Nat) (p : EarleyParser) (np nc : Bool) (item : EarleyItem)
    (rest : List EarleyItem) (st : EarleyParser × Bool × Bool)
    (hi : ParsePoint.Inv n ⟨k, p, np, nc, item :: rest, true⟩)
    (hn : ParsePoint.Novel ⟨k, p, np, nc, item :: rest, true⟩)
    (h : EarleyParser.processItem (p, np, nc) item = .ok st) :
    ParsePoint.Novel ⟨k, st.1, st.2.1, st.2.2, rest, true⟩ := by
  obtain ⟨i1, i2, i3, i4, i5, i6, i7, i8⟩ := hi
  obtain ⟨n1, n2, n3⟩ := hn
  simp only at i1 i2 i3 i4 i5 i6 i7 i8 n1 n2 n3
  obtain ⟨⟨f1, f2, f3, f4, f5, f6, f7⟩, _, _, ⟨q4, q4m⟩, ⟨q5, q5m⟩, _⟩ :=
    EarleyParser.processItem_post p np nc item st h
  obtain ⟨g1, g2⟩ := EarleyParser.processItem_flags p np nc item st h
  have hitem : item ∈ p.to_process := i6 item (List.mem_cons_self _ _)
  have hto : item.to_ = k := (i3 item (Or.inl hitem)).1
  rw [hto] at q4 q5 f7
  have hck : st.1.chart.chart[k]? = p.chart.chart[k]? := f7 k (by omega)
  have hfresh : ∀ y, p.chart.contains k y = .ok false → itemsetContains p.to_process y = false →
      y ∉ (p.chart.chart[k]?).getD [] ∧ y ∉ p.to_process := by
    intro y h1 h2
    refine ⟨?_, itemsetContains_false _ _ h2⟩
    unfold EarleyChart.contains at h1
    rcases Option.eq_none_or_eq_some (p.chart.chart[k]?) with hn | ⟨cell, hc⟩
    · rw [hn]
      simp
    · rw [hc] at h1 ⊢
      simp only [Except.ok.injEq] at h1
      exact itemsetContains_false _ _ h1
  refine ⟨?_, ?_, ?_⟩
  · intro hf
    rcases g1 hf with h1 | h1
    · obtain ⟨y, hy⟩ := List.exists_mem_of_ne_nil _ (n1 h1)
      exact List.ne_nil_of_mem (q4m y hy)
    · exact h1
  · intro hf
    rcases g2 hf with h1 | h1
    · obtain ⟨y, hy⟩ := List.exists_mem_of_ne_nil _ (n2 h1)
      exact List.ne_nil_of_mem (q5m y hy)
    · exact h1
  · intro y hy
    simp only at hy ⊢
    rw [hck, f1]
    rcases hy with hy | hy
    · rcases q4 y hy with h1 | ⟨_, _, r, _, _, _, c1, c2⟩
      · exact n3 y (Or.inl h1)
      · exact hfresh y c1 c2
    · rcases q5 y hy with h1 | ⟨_, cell, _, it2, _, _, _, _, c1, c2⟩
      · exact n3 y (Or.inr h1)
      · exact hfresh y c1 c2

/-- Every point of a run of `parse` on a parser whose working sets are empty
satisfies the invariant of the flags. -/
theorem EarleyParser.Reaches_novel (p0 : EarleyParser) (w : List ES)
    (h0 : p0.to_process = [] ∧ p0.predict_buffer = [] ∧ p0.complete_buffer = [])
    (pt : ParsePoint) (h : EarleyParser.Reaches p0 w pt) : ParsePoint.Novel pt := by
  have hmerge : ∀ (k : Nat) (p p2 : EarleyParser), p.merge k = .ok p2 →
      p2.predict_buffer = [] ∧ p2.complete_buffer = [] := by
    intro k p p2 hm
    obtain ⟨_, _, e⟩ := EarleyParser.merge_frame p k p2 hm
    rw [e]
    exact ⟨rfl, rfl⟩
  have hnil : ∀ (k : Nat) (q : EarleyParser) (t : List EarleyItem) (r : Bool),
      q.predict_buffer = [] ∧ q.complete_buffer = [] →
      ParsePoint.Novel ⟨k, q, false, false, t, r⟩ := by
    intro k q t r hq
    refine ⟨(fun hh => by cases hh), (fun hh => by cases hh), ?_⟩
    intro y hy
    simp only at hy
    rw [hq.1, hq.2] at hy
    simp at hy
  induction h with
  | start c cell hc hs hcell => exact hnil _ _ _ _ ⟨h0.2.1, h0.2.2⟩
  | item pt item rest st hreach hr ht hp ih =>
    have hi := EarleyParser.Reaches_inv p0 w h0 pt hreach
    obtain ⟨k, p, np, nc, todo, running⟩ := pt
    simp only at hr ht hp
    subst hr
    subst ht
    exact ParsePoint.Novel_item w.length k p np nc item rest st hi ih hp
  | again pt p2 _ hr ht _ hm ih => exact hnil _ _ _ _ (hmerge _ _ _ hm)
  | next pt p2 cell _ hr ht hf hm hlt hcell ih =>
    have hb := hmerge _ _ _ hm
    exact hnil _ _ _ _ ⟨hb.1, hb.2⟩
  | done pt p2 _ hr ht hf hm _ ih => exact hnil _ _ _ _ (hmerge _ _ _ hm)

/-! ## The run ends -/

/-- The `for` loop over `to_process` ends without a fault when no tag has the
word `"$"`; it leaves cell `k` and `to_process` unchanged. -/
theorem EarleyParser.processAll_total (p0 : EarleyParser) (w : List ES) (hg : p0.grammar.WF)
    (h0 : p0.to_process = [] ∧ p0.predict_buffer = [] ∧ p0.complete_buffer = [])
    (hns : ¬ SentinelWord p0.tags p0.pwm) (k : Nat)
    (items : List EarleyItem) (p : EarleyParser) (np nc : Bool)
    (hr : EarleyParser.Reaches p0 w ⟨k, p, np, nc, items, true⟩) :
    ∃ st, EarleyParser.processAll items (p, np, nc) = .ok st ∧
      st.1.chart.chart[k]? = p.chart.chart[k]? ∧ st.1.to_process = p.to_process := by
  induction items generalizing p np nc with
  | nil => exact ⟨_, rfl, rfl, rfl⟩
  | cons item rest ih =>
    obtain ⟨i1, i2, i3, i4, i5, i6, i7, i8⟩ := EarleyParser.Reaches_inv p0 w h0 _ hr
    obtain ⟨s1, s2, s3, s4, s5, _⟩ := EarleyParser.Reaches_sound p0 w hg h0 _ hr
    simp only at i1 i2 i3 i4 i5 i6 i7 i8 s1 s2 s3 s4 s5
    have i7 : k ≤ w.length := i7 trivial
    have hitem : item ∈ p.to_process := i6 item (List.mem_cons_self _ _)
    obtain ⟨hto, hfrom, _⟩ := i3 item (Or.inl hitem)
    rw [EarleyParser.processAll]
    rcases hpi : EarleyParser.processItem (p, np, nc) item with e | st1
    · exfalso
      have hlen : p.chart.tokens.length = w.length + 1 := by
        rw [s2]
        simp
      obtain ⟨_, c2, c3, c4, words, word, c5, c6, c7⟩ :=
        EarleyParser.processItem_fault p np nc item e hpi
          ⟨_, List.getElem?_eq_getElem (by omega)⟩ ⟨_, List.getElem?_eq_getElem (by omega)⟩
          ⟨_, List.getElem?_eq_getElem (by omega)⟩
      rw [hto] at c2 c6
      have hkn : k = w.length := by
        by_contra hne
        rw [List.getElem?_eq_getElem (by omega)] at c2
        cases c2
      rw [s2, hkn, List.getElem?_append_right (le_refl _)] at c6
      simp only [Nat.sub_self, List.getElem?_cons_zero, Option.some.injEq] at c6
      subst c6
      apply hns
      refine ⟨item.next, ?_, words, ?_, c7⟩
      · rw [← s1.2.2.2.1]
        exact c4
      · rw [← s1.2.2.2.2.1]
        exact c5
    · simp only
      obtain ⟨p1, np1, nc1⟩ := st1
      obtain ⟨⟨f1, _, _, _, _, _, f7⟩, _⟩ := EarleyParser.processItem_post p np nc item _ hpi
      obtain ⟨st, a1, a2, a3⟩ :=
        ih p1 np1 nc1 (EarleyParser.Reaches.item _ item rest _ hr rfl rfl hpi)
      refine ⟨st, a1, ?_, ?_⟩
      · rw [a2]
        exact f7 k (by omega)
      · rw [a3]
        exact f1

/-- Items over a rule of the grammar inside the sentence are in the universe. -/
theorem EarleyItem.OfGrammar.mem_itemUniverse {g : Grammar} {it : EarleyItem} {n : Nat}
    (h : it.OfGrammar g) (hb : it.InBounds) (ht : it.to_ ≤ n) : it ∈ itemUniverse g n := by
  unfold itemUniverse
  simp only [List.mem_flatMap, List.mem_range, List.mem_map]
  obtain ⟨hb1, hb2⟩ := hb
  exact ⟨it.rule, h.2.1, it.dot, by omega, it.from_, by omega, it.to_, by omega, rfl⟩

/-- The call of `merge` at the end of a pass succeeds, and fewer items are
pending after it when a flag is set. -/
theorem EarleyParser.merge_total (p0 : EarleyParser) (w : List ES) (hg : p0.grammar.WF)
    (h0 : p0.to_process = [] ∧ p0.predict_buffer = [] ∧ p0.complete_buffer = [])
    (k : Nat) (p : EarleyParser) (np nc : Bool)
    (hr : EarleyParser.Reaches p0 w ⟨k, p, np, nc, [], true⟩) :
    ∃ p2, p.merge k = .ok p2 ∧ ((np || nc) = true →
      p2.pending p0.grammar w.length k < p.pending p0.grammar w.length k) := by
  obtain ⟨i1, i2, i3, i4, i5, i6, i7, i8⟩ := EarleyParser.Reaches_inv p0 w h0 _ hr
  obtain ⟨s1, s2, s3, s4, s5, _⟩ := EarleyParser.Reaches_sound p0 w hg h0 _ hr
  obtain ⟨n1, n2, n3⟩ := EarleyParser.Reaches_novel p0 w h0 _ hr
  simp only at i1 i2 i3 i4 i5 i6 i7 i8 s1 s2 s3 s4 s5 n1 n2 n3
  have i7 : k ≤ w.length := i7 trivial
  have hlen : k < p.chart.chart.length := by omega
  have hc : p.chart.chart[k]? = some p.chart.chart[k] := List.getElem?_eq_getElem hlen
  have hm : p.merge k = .ok { p with
      chart := { p.chart with
        chart := (p.chart.chart.set k (itemsetInsertAll p.chart.chart[k] p.to_process)) },
      to_process := itemsetInsertAll (itemsetInsertAll [] p.predict_buffer) p.complete_buffer,
      complete_buffer := [], predict_buffer := [] } := by
    unfold EarleyParser.merge EarleyChart.cellInsertAll
    rw [hc]
  refine ⟨_, hm, ?_⟩
  intro hf
  have hrbc : ∀ z ∈ p.chart.chart[k], z.rule.rhs_begin = 1 := fun z hz => (s3 k _ hc z hz).1.rb
  have hrbt : ∀ z ∈ p.to_process, z.rule.rhs_begin = 1 := fun z hz => (s4 z hz).1.rb
  have hrbp : ∀ z ∈ p.predict_buffer, z.rule.rhs_begin = 1 :=
    fun z hz => (s5 z (Or.inl hz)).1.1
  have hrbq : ∀ z ∈ p.complete_buffer, z.rule.rhs_begin = 1 :=
    fun z hz => (s5 z (Or.inr hz)).1.1
  have hrb1 : ∀ z ∈ itemsetInsertAll [] p.predict_buffer, z.rule.rhs_begin = 1 := by
    intro z hz
    rcases mem_itemsetInsertAll _ _ _ hz with h1 | h1
    · simp at h1
    · exact hrbp z h1
  -- some buffered item
  have hy : ∃ y, y ∈ p.predict_buffer ∨ y ∈ p.complete_buffer := by
    simp only [Bool.or_eq_true] at hf
    rcases hf with hf | hf
    · obtain ⟨y, hy⟩ := List.exists_mem_of_ne_nil _ (n1 hf)
      exact ⟨y, Or.inl hy⟩
    · obtain ⟨y, hy⟩ := List.exists_mem_of_ne_nil _ (n2 hf)
      exact ⟨y, Or.inr hy⟩
  obtain ⟨y, hy⟩ := hy
  have hyn := n3 y hy
  rw [hc] at hyn
  simp only [Option.getD_some] at hyn
  have hyu : y ∈ itemUniverse p0.grammar w.length := by
    have hb := i3 y (Or.inr hy)
    exact (s5 y hy).1.mem_itemUniverse hb.2 (by rw [hb.1]; exact i7)
  have hy2 : y ∈ itemsetInsertAll (itemsetInsertAll [] p.predict_buffer) p.complete_buffer := by
    rcases hy with hy | hy
    · exact itemsetInsertAll_keeps _ _ _ (itemsetInsertAll_mem _ _ _ (by simp) hrbp hy)
    · exact itemsetInsertAll_mem _ _ _ hrb1 hrbq hy
  unfold EarleyParser.pending
  simp only
  rw [List.getElem?_set_self hlen, hc]
  simp only [Option.getD_some]
  apply filter_length_lt
  · intro x _ hx
    simp only [Bool.and_eq_true, Bool.not_eq_true', decide_eq_false_iff_not] at hx ⊢
    exact ⟨fun hh => hx.1 (itemsetInsertAll_keeps _ _ _ hh),
      fun hh => hx.1 (itemsetInsertAll_mem _ _ _ hrbc hrbt hh)⟩
  · refine ⟨y, hyu, ?_, ?_⟩
    · simp only [Bool.and_eq_true, Bool.not_eq_true', decide_eq_false_iff_not]
      exact hyn
    · simp [hy2]

/-- The `do ... while` loop of cell `k` ends when no tag has the word `"$"` and
the fuel exceeds the number of pending items. -/
theorem EarleyParser.fixpoint_total (p0 : EarleyParser) (w : List ES) (hg : p0.grammar.WF)
    (h0 : p0.to_process = [] ∧ p0.predict_buffer = [] ∧ p0.complete_buffer = [])
    (hns : ¬ SentinelWord p0.tags p0.pwm) (k fuel : Nat) (p : EarleyParser)
    (hr : EarleyParser.Reaches p0 w ⟨k, p, false, false, p.to_process, true⟩)
    (hfuel : p.pending p0.grammar w.length k < fuel) :
    ∃ q, EarleyParser.fixpoint fuel k p = .ok q := by
  induction fuel generalizing p with
  | zero => omega
  | succ fuel ih =>
    rw [EarleyParser.fixpoint]
    obtain ⟨st, a1, a2, a3⟩ :=
      EarleyParser.processAll_total p0 w hg h0 hns k _ p false false hr
    have hr1 := EarleyParser.processAll_reaches p0 w k _ p false false _ hr a1
    rw [a1]
    obtain ⟨p1, np, nc⟩ := st
    simp only at hr1 a2 a3 ⊢
    obtain ⟨p2, hm, hdec⟩ := EarleyParser.merge_total p0 w hg h0 k p1 np nc hr1
    rw [hm]
    simp only
    have hpe : p1.pending p0.grammar w.length k = p.pending p0.grammar w.length k := by
      unfold EarleyParser.pending
      rw [a2, a3]
    by_cases hf : (np || nc) = true
    · rw [if_pos hf]
      have := hdec hf
      exact ih p2 (EarleyParser.Reaches.again _ p2 hr1 rfl rfl hf hm) (by omega)
    · rw [if_neg hf]
      exact ⟨_, rfl⟩

/-- The sweep has ended only after the last cell. -/
theorem EarleyParser.Reaches_end (p0 : EarleyParser) (w : List ES)
    (h0 : p0.to_process = [] ∧ p0.predict_buffer = [] ∧ p0.complete_buffer = [])
    (pt : ParsePoint) (h : EarleyParser.Reaches p0 w pt) (hr : pt.running = false) :
    pt.index = w.length + 1 := by
  cases h with
  | start c cell hc hs hcell => cases hr
  | item pt item rest st hreach hr ht hp => cases hr
  | again pt p2 _ hr ht _ hm => cases hr
  | next pt p2 cell _ hr ht hf hm hlt hcell => cases hr
  | done pt p2 hreach hrun ht hf hm hlt =>
    have hi := EarleyParser.Reaches_inv p0 w h0 pt hreach
    obtain ⟨k, p, np, nc, todo, running⟩ := pt
    simp only at hrun ht hm hf hlt ⊢
    subst hrun
    subst ht
    obtain ⟨⟨i1, _⟩, _⟩ := ParsePoint.Inv_merge w.length k p p2 np nc hi hm
    simp only at i1
    have i7 : k ≤ w.length := hi.2.2.2.2.2.2.1 rfl
    unfold EarleyChart.size at hlt
    omega

/-- The loop over the cells ends when no tag has the word `"$"`, the fuel of the
inner loop exceeds the number of items of the universe, and the iteration bound
covers the remaining cells. -/
theorem EarleyParser.sweepCells_total (p0 : EarleyParser) (w : List ES) (hg : p0.grammar.WF)
    (h0 : p0.to_process = [] ∧ p0.predict_buffer = [] ∧ p0.complete_buffer = [])
    (hns : ¬ SentinelWord p0.tags p0.pwm) (fuel cnt k : Nat)
    (p1 p : EarleyParser) (np nc : Bool)
    (hr : EarleyParser.Reaches p0 w ⟨k, p1, np, nc, [], true⟩) (hf : (np || nc) = false)
    (hm : p1.merge k = .ok p) (hcnt : w.length ≤ k + cnt)
    (hfuel : (itemUniverse p0.grammar w.length).length < fuel) :
    ∃ q, EarleyParser.sweepCells fuel cnt (k + 1) p = .ok q := by
  induction cnt generalizing k p1 p np nc with
  | zero =>
    have hi := EarleyParser.Reaches_inv p0 w h0 _ hr
    obtain ⟨⟨i1, _⟩, _⟩ := ParsePoint.Inv_merge w.length k p1 p np nc hi hm
    simp only at i1
    simp only [EarleyParser.sweepCells, EarleyChart.size]
    rw [if_neg (by omega)]
    exact ⟨_, rfl⟩
  | succ cnt ih =>
    have hi := EarleyParser.Reaches_inv p0 w h0 _ hr
    obtain ⟨⟨i1, _⟩, _⟩ := ParsePoint.Inv_merge w.length k p1 p np nc hi hm
    simp only at i1
    rw [EarleyParser.sweepCells]
    by_cases hlt : k + 1 < p.chart.size
    · rw [if_pos hlt]
      have hlt2 : k + 1 < p.chart.chart.length := hlt
      have hc : p.chart.cell (k + 1) = .ok p.chart.chart[k + 1] := by
        unfold EarleyChart.cell
        rw [List.getElem?_eq_getElem hlt2]
      rw [hc]
      simp only
      have hr1 := EarleyParser.Reaches.next _ p _ hr rfl rfl hf hm hlt hc
      obtain ⟨p2, hfx⟩ := EarleyParser.fixpoint_total p0 w hg h0 hns (k + 1) fuel _ hr1
        (lt_of_le_of_lt (EarleyParser.pending_le _ _ _ _) hfuel)
      rw [hfx]
      simp only
      obtain ⟨p3, np3, nc3, r3, f3, m3⟩ :=
        EarleyParser.fixpoint_reaches p0 w (k + 1) fuel _ p2 hr1 hfx
      exact ih (k + 1) p3 p2 np3 nc3 r3 f3 m3 (by omega)
    · rw [if_neg hlt]
      exact ⟨_, rfl⟩

/-- `parse` returns when no tag has the word `"$"` and the fuel exceeds the
number of items of the universe. -/
theorem EarleyParser.parse_total (p0 : EarleyParser) (w : List ES) (hg : p0.grammar.WF)
    (h0 : p0.to_process = [] ∧ p0.predict_buffer = [] ∧ p0.complete_buffer = [])
    (hns : ¬ SentinelWord p0.tags p0.pwm) (fuel : Nat)
    (hfuel : (itemUniverse p0.grammar w.length).length < fuel) :
    ∃ b q, p0.parse fuel w = .ok (b, q) := by
  have hinit := EarleyChart.initialise_clear p0.chart w p0.grammar.start
  have hr0 := @EarleyParser.Reaches.start p0 w _
    [⟨0, 0, 0, p0.grammar.start⟩] hinit (by simp [EarleyChart.size])
    (by simp [EarleyChart.cell])
  obtain ⟨p2, hfx⟩ := EarleyParser.fixpoint_total p0 w hg h0 hns 0 fuel _ hr0
    (lt_of_le_of_lt (EarleyParser.pending_le _ _ _ _) hfuel)
  obtain ⟨p3, np3, nc3, r3, f3, m3⟩ := EarleyParser.fixpoint_reaches p0 w 0 fuel _ p2 hr0 hfx
  obtain ⟨q, hq⟩ := EarleyParser.sweepCells_total p0 w hg h0 hns fuel w.length 0 p3 p2 np3 nc3
    r3 f3 m3 (by omega) hfuel
  obtain ⟨k2, hr2⟩ := EarleyParser.sweepCells_reaches p0 w fuel w.length 0 p3 p2 q np3 nc3
    r3 f3 m3 hq
  have hlen := (EarleyParser.Reaches_inv p0 w h0 _ hr2).1
  simp only at hlen
  have hs : EarleyParser.sweepCells fuel (w.length + 1) 0
      { p0 with chart :=
        { chart := [⟨0, 0, 0, p0.grammar.start⟩] :: List.replicate w.length [],
          tokens := w ++ ["$"],
          final_item := ⟨p0.grammar.start.get_rhs.length, 0, w.length, p0.grammar.start⟩ } }
      = .ok q := by
    rw [EarleyParser.sweepCells]
    simp only [EarleyChart.size, List.length_cons, List.length_replicate, Nat.zero_lt_succ,
      if_true, EarleyChart.cell, List.getElem?_cons_zero]
    rw [hfx]
    exact hq
  unfold EarleyParser.parse
  rw [hinit]
  simp only [EarleyChart.size, List.length_cons, List.length_replicate]
  rw [hs]
  simp only
  rcases hl : q.chart.chart.getLast? with _ | cell
  · rw [List.getLast?_eq_none_iff] at hl
    rw [hl] at hlen
    simp at hlen
  · exact ⟨_, _, rfl⟩

/-! ## The chart of a run that returns -/

/-- At every point of a run the final item is `($ -> S ., 0, |w|)` and cell 0
holds the item `($ -> . S, 0, 0)`. -/
theorem EarleyParser.Reaches_anchor (p0 : EarleyParser) (w : List ES)
    (pt : ParsePoint) (h : EarleyParser.Reaches p0 w pt) :
    pt.parser.chart.final_item =
        ⟨p0.grammar.start.get_rhs.length, 0, w.length, p0.grammar.start⟩ ∧
      ∃ cell, pt.parser.chart.chart[0]? = some cell ∧
        (⟨0, 0, 0, p0.grammar.start⟩ : EarleyItem) ∈ cell := by
  have hmerge : ∀ (k : Nat) (p p2 : EarleyParser), p.merge k = .ok p2 →
      (p.chart.final_item =
          ⟨p0.grammar.start.get_rhs.length, 0, w.length, p0.grammar.start⟩ ∧
        ∃ cell, p.chart.chart[0]? = some cell ∧
          (⟨0, 0, 0, p0.grammar.start⟩ : EarleyItem) ∈ cell) →
      (p2.chart.final_item =
          ⟨p0.grammar.start.get_rhs.length, 0, w.length, p0.grammar.start⟩ ∧
        ∃ cell, p2.chart.chart[0]? = some cell ∧
          (⟨0, 0, 0, p0.grammar.start⟩ : EarleyItem) ∈ cell) := by
    intro k p p2 hm ⟨a1, cell, a2, a3⟩
    obtain ⟨cl, hc, e⟩ := EarleyParser.merge_frame p k p2 hm
    have hlen : k < p.chart.chart.length := by
      by_contra hn
      rw [List.getElem?_eq_none (by omega)] at hc
      cases hc
    rw [e]
    refine ⟨a1, ?_⟩
    simp only
    by_cases hk : k = 0
    · subst hk
      rw [hc] at a2
      cases a2
      exact ⟨_, List.getElem?_set_self hlen, itemsetInsertAll_keeps _ _ _ a3⟩
    · rw [List.getElem?_set_ne hk]
      exact ⟨cell, a2, a3⟩
  induction h with
  | start c cell hc hs hcell =>
    rw [EarleyChart.initialise_clear] at hc
    simp only [Except.ok.injEq] at hc
    subst hc
    exact ⟨rfl, [⟨0, 0, 0, p0.grammar.start⟩], by simp, List.mem_singleton.2 rfl⟩
  | item pt item rest st hreach hr ht hp ih =>
    obtain ⟨⟨_, _, _, _, f5, _, f7⟩, _⟩ :=
      EarleyParser.processItem_post pt.parser pt.new_p pt.new_c item st hp
    obtain ⟨a1, cell, a2, a3⟩ := ih
    refine ⟨f5.trans a1, cell, ?_, a3⟩
    simp only
    rw [f7 0 (by omega)]
    exact a2
  | again pt p2 _ hr ht _ hm ih => exact hmerge _ _ _ hm ih
  | next pt p2 cell _ hr ht hf hm hlt hcell ih =>
    have hb := hmerge _ _ _ hm ih
    exact ⟨hb.1, hb.2⟩
  | done pt p2 _ hr ht hf hm _ ih => exact hmerge _ _ _ hm ih

/-- The chart in which `parse(w)` returns holds exactly the items of the
deduction system, each in the cell of its end position, and the answer is true
exactly when the final item `($ -> S ., 0, |w|)` is derived. -/
theorem EarleyParser.parse_chart (p0 : EarleyParser) (w : List ES) (hg : p0.grammar.WF)
    (h0 : p0.to_process = [] ∧ p0.predict_buffer = [] ∧ p0.complete_buffer = [])
    (fuel : Nat) (b : Bool) (q : EarleyParser) (h : p0.parse fuel w = .ok (b, q)) :
    q.chart.chart.length = w.length + 1 ∧
      (∀ (j : Nat) (cell : List EarleyItem), q.chart.chart[j]? = some cell → ∀ it ∈ cell,
        it.to_ = j ∧ Ded p0.grammar p0.tags p0.pwm w (p0.grammar.internAll w).id_of it) ∧
      (∀ it, Ded p0.grammar p0.tags p0.pwm w (p0.grammar.internAll w).id_of it →
        ∃ cell, q.chart.chart[it.to_]? = some cell ∧ it ∈ cell) ∧
      (b = true ↔ Ded p0.grammar p0.tags p0.pwm w (p0.grammar.internAll w).id_of
        ⟨p0.grammar.start.get_rhs.length, 0, w.length, p0.grammar.start⟩) := by
  obtain ⟨k, hr⟩ := EarleyParser.parse_reaches p0 w fuel b q h
  have hk := EarleyParser.Reaches_end p0 w h0 _ hr rfl
  simp only at hk
  subst hk
  obtain ⟨i1, i2, _⟩ := EarleyParser.Reaches_inv p0 w h0 _ hr
  obtain ⟨_, _, s3, _⟩ := EarleyParser.Reaches_sound p0 w hg h0 _ hr
  obtain ⟨_, t2⟩ := EarleyParser.Reaches_tracked p0 w hg h0 _ hr
  obtain ⟨a1, cell0, a2, a3⟩ := EarleyParser.Reaches_anchor p0 w _ hr
  simp only at i1 i2 s3 t2 a1 a2
  have hlt : ∀ (j : Nat) (cell : List EarleyItem), q.chart.chart[j]? = some cell →
      j < w.length + 1 := by
    intro j cell hc
    by_contra hn
    rw [List.getElem?_eq_none (by omega)] at hc
    cases hc
  have hcomp : ∀ it, Ded p0.grammar p0.tags p0.pwm w (p0.grammar.internAll w).id_of it →
      ∃ cell, q.chart.chart[it.to_]? = some cell ∧ it ∈ cell := by
    intro it hd
    induction hd with
    | start => exact ⟨cell0, a2, a3⟩
    | predict it r _ hc htag hr hfil ih =>
      obtain ⟨cell, c1, c2⟩ := ih
      exact ⟨cell, c1, (t2 _ (hlt _ _ c1) cell c1 it c2).1 hc htag r hr hfil⟩
    | scan it words word wid _ hc htag hmf hwk hmem hid ih =>
      obtain ⟨cell, c1, c2⟩ := ih
      obtain ⟨cell2, wid2, d1, d2, d3⟩ :=
        (t2 _ (hlt _ _ c1) cell c1 it c2).2.1 hc htag words word hmf hwk hmem
      rw [hid] at d3
      cases d3
      exact ⟨cell2, d1, d2⟩
    | complete it it2 _ _ hc hto hc2 hlhs ih1 ih2 =>
      obtain ⟨cell, c1, c2⟩ := ih1
      obtain ⟨cell2, e1, e2⟩ := ih2
      have hfl : it.from_ < it.to_ :=
        (s3 _ cell c1 it c2).1.from_lt (i2 _ cell c1 it c2).2.1 hc
      rw [hto] at e1
      exact ⟨cell, c1, (t2 _ (hlt _ _ c1) cell c1 it c2).2.2 hc hfl cell2 e1 it2 e2 hc2 hlhs⟩
  refine ⟨i1, fun j cell hc it hit => ⟨(i2 j cell hc it hit).1, (s3 j cell hc it hit).2⟩,
    hcomp, ?_⟩
  -- the answer
  unfold EarleyParser.parse at h
  rw [EarleyChart.initialise_clear] at h
  simp only at h
  split at h
  · cases h
  · rename_i p1 hs
    split at h
    · cases h
    · rename_i cell hl
      simp only [Except.ok.injEq, Prod.mk.injEq] at h
      obtain ⟨hb, hq⟩ := h
      subst hq
      have hcell : p1.chart.chart[w.length]? = some cell := by
        rw [List.getLast?_eq_getElem?, i1] at hl
        exact hl
      have hrb : ∀ z ∈ cell, z.rule.rhs_begin = 1 := fun z hz => (s3 _ cell hcell z hz).1.rb
      rw [← hb]
      unfold EarleyChart.get_final
      rw [a1, itemsetContains_iff cell _ hrb hg.start_shape.1]
      constructor
      · intro hin
        exact (s3 _ cell hcell _ hin).2
      · intro hd
        obtain ⟨cell2, c1, c2⟩ := hcomp _ hd
        simp only at c1
        rw [hcell] at c1
        cases c1
        exact c2

/-! ## Adding a rule to the grammar -/

theorem Grammar.translate_to_is_insert (g : Grammar) (r : Rule) (s : ES) :
    (g.insert r).translate_to_is s =
      ((g.translate_to_is s).1, (g.translate_to_is s).2.insert r) := by
  obtain ⟨so, del, tr, esism, isesm, sep, lex, st, ru⟩ := g
  unfold Grammar.translate_to_is Grammar.insert
  cases so
  · rfl
  · simp only [if_true]
    cases mapFind esism s <;> rfl

theorem Grammar.translateSide_insert (g : Grammar) (r : Rule) (xs : List ES)
    (cur : List Int) :
    (g.insert r).translateSide xs cur =
      ((g.translateSide xs cur).1, (g.translateSide xs cur).2.insert r) := by
  induction xs generalizing g cur with
  | nil => rfl
  | cons x rest ih =>
    simp only [Grammar.translateSide]
    rw [Grammar.translate_to_is_insert]
    exact ih _ _

/-- Interning a sentence and inserting a rule commute. -/
theorem Grammar.internAll_insert (g : Grammar) (r : Rule) (w : List ES) :
    (g.insert r).internAll w = (g.internAll w).insert r := by
  unfold Grammar.internAll Grammar.translate_vec
  rw [Grammar.translateSide_insert]

theorem Grammar.WF.insert_wf {g : Grammar} (hg : g.WF) (a : Int) (rhs : List Int)
    (hne : rhs ≠ []) : (g.insert ⟨[[a], rhs], 1⟩).WF :=
  ⟨(Grammar.insert_ext g _).2.2 hg.1, Grammar.insert_RulesWF g hg.2.1 a rhs hne, hg.2.2⟩

/-- Every item derived with the grammar `g` is derived with `g` extended by a
rule with one left-hand symbol and a non-empty right-hand side. -/
theorem Ded.insert_mono (g : Grammar) (hg : g.WF) (tags : List Int)
    (pwm : List (Int × List ES)) (w : List ES) (idf : ES → Option Int) (a : Int)
    (rhs : List Int) (it : EarleyItem) (h : Ded g tags pwm w idf it) :
    Ded (g.insert ⟨[[a], rhs], 1⟩) tags pwm w idf it := by
  induction h with
  | start => exact Ded.start
  | predict it r _ hc htag hr hfil ih =>
    refine Ded.predict it r ih hc htag ?_ hfil
    rw [Grammar.rules_with_lhs_insert]
    split
    · rw [rulesetInsert_mem _ _ _ 1 (fun y hy => ((hg.2.1 _).2 y hy).1) rfl]
      exact Or.inl hr
    · exact hr
  | scan it words word wid _ hc htag hmf hwk hmem hid ih =>
    exact Ded.scan it words word wid ih hc htag hmf hwk hmem hid
  | complete it it2 _ _ hc hto hc2 hlhs ih1 ih2 =>
    exact Ded.complete it it2 ih1 ih2 hc hto hc2 hlhs

/-- Acceptance is monotone in the grammar when no tag has the word `"$"`: a
sentence accepted with the grammar `g` is accepted, with enough fuel, with `g`
extended by a rule, and every cell of the chart for `g` is contained in the
cell of the chart for the extended grammar. -/
theorem EarleyParser.parse_insert (g : Grammar) (tags : List Int)
    (pwm : List (Int × List ES)) (w : List ES) (a : Int) (rhs : List Int) (hg : g.WF)
    (hne : rhs ≠ []) (hns : ¬ SentinelWord tags pwm) (fuel : Nat) (q : EarleyParser)
    (h : (EarleyParser.new g tags pwm).parse fuel w = .ok (true, q)) :
    (∀ fuel2, (itemUniverse (g.insert ⟨[[a], rhs], 1⟩) w.length).length < fuel2 →
      ∃ q2, (EarleyParser.new (g.insert ⟨[[a], rhs], 1⟩) tags pwm).parse fuel2 w
        = .ok (true, q2)) ∧
      ∀ fuel2 b q2,
        (EarleyParser.new (g.insert ⟨[[a], rhs], 1⟩) tags pwm).parse fuel2 w = .ok (b, q2) →
        b = true ∧ ∀ (j : Nat) (cell : List EarleyItem), q.chart.chart[j]? = some cell →
          ∃ cell2, q2.chart.chart[j]? = some cell2 ∧ ∀ it ∈ cell, it ∈ cell2 := by
  have hg2 := hg.insert_wf a rhs hne
  obtain ⟨_, c2, _, c4⟩ := EarleyParser.parse_chart (EarleyParser.new g tags pwm) w hg
    ⟨rfl, rfl, rfl⟩ fuel true q h
  have hid : ((g.insert ⟨[[a], rhs], 1⟩).internAll w).id_of = (g.internAll w).id_of := by
    rw [Grammar.internAll_insert]
    rfl
  have hsecond : ∀ fuel2 b q2,
      (EarleyParser.new (g.insert ⟨[[a], rhs], 1⟩) tags pwm).parse fuel2 w = .ok (b, q2) →
      b = true ∧ ∀ (j : Nat) (cell : List EarleyItem), q.chart.chart[j]? = some cell →
        ∃ cell2, q2.chart.chart[j]? = some cell2 ∧ ∀ it ∈ cell, it ∈ cell2 := by
    intro fuel2 b q2 h2
    obtain ⟨_, _, d3, d4⟩ := EarleyParser.parse_chart
      (EarleyParser.new (g.insert ⟨[[a], rhs], 1⟩) tags pwm) w hg2 ⟨rfl, rfl, rfl⟩ fuel2 b q2 h2
    simp only [EarleyParser.new] at c2 c4 d3 d4
    rw [hid] at d3 d4
    refine ⟨d4.2 (Ded.insert_mono g hg tags pwm w _ a rhs _ (c4.1 trivial)), ?_⟩
    intro j cell hc
    rcases List.eq_nil_or_concat cell with hnil | ⟨l, y, hl⟩
    · have hj : j < q2.chart.chart.length := by
        have hl1 := (EarleyParser.parse_chart (EarleyParser.new g tags pwm) w hg
          ⟨rfl, rfl, rfl⟩ fuel true q h).1
        have hl2 := (EarleyParser.parse_chart
          (EarleyParser.new (g.insert ⟨[[a], rhs], 1⟩) tags pwm) w hg2 ⟨rfl, rfl, rfl⟩
          fuel2 b q2 h2).1
        have : j < q.chart.chart.length := by
          by_contra hn
          rw [List.getElem?_eq_none (by omega)] at hc
          cases hc
        omega
      exact ⟨_, List.getElem?_eq_getElem hj, by rw [hnil]; simp⟩
    · obtain ⟨ty, dy⟩ := c2 j cell hc y (by rw [hl]; simp)
      obtain ⟨cell2, e1, _⟩ := d3 y (Ded.insert_mono g hg tags pwm w _ a rhs _ dy)
      rw [ty] at e1
      refine ⟨cell2, e1, ?_⟩
      intro it hit
      obtain ⟨ti, di⟩ := c2 j cell hc it hit
      obtain ⟨cell3, e3, e4⟩ := d3 it (Ded.insert_mono g hg tags pwm w _ a rhs _ di)
      rw [ti, e1] at e3
      cases e3
      exact e4
  refine ⟨?_, hsecond⟩
  intro fuel2 hf
  obtain ⟨b, q2, h2⟩ := EarleyParser.parse_total
    (EarleyParser.new (g.insert ⟨[[a], rhs], 1⟩) tags pwm) w hg2 ⟨rfl, rfl, rfl⟩ hns fuel2 hf
  have hb := (hsecond fuel2 b q2 h2).1
  subst hb
  exact ⟨q2, h2⟩

/-- Every grammar returned by the constructor is well formed. -/
theorem Grammar.construct_WF (soverload : Bool) (del : ES) (lines : List ES)
    (ss s separator : ES) (g : Grammar)
    (hc : Grammar.construct soverload del lines ss s separator = .ok g) : g.WF := by
  obtain ⟨hstart, hne, hall⟩ := Grammar.construct_ok_inv _ _ _ _ _ _ g hc
  obtain ⟨g2, A0, xs0, c1, c2, c3, c4, _, _, _, c8, c9, _⟩ :=
    Grammar.construct_spec soverload del lines ss s separator hstart hne hall
  rw [hc] at c1
  cases c1
  obtain ⟨a, rhs, s1, s2, _⟩ := Grammar.ruleOf_shape g A0 xs0 c8
  exact ⟨c2, c3, a, rhs, by rw [c9, s1], s2⟩

/-! ## C20: acceptance is monotone in the grammar -/

/-- Acceptance is monotone in the grammar on the inputs on which no item scans
the end marker.  Let `g` be a well-formed grammar (one the constructor returns,
possibly extended by `insert`), let no tag have the string `"$"` among its
words, and let `parse(w)` return true on a new recognizer for `g`.
Then for the grammar `g.insert r`, where `r` has the single left-hand symbol `a`
and the non-empty right-hand side `rhs`: `parse(w)` on a new recognizer returns
true with every fuel above the number of items of the universe; and whenever it
returns, the answer is true and every cell of the chart for `g` is contained in
the cell with the same index of the chart for `g.insert r`. -/
theorem parse_insert_new (g : Grammar) (tags : List Int)
    (pwm : List (Int × List ES)) (w : List ES) (a : Int) (rhs : List Int) (hg : g.WF)
    (hne : rhs ≠ []) (hns : ¬ SentinelWord tags pwm) (fuel : Nat) (q : EarleyParser)
    (h : (EarleyParser.new g tags pwm).parse fuel w = .ok (true, q)) :
    (∀ fuel2, (itemUniverse (g.insert ⟨[[a], rhs], 1⟩) w.length).length < fuel2 →
      ∃ q2, (EarleyParser.new (g.insert ⟨[[a], rhs], 1⟩) tags pwm).parse fuel2 w
        = .ok (true, q2)) ∧
      ∀ fuel2 b q2,
        (EarleyParser.new (g.insert ⟨[[a], rhs], 1⟩) tags pwm).parse fuel2 w = .ok (b, q2) →
        b = true ∧ ∀ (j : Nat) (cell : List EarleyItem), q.chart.chart[j]? = some cell →
          ∃ cell2, q2.chart.chart[j]? = some cell2 ∧ ∀ it ∈ cell, it ∈ cell2 :=
  EarleyParser.parse_insert g tags pwm w a rhs hg hne hns fuel q h

theorem parse_insert_new_example :
    ∃ q, Grammar.construct false " " ["S --> NP VP", "NP --> Det N", "VP --> V NP"]
        "$" "S" "-->" = .ok
          (Grammar.mk false " " ⟨7, ["$", "S", "NP", "VP", "Det", "N", "V"]⟩ [] [] "-->" []
            ⟨[[0], [1]], 1⟩
            [([1], [⟨[[1], [2, 3]], 1⟩]), ([2], [⟨[[2], [4, 5]], 1⟩]),
              ([3], [⟨[[3], [6, 2]], 1⟩])]) ∧
      ([6] : List Int) ≠ [] ∧
      ¬ SentinelWord [4, 5, 6] [(4, ["the"]), (5, ["dog", "cat"]), (6, ["sees"])] ∧
      (EarleyParser.new
        (Grammar.mk false " " ⟨7, ["$", "S", "NP", "VP", "Det", "N", "V"]⟩ [] [] "-->" []
          ⟨[[0], [1]], 1⟩
          [([1], [⟨[[1], [2, 3]], 1⟩]), ([2], [⟨[[2], [4, 5]], 1⟩]), ([3], [⟨[[3], [6, 2]], 1⟩])])
        [4, 5, 6] [(4, ["the"]), (5, ["dog", "cat"]), (6, ["sees"])]).parse 20
          ["the", "dog", "sees", "the", "cat"] = .ok (true, q) ∧
      ((∀ fuel2, (itemUniverse
          ((Grammar.mk false " " ⟨7, ["$", "S", "NP", "VP", "Det", "N", "V"]⟩ [] [] "-->" []
            ⟨[[0], [1]], 1⟩
            [([1], [⟨[[1], [2, 3]], 1⟩]), ([2], [⟨[[2], [4, 5]], 1⟩]),
              ([3], [⟨[[3], [6, 2]], 1⟩])]).insert ⟨[[3], [6]], 1⟩)
          ["the", "dog", "sees", "the", "cat"].length).length < fuel2 →
        ∃ q2, (EarleyParser.new
          ((Grammar.mk false " " ⟨7, ["$", "S", "NP", "VP", "Det", "N", "V"]⟩ [] [] "-->" []
            ⟨[[0], [1]], 1⟩
            [([1], [⟨[[1], [2, 3]], 1⟩]), ([2], [⟨[[2], [4, 5]], 1⟩]),
              ([3], [⟨[[3], [6, 2]], 1⟩])]).insert ⟨[[3], [6]], 1⟩)
          [4, 5, 6] [(4, ["the"]), (5, ["dog", "cat"]), (6, ["sees"])]).parse fuel2
            ["the", "dog", "sees", "the", "cat"] = .ok (true, q2)) ∧
        ∀ fuel2 b q2, (EarleyParser.new
          ((Grammar.mk false " " ⟨7, ["$", "S", "NP", "VP", "Det", "N", "V"]⟩ [] [] "-->" []
            ⟨[[0], [1]], 1⟩
            [([1], [⟨[[1], [2, 3]], 1⟩]), ([2], [⟨[[2], [4, 5]], 1⟩]),
              ([3], [⟨[[3], [6, 2]], 1⟩])]).insert ⟨[[3], [6]], 1⟩)
          [4, 5, 6] [(4, ["the"]), (5, ["dog", "cat"]), (6, ["sees"])]).parse fuel2
            ["the", "dog", "sees", "the", "cat"] = .ok (b, q2) →
          b = true ∧ ∀ (j : Nat) (cell : List EarleyItem), q.chart.chart[j]? = some cell →
            ∃ cell2, q2.chart.chart[j]? = some cell2 ∧ ∀ it ∈ cell, it ∈ cell2) := by
  have hns : ¬ SentinelWord [4, 5, 6] [(4, ["the"]), (5, ["dog", "cat"]), (6, ["sees"])] := by
    rintro ⟨T, hT, words, hm, hw⟩
    simp only [List.mem_cons, List.mem_singleton, List.not_mem_nil, or_false] at hT
    rcases hT with rfl | rfl | rfl <;>
      · simp [mapFind] at hm
        subst hm
        revert hw
        decide
  refine ⟨_, rfl, by decide, hns, rfl, ?_⟩
  exact parse_insert_new
    (Grammar.mk false " " ⟨7, ["$", "S", "NP", "VP", "Det", "N", "V"]⟩ [] [] "-->" []
      ⟨[[0], [1]], 1⟩
      [([1], [⟨[[1], [2, 3]], 1⟩]), ([2], [⟨[[2], [4, 5]], 1⟩]), ([3], [⟨[[3], [6, 2]], 1⟩])])
    [4, 5, 6] [(4, ["the"]), (5, ["dog", "cat"]), (6, ["sees"])]
    ["the", "dog", "sees", "the", "cat"] 3 [6]
    (Grammar.construct_WF false " " ["S --> NP VP", "NP --> Det N", "VP --> V NP"]
      "$" "S" "-->" _ rfl)
    (by decide) hns 20 _ rfl

/-- C20. Adding a rule flips an accept where the end marker can be scanned:
`initialise` appends the ordinary string `"$"` to the tokens as the end marker.
For the grammar `S --> T` with the tag `T` whose word is `"$"`, `parse` returns
true on the one-token sentence `"$"`.  With the rule `S --> S T` added by
`insert` (one left-hand symbol, a non-empty right-hand side) `parse` does not
return true on that sentence with any fuel: the item `(S -> S . T, 0, 1)` of
the last cell scans the end marker, the insertion into cell 2 fails the index
guard of the chart, and the run ends in that fault. -/
theorem C20_end_marker_breaks_monotonicity :
    ∃ g q, Grammar.construct false " " ["S --> T"] "$" "S" "-->" = .ok g ∧ g.WF ∧
      ([1, 2] : List Int) ≠ [] ∧
      (EarleyParser.new g [2] [(2, ["$"])]).parse 20 ["$"] = .ok (true, q) ∧
      (EarleyParser.new (g.insert ⟨[[1], [1, 2]], 1⟩) [2] [(2, ["$"])]).parse 20 ["$"]
        = .error (Fault.index_exceeds 2) ∧
      ∀ fuel q2, (EarleyParser.new (g.insert ⟨[[1], [1, 2]], 1⟩) [2] [(2, ["$"])]).parse
        fuel ["$"] ≠ .ok (true, q2) := by
  refine ⟨Grammar.mk false " " ⟨3, ["$", "S", "T"]⟩ [] [] "-->" [] ⟨[[0], [1]], 1⟩
    [([1], [⟨[[1], [2]], 1⟩])], _, rfl,
    Grammar.construct_WF false " " ["S --> T"] "$" "S" "-->" _ rfl, by decide, rfl, rfl, ?_⟩
  intro fuel q2 hq
  have h20 : (EarleyParser.new ((Grammar.mk false " " ⟨3, ["$", "S", "T"]⟩ [] [] "-->" []
      ⟨[[0], [1]], 1⟩ [([1], [⟨[[1], [2]], 1⟩])]).insert ⟨[[1], [1, 2]], 1⟩) [2]
      [(2, ["$"])]).parse 20 ["$"] = .error (Fault.index_exceeds 2) := rfl
  rcases EarleyParser.parse_fuel_cases 20 _ ["$"] _ h20 (by simp) fuel with h | h
  · rw [h] at hq
    cases hq
  · rw [h] at hq
    cases hq

/-! ## The outcome of `parse` in terms of the deduction system -/

/-- Every derived item has the shape of a chart item and `from <= to`. -/
theorem Ded.shaped (g : Grammar) (hg : g.WF) (tags : List Int) (pwm : List (Int × List ES))
    (w : List ES) (idf : ES → Option Int) (it : EarleyItem)
    (h : Ded g tags pwm w idf it) : it.Shaped g ∧ it.from_ ≤ it.to_ := by
  induction h with
  | start =>
    obtain ⟨g1, g2, g3⟩ := hg.start_shape
    exact ⟨Or.inl ⟨g1, g2, g3, fun _ => rfl⟩, le_refl _⟩
  | predict it r _ hc htag hr hfil ih =>
    obtain ⟨r1, r2, r3⟩ := hg.rule_mem r _ hr
    exact ⟨Or.inl ⟨r1, r2, r3, fun _ => rfl⟩, le_refl _⟩
  | scan it words word wid _ hc htag hmf hwk hmem hid ih =>
    exact ⟨Or.inr ⟨_, _, rfl⟩, Nat.le_succ _⟩
  | complete it it2 _ _ hc hto hc2 hlhs ih1 ih2 =>
    obtain ⟨o1, o2, o3, _⟩ := ih2.1.of_incomplete hc2
    have hlt := ih1.1.from_lt ih1.2 hc
    have h2 := ih2.2
    refine ⟨Or.inl ⟨o1, o2, o3, ?_⟩, ?_⟩
    · intro he
      simp only at he
      omega
    · show it2.from_ ≤ it.to_
      omega

theorem ParsePoint.Visited_item (p0 : EarleyParser) (w : List ES) (k : Nat) (p : EarleyParser)
    (np nc : Bool) (item : EarleyItem) (rest : List EarleyItem)
    (st : EarleyParser × Bool × Bool)
    (hi : ParsePoint.Inv w.length ⟨k, p, np, nc, item :: rest, true⟩)
    (hs : ParsePoint.Sound p0 w ⟨k, p, np, nc, item :: rest, true⟩)
    (hv : ParsePoint.Visited p0 w ⟨k, p, np, nc, item :: rest, true⟩)
    (h : EarleyParser.processItem (p, np, nc) item = .ok st) :
    ParsePoint.Visited p0 w ⟨k, st.1, st.2.1, st.2.2, rest, true⟩ := by
  obtain ⟨i1, i2, i3, i4, i5, i6, i7, i8⟩ := hi
  obtain ⟨s1, s2, s3, s4, s5, _⟩ := hs
  simp only at i1 i2 i3 i4 i5 i6 i7 i8 s1 s2 s3 s4 s5
  obtain ⟨⟨f1, f2, f3, f4, f5, f6, f7⟩, q2, _, _, _, _, q7, _⟩ :=
    EarleyParser.processItem_post p np nc item st h
  have hitem : item ∈ p.to_process := i6 item (List.mem_cons_self _ _)
  have hto : item.to_ = k := (i3 item (Or.inl hitem)).1
  have i7 : k ≤ w.length := i7 trivial
  obtain ⟨e1, e2, e3, e4, e5, e6⟩ := s1
  rw [hto] at q2 q7 f7
  intro it hss hin
  simp only at hin ⊢
  by_cases hk : k = w.length
  · -- the last cell is being swept
    subst hk
    rw [f7 _ (by omega), f1] at hin
    obtain ⟨_, _, hm⟩ := hv it hss hin
    simp only at hm
    rcases List.mem_cons.1 hm with he | hr
    · exfalso
      subst he
      obtain ⟨c1, c2, words, c3, c4⟩ := hss
      have htok : p.chart.tokens[w.length]? = some "$" := by
        rw [s2, List.getElem?_append_right (le_refl _)]
        simp
      obtain ⟨_, cell, hcell, _⟩ := q7 c1 (by rw [e4]; exact c2) words "$"
        (by rw [e5]; exact c3) htok c4
      rw [List.getElem?_eq_none (by rw [f6, i1])] at hcell
      cases hcell
    · exact ⟨trivial, rfl, hr⟩
  · -- an earlier cell is being swept
    exfalso
    rcases hin with hin | ⟨hkk, _⟩
    · have hlt : w.length < p.chart.chart.length := by
        rw [i1]
        exact Nat.lt_succ_self _
      by_cases hk1 : w.length = k + 1
      · have hc1 : p.chart.chart[k + 1]? = some p.chart.chart[k + 1] :=
          List.getElem?_eq_getElem (by omega)
        obtain ⟨ext, hx1, hx2⟩ := q2 _ hc1
        rw [hk1, hx1] at hin
        simp only [Option.getD_some] at hin
        rcases List.mem_append.1 hin with hm | hm
        · have hm2 : it ∈ (p.chart.chart[w.length]?).getD [] := by
            rw [hk1, hc1]
            exact hm
          exact hk (hv it hss (Or.inl hm2)).2.1
        · obtain ⟨_, _, words, word, _, _, _, hy⟩ := hx2 it hm
          have hc := hss.1
          rw [hy] at hc
          simp [EarleyItem.complete, Rule.get_rhs] at hc
      · rw [f7 _ hk1] at hin
        exact hk (hv it hss (Or.inl hin)).2.1
    · exact hk hkk

theorem ParsePoint.Visited_merge (p0 : EarleyParser) (w : List ES) (k : Nat)
    (p p2 : EarleyParser) (np nc : Bool)
    (hv : ParsePoint.Visited p0 w ⟨k, p, np, nc, [], true⟩) (hm : p.merge k = .ok p2) :
    ∀ it, it.ScansSentinel p0.tags p0.pwm → it ∉ (p2.chart.chart[w.length]?).getD [] := by
  intro it hss hin
  obtain ⟨cell, hc, e⟩ := EarleyParser.merge_frame p k p2 hm
  have hlen : k < p.chart.chart.length := by
    by_contra hn
    rw [List.getElem?_eq_none (by omega)] at hc
    cases hc
  rw [e] at hin
  simp only at hin
  by_cases hk : k = w.length
  · subst hk
    rw [List.getElem?_set_self hlen] at hin
    simp only [Option.getD_some] at hin
    rcases mem_itemsetInsertAll _ _ _ hin with h1 | h1
    · have := (hv it hss (Or.inl (by rw [hc]; exact h1))).2.2
      simp at this
    · have := (hv it hss (Or.inr ⟨rfl, h1⟩)).2.2
      simp at this
  · rw [List.getElem?_set_ne hk] at hin
    have := (hv it hss (Or.inl hin)).2.2
    simp at this

/-- Every point of a run of `parse(w)` satisfies the invariant of the items that
would scan the end marker. -/
theorem EarleyParser.Reaches_visited (p0 : EarleyParser) (w : List ES) (hg : p0.grammar.WF)
    (h0 : p0.to_process = [] ∧ p0.predict_buffer = [] ∧ p0.complete_buffer = [])
    (pt : ParsePoint) (h : EarleyParser.Reaches p0 w pt) : ParsePoint.Visited p0 w pt := by
  induction h with
  | start c cell hc hs hcell =>
    rw [EarleyChart.initialise_clear] at hc
    simp only [Except.ok.injEq] at hc
    subst hc
    simp only [EarleyChart.cell, List.getElem?_cons_zero, Except.ok.injEq] at hcell
    subst hcell
    rw [h0.1]
    have e : itemsetInsertAll [] [(⟨0, 0, 0, p0.grammar.start⟩ : EarleyItem)] =
        [⟨0, 0, 0, p0.grammar.start⟩] := by
      simp [itemsetInsertAll, itemsetInsert, itemsetContains]
    rw [e]
    intro it hss hin
    simp only at hin ⊢
    rcases hin with hin | ⟨hk, hin⟩
    · rcases Nat.eq_zero_or_pos w.length with hz | hz
      · rw [hz] at hin
        simp only [List.getElem?_cons_zero, Option.getD_some] at hin
        exact ⟨trivial, hz.symm, hin⟩
      · exfalso
        obtain ⟨m, hm⟩ := Nat.exists_eq_succ_of_ne_zero (Nat.pos_iff_ne_zero.1 hz)
        rw [hm] at hin
        simp only [List.getElem?_cons_succ] at hin
        rw [List.getElem?_replicate] at hin
        split at hin
        · simp at hin
        · simp at hin
    · exact ⟨trivial, hk, hin⟩
  | item pt item rest st hreach hr ht hp ih =>
    have hi := EarleyParser.Reaches_inv p0 w h0 pt hreach
    have hs := EarleyParser.Reaches_sound p0 w hg h0 pt hreach
    obtain ⟨k, p, np, nc, todo, running⟩ := pt
    simp only at hr ht hp
    subst hr
    subst ht
    exact ParsePoint.Visited_item p0 w k p np nc item rest st hi hs ih hp
  | again pt p2 hreach hr ht _ hm ih =>
    obtain ⟨k, p, np, nc, todo, running⟩ := pt
    simp only at hr ht hm
    subst hr
    subst ht
    have hno := ParsePoint.Visited_merge p0 w k p p2 np nc ih hm
    intro it hss hin
    simp only at hin ⊢
    rcases hin with hin | ⟨hk, hin⟩
    · exact absurd hin (hno it hss)
    · exact ⟨trivial, hk, hin⟩
  | next pt p2 cell hreach hr ht hf hm hlt hcell ih =>
    obtain ⟨k, p, np, nc, todo, running⟩ := pt
    simp only at hr ht hm hf hlt hcell
    subst hr
    subst ht
    have hno := ParsePoint.Visited_merge p0 w k p p2 np nc ih hm
    intro it hss hin
    simp only at hin ⊢
    rcases hin with hin | ⟨hk, hin⟩
    · exact absurd hin (hno it hss)
    · exact ⟨trivial, hk, hin⟩
  | done pt p2 hreach hr ht hf hm _ ih =>
    obtain ⟨k, p, np, nc, todo, running⟩ := pt
    simp only at hr ht hm hf
    subst hr
    subst ht
    have hi := EarleyParser.Reaches_inv p0 w h0 _ hreach
    have he := (ParsePoint.Inv_merge w.length k p p2 np nc hi hm).2 hf
    have hno := ParsePoint.Visited_merge p0 w k p p2 np nc ih hm
    intro it hss hin
    simp only at hin ⊢
    rcases hin with hin | ⟨hk, hin⟩
    · exact absurd hin (hno it hss)
    · rw [he] at hin
      cases hin

/-- When `parse(w)` returns, no derived item of the last cell would scan the end
marker. -/
theorem EarleyParser.parse_ok_no_sentinel (p0 : EarleyParser) (w : List ES)
    (hg : p0.grammar.WF)
    (h0 : p0.to_process = [] ∧ p0.predict_buffer = [] ∧ p0.complete_buffer = [])
    (fuel : Nat) (b : Bool) (q : EarleyParser) (h : p0.parse fuel w = .ok (b, q)) :
    ¬ SentinelItem p0 w := by
  rintro ⟨it, hd, hto, hss⟩
  obtain ⟨k, hr⟩ := EarleyParser.parse_reaches p0 w fuel b q h
  obtain ⟨cell, hc, hin⟩ := (EarleyParser.parse_chart p0 w hg h0 fuel b q h).2.2.1 it hd
  rw [hto] at hc
  have := (EarleyParser.Reaches_visited p0 w hg h0 _ hr it hss
    (Or.inl (by simp only; rw [hc]; exact hin))).1
  cases this

/-- The `for` loop over `to_process` ends without a fault, leaving cell `k` and
`to_process` unchanged, or it ends in the index fault of Scan at an item of the
last cell that scans the end marker. -/
theorem EarleyParser.processAll_ends (p0 : EarleyParser) (w : List ES) (hg : p0.grammar.WF)
    (h0 : p0.to_process = [] ∧ p0.predict_buffer = [] ∧ p0.complete_buffer = [])
    (k : Nat) (items : List EarleyItem) (p : EarleyParser) (np nc : Bool)
    (hr : EarleyParser.Reaches p0 w ⟨k, p, np, nc, items, true⟩) :
    (∃ st, EarleyParser.processAll items (p, np, nc) = .ok st ∧
      st.1.chart.chart[k]? = p.chart.chart[k]? ∧ st.1.to_process = p.to_process) ∨
    (EarleyParser.processAll items (p, np, nc) = .error (Fault.index_exceeds (w.length + 1)) ∧
      SentinelItem p0 w) := by
  induction items generalizing p np nc with
  | nil => exact Or.inl ⟨_, rfl, rfl, rfl⟩
  | cons item rest ih =>
    obtain ⟨i1, i2, i3, i4, i5, i6, i7, i8⟩ := EarleyParser.Reaches_inv p0 w h0 _ hr
    obtain ⟨s1, s2, s3, s4, s5, _⟩ := EarleyParser.Reaches_sound p0 w hg h0 _ hr
    simp only at i1 i2 i3 i4 i5 i6 i7 i8 s1 s2 s3 s4 s5
    have i7 : k ≤ w.length := i7 trivial
    have hitem : item ∈ p.to_process := i6 item (List.mem_cons_self _ _)
    obtain ⟨hto, hfrom, _⟩ := i3 item (Or.inl hitem)
    rw [EarleyParser.processAll]
    rcases hpi : EarleyParser.processItem (p, np, nc) item with e | st1
    · right
      have hlen : p.chart.tokens.length = w.length + 1 := by
        rw [s2]
        simp
      obtain ⟨c1, c2, c3, c4, words, word, c5, c6, c7⟩ :=
        EarleyParser.processItem_fault p np nc item e hpi
          ⟨_, List.getElem?_eq_getElem (by omega)⟩ ⟨_, List.getElem?_eq_getElem (by omega)⟩
          ⟨_, List.getElem?_eq_getElem (by omega)⟩
      rw [hto] at c1 c2 c6
      have hkn : k = w.length := by
        by_contra hne
        rw [List.getElem?_eq_getElem (by omega)] at c2
        cases c2
      rw [s2, hkn, List.getElem?_append_right (le_refl _)] at c6
      simp only [Nat.sub_self, List.getElem?_cons_zero, Option.some.injEq] at c6
      subst c6
      refine ⟨by simp only [c1, hkn], item, (s4 item hitem).2, hto.trans hkn, c3, ?_, words, ?_, c7⟩
      · rw [← s1.2.2.2.1]
        exact c4
      · rw [← s1.2.2.2.2.1]
        exact c5
    · simp only
      obtain ⟨p1, np1, nc1⟩ := st1
      obtain ⟨⟨f1, _, _, _, _, _, f7⟩, _⟩ := EarleyParser.processItem_post p np nc item _ hpi
      rcases ih p1 np1 nc1 (EarleyParser.Reaches.item _ item rest _ hr rfl rfl hpi) with
        ⟨st, a1, a2, a3⟩ | ⟨a1, a2⟩
      · left
        refine ⟨st, a1, ?_, ?_⟩
        · rw [a2]
          exact f7 k (by omega)
        · rw [a3]
          exact f1
      · exact Or.inr ⟨a1, a2⟩

/-- The `do ... while` loop of cell `k` with fuel above the number of pending
items returns, or ends in the index fault of Scan at an item of the last cell
that scans the end marker. -/
theorem EarleyParser.fixpoint_ends (p0 : EarleyParser) (w : List ES) (hg : p0.grammar.WF)
    (h0 : p0.to_process = [] ∧ p0.predict_buffer = [] ∧ p0.complete_buffer = [])
    (k fuel : Nat) (p : EarleyParser)
    (hr : EarleyParser.Reaches p0 w ⟨k, p, false, false, p.to_process, true⟩)
    (hfuel : p.pending p0.grammar w.length k < fuel) :
    (∃ q, EarleyParser.fixpoint fuel k p = .ok q) ∨
    (EarleyParser.fixpoint fuel k p = .error (Fault.index_exceeds (w.length + 1)) ∧
      SentinelItem p0 w) := by
  induction fuel generalizing p with
  | zero => omega
  | succ fuel ih =>
    rw [EarleyParser.fixpoint]
    rcases EarleyParser.processAll_ends p0 w hg h0 k _ p false false hr with
      ⟨st, a1, a2, a3⟩ | ⟨a1, a2⟩
    · have hr1 := EarleyParser.processAll_reaches p0 w k _ p false false _ hr a1
      rw [a1]
      obtain ⟨p1, np, nc⟩ := st
      simp only at hr1 a2 a3 ⊢
      obtain ⟨p2, hm, hdec⟩ := EarleyParser.merge_total p0 w hg h0 k p1 np nc hr1
      rw [hm]
      simp only
      have hpe : p1.pending p0.grammar w.length k = p.pending p0.grammar w.length k := by
        unfold EarleyParser.pending
        rw [a2, a3]
      by_cases hf : (np || nc) = true
      · rw [if_pos hf]
        have := hdec hf
        exact ih p2 (EarleyParser.Reaches.again _ p2 hr1 rfl rfl hf hm) (by omega)
      · rw [if_neg hf]
        exact Or.inl ⟨_, rfl⟩
    · rw [a1]
      exact Or.inr ⟨rfl, a2⟩

theorem EarleyParser.sweepCells_ends (p0 : EarleyParser) (w : List ES) (hg : p0.grammar.WF)
    (h0 : p0.to_process = [] ∧ p0.predict_buffer = [] ∧ p0.complete_buffer = [])
    (fuel cnt k : Nat) (p1 p : EarleyParser) (np nc : Bool)
    (hr : EarleyParser.Reaches p0 w ⟨k, p1, np, nc, [], true⟩) (hf : (np || nc) = false)
    (hm : p1.merge k = .ok p) (hcnt : w.length ≤ k + cnt)
    (hfuel : (itemUniverse p0.grammar w.length).length < fuel) :
    (∃ q, EarleyParser.sweepCells fuel cnt (k + 1) p = .ok q) ∨
    (EarleyParser.sweepCells fuel cnt (k + 1) p = .error (Fault.index_exceeds (w.length + 1)) ∧
      SentinelItem p0 w) := by
  induction cnt generalizing k p1 p np nc with
  | zero =>
    have hi := EarleyParser.Reaches_inv p0 w h0 _ hr
    obtain ⟨⟨i1, _⟩, _⟩ := ParsePoint.Inv_merge w.length k p1 p np nc hi hm
    simp only at i1
    simp only [EarleyParser.sweepCells, EarleyChart.size]
    rw [if_neg (by omega)]
    exact Or.inl ⟨_, rfl⟩
  | succ cnt ih =>
    have hi := EarleyParser.Reaches_inv p0 w h0 _ hr
    obtain ⟨⟨i1, _⟩, _⟩ := ParsePoint.Inv_merge w.length k p1 p np nc hi hm
    simp only at i1
    rw [EarleyParser.sweepCells]
    by_cases hlt : k + 1 < p.chart.size
    · rw [if_pos hlt]
      have hlt2 : k + 1 < p.chart.chart.length := hlt
      have hc : p.chart.cell (k + 1) = .ok p.chart.chart[k + 1] := by
        unfold EarleyChart.cell
        rw [List.getElem?_eq_getElem hlt2]
      rw [hc]
      simp only
      have hr1 := EarleyParser.Reaches.next _ p _ hr rfl rfl hf hm hlt hc
      rcases EarleyParser.fixpoint_ends p0 w hg h0 (k + 1) fuel _ hr1
        (lt_of_le_of_lt (EarleyParser.pending_le _ _ _ _) hfuel) with ⟨p2, hfx⟩ | ⟨hfx, hsi⟩
      · rw [hfx]
        simp only
        obtain ⟨p3, np3, nc3, r3, f3, m3⟩ :=
          EarleyParser.fixpoint_reaches p0 w (k + 1) fuel _ p2 hr1 hfx
        exact ih (k + 1) p3 p2 np3 nc3 r3 f3 m3 (by omega)
      · rw [hfx]
        exact Or.inr ⟨rfl, hsi⟩
    · rw [if_neg hlt]
      exact Or.inl ⟨_, rfl⟩

/-- With fuel above the number of items of the universe `parse` returns, or ends
in the index fault of Scan; the fault occurs exactly when the deduction system
derives an item of the last cell that scans the end marker. -/
theorem EarleyParser.parse_ends (p0 : EarleyParser) (w : List ES) (hg : p0.grammar.WF)
    (h0 : p0.to_process = [] ∧ p0.predict_buffer = [] ∧ p0.complete_buffer = [])
    (fuel : Nat) (hfuel : (itemUniverse p0.grammar w.length).length < fuel) :
    ((∃ b q, p0.parse fuel w = .ok (b, q)) ∧ ¬ SentinelItem p0 w) ∨
    (p0.parse fuel w = .error (Fault.index_exceeds (w.length + 1)) ∧ SentinelItem p0 w) := by
  have hinit := EarleyChart.initialise_clear p0.chart w p0.grammar.start
  have hr0 := @EarleyParser.Reaches.start p0 w _
    [⟨0, 0, 0, p0.grammar.start⟩] hinit (by simp [EarleyChart.size])
    (by simp [EarleyChart.cell])
  have hunf : ∀ r, EarleyParser.fixpoint fuel 0
      { p0 with
        chart :=
          { chart := [⟨0, 0, 0, p0.grammar.start⟩] :: List.replicate w.length [],
            tokens := w ++ ["$"],
            final_item := ⟨p0.grammar.start.get_rhs.length, 0, w.length, p0.grammar.start⟩ },
        to_process := itemsetInsertAll p0.to_process [⟨0, 0, 0, p0.grammar.start⟩] } = r →
      EarleyParser.sweepCells fuel (w.length + 1) 0
      { p0 with chart :=
        { chart := [⟨0, 0, 0, p0.grammar.start⟩] :: List.replicate w.length [],
          tokens := w ++ ["$"],
          final_item := ⟨p0.grammar.start.get_rhs.length, 0, w.length, p0.grammar.start⟩ } }
      = match r with
        | .error e => .error e
        | .ok p1 => EarleyParser.sweepCells fuel w.length 1 p1 := by
    intro r hr
    rw [EarleyParser.sweepCells]
    simp only [EarleyChart.size, List.length_cons, List.length_replicate, Nat.zero_lt_succ,
      if_true, EarleyChart.cell, List.getElem?_cons_zero]
    rw [hr]
  have hfault : ∀ (hs : EarleyParser.sweepCells fuel (w.length + 1) 0
      { p0 with chart :=
        { chart := [⟨0, 0, 0, p0.grammar.start⟩] :: List.replicate w.length [],
          tokens := w ++ ["$"],
          final_item := ⟨p0.grammar.start.get_rhs.length, 0, w.length, p0.grammar.start⟩ } }
      = .error (Fault.index_exceeds (w.length + 1))),
      p0.parse fuel w = .error (Fault.index_exceeds (w.length + 1)) := by
    intro hs
    unfold EarleyParser.parse
    rw [hinit]
    simp only [EarleyChart.size, List.length_cons, List.length_replicate]
    rw [hs]
  rcases EarleyParser.fixpoint_ends p0 w hg h0 0 fuel _ hr0
    (lt_of_le_of_lt (EarleyParser.pending_le _ _ _ _) hfuel) with ⟨p2, hfx⟩ | ⟨hfx, hsi⟩
  · obtain ⟨p3, np3, nc3, r3, f3, m3⟩ := EarleyParser.fixpoint_reaches p0 w 0 fuel _ p2 hr0 hfx
    rcases EarleyParser.sweepCells_ends p0 w hg h0 fuel w.length 0 p3 p2 np3 nc3
      r3 f3 m3 (by omega) hfuel with ⟨q, hq⟩ | ⟨hq, hsi⟩
    · left
      obtain ⟨k2, hr2⟩ := EarleyParser.sweepCells_reaches p0 w fuel w.length 0 p3 p2 q np3 nc3
        r3 f3 m3 hq
      have hlen := (EarleyParser.Reaches_inv p0 w h0 _ hr2).1
      simp only at hlen
      have hs := hunf _ hfx
      simp only at hs
      rw [hq] at hs
      have hp : ∃ b q2, p0.parse fuel w = .ok (b, q2) := by
        unfold EarleyParser.parse
        rw [hinit]
        simp only [EarleyChart.size, List.length_cons, List.length_replicate]
        rw [hs]
        simp only
        rcases hl : q.chart.chart.getLast? with _ | cell
        · rw [List.getLast?_eq_none_iff] at hl
          rw [hl] at hlen
          simp at hlen
        · exact ⟨_, _, rfl⟩
      obtain ⟨b, q2, hp2⟩ := hp
      exact ⟨⟨b, q2, hp2⟩, EarleyParser.parse_ok_no_sentinel p0 w hg h0 fuel b q2 hp2⟩
    · right
      have hs := hunf _ hfx
      simp only at hs
      rw [hq] at hs
      exact ⟨hfault hs, hsi⟩
  · right
    have hs := hunf _ hfx
    simp only at hs
    exact ⟨hfault hs, hsi⟩

/-- A pass of the fixpoint loop that sets a flag hands `merge` an item of the
universe that is neither in the cell being swept nor in `to_process`. -/
theorem EarleyParser.pass_adds (p0 : EarleyParser) (w : List ES) (hg : p0.grammar.WF)
    (h0 : p0.to_process = [] ∧ p0.predict_buffer = [] ∧ p0.complete_buffer = [])
    (k : Nat) (p p2 : EarleyParser) (np nc : Bool)
    (hr : EarleyParser.Reaches p0 w ⟨k, p, np, nc, [], true⟩) (hm : p.merge k = .ok p2)
    (hf : (np || nc) = true) :
    ∃ y, y ∈ p2.to_process ∧ y ∈ itemUniverse p0.grammar w.length ∧
      y ∉ (p.chart.chart[k]?).getD [] ∧ y ∉ p.to_process := by
  obtain ⟨i1, i2, i3, i4, i5, i6, i7, i8⟩ := EarleyParser.Reaches_inv p0 w h0 _ hr
  obtain ⟨s1, s2, s3, s4, s5, _⟩ := EarleyParser.Reaches_sound p0 w hg h0 _ hr
  obtain ⟨n1, n2, n3⟩ := EarleyParser.Reaches_novel p0 w h0 _ hr
  simp only at i1 i2 i3 i4 i5 i6 i7 i8 s1 s2 s3 s4 s5 n1 n2 n3
  have i7 : k ≤ w.length := i7 trivial
  obtain ⟨cell, hc, e⟩ := EarleyParser.merge_frame p k p2 hm
  have hrbp : ∀ z ∈ p.predict_buffer, z.rule.rhs_begin = 1 :=
    fun z hz => (s5 z (Or.inl hz)).1.1
  have hrbq : ∀ z ∈ p.complete_buffer, z.rule.rhs_begin = 1 :=
    fun z hz => (s5 z (Or.inr hz)).1.1
  have hrb1 : ∀ z ∈ itemsetInsertAll [] p.predict_buffer, z.rule.rhs_begin = 1 := by
    intro z hz
    rcases mem_itemsetInsertAll _ _ _ hz with h1 | h1
    · simp at h1
    · exact hrbp z h1
  have hy : ∃ y, y ∈ p.predict_buffer ∨ y ∈ p.complete_buffer := by
    simp only [Bool.or_eq_true] at hf
    rcases hf with hf | hf
    · obtain ⟨y, hy⟩ := List.exists_mem_of_ne_nil _ (n1 hf)
      exact ⟨y, Or.inl hy⟩
    · obtain ⟨y, hy⟩ := List.exists_mem_of_ne_nil _ (n2 hf)
      exact ⟨y, Or.inr hy⟩
  obtain ⟨y, hy⟩ := hy
  have hyn := n3 y hy
  have hyu : y ∈ itemUniverse p0.grammar w.length := by
    have hb := i3 y (Or.inr hy)
    exact (s5 y hy).1.mem_itemUniverse hb.2 (by rw [hb.1]; exact i7)
  refine ⟨y, ?_, hyu, hyn.1, hyn.2⟩
  rw [e]
  simp only
  rcases hy with hy | hy
  · exact itemsetInsertAll_keeps _ _ _ (itemsetInsertAll_mem _ _ _ (by simp) hrbp hy)
  · exact itemsetInsertAll_mem _ _ _ hrb1 hrbq hy

theorem EarleyParser.parse_terminates (g : Grammar) (tags : List Int)
    (pwm : List (Int × List ES)) (w : List ES) (hg : g.WF) :
    (∀ fuel, (itemUniverse g w.length).length < fuel →
      (∃ b q, (EarleyParser.new g tags pwm).parse fuel w = .ok (b, q)) ∨
        (EarleyParser.new g tags pwm).parse fuel w
          = .error (Fault.index_exceeds (w.length + 1))) ∧
    (∀ (k : Nat) (p : EarleyParser) (np nc : Bool),
      EarleyParser.Reaches (EarleyParser.new g tags pwm) w ⟨k, p, np, nc, [], true⟩ →
      ∃ p2, p.merge k = .ok p2 ∧ ((np || nc) = true →
        (∃ y, y ∈ p2.to_process ∧ y ∈ itemUniverse g w.length ∧
          y ∉ (p.chart.chart[k]?).getD [] ∧ y ∉ p.to_process) ∧
        p2.pending g w.length k < p.pending g w.length k)) ∧
    (∀ (k : Nat) (p : EarleyParser), p.pending g w.length k ≤ (itemUniverse g w.length).length) ∧
    (∀ (k fuel : Nat) (p : EarleyParser),
      EarleyParser.Reaches (EarleyParser.new g tags pwm) w
        ⟨k, p, false, false, p.to_process, true⟩ →
      p.pending g w.length k < fuel →
      (∃ q, EarleyParser.fixpoint fuel k p = .ok q) ∨
        EarleyParser.fixpoint fuel k p = .error (Fault.index_exceeds (w.length + 1))) := by
  refine ⟨?_, ?_, fun k p => EarleyParser.pending_le _ _ _ _, ?_⟩
  · intro fuel hf
    rcases EarleyParser.parse_ends (EarleyParser.new g tags pwm) w hg ⟨rfl, rfl, rfl⟩ fuel hf
      with ⟨h, _⟩ | ⟨h, _⟩
    · exact Or.inl h
    · exact Or.inr h
  · intro k p np nc hr
    obtain ⟨p2, hm, hdec⟩ :=
      EarleyParser.merge_total (EarleyParser.new g tags pwm) w hg ⟨rfl, rfl, rfl⟩ k p np nc hr
    exact ⟨p2, hm, fun hf => ⟨EarleyParser.pass_adds (EarleyParser.new g tags pwm) w hg
      ⟨rfl, rfl, rfl⟩ k p p2 np nc hr hm hf, hdec hf⟩⟩
  · intro k fuel p hr hf
    rcases EarleyParser.fixpoint_ends (EarleyParser.new g tags pwm) w hg ⟨rfl, rfl, rfl⟩
      k fuel p hr hf with h | ⟨h, _⟩
    · exact Or.inl h
    · exact Or.inr h

/-! ## C21: the empty sentence -/

theorem EarleyParser.parse_empty (g : Grammar) (tags : List Int)
    (pwm : List (Int × List ES)) (hg : g.WF) (hns : ¬ SentinelWord tags pwm) :
    (∀ fuel, (itemUniverse g 0).length < fuel →
      ∃ q, (EarleyParser.new g tags pwm).parse fuel [] = .ok (false, q)) ∧
    ∀ fuel b q, (EarleyParser.new g tags pwm).parse fuel [] = .ok (b, q) → b = false := by
  have hsecond : ∀ fuel b q,
      (EarleyParser.new g tags pwm).parse fuel [] = .ok (b, q) → b = false := by
    intro fuel b q h
    obtain ⟨_, _, _, c4⟩ := EarleyParser.parse_chart (EarleyParser.new g tags pwm) [] hg
      ⟨rfl, rfl, rfl⟩ fuel b q h
    cases b with
    | false => rfl
    | true =>
      exfalso
      have hd := c4.1 rfl
      obtain ⟨hsh, hle⟩ := Ded.shaped _ hg _ _ _ _ _ hd
      have := hsh.from_lt hle (by simp [EarleyItem.complete])
      simp at this
  refine ⟨?_, hsecond⟩
  intro fuel hf
  obtain ⟨b, q, h⟩ := EarleyParser.parse_total (EarleyParser.new g tags pwm) [] hg
    ⟨rfl, rfl, rfl⟩ hns fuel hf
  have hb := hsecond fuel b q h
  subst hb
  exact ⟨q, h⟩

/-! ## C22: a token that no tag has -/

/-- When no tag has the token at position `j` among its words, every derived
item ends at or before `j`. -/
theorem Ded.to_le (g : Grammar) (tags : List Int) (pwm : List (Int × List ES))
    (w : List ES) (idf : ES → Option Int) (j : Nat) (tok : ES) (hj : w[j]? = some tok)
    (hno : ∀ T ∈ tags, ∀ words, mapFind pwm T = some words → tok ∉ words)
    (it : EarleyItem) (h : Ded g tags pwm w idf it) : it.to_ ≤ j := by
  induction h with
  | start => exact Nat.zero_le _
  | predict it r _ hc htag hr hfil ih => exact ih
  | scan it words word wid _ hc htag hmf hwk hmem hid ih =>
    show it.to_ + 1 ≤ j
    rcases Nat.lt_or_ge it.to_ j with hlt | hge
    · exact hlt
    · exfalso
      have e : it.to_ = j := by omega
      rw [e, hj] at hwk
      cases hwk
      exact hno _ htag words hmf hmem
  | complete it it2 _ _ hc hto hc2 hlhs ih1 ih2 => exact ih1

theorem EarleyParser.parse_unknown_token (g : Grammar) (tags : List Int)
    (pwm : List (Int × List ES)) (w : List ES) (hg : g.WF) (j : Nat) (tok : ES)
    (hj : w[j]? = some tok)
    (hno : ∀ T ∈ tags, ∀ words, mapFind pwm T = some words → tok ∉ words) :
    (∀ fuel, (itemUniverse g w.length).length < fuel →
      ∃ q, (EarleyParser.new g tags pwm).parse fuel w = .ok (false, q)) ∧
    ∀ fuel b q, (EarleyParser.new g tags pwm).parse fuel w = .ok (b, q) →
      b = false ∧ ∀ (i : Nat) (cell : List EarleyItem), j < i →
        q.chart.chart[i]? = some cell → cell = [] := by
  have hjl : j < w.length := by
    by_contra hn
    rw [List.getElem?_eq_none (by omega)] at hj
    cases hj
  have hsecond : ∀ fuel b q, (EarleyParser.new g tags pwm).parse fuel w = .ok (b, q) →
      b = false ∧ ∀ (i : Nat) (cell : List EarleyItem), j < i →
        q.chart.chart[i]? = some cell → cell = [] := by
    intro fuel b q h
    obtain ⟨_, c2, _, c4⟩ := EarleyParser.parse_chart (EarleyParser.new g tags pwm) w hg
      ⟨rfl, rfl, rfl⟩ fuel b q h
    constructor
    · cases b with
      | false => rfl
      | true =>
        exfalso
        have := Ded.to_le _ _ _ _ _ j tok hj hno _ (c4.1 rfl)
        simp only at this
        omega
    · intro i cell hji hc
      rw [List.eq_nil_iff_forall_not_mem]
      intro it hit
      obtain ⟨ht, hd⟩ := c2 i cell hc it hit
      have := Ded.to_le _ _ _ _ _ j tok hj hno _ hd
      omega
  refine ⟨?_, hsecond⟩
  intro fuel hf
  rcases EarleyParser.parse_ends (EarleyParser.new g tags pwm) w hg ⟨rfl, rfl, rfl⟩ fuel hf
    with ⟨⟨b, q, h⟩, _⟩ | ⟨_, it, hd, hto, _⟩
  · have hb := (hsecond fuel b q h).1
    subst hb
    exact ⟨q, h⟩
  · exfalso
    have := Ded.to_le _ _ _ _ _ j tok hj hno _ hd
    omega

/-- C21. The empty sentence: for every grammar `g` returned by the constructor
(either build), every tag set and every tag-to-words map in which no tag has
the end marker `"$"` among its words, `parse` of the empty sentence on a new
recognizer returns false with every fuel above the number of items of the
universe, and no run returns true. -/
theorem C21_empty_sentence (soverload : Bool) (del : ES) (lines : List ES)
    (ss s separator : ES) (g : Grammar)
    (hc : Grammar.construct soverload del lines ss s separator = .ok g)
    (tags : List Int) (pwm : List (Int × List ES)) (hns : ¬ SentinelWord tags pwm) :
    (∀ fuel, (itemUniverse g 0).length < fuel →
      ∃ q, (EarleyParser.new g tags pwm).parse fuel [] = .ok (false, q)) ∧
    ∀ fuel b q, (EarleyParser.new g tags pwm).parse fuel [] = .ok (b, q) → b = false :=
  EarleyParser.parse_empty g tags pwm
    (Grammar.construct_WF soverload del lines ss s separator g hc) hns

theorem C21_empty_sentence_witness :
    Grammar.construct false " " ["S --> NP VP", "NP --> Det N", "VP --> V NP"]
        "$" "S" "-->" = .ok
          (Grammar.mk false " " ⟨7, ["$", "S", "NP", "VP", "Det", "N", "V"]⟩ [] [] "-->" []
            ⟨[[0], [1]], 1⟩
            [([1], [⟨[[1], [2, 3]], 1⟩]), ([2], [⟨[[2], [4, 5]], 1⟩]),
              ([3], [⟨[[3], [6, 2]], 1⟩])]) ∧
      ¬ SentinelWord [4, 5, 6] [(4, ["the"]), (5, ["dog", "cat"]), (6, ["sees"])] ∧
      ((∀ fuel, (itemUniverse
          (Grammar.mk false " " ⟨7, ["$", "S", "NP", "VP", "Det", "N", "V"]⟩ [] [] "-->" []
            ⟨[[0], [1]], 1⟩
            [([1], [⟨[[1], [2, 3]], 1⟩]), ([2], [⟨[[2], [4, 5]], 1⟩]),
              ([3], [⟨[[3], [6, 2]], 1⟩])]) 0).length < fuel →
        ∃ q, (EarleyParser.new
          (Grammar.mk false " " ⟨7, ["$", "S", "NP", "VP", "Det", "N", "V"]⟩ [] [] "-->" []
            ⟨[[0], [1]], 1⟩
            [([1], [⟨[[1], [2, 3]], 1⟩]), ([2], [⟨[[2], [4, 5]], 1⟩]),
              ([3], [⟨[[3], [6, 2]], 1⟩])])
          [4, 5, 6] [(4, ["the"]), (5, ["dog", "cat"]), (6, ["sees"])]).parse fuel []
            = .ok (false, q)) ∧
        ∀ fuel b q, (EarleyParser.new
          (Grammar.mk false " " ⟨7, ["$", "S", "NP", "VP", "Det", "N", "V"]⟩ [] [] "-->" []
            ⟨[[0], [1]], 1⟩
            [([1], [⟨[[1], [2, 3]], 1⟩]), ([2], [⟨[[2], [4, 5]], 1⟩]),
              ([3], [⟨[[3], [6, 2]], 1⟩])])
          [4, 5, 6] [(4, ["the"]), (5, ["dog", "cat"]), (6, ["sees"])]).parse fuel []
            = .ok (b, q) → b = false) := by
  have hns : ¬ SentinelWord [4, 5, 6] [(4, ["the"]), (5, ["dog", "cat"]), (6, ["sees"])] := by
    rintro ⟨T, hT, words, hm, hw⟩
    simp only [List.mem_cons, List.mem_singleton, List.not_mem_nil, or_false] at hT
    rcases hT with rfl | rfl | rfl <;>
      · simp [mapFind] at hm
        subst hm
        revert hw
        decide
  exact ⟨rfl, hns, C21_empty_sentence false " " ["S --> NP VP", "NP --> Det N", "VP --> V NP"]
    "$" "S" "-->" _ rfl [4, 5, 6] [(4, ["the"]), (5, ["dog", "cat"]), (6, ["sees"])] hns⟩

/-- C22. A token that no tag has: let `g` be a well-formed grammar (either
build) and let the token at position `j` of the sentence `w` be among the words
of no tag.  Then `parse(w)` on a new recognizer returns false with every fuel
above the number of items of the universe; and whenever it returns, the answer
is false and every cell after position `j` is empty. -/
theorem C22_unknown_token (g : Grammar) (tags : List Int)
    (pwm : List (Int × List ES)) (w : List ES) (hg : g.WF) (j : Nat) (tok : ES)
    (hj : w[j]? = some tok)
    (hno : ∀ T ∈ tags, ∀ words, mapFind pwm T = some words → tok ∉ words) :
    (∀ fuel, (itemUniverse g w.length).length < fuel →
      ∃ q, (EarleyParser.new g tags pwm).parse fuel w = .ok (false, q)) ∧
    ∀ fuel b q, (EarleyParser.new g tags pwm).parse fuel w = .ok (b, q) →
      b = false ∧ ∀ (i : Nat) (cell : List EarleyItem), j < i →
        q.chart.chart[i]? = some cell → cell = [] :=
  EarleyParser.parse_unknown_token g tags pwm w hg j tok hj hno

theorem C22_unknown_token_witness :
    (["the", "bird", "sees"] : List ES)[1]? = some "bird" ∧
      (∀ T ∈ ([4, 5, 6] : List Int), ∀ words,
        mapFind [(4, ["the"]), (5, ["dog", "cat"]), (6, ["sees"])] T = some words →
          "bird" ∉ words) ∧
      ((∀ fuel, (itemUniverse
          (Grammar.mk false " " ⟨7, ["$", "S", "NP", "VP", "Det", "N", "V"]⟩ [] [] "-->" []
            ⟨[[0], [1]], 1⟩
            [([1], [⟨[[1], [2, 3]], 1⟩]), ([2], [⟨[[2], [4, 5]], 1⟩]),
              ([3], [⟨[[3], [6, 2]], 1⟩])]) ["the", "bird", "sees"].length).length < fuel →
        ∃ q, (EarleyParser.new
          (Grammar.mk false " " ⟨7, ["$", "S", "NP", "VP", "Det", "N", "V"]⟩ [] [] "-->" []
            ⟨[[0], [1]], 1⟩
            [([1], [⟨[[1], [2, 3]], 1⟩]), ([2], [⟨[[2], [4, 5]], 1⟩]),
              ([3], [⟨[[3], [6, 2]], 1⟩])])
          [4, 5, 6] [(4, ["the"]), (5, ["dog", "cat"]), (6, ["sees"])]).parse fuel
            ["the", "bird", "sees"] = .ok (false, q)) ∧
        ∀ fuel b q, (EarleyParser.new
          (Grammar.mk false " " ⟨7, ["$", "S", "NP", "VP", "Det", "N", "V"]⟩ [] [] "-->" []
            ⟨[[0], [1]], 1⟩
            [([1], [⟨[[1], [2, 3]], 1⟩]), ([2], [⟨[[2], [4, 5]], 1⟩]),
              ([3], [⟨[[3], [6, 2]], 1⟩])])
          [4, 5, 6] [(4, ["the"]), (5, ["dog", "cat"]), (6, ["sees"])]).parse fuel
            ["the", "bird", "sees"] = .ok (b, q) →
          b = false ∧ ∀ (i : Nat) (cell : List EarleyItem), 1 < i →
            q.chart.chart[i]? = some cell → cell = []) := by
  have hno : ∀ T ∈ ([4, 5, 6] : List Int), ∀ words,
      mapFind [(4, ["the"]), (5, ["dog", "cat"]), (6, ["sees"])] T = some words →
        "bird" ∉ words := by
    intro T hT words hm
    simp only [List.mem_cons, List.mem_singleton, List.not_mem_nil, or_false] at hT
    rcases hT with rfl | rfl | rfl <;>
      · simp [mapFind] at hm
        subst hm
        decide
  exact ⟨rfl, hno, C22_unknown_token
    (Grammar.mk false " " ⟨7, ["$", "S", "NP", "VP", "Det", "N", "V"]⟩ [] [] "-->" []
      ⟨[[0], [1]], 1⟩
      [([1], [⟨[[1], [2, 3]], 1⟩]), ([2], [⟨[[2], [4, 5]], 1⟩]), ([3], [⟨[[3], [6, 2]], 1⟩])])
    [4, 5, 6] [(4, ["the"]), (5, ["dog", "cat"]), (6, ["sees"])] ["the", "bird", "sees"]
    (Grammar.construct_WF false " " ["S --> NP VP", "NP --> Det N", "VP --> V NP"]
      "$" "S" "-->" _ rfl) 1 "bird" rfl hno⟩

/-- C27. Termination: for every well-formed grammar `g` (either build), tag set,
tag-to-words map and sentence `w` of `n` tokens, on a new recognizer:
`parse(w)` with fuel above the number of items of the universe never runs out
of fuel, it returns or ends in the index fault of Scan; at the end of every pass
of the loop of a cell `merge` succeeds, and when the pass continues the loop (a
flag is set) `merge` receives an item of the universe that was neither in the
cell nor in `to_process`, so the number of pending items of the universe drops;
that number is at most the size of the universe; hence the loop of a cell,
started with more fuel than pending items, ends. -/
theorem C27_termination (g : Grammar) (tags : List Int)
    (pwm : List (Int × List ES)) (w : List ES) (hg : g.WF) :
    (∀ fuel, (itemUniverse g w.length).length < fuel →
      (∃ b q, (EarleyParser.new g tags pwm).parse fuel w = .ok (b, q)) ∨
        (EarleyParser.new g tags pwm).parse fuel w
          = .error (Fault.index_exceeds (w.length + 1))) ∧
    (∀ (k : Nat) (p : EarleyParser) (np nc : Bool),
      EarleyParser.Reaches (EarleyParser.new g tags pwm) w ⟨k, p, np, nc, [], true⟩ →
      ∃ p2, p.merge k = .ok p2 ∧ ((np || nc) = true →
        (∃ y, y ∈ p2.to_process ∧ y ∈ itemUniverse g w.length ∧
          y ∉ (p.chart.chart[k]?).getD [] ∧ y ∉ p.to_process) ∧
        p2.pending g w.length k < p.pending g w.length k)) ∧
    (∀ (k : Nat) (p : EarleyParser), p.pending g w.length k ≤ (itemUniverse g w.length).length) ∧
    (∀ (k fuel : Nat) (p : EarleyParser),
      EarleyParser.Reaches (EarleyParser.new g tags pwm) w
        ⟨k, p, false, false, p.to_process, true⟩ →
      p.pending g w.length k < fuel →
      (∃ q, EarleyParser.fixpoint fuel k p = .ok q) ∨
        EarleyParser.fixpoint fuel k p = .error (Fault.index_exceeds (w.length + 1))) :=
  EarleyParser.parse_terminates g tags pwm w hg

set_option maxRecDepth 100000 in
theorem C27_termination_witness :
    (Grammar.mk false " " ⟨3, ["$", "S", "T"]⟩ [] [] "-->" [] ⟨[[0], [1]], 1⟩
        [([1], [⟨[[1], [2]], 1⟩, ⟨[[1], [1, 2]], 1⟩])]).WF ∧
      ((∃ b q, (EarleyParser.new
          (Grammar.mk false " " ⟨3, ["$", "S", "T"]⟩ [] [] "-->" [] ⟨[[0], [1]], 1⟩
            [([1], [⟨[[1], [2]], 1⟩, ⟨[[1], [1, 2]], 1⟩])]) [2] [(2, ["x"])]).parse 100
            ["x", "x"] = .ok (b, q)) ∨
        (EarleyParser.new
          (Grammar.mk false " " ⟨3, ["$", "S", "T"]⟩ [] [] "-->" [] ⟨[[0], [1]], 1⟩
            [([1], [⟨[[1], [2]], 1⟩, ⟨[[1], [1, 2]], 1⟩])]) [2] [(2, ["x"])]).parse 100
            ["x", "x"] = .error (Fault.index_exceeds (["x", "x"].length + 1))) :=
  ⟨Grammar.construct_WF false " " ["S --> T", "S --> S T"] "$" "S" "-->" _ rfl,
    (C27_termination
      (Grammar.mk false " " ⟨3, ["$", "S", "T"]⟩ [] [] "-->" [] ⟨[[0], [1]], 1⟩
        [([1], [⟨[[1], [2]], 1⟩, ⟨[[1], [1, 2]], 1⟩])]) [2] [(2, ["x"])] ["x", "x"]
      (Grammar.construct_WF false " " ["S --> T", "S --> S T"] "$" "S" "-->" _ rfl)).1 100
      (by decide)⟩

/-! ## C23: rules that cannot be reached -/

theorem mapFind_map_snd {κ ν : Type} [DecidableEq κ] (m : List (κ × ν)) (f : ν → ν) (k : κ) :
    mapFind (m.map (fun e => (e.1, f e.2))) k = (mapFind m k).map f := by
  induction m with
  | nil => rfl
  | cons e rest ih =>
    obtain ⟨k2, v⟩ := e
    simp only [List.map_cons, mapFind]
    by_cases h : k2 = k
    · simp [h]
    · simp [h, ih]

theorem Grammar.rules_with_lhs_removeRules (g : Grammar) (U : List Rule) (l : List Int) :
    (g.removeRules U).rules_with_lhs l =
      (g.rules_with_lhs l).filter (fun r => decide (r ∉ U)) := by
  unfold Grammar.rules_with_lhs Grammar.removeRules
  simp only
  rw [mapFind_map_snd]
  cases mapFind g.rules l <;> rfl

theorem Grammar.translate_to_is_removeRules (g : Grammar) (U : List Rule) (s : ES) :
    (g.removeRules U).translate_to_is s =
      ((g.translate_to_is s).1, (g.translate_to_is s).2.removeRules U) := by
  obtain ⟨so, del, tr, esism, isesm, sep, lex, st, ru⟩ := g
  unfold Grammar.translate_to_is Grammar.removeRules
  cases so
  · rfl
  · simp only [if_true]
    cases mapFind esism s <;> rfl

theorem Grammar.translateSide_removeRules (g : Grammar) (U : List Rule) (xs : List ES)
    (cur : List Int) :
    (g.removeRules U).translateSide xs cur =
      ((g.translateSide xs cur).1, (g.translateSide xs cur).2.removeRules U) := by
  induction xs generalizing g cur with
  | nil => rfl
  | cons x rest ih =>
    simp only [Grammar.translateSide]
    rw [Grammar.translate_to_is_removeRules]
    exact ih _ _

theorem Grammar.internAll_removeRules (g : Grammar) (U : List Rule) (w : List ES) :
    (g.removeRules U).internAll w = (g.internAll w).removeRules U := by
  unfold Grammar.internAll Grammar.translate_vec
  rw [Grammar.translateSide_removeRules]

theorem Grammar.WF.removeRules_wf {g : Grammar} (hg : g.WF) (U : List Rule) :
    (g.removeRules U).WF := by
  obtain ⟨h1, h2, h3⟩ := hg
  refine ⟨h1, ?_, h3⟩
  intro l
  rw [Grammar.rules_with_lhs_removeRules]
  exact ⟨(h2 l).1.filter _, fun r hr => (h2 l).2 r (List.mem_of_mem_filter hr)⟩

/-- The symbol after the dot of an incomplete item is a symbol of the
right-hand side of its rule. -/
theorem EarleyItem.next_mem (it : EarleyItem) (h : it.complete = false) :
    it.next ∈ it.rule.get_rhs := by
  simp only [EarleyItem.complete, decide_eq_false_iff_not, not_le] at h
  unfold EarleyItem.next
  rw [List.getD_eq_getElem _ _ h]
  exact List.getElem_mem _

/-- Every symbol of the right-hand side of an incomplete derived item is
reachable. -/
theorem Ded.reachable (g : Grammar) (tags : List Int) (pwm : List (Int × List ES))
    (w : List ES) (idf : ES → Option Int) (it : EarleyItem)
    (h : Ded g tags pwm w idf it) :
    it.complete = false → ∀ x ∈ it.rule.get_rhs, g.Reachable x := by
  induction h with
  | start => exact fun _ x hx => Grammar.Reachable.start x hx
  | predict it r _ hc htag hr hfil ih =>
    intro _ x hx
    exact Grammar.Reachable.step it.next x r (ih hc _ (it.next_mem hc)) hr hx
  | scan it words word wid _ hc htag hmf hwk hmem hid ih =>
    intro h
    simp [EarleyItem.complete, Rule.get_rhs] at h
  | complete it it2 _ _ hc hto hc2 hlhs ih1 ih2 =>
    intro _ x hx
    exact ih2 hc2 x hx

/-- Taking rules with unreachable left-hand symbols out of the grammar does not
change the derived items. -/
theorem Ded.remove_iff (g : Grammar) (hg : g.WF) (U : List Rule)
    (hU : ∀ u ∈ U, ∀ a ∈ u.get_lhs, ¬ g.Reachable a) (tags : List Int)
    (pwm : List (Int × List ES)) (w : List ES) (idf : ES → Option Int) (it : EarleyItem) :
    Ded (g.removeRules U) tags pwm w idf it ↔ Ded g tags pwm w idf it := by
  constructor
  · intro h
    induction h with
    | start => exact Ded.start
    | predict it r _ hc htag hr hfil ih =>
      rw [Grammar.rules_with_lhs_removeRules] at hr
      exact Ded.predict it r ih hc htag (List.mem_of_mem_filter hr) hfil
    | scan it words word wid _ hc htag hmf hwk hmem hid ih =>
      exact Ded.scan it words word wid ih hc htag hmf hwk hmem hid
    | complete it it2 _ _ hc hto hc2 hlhs ih1 ih2 =>
      exact Ded.complete it it2 ih1 ih2 hc hto hc2 hlhs
  · intro h
    induction h with
    | start => exact Ded.start
    | predict it r hd hc htag hr hfil ih =>
      refine Ded.predict it r ih hc htag ?_ hfil
      rw [Grammar.rules_with_lhs_removeRules, List.mem_filter]
      refine ⟨hr, ?_⟩
      simp only [decide_eq_true_eq]
      intro hru
      have hreach := Ded.reachable g tags pwm w idf it hd hc _ (it.next_mem hc)
      obtain ⟨_, a, rhs, e, _, el⟩ := (hg.2.1 _).2 r hr
      have ha : it.next = a := by
        simp only [List.cons.injEq, and_true] at el
        exact el
      apply hU r hru it.next ?_ hreach
      simp [Rule.get_lhs, e, ha]
    | scan it words word wid _ hc htag hmf hwk hmem hid ih =>
      exact Ded.scan it words word wid ih hc htag hmf hwk hmem hid
    | complete it it2 _ _ hc hto hc2 hlhs ih1 ih2 =>
      exact Ded.complete it it2 ih1 ih2 hc hto hc2 hlhs

/-- The answer of `parse` does not depend on rules whose left-hand symbols are
not reachable. -/
theorem EarleyParser.parse_remove (g : Grammar) (hg : g.WF) (U : List Rule)
    (hU : ∀ u ∈ U, ∀ a ∈ u.get_lhs, ¬ g.Reachable a) (tags : List Int)
    (pwm : List (Int × List ES)) (w : List ES) :
    (∀ fuel b q, (EarleyParser.new g tags pwm).parse fuel w = .ok (b, q) →
      ∀ fuel2, (itemUniverse (g.removeRules U) w.length).length < fuel2 →
        ∃ q2, (EarleyParser.new (g.removeRules U) tags pwm).parse fuel2 w = .ok (b, q2)) ∧
    (∀ fuel b q, (EarleyParser.new (g.removeRules U) tags pwm).parse fuel w = .ok (b, q) →
      ∀ fuel2, (itemUniverse g w.length).length < fuel2 →
        ∃ q2, (EarleyParser.new g tags pwm).parse fuel2 w = .ok (b, q2)) ∧
    (∀ fuel fuel2 b b2 q q2, (EarleyParser.new g tags pwm).parse fuel w = .ok (b, q) →
      (EarleyParser.new (g.removeRules U) tags pwm).parse fuel2 w = .ok (b2, q2) → b = b2) := by
  have hg2 := hg.removeRules_wf U
  have hid : ((g.removeRules U).internAll w).id_of = (g.internAll w).id_of := by
    rw [Grammar.internAll_removeRules]
    rfl
  have hded : ∀ it, Ded (g.removeRules U) tags pwm w ((g.removeRules U).internAll w).id_of it ↔
      Ded g tags pwm w (g.internAll w).id_of it := by
    intro it
    rw [hid]
    exact Ded.remove_iff g hg U hU tags pwm w _ it
  have hsi : SentinelItem (EarleyParser.new (g.removeRules U) tags pwm) w ↔
      SentinelItem (EarleyParser.new g tags pwm) w := by
    constructor
    · rintro ⟨it, hd, h1, h2⟩
      exact ⟨it, (hded it).1 hd, h1, h2⟩
    · rintro ⟨it, hd, h1, h2⟩
      exact ⟨it, (hded it).2 hd, h1, h2⟩
  have hsame : ∀ fuel fuel2 b b2 q q2,
      (EarleyParser.new g tags pwm).parse fuel w = .ok (b, q) →
      (EarleyParser.new (g.removeRules U) tags pwm).parse fuel2 w = .ok (b2, q2) → b = b2 := by
    intro fuel fuel2 b b2 q q2 h1 h2
    have c4 := (EarleyParser.parse_chart (EarleyParser.new g tags pwm) w hg
      ⟨rfl, rfl, rfl⟩ fuel b q h1).2.2.2
    have d4 := (EarleyParser.parse_chart (EarleyParser.new (g.removeRules U) tags pwm) w hg2
      ⟨rfl, rfl, rfl⟩ fuel2 b2 q2 h2).2.2.2
    have e : (b = true ↔ b2 = true) := c4.trans ((hded _).symm.trans d4.symm)
    cases b <;> cases b2 <;> simp_all
  refine ⟨?_, ?_, hsame⟩
  · intro fuel b q h fuel2 hf
    have hno := EarleyParser.parse_ok_no_sentinel _ w hg ⟨rfl, rfl, rfl⟩ fuel b q h
    rcases EarleyParser.parse_ends (EarleyParser.new (g.removeRules U) tags pwm) w hg2
      ⟨rfl, rfl, rfl⟩ fuel2 hf with ⟨⟨b2, q2, h2⟩, _⟩ | ⟨_, hs⟩
    · have := hsame fuel fuel2 b b2 q q2 h h2
      subst this
      exact ⟨q2, h2⟩
    · exact absurd (hsi.1 hs) hno
  · intro fuel b q h fuel2 hf
    have hno := EarleyParser.parse_ok_no_sentinel _ w hg2 ⟨rfl, rfl, rfl⟩ fuel b q h
    rcases EarleyParser.parse_ends (EarleyParser.new g tags pwm) w hg
      ⟨rfl, rfl, rfl⟩ fuel2 hf with ⟨⟨b2, q2, h2⟩, _⟩ | ⟨_, hs⟩
    · have := hsame fuel2 fuel b2 b q2 q h2 h
      subst this
      exact ⟨q2, h2⟩
    · exact absurd (hsi.2 hs) hno

/-- C23. Rules that cannot be reached do not affect acceptance: let `g` be a
well-formed grammar (either build) and `U` a set of rules whose left-hand
symbols are not reachable from the start symbol.  Then, on new recognizers for
`g` and for `g` minus `U` with the same tags and tag-to-words map: when
`parse(w)` returns `b` with one of the two grammars it returns the same `b` with
the other one, with every fuel above the number of items of the universe; and
two runs that return give the same answer. -/
theorem C23_unreachable_rules (g : Grammar) (hg : g.WF) (U : List Rule)
    (hU : ∀ u ∈ U, ∀ a ∈ u.get_lhs, ¬ g.Reachable a) (tags : List Int)
    (pwm : List (Int × List ES)) (w : List ES) :
    (∀ fuel b q, (EarleyParser.new g tags pwm).parse fuel w = .ok (b, q) →
      ∀ fuel2, (itemUniverse (g.removeRules U) w.length).length < fuel2 →
        ∃ q2, (EarleyParser.new (g.removeRules U) tags pwm).parse fuel2 w = .ok (b, q2)) ∧
    (∀ fuel b q, (EarleyParser.new (g.removeRules U) tags pwm).parse fuel w = .ok (b, q) →
      ∀ fuel2, (itemUniverse g w.length).length < fuel2 →
        ∃ q2, (EarleyParser.new g tags pwm).parse fuel2 w = .ok (b, q2)) ∧
    (∀ fuel fuel2 b b2 q q2, (EarleyParser.new g tags pwm).parse fuel w = .ok (b, q) →
      (EarleyParser.new (g.removeRules U) tags pwm).parse fuel2 w = .ok (b2, q2) → b = b2) :=
  EarleyParser.parse_remove g hg U hU tags pwm w

theorem C23_unreachable_rules_witness :
    ∃ g q, Grammar.construct false " "
        ["S --> NP VP", "NP --> Det N", "VP --> V NP", "X --> Y S"] "$" "S" "-->" = .ok g ∧
      g.WF ∧ g.IsRule ⟨[[7], [8, 1]], 1⟩ ∧
      (∀ u ∈ [(⟨[[7], [8, 1]], 1⟩ : Rule)], ∀ a ∈ u.get_lhs, ¬ g.Reachable a) ∧
      (g.removeRules [⟨[[7], [8, 1]], 1⟩]).rules =
        [([1], [⟨[[1], [2, 3]], 1⟩]), ([2], [⟨[[2], [4, 5]], 1⟩]),
          ([3], [⟨[[3], [6, 2]], 1⟩]), ([7], [])] ∧
      (EarleyParser.new g [4, 5, 6] [(4, ["the"]), (5, ["dog", "cat"]), (6, ["sees"])]).parse 20
        ["the", "dog", "sees", "the", "cat"] = .ok (true, q) ∧
      ∀ fuel2, (itemUniverse (g.removeRules [⟨[[7], [8, 1]], 1⟩])
          ["the", "dog", "sees", "the", "cat"].length).length < fuel2 →
        ∃ q2, (EarleyParser.new (g.removeRules [⟨[[7], [8, 1]], 1⟩]) [4, 5, 6]
          [(4, ["the"]), (5, ["dog", "cat"]), (6, ["sees"])]).parse fuel2
            ["the", "dog", "sees", "the", "cat"] = .ok (true, q2) := by
  have hwf := Grammar.construct_WF false " "
    ["S --> NP VP", "NP --> Det N", "VP --> V NP", "X --> Y S"] "$" "S" "-->"
    (Grammar.mk false " " ⟨9, ["$", "S", "NP", "VP", "Det", "N", "V", "X", "Y"]⟩ [] [] "-->" []
      ⟨[[0], [1]], 1⟩
      [([1], [⟨[[1], [2, 3]], 1⟩]), ([2], [⟨[[2], [4, 5]], 1⟩]), ([3], [⟨[[3], [6, 2]], 1⟩]),
        ([7], [⟨[[7], [8, 1]], 1⟩])]) rfl
  have hreach : ∀ x,
      (Grammar.mk false " " ⟨9, ["$", "S", "NP", "VP", "Det", "N", "V", "X", "Y"]⟩ [] [] "-->"
        [] ⟨[[0], [1]], 1⟩
        [([1], [⟨[[1], [2, 3]], 1⟩]), ([2], [⟨[[2], [4, 5]], 1⟩]), ([3], [⟨[[3], [6, 2]], 1⟩]),
          ([7], [⟨[[7], [8, 1]], 1⟩])]).Reachable x → x ∈ ([1, 2, 3, 4, 5, 6] : List Int) := by
    intro x hx
    induction hx with
    | start x h =>
      simp only [Rule.get_rhs] at h
      revert h
      simp
      rintro rfl
      decide
    | step a x r _ hr hx ih =>
      simp only [List.mem_cons, List.mem_singleton, List.not_mem_nil, or_false] at ih
      rcases ih with rfl | rfl | rfl | rfl | rfl | rfl <;>
        · simp [Grammar.rules_with_lhs, mapFind] at hr
          try subst hr
          try simp [Rule.get_rhs] at hx
          try rcases hx with rfl | rfl <;> decide
  have hU : ∀ u ∈ [(⟨[[7], [8, 1]], 1⟩ : Rule)], ∀ a ∈ u.get_lhs,
      ¬ (Grammar.mk false " " ⟨9, ["$", "S", "NP", "VP", "Det", "N", "V", "X", "Y"]⟩ [] []
        "-->" [] ⟨[[0], [1]], 1⟩
        [([1], [⟨[[1], [2, 3]], 1⟩]), ([2], [⟨[[2], [4, 5]], 1⟩]), ([3], [⟨[[3], [6, 2]], 1⟩]),
          ([7], [⟨[[7], [8, 1]], 1⟩])]).Reachable a := by
    intro u hu a ha hr
    simp only [List.mem_singleton] at hu
    subst hu
    simp [Rule.get_lhs] at ha
    subst ha
    have := hreach 7 hr
    revert this
    decide
  refine ⟨Grammar.mk false " " ⟨9, ["$", "S", "NP", "VP", "Det", "N", "V", "X", "Y"]⟩ [] []
      "-->" [] ⟨[[0], [1]], 1⟩
      [([1], [⟨[[1], [2, 3]], 1⟩]), ([2], [⟨[[2], [4, 5]], 1⟩]), ([3], [⟨[[3], [6, 2]], 1⟩]),
        ([7], [⟨[[7], [8, 1]], 1⟩])], _, rfl, hwf, ⟨[7], by decide⟩, hU, rfl, rfl, ?_⟩
  exact (C23_unreachable_rules _ hwf [⟨[[7], [8, 1]], 1⟩] hU [4, 5, 6]
    [(4, ["the"]), (5, ["dog", "cat"]), (6, ["sees"])]
    ["the", "dog", "sees", "the", "cat"]).1 20 true _ rfl

/-! ## C24, C25, C26: end-to-end scenarios -/

/-- C24 (amended). The arithmetic grammar `S --> S + S`, `S --> S * S`,
`S --> ( S )`, `S --> a` in the tag-filtered build, with the five terminals
`+`, `*`, `(`, `)`, `a` as tags and each tag having its own token as its only
word: `parse` returns true for `a`, `a + a`, `a + a * a` and `( a + a ) * a`,
with fuel 20 and every larger fuel. -/
theorem C24_arithmetic_accepted :
    ∃ g, Grammar.construct false " " ["S --> S + S", "S --> S * S", "S --> ( S )", "S --> a"]
        "$" "S" "-->" = .ok g ∧
      g.translator.es_entries = ["$", "S", "+", "*", "(", ")", "a"] ∧
      (∃ q, (EarleyParser.new g [2, 3, 4, 5, 6]
          [(2, ["+"]), (3, ["*"]), (4, ["("]), (5, [")"]), (6, ["a"])]).parse 20
            ["a"] = .ok (true, q) ∧
        ∀ fuel, (EarleyParser.new g [2, 3, 4, 5, 6]
          [(2, ["+"]), (3, ["*"]), (4, ["("]), (5, [")"]), (6, ["a"])]).parse (20 + fuel)
            ["a"] = .ok (true, q)) ∧
      (∃ q, (EarleyParser.new g [2, 3, 4, 5, 6]
          [(2, ["+"]), (3, ["*"]), (4, ["("]), (5, [")"]), (6, ["a"])]).parse 20
            ["a", "+", "a"] = .ok (true, q) ∧
        ∀ fuel, (EarleyParser.new g [2, 3, 4, 5, 6]
          [(2, ["+"]), (3, ["*"]), (4, ["("]), (5, [")"]), (6, ["a"])]).parse (20 + fuel)
            ["a", "+", "a"] = .ok (true, q)) ∧
      (∃ q, (EarleyParser.new g [2, 3, 4, 5, 6]
          [(2, ["+"]), (3, ["*"]), (4, ["("]), (5, [")"]), (6, ["a"])]).parse 20
            ["a", "+", "a", "*", "a"] = .ok (true, q) ∧
        ∀ fuel, (EarleyParser.new g [2, 3, 4, 5, 6]
          [(2, ["+"]), (3, ["*"]), (4, ["("]), (5, [")"]), (6, ["a"])]).parse (20 + fuel)
            ["a", "+", "a", "*", "a"] = .ok (true, q)) ∧
      (∃ q, (EarleyParser.new g [2, 3, 4, 5, 6]
          [(2, ["+"]), (3, ["*"]), (4, ["("]), (5, [")"]), (6, ["a"])]).parse 20
            ["(", "a", "+", "a", ")", "*", "a"] = .ok (true, q) ∧
        ∀ fuel, (EarleyParser.new g [2, 3, 4, 5, 6]
          [(2, ["+"]), (3, ["*"]), (4, ["("]), (5, [")"]), (6, ["a"])]).parse (20 + fuel)
            ["(", "a", "+", "a", ")", "*", "a"] = .ok (true, q)) := by
  refine ⟨Grammar.mk false " " ⟨7, ["$", "S", "+", "*", "(", ")", "a"]⟩ [] [] "-->" []
    ⟨[[0], [1]], 1⟩
    [([1], [⟨[[1], [1, 2, 1]], 1⟩, ⟨[[1], [1, 3, 1]], 1⟩, ⟨[[1], [4, 1, 5]], 1⟩,
      ⟨[[1], [6]], 1⟩])], rfl, rfl, ⟨_, rfl, fun fuel => ?_⟩, ⟨_, rfl, fun fuel => ?_⟩,
    ⟨_, rfl, fun fuel => ?_⟩, ⟨_, rfl, fun fuel => ?_⟩⟩
  · exact EarleyParser.parse_mono_le 20 (20 + fuel) (Nat.le_add_right _ _) _ _ _ rfl (by simp)
  · exact EarleyParser.parse_mono_le 20 (20 + fuel) (Nat.le_add_right _ _) _ _ _ rfl (by simp)
  · exact EarleyParser.parse_mono_le 20 (20 + fuel) (Nat.le_add_right _ _) _ _ _ rfl (by simp)
  · exact EarleyParser.parse_mono_le 20 (20 + fuel) (Nat.le_add_right _ _) _ _ _ rfl (by simp)

/-- C24, counterexample: with the arithmetic grammar, an empty tag set and an
empty tag-to-words map, `parse` returns false for the one-token sentence `a`
with fuel 20 and every larger fuel: Scan is the only step that reads a token,
it runs only for a next symbol that is a tag, so cell 1 stays empty. -/
theorem C24_counterexample :
    ∃ g q, Grammar.construct false " "
        ["S --> S + S", "S --> S * S", "S --> ( S )", "S --> a"] "$" "S" "-->" = .ok g ∧
      (EarleyParser.new g [] []).parse 20 ["a"] = .ok (false, q) ∧
      (∀ fuel, (EarleyParser.new g [] []).parse (20 + fuel) ["a"] = .ok (false, q)) ∧
      q.chart.chart[1]? = some [] := by
  refine ⟨Grammar.mk false " " ⟨7, ["$", "S", "+", "*", "(", ")", "a"]⟩ [] [] "-->" []
    ⟨[[0], [1]], 1⟩
    [([1], [⟨[[1], [1, 2, 1]], 1⟩, ⟨[[1], [1, 3, 1]], 1⟩, ⟨[[1], [4, 1, 5]], 1⟩,
      ⟨[[1], [6]], 1⟩])], _, rfl, rfl, fun fuel => ?_, rfl⟩
  exact EarleyParser.parse_mono_le 20 (20 + fuel) (Nat.le_add_right _ _) _ _ _ rfl (by simp)

/-- C25. The arithmetic grammar in the tag-filtered build with an empty tag set
and an empty tag-to-words map: `parse` returns false for `a +` and for `+ a`,
with fuel 20 and every larger fuel.  The same holds with the five terminals as
tags, each with its own token as its only word. -/
theorem C25_arithmetic_rejected :
    ∃ g, Grammar.construct false " " ["S --> S + S", "S --> S * S", "S --> ( S )", "S --> a"]
        "$" "S" "-->" = .ok g ∧
      (∃ q, (EarleyParser.new g [] []).parse 20 ["a", "+"]
        = .ok (false, q) ∧
        ∀ fuel, (EarleyParser.new g [] []).parse (20 + fuel) ["a", "+"]
        = .ok (false, q)) ∧
      (∃ q, (EarleyParser.new g [] []).parse 20 ["+", "a"]
        = .ok (false, q) ∧
        ∀ fuel, (EarleyParser.new g [] []).parse (20 + fuel) ["+", "a"]
        = .ok (false, q)) ∧
      (∃ q, (EarleyParser.new g [2, 3, 4, 5, 6]
          [(2, ["+"]), (3, ["*"]), (4, ["("]), (5, [")"]), (6, ["a"])]).parse 20
            ["a", "+"] = .ok (false, q) ∧
        ∀ fuel, (EarleyParser.new g [2, 3, 4, 5, 6]
          [(2, ["+"]), (3, ["*"]), (4, ["("]), (5, [")"]), (6, ["a"])]).parse (20 + fuel)
            ["a", "+"] = .ok (false, q)) ∧
      (∃ q, (EarleyParser.new g [2, 3, 4, 5, 6]
          [(2, ["+"]), (3, ["*"]), (4, ["("]), (5, [")"]), (6, ["a"])]).parse 20
            ["+", "a"] = .ok (false, q) ∧
        ∀ fuel, (EarleyParser.new g [2, 3, 4, 5, 6]
          [(2, ["+"]), (3, ["*"]), (4, ["("]), (5, [")"]), (6, ["a"])]).parse (20 + fuel)
            ["+", "a"] = .ok (false, q)) := by
  refine ⟨Grammar.mk false " " ⟨7, ["$", "S", "+", "*", "(", ")", "a"]⟩ [] [] "-->" []
    ⟨[[0], [1]], 1⟩
    [([1], [⟨[[1], [1, 2, 1]], 1⟩, ⟨[[1], [1, 3, 1]], 1⟩, ⟨[[1], [4, 1, 5]], 1⟩,
      ⟨[[1], [6]], 1⟩])], rfl, ⟨_, rfl, fun fuel => ?_⟩, ⟨_, rfl, fun fuel => ?_⟩,
    ⟨_, rfl, fun fuel => ?_⟩, ⟨_, rfl, fun fuel => ?_⟩⟩
  · exact EarleyParser.parse_mono_le 20 (20 + fuel) (Nat.le_add_right _ _) _ _ _ rfl (by simp)
  · exact EarleyParser.parse_mono_le 20 (20 + fuel) (Nat.le_add_right _ _) _ _ _ rfl (by simp)
  · exact EarleyParser.parse_mono_le 20 (20 + fuel) (Nat.le_add_right _ _) _ _ _ rfl (by simp)
  · exact EarleyParser.parse_mono_le 20 (20 + fuel) (Nat.le_add_right _ _) _ _ _ rfl (by simp)

/-- C26. The phrase grammar `S --> NP VP`, `NP --> Det N`, `VP --> V NP` in the
tag-filtered build with the tags `Det`, `N`, `V` and the words `the` of `Det`,
`dog`, `cat` of `N`, `sees` of `V`: `parse` returns true for
`the dog sees the cat` and false for `dog the sees cat the`, with fuel 20 and
every larger fuel. -/
theorem C26_phrase_grammar :
    ∃ g, Grammar.construct false " " ["S --> NP VP", "NP --> Det N", "VP --> V NP"]
        "$" "S" "-->" = .ok g ∧
      g.translator.es_entries = ["$", "S", "NP", "VP", "Det", "N", "V"] ∧
      (∃ q, (EarleyParser.new g [4, 5, 6]
          [(4, ["the"]), (5, ["dog", "cat"]), (6, ["sees"])]).parse 20
            ["the", "dog", "sees", "the", "cat"] = .ok (true, q) ∧
        ∀ fuel, (EarleyParser.new g [4, 5, 6]
          [(4, ["the"]), (5, ["dog", "cat"]), (6, ["sees"])]).parse (20 + fuel)
            ["the", "dog", "sees", "the", "cat"] = .ok (true, q)) ∧
      (∃ q, (EarleyParser.new g [4, 5, 6]
          [(4, ["the"]), (5, ["dog", "cat"]), (6, ["sees"])]).parse 20
            ["dog", "the", "sees", "cat", "the"] = .ok (false, q) ∧
        ∀ fuel, (EarleyParser.new g [4, 5, 6]
          [(4, ["the"]), (5, ["dog", "cat"]), (6, ["sees"])]).parse (20 + fuel)
            ["dog", "the", "sees", "cat", "the"] = .ok (false, q)) := by
  refine ⟨Grammar.mk false " " ⟨7, ["$", "S", "NP", "VP", "Det", "N", "V"]⟩ [] [] "-->" []
    ⟨[[0], [1]], 1⟩
    [([1], [⟨[[1], [2, 3]], 1⟩]), ([2], [⟨[[2], [4, 5]], 1⟩]), ([3], [⟨[[3], [6, 2]], 1⟩])],
    rfl, rfl, ⟨_, rfl, fun fuel => ?_⟩, ⟨_, rfl, fun fuel => ?_⟩⟩
  · exact EarleyParser.parse_mono_le 20 (20 + fuel) (Nat.le_add_right _ _) _ _ _ rfl (by simp)
  · exact EarleyParser.parse_mono_le 20 (20 + fuel) (Nat.le_add_right _ _) _ _ _ rfl (by simp)

/-! ## C28: the lines of the word file -/

theorem String.intercalate_go_eq (s : String) (l : List String) (acc : String) :
    String.intercalate.go acc s l = acc ++ l.foldr (fun u r => s ++ u ++ r) "" := by
  induction l generalizing acc with
  | nil => simp [String.intercalate.go]
  | cons a rest ih =>
    simp only [String.intercalate.go, List.foldr_cons]
    rw [ih]
    simp [String.append_assoc]

theorem Driver.joinLoop_eq (t : ES) (rest : List ES) (acc : ES) :
    Driver.joinLoop (t :: rest) acc = acc ++ t ++ rest.foldr (fun u r => " " ++ u ++ r) "" := by
  induction rest generalizing t acc with
  | nil => simp [Driver.joinLoop]
  | cons u rest ih =>
    simp only [Driver.joinLoop, List.foldr_cons]
    rw [ih]
    simp [String.append_assoc]

/-- The loop of `main` joins the tokens with single blanks. -/
theorem Driver.joinLoop_intercalate (ts : List ES) :
    Driver.joinLoop ts "" = " ".intercalate ts := by
  cases ts with
  | nil => rfl
  | cons t rest =>
    rw [Driver.joinLoop_eq]
    simp only [String.intercalate]
    rw [String.intercalate_go_eq]
    simp

theorem mapFind_map_key (pwm : List (Int × List ES)) (f : Int → List ES → List ES) (T : Int) :
    mapFind (pwm.map (fun e => (e.1, f e.1 e.2))) T = (mapFind pwm T).map (f T) := by
  induction pwm with
  | nil => rfl
  | cons e rest ih =>
    obtain ⟨k, v⟩ := e
    simp only [List.map_cons, mapFind]
    by_cases h : k = T
    · simp [h]
    · simp [h, ih]

/-- `TagID_Words_Map[tag].insert(word)` adds the word to the set of `tag` and
leaves the sets of the other tags unchanged. -/
theorem Driver.wordsInsert_spec (pwm : List (Int × List ES)) (tag : Int) (word : ES) :
    (∃ ws, mapFind (Driver.wordsInsert pwm tag word) tag = some ws ∧
      ∀ x, x ∈ ws ↔ (x ∈ (mapFind pwm tag).getD [] ∨ x = word)) ∧
    ∀ T, T ≠ tag → mapFind (Driver.wordsInsert pwm tag word) T = mapFind pwm T := by
  unfold Driver.wordsInsert
  rcases Option.eq_none_or_eq_some (mapFind pwm tag) with hn | ⟨ws, hs⟩
  · rw [hn]
    simp only
    have happ := mapFind_append pwm tag [word]
    refine ⟨⟨[word], ?_, ?_⟩, ?_⟩
    · rw [happ, hn]
      simp
    · intro x
      simp
    · intro T hT
      rw [happ]
      rcases Option.eq_none_or_eq_some (mapFind pwm T) with h1 | ⟨v, h1⟩
      · rw [h1]
        simp [Ne.symm hT]
      · rw [h1]
  · rw [hs]
    simp only
    refine ⟨⟨if word ∈ ws then ws else ws ++ [word], ?_, ?_⟩, ?_⟩
    · rw [mapFind_map_key pwm
        (fun k v => if k = tag then (if word ∈ v then v else v ++ [word]) else v) tag]
      simp [hs]
    · intro x
      simp only [Option.getD_some]
      by_cases hw : word ∈ ws
      · simp only [hw, if_true]
        constructor
        · exact Or.inl
        · rintro (h | h)
          · exact h
          · rw [h]
            exact hw
      · simp [hw]
    · intro T hT
      rw [mapFind_map_key pwm
        (fun k v => if k = tag then (if word ∈ v then v else v ++ [word]) else v) T]
      simp [hT]

/-- A line with at least two tokens adds the word made of the tokens before
the last to the word set of the tag that the last token names. -/
theorem Driver.wordfileStep_spec (g : Grammar) (pwm : List (Int × List ES))
    (lexicon : List Int) (line : ES) (ts : List ES) (tag : ES) (hts : ts ≠ [])
    (htok : tokenise line ' ' = ts ++ [tag]) :
    ∃ g2 pwm2 lexicon2, Driver.wordfileStep (g, pwm, lexicon) line = .ok (g2, pwm2, lexicon2) ∧
      (∃ ws, mapFind pwm2 (g.translate_to_is tag).1 = some ws ∧
        ∀ x, x ∈ ws ↔ (x ∈ (mapFind pwm (g.translate_to_is tag).1).getD [] ∨
          x = " ".intercalate ts)) ∧
      (∀ T, T ≠ (g.translate_to_is tag).1 → mapFind pwm2 T = mapFind pwm T) := by
  have hlen : ¬ line.length = 0 := by
    intro h
    rw [tokenise_length_zero line h] at htok
    cases ts <;> simp at htok
  have hl2 : ¬ (ts ++ [tag]).length < 2 := by
    cases ts with
    | nil => exact absurd rfl hts
    | cons a rest => simp
  have hspec := Driver.wordsInsert_spec pwm (g.translate_to_is tag).1 (" ".intercalate ts)
  unfold Driver.wordfileStep
  simp only [hlen, if_false, htok, hl2, List.dropLast_concat, List.getLastD_concat,
    Driver.joinLoop_intercalate]
  by_cases hso : g.soverload = true
  · simp only [hso, if_true]
    exact ⟨_, _, _, rfl, hspec⟩
  · simp only [hso, if_false]
    exact ⟨_, _, _, rfl, hspec⟩

theorem Driver.wordfileStep_reject (st : Grammar × List (Int × List ES) × List Int)
    (line : ES) (h1 : line.length ≠ 0) (h2 : (tokenise line ' ').length < 2) :
    Driver.wordfileStep st line = .error (Fault.invalid_format line) := by
  unfold Driver.wordfileStep
  simp only [h1, if_false, h2, if_true]

theorem tokeniseLoop_blanks (n : Nat) (rest : List Char) (toks : List ES) :
    tokeniseLoop ' ' (List.replicate n ' ' ++ rest) [] toks = tokeniseLoop ' ' rest [] toks := by
  induction n with
  | zero => rfl
  | succ n ih =>
    rw [List.replicate_succ, List.cons_append, tokeniseLoop]
    simp only [ne_eq, not_true_eq_false, if_false]
    exact ih

/-- The tokens of a line do not depend on the number of blanks between them. -/
theorem Driver.tokenise_spaced (parts : List (ES × Nat)) (toks : List ES)
    (hp : ∀ p ∈ parts, p.1 ≠ "" ∧ ' ' ∉ p.1.data) :
    tokeniseLoop ' ' (Driver.spacedLine parts) [] toks = toks ++ parts.map Prod.fst := by
  induction parts generalizing toks with
  | nil => simp [Driver.spacedLine, tokeniseLoop]
  | cons p rest ih =>
    obtain ⟨t, n⟩ := p
    obtain ⟨h1, h2⟩ := hp (t, n) (List.mem_cons_self _ _)
    have hne : t.data ≠ [] := by
      intro h
      apply h1
      cases t
      simp_all
    simp only [Driver.spacedLine, List.append_assoc]
    rw [tokeniseLoop_word _ _ _ _ _ h2, List.replicate_succ, List.cons_append, tokeniseLoop]
    simp only [ne_eq, not_true_eq_false, if_false, List.nil_append, hne, not_false_eq_true,
      if_true]
    rw [tokeniseLoop_blanks, ih _ (fun q hq => hp q (List.mem_cons_of_mem _ hq))]
    simp

/-- C28. Lines of the word file: let the tokens of a line (split at blanks) be
`t1 ... tk TAG` with `k >= 1`.  Then the loop body of the driver succeeds and
afterwards the word set of `intern(TAG)` holds exactly its former words and the
word `t1 + " " + ... + " " + tk`, and the word set of every other tag is
unchanged.  A non-empty line with fewer than two tokens is rejected with the
format error.  The tokens of a line do not depend on the number of blanks
before, between and after them. -/
theorem C28_lexicon_line (g : Grammar) (pwm : List (Int × List ES))
    (lexicon : List Int) (line : ES) (ts : List ES) (tag : ES) (hts : ts ≠ [])
    (htok : tokenise line ' ' = ts ++ [tag]) :
    (∃ g2 pwm2 lexicon2,
      Driver.wordfileStep (g, pwm, lexicon) line = .ok (g2, pwm2, lexicon2) ∧
      (∃ ws, mapFind pwm2 (g.translate_to_is tag).1 = some ws ∧
        ∀ x, x ∈ ws ↔ (x ∈ (mapFind pwm (g.translate_to_is tag).1).getD [] ∨
          x = " ".intercalate ts)) ∧
      (∀ T, T ≠ (g.translate_to_is tag).1 → mapFind pwm2 T = mapFind pwm T)) ∧
    (∀ st line2, line2.length ≠ 0 → (tokenise line2 ' ').length < 2 →
      Driver.wordfileStep st line2 = .error (Fault.invalid_format line2)) ∧
    (∀ (line2 : ES) (lead : Nat) (parts : List (ES × Nat)),
      (∀ p ∈ parts, p.1 ≠ "" ∧ ' ' ∉ p.1.data) →
      line2.data ++ [' '] = List.replicate lead ' ' ++ Driver.spacedLine parts →
      tokenise line2 ' ' = parts.map Prod.fst) := by
  refine ⟨Driver.wordfileStep_spec g pwm lexicon line ts tag hts htok,
    Driver.wordfileStep_reject, ?_⟩
  intro line2 lead parts hp hl
  unfold tokenise
  rw [hl, tokeniseLoop_blanks, Driver.tokenise_spaced parts [] hp]
  rfl

theorem C28_lexicon_line_witness :
    (["New", "York"] : List ES) ≠ [] ∧
      tokenise "  New   York  N " ' ' = ["New", "York"] ++ ["N"] ∧
      ((∃ g2 pwm2 lexicon2,
        Driver.wordfileStep
          (Grammar.mk false " " ⟨7, ["$", "S", "NP", "VP", "Det", "N", "V"]⟩ [] [] "-->" []
            ⟨[[0], [1]], 1⟩
            [([1], [⟨[[1], [2, 3]], 1⟩]), ([2], [⟨[[2], [4, 5]], 1⟩]),
              ([3], [⟨[[3], [6, 2]], 1⟩])],
            [(4, ["the"]), (5, ["dog"])], []) "  New   York  N "
          = .ok (g2, pwm2, lexicon2) ∧
        (∃ ws, mapFind pwm2
            ((Grammar.mk false " " ⟨7, ["$", "S", "NP", "VP", "Det", "N", "V"]⟩ [] [] "-->" []
              ⟨[[0], [1]], 1⟩
              [([1], [⟨[[1], [2, 3]], 1⟩]), ([2], [⟨[[2], [4, 5]], 1⟩]),
                ([3], [⟨[[3], [6, 2]], 1⟩])]).translate_to_is "N").1 = some ws ∧
          ∀ x, x ∈ ws ↔ (x ∈ (mapFind [(4, ["the"]), (5, ["dog"])]
              ((Grammar.mk false " " ⟨7, ["$", "S", "NP", "VP", "Det", "N", "V"]⟩ [] [] "-->"
                [] ⟨[[0], [1]], 1⟩
                [([1], [⟨[[1], [2, 3]], 1⟩]), ([2], [⟨[[2], [4, 5]], 1⟩]),
                  ([3], [⟨[[3], [6, 2]], 1⟩])]).translate_to_is "N").1).getD [] ∨
            x = " ".intercalate ["New", "York"])) ∧
        (∀ T, T ≠
            ((Grammar.mk false " " ⟨7, ["$", "S", "NP", "VP", "Det", "N", "V"]⟩ [] [] "-->" []
              ⟨[[0], [1]], 1⟩
              [([1], [⟨[[1], [2, 3]], 1⟩]), ([2], [⟨[[2], [4, 5]], 1⟩]),
                ([3], [⟨[[3], [6, 2]], 1⟩])]).translate_to_is "N").1 →
          mapFind pwm2 T = mapFind [(4, ["the"]), (5, ["dog"])] T)) ∧
      (∀ st line2, line2.length ≠ 0 → (tokenise line2 ' ').length < 2 →
        Driver.wordfileStep st line2 = .error (Fault.invalid_format line2)) ∧
      (∀ (line2 : ES) (lead : Nat) (parts : List (ES × Nat)),
        (∀ p ∈ parts, p.1 ≠ "" ∧ ' ' ∉ p.1.data) →
        line2.data ++ [' '] = List.replicate lead ' ' ++ Driver.spacedLine parts →
        tokenise line2 ' ' = parts.map Prod.fst)) :=
  ⟨by decide, by decide, C28_lexicon_line
    (Grammar.mk false " " ⟨7, ["$", "S", "NP", "VP", "Det", "N", "V"]⟩ [] [] "-->" []
      ⟨[[0], [1]], 1⟩
      [([1], [⟨[[1], [2, 3]], 1⟩]), ([2], [⟨[[2], [4, 5]], 1⟩]), ([3], [⟨[[3], [6, 2]], 1⟩])])
    [(4, ["the"]), (5, ["dog"])] [] "  New   York  N " ["New", "York"] "N" (by decide)
    (by decide)⟩

/-! ## C29: empty lines in the rule file -/

theorem Grammar.fillLoop_filter (g : Grammar) (lines : List ES) :
    g.fillLoop (lines.filter (fun l => decide (l.length ≠ 0))) = g.fillLoop lines := by
  induction lines generalizing g with
  | nil => rfl
  | cons l rest ih =>
    by_cases h : l.length = 0
    · rw [List.filter_cons_of_neg (by simpa using h), Grammar.fillLoop, if_pos h]
      exact ih g
    · rw [List.filter_cons_of_pos (by simpa using h)]
      simp only [Grammar.fillLoop, h, if_false]
      rcases g.make_rule l with e | ⟨r, g1⟩
      · rfl
      · exact ih _

/-- Two non-empty lists of lines with the same non-empty lines in the same
order give the same result of the constructor. -/
theorem Grammar.construct_empty_lines (soverload : Bool) (del : ES) (lines lines2 : List ES)
    (ss s separator : ES) (h1 : lines ≠ []) (h2 : lines2 ≠ [])
    (hf : lines2.filter (fun l => decide (l.length ≠ 0)) =
      lines.filter (fun l => decide (l.length ≠ 0))) :
    Grammar.construct soverload del lines2 ss s separator =
      Grammar.construct soverload del lines ss s separator := by
  unfold Grammar.construct
  rcases Grammar.new soverload del ss s separator with e | g
  · rfl
  · simp only
    unfold Grammar.fill
    rw [if_neg (fun h => h1 (List.length_eq_zero.1 h)),
      if_neg (fun h => h2 (List.length_eq_zero.1 h)),
      ← Grammar.fillLoop_filter g lines, ← Grammar.fillLoop_filter g lines2, hf]

/-- C29 (amended). Empty lines in a grammar are ignored: two non-empty lists of
rule lines that differ only by empty lines (they have the same non-empty lines
in the same order) give the same result of the constructor, the same grammar
(interner, start rule and rule index) or the same failure.  In particular
empty lines inserted anywhere into a non-empty list change nothing. -/
theorem C29_empty_lines_ignored (soverload : Bool) (del : ES) (lines lines2 : List ES)
    (ss s separator : ES) (h1 : lines ≠ []) (h2 : lines2 ≠ [])
    (hf : lines2.filter (fun l => decide (l.length ≠ 0)) =
      lines.filter (fun l => decide (l.length ≠ 0))) :
    Grammar.construct soverload del lines2 ss s separator =
      Grammar.construct soverload del lines ss s separator :=
  Grammar.construct_empty_lines soverload del lines lines2 ss s separator h1 h2 hf

theorem C29_empty_lines_ignored_witness :
    (["S --> NP VP", "NP --> Det N"] : List ES) ≠ [] ∧
      (["", "S --> NP VP", "", "", "NP --> Det N", ""] : List ES) ≠ [] ∧
      (["", "S --> NP VP", "", "", "NP --> Det N", ""] : List ES).filter
          (fun l => decide (l.length ≠ 0)) =
        (["S --> NP VP", "NP --> Det N"] : List ES).filter (fun l => decide (l.length ≠ 0)) ∧
      Grammar.construct false " " ["", "S --> NP VP", "", "", "NP --> Det N", ""] "$" "S" "-->" =
        Grammar.construct false " " ["S --> NP VP", "NP --> Det N"] "$" "S" "-->" :=
  ⟨by decide, by decide, by decide,
    C29_empty_lines_ignored false " " ["S --> NP VP", "NP --> Det N"]
      ["", "S --> NP VP", "", "", "NP --> Det N", ""] "$" "S" "-->" (by decide) (by decide)
      (by decide)⟩

/-- C29, counterexample: a line that consists of one blank is not skipped by
`fill`: it has no tokens, `make_rule` rejects it and the constructor fails,
while the same lines without it give a grammar.  And an empty line added to an
empty list of lines turns the failure of the progress bar into a grammar. -/
theorem C29_counterexample :
    (∃ g, Grammar.construct false " " ["S --> NP VP", "NP --> Det N"] "$" "S" "-->" = .ok g) ∧
      Grammar.construct false " " ["S --> NP VP", " ", "NP --> Det N"] "$" "S" "-->"
        = .error (Fault.malformed_rule []) ∧
      Grammar.construct false " " [] "$" "S" "-->" = .error Fault.invalid_range ∧
      (∃ g, Grammar.construct false " " [""] "$" "S" "-->" = .ok g) :=
  ⟨⟨_, rfl⟩, rfl, rfl, ⟨_, rfl⟩⟩

/-! ## C36: `insert` at an index outside the chart -/

theorem EarleyChart.insert_outside (c : EarleyChart) (index : Nat) (item : EarleyItem) :
    c.insert (c.chart.length + index) item = .error Fault.undefined := by
  unfold EarleyChart.insert
  rw [if_pos (Nat.le_add_right _ _)]
  have hlen : (resizeCells c.chart (c.chart.length + index)).length = c.chart.length + index := by
    unfold resizeCells
    simp
  rw [List.getElem?_eq_none (by rw [hlen])]

/-- C36. `EarleyChart::insert` at an index at or above the number of cells: the
chart is resized to `index` cells, not to `index + 1`, so the access
`chart[index]` that follows is outside the vector; the embedding answers every
such call with the fault of an unchecked access, there is no cell at `index`
afterwards and `contains(index, item)` cannot be asked.  Shown for every chart
and every index `length + d`, and for the empty chart at the indices 0 and 3. -/
theorem C36_insert_outside_chart :
    (∀ (c : EarleyChart) (d : Nat) (item : EarleyItem),
      c.insert (c.chart.length + d) item = .error Fault.undefined) ∧
    EarleyChart.new.insert 0 ⟨0, 0, 0, ⟨[[0], [1]], 1⟩⟩ = .error Fault.undefined ∧
    EarleyChart.new.insert 3 ⟨0, 0, 0, ⟨[[0], [1]], 1⟩⟩ = .error Fault.undefined ∧
    (resizeCells EarleyChart.new.chart 3)[3]? = none ∧
    (⟨[[], []], ["a", "$"], EarleyItem.empty⟩ : EarleyChart).insert 2 ⟨1, 0, 1, ⟨[[0], [1]], 1⟩⟩
      = .error Fault.undefined :=
  ⟨EarleyChart.insert_outside, rfl, rfl, rfl, rfl⟩

/-! ## C38: the working sets are empty when a loop ends -/

theorem EarleyParser.fixpoint_reset (p0 : EarleyParser) (w : List ES)
    (h0 : p0.to_process = [] ∧ p0.predict_buffer = [] ∧ p0.complete_buffer = [])
    (k fuel : Nat) (p q : EarleyParser)
    (hr : EarleyParser.Reaches p0 w ⟨k, p, false, false, p.to_process, true⟩)
    (h : EarleyParser.fixpoint fuel k p = .ok q) :
    q.to_process = [] ∧ q.predict_buffer = [] ∧ q.complete_buffer = [] := by
  obtain ⟨p1, np, nc, r1, hf, hm⟩ := EarleyParser.fixpoint_reaches p0 w k fuel p q hr h
  have hi := EarleyParser.Reaches_inv p0 w h0 _ r1
  have he := (ParsePoint.Inv_merge w.length k p1 q np nc hi hm).2 hf
  obtain ⟨_, _, e⟩ := EarleyParser.merge_frame p1 k q hm
  refine ⟨he, ?_, ?_⟩
  · rw [e]
  · rw [e]

/-- C38. Working-state reset: on a recognizer whose working sets are empty (a
new recognizer, or one whose earlier calls of `parse` have returned), for every
grammar, tags, tag-to-words map and sentence: when the `do ... while` loop of a
cell ends, `to_process`, the predict buffer and the complete buffer are empty;
and they are empty when `parse` returns, so the next call starts from empty
working sets again. -/
theorem C38_working_state_reset (p0 : EarleyParser) (w : List ES)
    (h0 : p0.to_process = [] ∧ p0.predict_buffer = [] ∧ p0.complete_buffer = []) :
    (∀ (k fuel : Nat) (p q : EarleyParser),
      EarleyParser.Reaches p0 w ⟨k, p, false, false, p.to_process, true⟩ →
      EarleyParser.fixpoint fuel k p = .ok q →
      q.to_process = [] ∧ q.predict_buffer = [] ∧ q.complete_buffer = []) ∧
    (∀ (fuel : Nat) (b : Bool) (q : EarleyParser), p0.parse fuel w = .ok (b, q) →
      q.to_process = [] ∧ q.predict_buffer = [] ∧ q.complete_buffer = []) :=
  ⟨fun k fuel p q hr h => EarleyParser.fixpoint_reset p0 w h0 k fuel p q hr h,
    fun fuel b q h => (EarleyParser.parse_inv p0 w h0 fuel b q h).2.2⟩

theorem C38_working_state_reset_witness :
    ∃ q, (EarleyParser.new
        (Grammar.mk false " " ⟨7, ["$", "S", "NP", "VP", "Det", "N", "V"]⟩ [] [] "-->" []
          ⟨[[0], [1]], 1⟩
          [([1], [⟨[[1], [2, 3]], 1⟩]), ([2], [⟨[[2], [4, 5]], 1⟩]), ([3], [⟨[[3], [6, 2]], 1⟩])])
        [4, 5, 6] [(4, ["the"]), (5, ["dog", "cat"]), (6, ["sees"])]).parse 20
          ["the", "dog", "sees", "the", "cat"] = .ok (true, q) ∧
      q.to_process = [] ∧ q.predict_buffer = [] ∧ q.complete_buffer = [] := by
  refine ⟨_, rfl, ?_⟩
  exact (C38_working_state_reset
    (EarleyParser.new
      (Grammar.mk false " " ⟨7, ["$", "S", "NP", "VP", "Det", "N", "V"]⟩ [] [] "-->" []
        ⟨[[0], [1]], 1⟩
        [([1], [⟨[[1], [2, 3]], 1⟩]), ([2], [⟨[[2], [4, 5]], 1⟩]), ([3], [⟨[[3], [6, 2]], 1⟩])])
      [4, 5, 6] [(4, ["the"]), (5, ["dog", "cat"]), (6, ["sees"])])
    ["the", "dog", "sees", "the", "cat"] ⟨rfl, rfl, rfl⟩).2 20 true _ rfl

/-! ## C39: complete items span at least one token -/

theorem EarleyParser.Reaches_complete_span (p0 : EarleyParser) (w : List ES)
    (hg : p0.grammar.WF)
    (h0 : p0.to_process = [] ∧ p0.predict_buffer = [] ∧ p0.complete_buffer = [])
    (pt : ParsePoint) (h : EarleyParser.Reaches p0 w pt) :
    (∀ (j : Nat) (cell : List EarleyItem), pt.parser.chart.chart[j]? = some cell →
      ∀ it ∈ cell, it.complete = true → it.from_ < it.to_ ∧ it.to_ = j) ∧
    (∀ it ∈ pt.parser.to_process, it.complete = true →
      it.from_ < pt.index ∧ it.to_ = pt.index ∧
        ClosedCell p0 w pt.parser.chart.chart it.from_) := by
  obtain ⟨_, i2, i3, _⟩ := EarleyParser.Reaches_inv p0 w h0 _ h
  obtain ⟨_, _, s3, s4, _⟩ := EarleyParser.Reaches_sound p0 w hg h0 _ h
  obtain ⟨_, t2⟩ := EarleyParser.Reaches_tracked p0 w hg h0 _ h
  constructor
  · intro j cell hc it hit hcomp
    obtain ⟨ht, hb⟩ := i2 j cell hc it hit
    exact ⟨(s3 j cell hc it hit).1.from_lt hb.1 hcomp, ht⟩
  · intro it hit hcomp
    obtain ⟨ht, hb⟩ := i3 it (Or.inl hit)
    have hlt := (s4 it hit).1.from_lt hb.1 hcomp
    rw [ht] at hlt
    exact ⟨hlt, ht, t2 _ hlt⟩

/-- C39. Complete items span at least one token: for every well-formed grammar
(either build), tags, tag-to-words map and sentence, at every point of the run
of `parse` on a new recognizer every complete item of a cell `j` has
`from < to = j`; and every complete item of `to_process` during the sweep of
cell `k` has `from < k = to`, so the cell `item.from` that Complete reads is an
earlier cell, and that cell is closed under the deduction steps. -/
theorem C39_complete_items_span (g : Grammar) (tags : List Int)
    (pwm : List (Int × List ES)) (w : List ES) (hg : g.WF) (pt : ParsePoint)
    (h : EarleyParser.Reaches (EarleyParser.new g tags pwm) w pt) :
    (∀ (j : Nat) (cell : List EarleyItem), pt.parser.chart.chart[j]? = some cell →
      ∀ it ∈ cell, it.complete = true → it.from_ < it.to_ ∧ it.to_ = j) ∧
    (∀ it ∈ pt.parser.to_process, it.complete = true →
      it.from_ < pt.index ∧ it.to_ = pt.index ∧
        ClosedCell (EarleyParser.new g tags pwm) w pt.parser.chart.chart it.from_) :=
  EarleyParser.Reaches_complete_span (EarleyParser.new g tags pwm) w hg ⟨rfl, rfl, rfl⟩ pt h

/-! ## C37: an empty tag set -/

theorem Ded.to_zero (g : Grammar) (pwm : List (Int × List ES)) (w : List ES)
    (idf : ES → Option Int) (it : EarleyItem) (h : Ded g [] pwm w idf it) : it.to_ = 0 := by
  induction h with
  | start => rfl
  | predict it r _ hc htag hr hfil ih => exact ih
  | scan it words word wid _ hc htag hmf hwk hmem hid ih => simp at htag
  | complete it it2 _ _ hc hto hc2 hlhs ih1 ih2 => exact ih1

theorem EarleyParser.parse_no_tags (g : Grammar) (pwm : List (Int × List ES)) (w : List ES)
    (hg : g.WF) :
    (∀ fuel, (itemUniverse g w.length).length < fuel →
      ∃ q, (EarleyParser.new g [] pwm).parse fuel w = .ok (false, q)) ∧
    ∀ fuel b q, (EarleyParser.new g [] pwm).parse fuel w = .ok (b, q) →
      b = false ∧ ∀ (k : Nat) (cell : List EarleyItem), 1 ≤ k →
        q.chart.chart[k]? = some cell → cell = [] := by
  have hsecond : ∀ fuel b q, (EarleyParser.new g [] pwm).parse fuel w = .ok (b, q) →
      b = false ∧ ∀ (k : Nat) (cell : List EarleyItem), 1 ≤ k →
        q.chart.chart[k]? = some cell → cell = [] := by
    intro fuel b q h
    obtain ⟨_, c2, _, c4⟩ := EarleyParser.parse_chart (EarleyParser.new g [] pwm) w hg
      ⟨rfl, rfl, rfl⟩ fuel b q h
    constructor
    · cases b with
      | false => rfl
      | true =>
        exfalso
        have hd := c4.1 rfl
        have hz := Ded.to_zero _ _ _ _ _ hd
        obtain ⟨hsh, hle⟩ := Ded.shaped _ hg _ _ _ _ _ hd
        have := hsh.from_lt hle (by simp [EarleyItem.complete])
        simp only at hz this
        omega
    · intro k cell hk hc
      rw [List.eq_nil_iff_forall_not_mem]
      intro it hit
      obtain ⟨ht, hd⟩ := c2 k cell hc it hit
      have := Ded.to_zero _ _ _ _ _ hd
      omega
  refine ⟨?_, hsecond⟩
  intro fuel hf
  rcases EarleyParser.parse_ends (EarleyParser.new g [] pwm) w hg ⟨rfl, rfl, rfl⟩ fuel hf
    with ⟨⟨b, q, h⟩, _⟩ | ⟨_, it, _, _, _, htag, _⟩
  · have hb := (hsecond fuel b q h).1
    subst hb
    exact ⟨q, h⟩
  · simp [EarleyParser.new] at htag

/-- C37. With an empty tag set nothing is scanned: for every well-formed
grammar (either build), every tag-to-words map and every sentence, empty or
not, `parse` on a new recognizer with the empty tag set returns false with
every fuel above the number of items of the universe; and whenever it returns,
the answer is false and every cell `k >= 1` is empty. -/
theorem C37_empty_tag_set (g : Grammar) (pwm : List (Int × List ES)) (w : List ES)
    (hg : g.WF) :
    (∀ fuel, (itemUniverse g w.length).length < fuel →
      ∃ q, (EarleyParser.new g [] pwm).parse fuel w = .ok (false, q)) ∧
    ∀ fuel b q, (EarleyParser.new g [] pwm).parse fuel w = .ok (b, q) →
      b = false ∧ ∀ (k : Nat) (cell : List EarleyItem), 1 ≤ k →
        q.chart.chart[k]? = some cell → cell = [] :=
  EarleyParser.parse_no_tags g pwm w hg

theorem C37_empty_tag_set_witness :
    ∃ q, (Grammar.mk false " " ⟨7, ["$", "S", "NP", "VP", "Det", "N", "V"]⟩ [] [] "-->" []
        ⟨[[0], [1]], 1⟩
        [([1], [⟨[[1], [2, 3]], 1⟩]), ([2], [⟨[[2], [4, 5]], 1⟩]),
          ([3], [⟨[[3], [6, 2]], 1⟩])]).WF ∧
      (EarleyParser.new
        (Grammar.mk false " " ⟨7, ["$", "S", "NP", "VP", "Det", "N", "V"]⟩ [] [] "-->" []
          ⟨[[0], [1]], 1⟩
          [([1], [⟨[[1], [2, 3]], 1⟩]), ([2], [⟨[[2], [4, 5]], 1⟩]), ([3], [⟨[[3], [6, 2]], 1⟩])])
        [] [(4, ["the"]), (5, ["dog", "cat"]), (6, ["sees"])]).parse 20
          ["the", "dog"] = .ok (false, q) ∧
      ∀ (k : Nat) (cell : List EarleyItem), 1 ≤ k → q.chart.chart[k]? = some cell →
        cell = [] := by
  have hwf := Grammar.construct_WF false " " ["S --> NP VP", "NP --> Det N", "VP --> V NP"]
    "$" "S" "-->" _ rfl
  refine ⟨_, hwf, rfl, ?_⟩
  exact ((C37_empty_tag_set _ [(4, ["the"]), (5, ["dog", "cat"]), (6, ["sees"])]
    ["the", "dog"] hwf).2 20 false _ rfl).2

/-! ## C31: closure under Complete -/

theorem C39_complete_items_span_witness :
    ∃ q, (EarleyParser.new
        (Grammar.mk false " " ⟨7, ["$", "S", "NP", "VP", "Det", "N", "V"]⟩ [] [] "-->" []
          ⟨[[0], [1]], 1⟩
          [([1], [⟨[[1], [2, 3]], 1⟩]), ([2], [⟨[[2], [4, 5]], 1⟩]), ([3], [⟨[[3], [6, 2]], 1⟩])])
        [4, 5, 6] [(4, ["the"]), (5, ["dog", "cat"]), (6, ["sees"])]).parse 20
          ["the", "dog", "sees", "the", "cat"] = .ok (true, q) ∧
      (Grammar.mk false " " ⟨7, ["$", "S", "NP", "VP", "Det", "N", "V"]⟩ [] [] "-->" []
        ⟨[[0], [1]], 1⟩
        [([1], [⟨[[1], [2, 3]], 1⟩]), ([2], [⟨[[2], [4, 5]], 1⟩]),
          ([3], [⟨[[3], [6, 2]], 1⟩])]).WF ∧
      ∀ (j : Nat) (cell : List EarleyItem), q.chart.chart[j]? = some cell →
        ∀ it ∈ cell, it.complete = true → it.from_ < it.to_ ∧ it.to_ = j := by
  have hwf := Grammar.construct_WF false " " ["S --> NP VP", "NP --> Det N", "VP --> V NP"]
    "$" "S" "-->" _ rfl
  obtain ⟨q, hq⟩ : ∃ q, (EarleyParser.new
        (Grammar.mk false " " ⟨7, ["$", "S", "NP", "VP", "Det", "N", "V"]⟩ [] [] "-->" []
          ⟨[[0], [1]], 1⟩
          [([1], [⟨[[1], [2, 3]], 1⟩]), ([2], [⟨[[2], [4, 5]], 1⟩]), ([3], [⟨[[3], [6, 2]], 1⟩])])
        [4, 5, 6] [(4, ["the"]), (5, ["dog", "cat"]), (6, ["sees"])]).parse 20
          ["the", "dog", "sees", "the", "cat"] = .ok (true, q) := ⟨_, rfl⟩
  obtain ⟨k, hr⟩ := EarleyParser.parse_reaches _ _ 20 true q hq
  exact ⟨q, hq, hwf, (C39_complete_items_span _ [4, 5, 6]
    [(4, ["the"]), (5, ["dog", "cat"]), (6, ["sees"])]
    ["the", "dog", "sees", "the", "cat"] hwf _ hr).1⟩

/-! ## C34: rules of a tag in the tag-filtered build -/

theorem Ded.tag_lhs (g : Grammar) (hg : g.WF) (hso : g.soverload = false) (tags : List Int)
    (pwm : List (Int × List ES)) (w : List ES) (idf : ES → Option Int)
    (hs : ∀ T ∈ tags, g.start.get_lhs ≠ [T]) (it : EarleyItem)
    (h : Ded g tags pwm w idf it) (T : Int) (hT : T ∈ tags) (hl : it.rule.get_lhs = [T]) :
    it.dot = 1 ∧ it.to_ = it.from_ + 1 ∧ ∃ words word wid, mapFind pwm T = some words ∧
      w[it.from_]? = some word ∧ word ∈ words ∧ idf word = some wid ∧
      it.rule = ⟨[[T], [wid]], 1⟩ := by
  induction h with
  | start => exact absurd hl (hs T hT)
  | predict it r _ hc htag hr hfil ih =>
    exfalso
    obtain ⟨_, a, rhs, hsd, _, hla⟩ := (hg.2.1 [it.next]).2 r hr
    have hra : r.get_lhs = [a] := by simp [Rule.get_lhs, hsd]
    simp only at hl
    rw [hra] at hl
    have h1 : it.next = T := by
      have h2 := hla.trans hl
      simpa using h2
    rcases htag with h | h
    · rw [hso] at h
      cases h
    · exact h (h1 ▸ hT)
  | scan it words word wid _ hc htag hmf hwk hmem hid ih =>
    have h1 : it.next = T := by simpa [Rule.get_lhs] using hl
    subst h1
    exact ⟨rfl, rfl, words, word, wid, hmf, hwk, hmem, hid, rfl⟩
  | complete it it2 _ _ hc hto hc2 hlhs ih1 ih2 =>
    exfalso
    obtain ⟨d1, d2, words, word, wid, _, _, _, _, hr⟩ := ih2 hl
    have hcomp : it2.complete = true := by
      simp [EarleyItem.complete, hr, d1, Rule.get_rhs]
    rw [hcomp] at hc2
    cases hc2

theorem EarleyParser.Reaches_tag_lhs (g : Grammar) (tags : List Int)
    (pwm : List (Int × List ES)) (w : List ES) (hg : g.WF) (hso : g.soverload = false)
    (hs : ∀ T ∈ tags, g.start.get_lhs ≠ [T]) (pt : ParsePoint)
    (h : EarleyParser.Reaches (EarleyParser.new g tags pwm) w pt) (it : EarleyItem)
    (hin : (∃ (j : Nat) (cell : List EarleyItem),
        pt.parser.chart.chart[j]? = some cell ∧ it ∈ cell) ∨
      it ∈ pt.parser.to_process ∨ it ∈ pt.parser.predict_buffer ∨
      it ∈ pt.parser.complete_buffer)
    (T : Int) (hT : T ∈ tags) (hl : it.rule.get_lhs = [T]) :
    it.dot = 1 ∧ it.to_ = it.from_ + 1 ∧ ∃ words word wid, mapFind pwm T = some words ∧
      w[it.from_]? = some word ∧ word ∈ words ∧
      (g.internAll w).id_of word = some wid ∧ it.rule = ⟨[[T], [wid]], 1⟩ := by
  obtain ⟨_, _, s3, s4, s5, _⟩ :=
    EarleyParser.Reaches_sound (EarleyParser.new g tags pwm) w hg ⟨rfl, rfl, rfl⟩ pt h
  have hd : Ded g tags pwm w (g.internAll w).id_of it := by
    rcases hin with ⟨j, cell, hc, hm⟩ | hm | hm | hm
    · exact (s3 j cell hc it hm).2
    · exact (s4 it hm).2
    · exact (s5 it (Or.inl hm)).2
    · exact (s5 it (Or.inr hm)).2
  exact Ded.tag_lhs g hg hso tags pwm w _ hs it hd T hT hl

theorem EarleyParser.processItem_predicts (p : EarleyParser) (np nc : Bool)
    (item : EarleyItem) (st : EarleyParser × Bool × Bool)
    (hso : p.grammar.soverload = false)
    (h : EarleyParser.processItem (p, np, nc) item = .ok st) :
    ∀ y ∈ st.1.predict_buffer, y ∈ p.predict_buffer ∨
      (item.complete = false ∧ item.next ∉ p.tags ∧ y.dot = 0 ∧
        y.rule ∈ p.grammar.rules_with_lhs [item.next]) := by
  obtain ⟨_, _, _, ⟨q4, _⟩, _⟩ := EarleyParser.processItem_post p np nc item st h
  intro y hy
  rcases q4 y hy with h1 | ⟨h1, h2, r, hr, _, he, _⟩
  · exact Or.inl h1
  · right
    rcases h2 with h2 | h2
    · rw [hso] at h2
      cases h2
    · subst he
      exact ⟨h1, h2, rfl, hr⟩

/-- C34. In the tag-filtered build nothing is predicted from a tag: let `g` be
a well-formed grammar without `SOVERLOAD` whose start rule does not have a tag
as left-hand side (`"$"` is not a tag).  Then at every point of a run of
`parse(w)` on a new recognizer, every item of the chart and of the working
sets whose rule has a tag `T` as left-hand side is a scanned item: its dot is
1, `to = from + 1`, and its rule is `T -> id(word)` for the token `word` at
`from`, a word of `pwm[T]`; in particular no such item has its dot at 0.  The
same holds for the chart of a returning `parse`, where the right-hand side has
one symbol.  One iteration of the `for` loop adds to the predict buffer only
items `(r, 0, ., .)` for rules `r` of the next symbol of an incomplete item,
and that symbol is not a tag. -/
theorem C34_no_predict_from_tag (g : Grammar) (tags : List Int)
    (pwm : List (Int × List ES)) (w : List ES) (hg : g.WF) (hso : g.soverload = false)
    (hs : ∀ T ∈ tags, g.start.get_lhs ≠ [T]) :
    (∀ pt, EarleyParser.Reaches (EarleyParser.new g tags pwm) w pt → ∀ it,
      ((∃ (j : Nat) (cell : List EarleyItem),
          pt.parser.chart.chart[j]? = some cell ∧ it ∈ cell) ∨
        it ∈ pt.parser.to_process ∨ it ∈ pt.parser.predict_buffer ∨
        it ∈ pt.parser.complete_buffer) →
      ∀ T ∈ tags, it.rule.get_lhs = [T] →
        it.dot = 1 ∧ it.to_ = it.from_ + 1 ∧ ∃ words word wid, mapFind pwm T = some words ∧
          w[it.from_]? = some word ∧ word ∈ words ∧
          (g.internAll w).id_of word = some wid ∧ it.rule = ⟨[[T], [wid]], 1⟩) ∧
    (∀ fuel b q, (EarleyParser.new g tags pwm).parse fuel w = .ok (b, q) →
      ∀ (j : Nat) (cell : List EarleyItem), q.chart.chart[j]? = some cell → ∀ it ∈ cell,
        ∀ T ∈ tags, it.rule.get_lhs = [T] →
          it.dot = 1 ∧ it.rule.get_rhs.length = 1 ∧ it.to_ = it.from_ + 1) ∧
    (∀ (p : EarleyParser) (np nc : Bool) (item : EarleyItem)
      (st : EarleyParser × Bool × Bool), p.grammar.soverload = false →
      EarleyParser.processItem (p, np, nc) item = .ok st →
      ∀ y ∈ st.1.predict_buffer, y ∈ p.predict_buffer ∨
        (item.complete = false ∧ item.next ∉ p.tags ∧ y.dot = 0 ∧
          y.rule ∈ p.grammar.rules_with_lhs [item.next])) := by
  refine ⟨?_, ?_, ?_⟩
  · intro pt h it hin T hT hl
    exact EarleyParser.Reaches_tag_lhs g tags pwm w hg hso hs pt h it hin T hT hl
  · intro fuel b q h j cell hc it hit T hT hl
    obtain ⟨k, hr⟩ := EarleyParser.parse_reaches _ _ fuel b q h
    obtain ⟨d1, d2, _, _, wid, _, _, _, _, hrule⟩ :=
      EarleyParser.Reaches_tag_lhs g tags pwm w hg hso hs _ hr it
        (Or.inl ⟨j, cell, hc, hit⟩) T hT hl
    refine ⟨d1, ?_, d2⟩
    rw [hrule]
    rfl
  · intro p np nc item st hso2 h
    exact EarleyParser.processItem_predicts p np nc item st hso2 h

theorem C34_no_predict_from_tag_witness :
    ∃ q, (EarleyParser.new
        (Grammar.mk false " " ⟨7, ["$", "S", "NP", "VP", "Det", "N", "V"]⟩ [] [] "-->" []
          ⟨[[0], [1]], 1⟩
          [([1], [⟨[[1], [2, 3]], 1⟩]), ([2], [⟨[[2], [4, 5]], 1⟩]), ([3], [⟨[[3], [6, 2]], 1⟩])])
        [4, 5, 6] [(4, ["the"]), (5, ["dog", "cat"]), (6, ["sees"])]).parse 20
          ["the", "dog", "sees", "the", "cat"] = .ok (true, q) ∧
      (Grammar.mk false " " ⟨7, ["$", "S", "NP", "VP", "Det", "N", "V"]⟩ [] [] "-->" []
        ⟨[[0], [1]], 1⟩
        [([1], [⟨[[1], [2, 3]], 1⟩]), ([2], [⟨[[2], [4, 5]], 1⟩]),
          ([3], [⟨[[3], [6, 2]], 1⟩])]).WF ∧
      ∀ (j : Nat) (cell : List EarleyItem), q.chart.chart[j]? = some cell → ∀ it ∈ cell,
        ∀ T ∈ ([4, 5, 6] : List Int), it.rule.get_lhs = [T] →
          it.dot = 1 ∧ it.rule.get_rhs.length = 1 ∧ it.to_ = it.from_ + 1 := by
  have hwf := Grammar.construct_WF false " " ["S --> NP VP", "NP --> Det N", "VP --> V NP"]
    "$" "S" "-->" _ rfl
  obtain ⟨q, hq⟩ : ∃ q, (EarleyParser.new
        (Grammar.mk false " " ⟨7, ["$", "S", "NP", "VP", "Det", "N", "V"]⟩ [] [] "-->" []
          ⟨[[0], [1]], 1⟩
          [([1], [⟨[[1], [2, 3]], 1⟩]), ([2], [⟨[[2], [4, 5]], 1⟩]), ([3], [⟨[[3], [6, 2]], 1⟩])])
        [4, 5, 6] [(4, ["the"]), (5, ["dog", "cat"]), (6, ["sees"])]).parse 20
          ["the", "dog", "sees", "the", "cat"] = .ok (true, q) := ⟨_, rfl⟩
  exact ⟨q, hq, hwf, (C34_no_predict_from_tag _ [4, 5, 6]
    [(4, ["the"]), (5, ["dog", "cat"]), (6, ["sees"])]
    ["the", "dog", "sees", "the", "cat"] hwf rfl (by decide)).2.1 20 true q hq⟩

/-- C34, counterexample: the grammar with the lines `S --> Det` and
`Det --> the` has the rule `Det --> the` in its rule index, `"$"` is not a tag,
and with the tag `Det` and the word `the`, `parse` returns true on the sentence
`the`; the item `(Det -> the ., 0, 1)` of cell 1, which Scan built, has that
rule of the grammar as its rule.  So a rule of the grammar whose left-hand
side is a tag does appear in a cell. -/
theorem C34_counterexample :
    ∃ g q, Grammar.construct false " " ["S --> Det", "Det --> the"] "$" "S" "-->" = .ok g ∧
      g.WF ∧ g.soverload = false ∧ g.start.get_lhs = [0] ∧ (0 : Int) ∉ ([2] : List Int) ∧
      (⟨[[2], [3]], 1⟩ : Rule) ∈ g.rules_with_lhs [2] ∧
      (⟨[[2], [3]], 1⟩ : Rule).get_lhs = [2] ∧
      (EarleyParser.new g [2] [(2, ["the"])]).parse 20 ["the"] = .ok (true, q) ∧
      (∀ fuel, (EarleyParser.new g [2] [(2, ["the"])]).parse (20 + fuel) ["the"]
        = .ok (true, q)) ∧
      ∃ cell, q.chart.chart[1]? = some cell ∧
        (⟨1, 0, 1, ⟨[[2], [3]], 1⟩⟩ : EarleyItem) ∈ cell := by
  refine ⟨Grammar.mk false " " ⟨4, ["$", "S", "Det", "the"]⟩ [] [] "-->" [] ⟨[[0], [1]], 1⟩
    [([1], [⟨[[1], [2]], 1⟩]), ([2], [⟨[[2], [3]], 1⟩])], _, rfl,
    Grammar.construct_WF false " " ["S --> Det", "Det --> the"] "$" "S" "-->" _ rfl,
    rfl, rfl, by decide, by decide, rfl, rfl, ?_, _, rfl, by decide⟩
  intro fuel
  exact EarleyParser.parse_mono_le 20 (20 + fuel) (Nat.le_add_right _ _) _ _ _ rfl (by simp)

/-! ## C35: the end marker and the bounds of the chart -/

theorem EarleyParser.parse_in_range (p0 : EarleyParser) (w : List ES) (hg : p0.grammar.WF)
    (h0 : p0.to_process = [] ∧ p0.predict_buffer = [] ∧ p0.complete_buffer = []) :
    (¬ SentinelWord p0.tags p0.pwm →
      (∀ fuel, (itemUniverse p0.grammar w.length).length < fuel →
        ∃ b q, p0.parse fuel w = .ok (b, q)) ∧
      (∀ fuel, (∃ b q, p0.parse fuel w = .ok (b, q)) ∨ p0.parse fuel w = .error Fault.fuel) ∧
      (∀ (k : Nat) (items : List EarleyItem) (p : EarleyParser) (np nc : Bool),
        EarleyParser.Reaches p0 w ⟨k, p, np, nc, items, true⟩ →
        ∃ st, EarleyParser.processAll items (p, np, nc) = .ok st) ∧
      (∀ (k : Nat) (p : EarleyParser) (np nc : Bool),
        EarleyParser.Reaches p0 w ⟨k, p, np, nc, [], true⟩ → ∃ p2, p.merge k = .ok p2)) ∧
    (∀ pt, EarleyParser.Reaches p0 w pt →
      pt.parser.chart.chart.length = w.length + 1 ∧ pt.parser.chart.tokens = w ++ ["$"] ∧
      (pt.running = true → pt.index ≤ w.length) ∧
      ∀ it ∈ pt.parser.to_process, it.to_ = pt.index ∧ it.from_ ≤ it.to_) ∧
    (∀ (p : EarleyParser) (np nc : Bool) (item : EarleyItem) (rest : List EarleyItem)
      (st : EarleyParser × Bool × Bool),
      EarleyParser.Reaches p0 w ⟨w.length, p, np, nc, item :: rest, true⟩ →
      EarleyParser.processItem (p, np, nc) item = .ok st →
      st.1.chart.chart = p.chart.chart) ∧
    (∀ fuel, (itemUniverse p0.grammar w.length).length < fuel →
      ((∃ b q, p0.parse fuel w = .ok (b, q)) ∧ ¬ SentinelItem p0 w) ∨
      (p0.parse fuel w = .error (Fault.index_exceeds (w.length + 1)) ∧ SentinelItem p0 w)) := by
  refine ⟨?_, ?_, ?_, ?_⟩
  · intro hns
    refine ⟨?_, ?_, ?_, ?_⟩
    · intro fuel hf
      exact EarleyParser.parse_total p0 w hg h0 hns fuel hf
    · intro fuel
      obtain ⟨b, q, h⟩ := EarleyParser.parse_total p0 w hg h0 hns _ (Nat.lt_succ_self _)
      rcases EarleyParser.parse_fuel_cases _ p0 w _ h (by simp) fuel with h2 | h2
      · exact Or.inl ⟨b, q, h2⟩
      · exact Or.inr h2
    · intro k items p np nc hr
      obtain ⟨st, hst, _⟩ := EarleyParser.processAll_total p0 w hg h0 hns k items p np nc hr
      exact ⟨st, hst⟩
    · intro k p np nc hr
      obtain ⟨p2, hp2, _⟩ := EarleyParser.merge_total p0 w hg h0 k p np nc hr
      exact ⟨p2, hp2⟩
  · intro pt hr
    obtain ⟨i1, i2, i3, i4, i5, i6, i7, i8⟩ := EarleyParser.Reaches_inv p0 w h0 _ hr
    obtain ⟨s1, s2, _⟩ := EarleyParser.Reaches_sound p0 w hg h0 _ hr
    refine ⟨i1, s2, i7, ?_⟩
    intro it hit
    obtain ⟨a, b, _⟩ := i3 it (Or.inl hit)
    exact ⟨a, b⟩
  · intro p np nc item rest st hr h
    obtain ⟨i1, i2, i3, i4, i5, i6, i7, i8⟩ := EarleyParser.Reaches_inv p0 w h0 _ hr
    simp only at i1 i3 i6
    obtain ⟨⟨_, _, _, _, _, f6, f7⟩, _⟩ := EarleyParser.processItem_post p np nc item st h
    have hto : item.to_ = w.length := (i3 item (Or.inl (i6 item (List.mem_cons_self _ _)))).1
    apply List.ext_getElem?
    intro j
    by_cases hj : j = item.to_ + 1
    · rw [List.getElem?_eq_none (by omega), List.getElem?_eq_none (by omega)]
    · exact f7 j hj
  · intro fuel hf
    exact EarleyParser.parse_ends p0 w hg h0 fuel hf

/-- The bounds of the chart during a run.  For every well-formed grammar (either
build), tags, tag-to-words map and sentence `w` of `n` tokens, on a new
recognizer: if no tag has the word `"$"`, then `parse(w)` returns with every
fuel above the
number of items of the universe, with any fuel it returns or runs out of fuel
(no index fault), and at every point of the run the rest of the `for` loop and
the call of `merge` succeed.  At every point of a run the chart has `n + 1`
cells, the tokens are `w` followed by `"$"`, the cell being swept is at most
`n`, and the items of `to_process` end at that cell and begin at or before it.
An iteration of the `for` loop during the sweep of the last cell that succeeds
leaves the chart as it was.  In general `parse` with enough fuel either returns,
and then no derived item of the last cell scans the end marker, or it ends in
the index fault for cell `n + 1`, and then such an item exists. -/
theorem parse_in_range_new (g : Grammar) (tags : List Int)
    (pwm : List (Int × List ES)) (w : List ES) (hg : g.WF) :
    (¬ SentinelWord tags pwm →
      (∀ fuel, (itemUniverse g w.length).length < fuel →
        ∃ b q, (EarleyParser.new g tags pwm).parse fuel w = .ok (b, q)) ∧
      (∀ fuel, (∃ b q, (EarleyParser.new g tags pwm).parse fuel w = .ok (b, q)) ∨
        (EarleyParser.new g tags pwm).parse fuel w = .error Fault.fuel) ∧
      (∀ (k : Nat) (items : List EarleyItem) (p : EarleyParser) (np nc : Bool),
        EarleyParser.Reaches (EarleyParser.new g tags pwm) w ⟨k, p, np, nc, items, true⟩ →
        ∃ st, EarleyParser.processAll items (p, np, nc) = .ok st) ∧
      (∀ (k : Nat) (p : EarleyParser) (np nc : Bool),
        EarleyParser.Reaches (EarleyParser.new g tags pwm) w ⟨k, p, np, nc, [], true⟩ →
        ∃ p2, p.merge k = .ok p2)) ∧
    (∀ pt, EarleyParser.Reaches (EarleyParser.new g tags pwm) w pt →
      pt.parser.chart.chart.length = w.length + 1 ∧ pt.parser.chart.tokens = w ++ ["$"] ∧
      (pt.running = true → pt.index ≤ w.length) ∧
      ∀ it ∈ pt.parser.to_process, it.to_ = pt.index ∧ it.from_ ≤ it.to_) ∧
    (∀ (p : EarleyParser) (np nc : Bool) (item : EarleyItem) (rest : List EarleyItem)
      (st : EarleyParser × Bool × Bool),
      EarleyParser.Reaches (EarleyParser.new g tags pwm) w
        ⟨w.length, p, np, nc, item :: rest, true⟩ →
      EarleyParser.processItem (p, np, nc) item = .ok st →
      st.1.chart.chart = p.chart.chart) ∧
    (∀ fuel, (itemUniverse g w.length).length < fuel →
      ((∃ b q, (EarleyParser.new g tags pwm).parse fuel w = .ok (b, q)) ∧
        ¬ SentinelItem (EarleyParser.new g tags pwm) w) ∨
      ((EarleyParser.new g tags pwm).parse fuel w
          = .error (Fault.index_exceeds (w.length + 1)) ∧
        SentinelItem (EarleyParser.new g tags pwm) w)) :=
  EarleyParser.parse_in_range (EarleyParser.new g tags pwm) w hg ⟨rfl, rfl, rfl⟩

set_option maxRecDepth 100000 in
theorem parse_in_range_new_example :
    (Grammar.mk false " " ⟨3, ["$", "S", "T"]⟩ [] [] "-->" [] ⟨[[0], [1]], 1⟩
        [([1], [⟨[[1], [2, 2]], 1⟩])]).WF ∧
      ¬ SentinelWord [2] [(2, ["a"])] ∧
      ∃ b q, (EarleyParser.new
        (Grammar.mk false " " ⟨3, ["$", "S", "T"]⟩ [] [] "-->" [] ⟨[[0], [1]], 1⟩
          [([1], [⟨[[1], [2, 2]], 1⟩])]) [2] [(2, ["a"])]).parse 100 ["a"] = .ok (b, q) := by
  have hwf := Grammar.construct_WF false " " ["S --> T T"] "$" "S" "-->" _ rfl
  have hns : ¬ SentinelWord [2] [(2, ["a"])] := by
    rintro ⟨T, hT, words, hm, hw⟩
    simp only [List.mem_singleton] at hT
    subst hT
    simp [mapFind] at hm
    subst hm
    revert hw
    decide
  exact ⟨hwf, hns, ((parse_in_range_new _ [2] [(2, ["a"])] ["a"] hwf).1 hns).1 100
    (by decide)⟩

/-- C35. The end marker is not reserved and recognition leaves the chart:
`initialise` appends the ordinary string `"$"` to the tokens, and a tag may have
that string among its words.  For the grammar `S --> T T` with the tag `T`
whose words are `a` and `"$"`, `parse` on the one-token sentence `a` does not
return: the item `(S -> T . T, 0, 1)` of the last cell scans the end marker at
token index 1, the insertion into cell 2 fails the index guard of the chart,
and the run ends in that fault with every fuel from 20 on. -/
theorem C35_end_marker_not_reserved :
    ∃ g, Grammar.construct false " " ["S --> T T"] "$" "S" "-->" = .ok g ∧ g.WF ∧
      SentinelWord [2] [(2, ["a", "$"])] ∧
      (EarleyParser.new g [2] [(2, ["a", "$"])]).parse 20 ["a"]
        = .error (Fault.index_exceeds 2) ∧
      (∀ fuel, (EarleyParser.new g [2] [(2, ["a", "$"])]).parse (20 + fuel) ["a"]
        = .error (Fault.index_exceeds 2)) ∧
      ∀ fuel b q, (EarleyParser.new g [2] [(2, ["a", "$"])]).parse fuel ["a"] ≠ .ok (b, q) := by
  have h20 : (EarleyParser.new (Grammar.mk false " " ⟨3, ["$", "S", "T"]⟩ [] [] "-->" []
      ⟨[[0], [1]], 1⟩ [([1], [⟨[[1], [2, 2]], 1⟩])]) [2]
      [(2, ["a", "$"])]).parse 20 ["a"] = .error (Fault.index_exceeds 2) := rfl
  refine ⟨Grammar.mk false " " ⟨3, ["$", "S", "T"]⟩ [] [] "-->" [] ⟨[[0], [1]], 1⟩
    [([1], [⟨[[1], [2, 2]], 1⟩])], rfl,
    Grammar.construct_WF false " " ["S --> T T"] "$" "S" "-->" _ rfl,
    ⟨2, by decide, ["a", "$"], rfl, by decide⟩, h20, ?_, ?_⟩
  · intro fuel
    exact EarleyParser.parse_mono_le 20 (20 + fuel) (Nat.le_add_right _ _) _ _ _ h20 (by simp)
  · intro fuel b q hq
    rcases EarleyParser.parse_fuel_cases 20 _ ["a"] _ h20 (by simp) fuel with h | h
    · rw [h] at hq
      cases hq
    · rw [h] at hq
      cases hq

/-! ## C33: the filter of Predict in the `SOVERLOAD` build -/

theorem Grammar.WF.inject_lexicon_wf {g : Grammar} (hg : g.WF) (lexicon : List Int) :
    (g.inject_lexicon lexicon).WF := hg

theorem EarleyParser.Reaches_predicted (p0 : EarleyParser) (w : List ES) (hg : p0.grammar.WF)
    (h0 : p0.to_process = [] ∧ p0.predict_buffer = [] ∧ p0.complete_buffer = [])
    (pt : ParsePoint) (h : EarleyParser.Reaches p0 w pt) :
    ∀ y ∈ pt.parser.predict_buffer, y.dot = 0 ∧ y.from_ = y.to_ ∧
      (p0.grammar.soverload && p0.grammar.is_word (y.rule.get_rhs.headD 0)) = false := by
  have hmerge : ∀ (k : Nat) (p p2 : EarleyParser), p.merge k = .ok p2 →
      p2.predict_buffer = [] := by
    intro k p p2 hm
    obtain ⟨cl, hc, e⟩ := EarleyParser.merge_frame p k p2 hm
    rw [e]
  induction h with
  | start c cell hc hs hcell =>
    intro y hy
    simp only [h0.2.1] at hy
    cases hy
  | item pt item rest st hreach hr ht hp ih =>
    obtain ⟨⟨⟨e1, _, _, e4, _⟩, _⟩, _⟩ := EarleyParser.Reaches_sound p0 w hg h0 pt hreach
    obtain ⟨_, _, _, ⟨q4, _⟩, _⟩ :=
      EarleyParser.processItem_post pt.parser pt.new_p pt.new_c item st hp
    intro y hy
    rcases q4 y hy with h1 | ⟨_, _, r, hr, hf, he, _⟩
    · exact ih y h1
    · subst he
      refine ⟨rfl, rfl, ?_⟩
      simp only [Grammar.is_word] at hf ⊢
      rw [e1, e4] at hf
      exact hf
  | again pt p2 _ hr ht _ hm ih =>
    intro y hy
    simp only [hmerge _ _ _ hm] at hy
    cases hy
  | next pt p2 cell _ hr ht hf hm hlt hcell ih =>
    intro y hy
    simp only [hmerge _ _ _ hm] at hy
    cases hy
  | done pt p2 _ hr ht hf hm _ ih =>
    intro y hy
    simp only [hmerge _ _ _ hm] at hy
    cases hy

theorem Ded.dot_zero (g : Grammar) (tags : List Int) (pwm : List (Int × List ES))
    (w : List ES) (idf : ES → Option Int) (it : EarleyItem) (h : Ded g tags pwm w idf it)
    (hd : it.dot = 0) :
    it = ⟨0, 0, 0, g.start⟩ ∨
      (it.from_ = it.to_ ∧
        (g.soverload && g.is_word (it.rule.get_rhs.headD 0)) = false ∧
        ∃ src, Ded g tags pwm w idf src ∧ src.complete = false ∧ src.to_ = it.to_ ∧
          (g.soverload = true ∨ src.next ∉ tags) ∧ it.rule ∈ g.rules_with_lhs [src.next]) := by
  cases h with
  | start => exact Or.inl rfl
  | predict src r hsrc hc htag hr hfil =>
    exact Or.inr ⟨rfl, hfil, src, hsrc, hc, rfl, htag, hr⟩
  | scan src words word wid _ hc htag hmf hwk hmem hid => cases hd
  | complete c it2 _ _ hc hto hc2 hlhs =>
    simp only at hd
    omega

theorem EarleyParser.processItem_predict_filter (p : EarleyParser) (np nc : Bool)
    (item : EarleyItem) (st : EarleyParser × Bool × Bool)
    (hso : p.grammar.soverload = true)
    (h : EarleyParser.processItem (p, np, nc) item = .ok st) :
    (∀ y ∈ st.1.predict_buffer, y ∈ p.predict_buffer ∨
      (item.complete = false ∧ ∃ r ∈ p.grammar.rules_with_lhs [item.next],
        p.grammar.is_word (r.get_rhs.headD 0) = false ∧
        y = ⟨0, item.to_, item.to_, r⟩ ∧ p.chart.contains item.to_ y = .ok false ∧
        itemsetContains p.to_process y = false)) ∧
    (∀ y ∈ p.predict_buffer, y ∈ st.1.predict_buffer) ∧
    (item.complete = false → ∀ r ∈ p.grammar.rules_with_lhs [item.next],
      p.grammar.is_word (r.get_rhs.headD 0) = false →
      p.chart.contains item.to_ ⟨0, item.to_, item.to_, r⟩ = .ok true ∨
      itemsetContains p.to_process ⟨0, item.to_, item.to_, r⟩ = true ∨
      itemsetContains st.1.predict_buffer ⟨0, item.to_, item.to_, r⟩ = true) := by
  obtain ⟨_, _, _, ⟨q4, q5⟩, _, q6, _⟩ := EarleyParser.processItem_post p np nc item st h
  refine ⟨?_, q5, ?_⟩
  · intro y hy
    rcases q4 y hy with h1 | ⟨h1, _, r, hr, hf, he, hc, ht⟩
    · exact Or.inl h1
    · rw [hso] at hf
      exact Or.inr ⟨h1, r, hr, by simpa using hf, he, hc, ht⟩
  · intro hc r hr hf
    exact q6 hc (Or.inl hso) r hr (by rw [hso, hf]; rfl)

/-- C33. The filter of Predict in the `SOVERLOAD` build.  One iteration of the
`for` loop on a parser whose grammar has `SOVERLOAD` set: the predict buffer
keeps its items; every item added to it is `(r, 0, item.to, item.to)` for an
incomplete `item` (whether or not its next symbol is a tag) and a rule `r` of
`rules_with_lhs([item.next()])` whose first right-hand symbol is not in the
lexicon, and was neither in cell `item.to` nor in `to_process`; and for an
incomplete `item` every such rule has its item in cell `item.to`, in
`to_process` or in the predict buffer afterwards.  At every point of a run of
`parse(w)` on a new recognizer for a well-formed grammar with `SOVERLOAD`,
every item of the predict buffer has dot 0, `from = to` and a rule whose first
right-hand symbol is not a word of the lexicon; and every item of the chart and
the working sets with dot 0 is the start item or has `from = to` and a rule of
the next symbol of a derived incomplete item whose first right-hand symbol is
not a word of the lexicon. -/
theorem C33_lexicon_predict_filter (g : Grammar) (tags : List Int)
    (pwm : List (Int × List ES)) (w : List ES) (hg : g.WF) (hso : g.soverload = true) :
    (∀ (p : EarleyParser) (np nc : Bool) (item : EarleyItem)
      (st : EarleyParser × Bool × Bool), p.grammar.soverload = true →
      EarleyParser.processItem (p, np, nc) item = .ok st →
      (∀ y ∈ st.1.predict_buffer, y ∈ p.predict_buffer ∨
        (item.complete = false ∧ ∃ r ∈ p.grammar.rules_with_lhs [item.next],
          p.grammar.is_word (r.get_rhs.headD 0) = false ∧
          y = ⟨0, item.to_, item.to_, r⟩ ∧ p.chart.contains item.to_ y = .ok false ∧
          itemsetContains p.to_process y = false)) ∧
      (∀ y ∈ p.predict_buffer, y ∈ st.1.predict_buffer) ∧
      (item.complete = false → ∀ r ∈ p.grammar.rules_with_lhs [item.next],
        p.grammar.is_word (r.get_rhs.headD 0) = false →
        p.chart.contains item.to_ ⟨0, item.to_, item.to_, r⟩ = .ok true ∨
        itemsetContains p.to_process ⟨0, item.to_, item.to_, r⟩ = true ∨
        itemsetContains st.1.predict_buffer ⟨0, item.to_, item.to_, r⟩ = true)) ∧
    (∀ pt, EarleyParser.Reaches (EarleyParser.new g tags pwm) w pt →
      (∀ y ∈ pt.parser.predict_buffer, y.dot = 0 ∧ y.from_ = y.to_ ∧
        g.is_word (y.rule.get_rhs.headD 0) = false) ∧
      (∀ it, ((∃ (j : Nat) (cell : List EarleyItem),
            pt.parser.chart.chart[j]? = some cell ∧ it ∈ cell) ∨
          it ∈ pt.parser.to_process ∨ it ∈ pt.parser.predict_buffer ∨
          it ∈ pt.parser.complete_buffer) → it.dot = 0 →
        it = ⟨0, 0, 0, g.start⟩ ∨
          (it.from_ = it.to_ ∧ g.is_word (it.rule.get_rhs.headD 0) = false ∧
            ∃ src, Ded g tags pwm w (g.internAll w).id_of src ∧ src.complete = false ∧
              src.to_ = it.to_ ∧ it.rule ∈ g.rules_with_lhs [src.next]))) := by
  refine ⟨?_, ?_⟩
  · intro p np nc item st hso2 h
    exact EarleyParser.processItem_predict_filter p np nc item st hso2 h
  · intro pt h
    constructor
    · intro y hy
      obtain ⟨a, b, c⟩ := EarleyParser.Reaches_predicted (EarleyParser.new g tags pwm) w hg
        ⟨rfl, rfl, rfl⟩ pt h y hy
      refine ⟨a, b, ?_⟩
      have hso2 : (EarleyParser.new g tags pwm).grammar.soverload = true := hso
      rw [hso2] at c
      simpa using c
    · intro it hin hd
      obtain ⟨_, _, s3, s4, s5, _⟩ :=
        EarleyParser.Reaches_sound (EarleyParser.new g tags pwm) w hg ⟨rfl, rfl, rfl⟩ pt h
      have hded : Ded g tags pwm w (g.internAll w).id_of it := by
        rcases hin with ⟨j, cell, hc, hm⟩ | hm | hm | hm
        · exact (s3 j cell hc it hm).2
        · exact (s4 it hm).2
        · exact (s5 it (Or.inl hm)).2
        · exact (s5 it (Or.inr hm)).2
      rcases Ded.dot_zero g tags pwm w _ it hded hd with h1 | ⟨h1, h2, src, h3, h4, h5, _, h6⟩
      · exact Or.inl h1
      · rw [hso] at h2
        exact Or.inr ⟨h1, by simpa using h2, src, h3, h4, h5, h6⟩

theorem C33_lexicon_predict_filter_witness :
    ∃ q, (EarleyParser.new
        (Grammar.mk true " " ⟨0, []⟩ [("$", 1), ("S", 2), ("Det", 3), ("the", 4)]
          [(1, "$"), (2, "S"), (3, "Det"), (4, "the")] "-->" [4] ⟨[[1], [2]], 1⟩
          [([2], [⟨[[2], [3]], 1⟩]), ([3], [⟨[[3], [4]], 1⟩])])
        [3] [(3, ["the"])]).parse 20 ["the"] = .ok (true, q) ∧
      (Grammar.mk true " " ⟨0, []⟩ [("$", 1), ("S", 2), ("Det", 3), ("the", 4)]
        [(1, "$"), (2, "S"), (3, "Det"), (4, "the")] "-->" [4] ⟨[[1], [2]], 1⟩
        [([2], [⟨[[2], [3]], 1⟩]), ([3], [⟨[[3], [4]], 1⟩])]).WF ∧
      ∀ it, (∃ (j : Nat) (cell : List EarleyItem),
          q.chart.chart[j]? = some cell ∧ it ∈ cell) → it.dot = 0 →
        it = ⟨0, 0, 0, ⟨[[1], [2]], 1⟩⟩ ∨
          (it.from_ = it.to_ ∧
            Grammar.is_word (Grammar.mk true " " ⟨0, []⟩
              [("$", 1), ("S", 2), ("Det", 3), ("the", 4)]
              [(1, "$"), (2, "S"), (3, "Det"), (4, "the")] "-->" [4] ⟨[[1], [2]], 1⟩
              [([2], [⟨[[2], [3]], 1⟩]), ([3], [⟨[[3], [4]], 1⟩])])
              (it.rule.get_rhs.headD 0) = false) := by
  have hwf := (Grammar.construct_WF true " " ["S --> Det", "Det --> the"]
    "$" "S" "-->" _ rfl).inject_lexicon_wf [4]
  obtain ⟨q, hq⟩ : ∃ q, (EarleyParser.new
        (Grammar.mk true " " ⟨0, []⟩ [("$", 1), ("S", 2), ("Det", 3), ("the", 4)]
          [(1, "$"), (2, "S"), (3, "Det"), (4, "the")] "-->" [4] ⟨[[1], [2]], 1⟩
          [([2], [⟨[[2], [3]], 1⟩]), ([3], [⟨[[3], [4]], 1⟩])])
        [3] [(3, ["the"])]).parse 20 ["the"] = .ok (true, q) := ⟨_, rfl⟩
  obtain ⟨k, hr⟩ := EarleyParser.parse_reaches _ _ 20 true q hq
  refine ⟨q, hq, hwf, ?_⟩
  intro it hin hd
  rcases ((C33_lexicon_predict_filter _ [3] [(3, ["the"])] ["the"] hwf rfl).2 _ hr).2 it
    (Or.inl hin) hd with h1 | ⟨h1, h2, _⟩
  · exact Or.inl h1
  · exact Or.inr ⟨h1, h2⟩

/-! ## C40: `helper::tokenise` -/

theorem List.modifyHead_self {α : Type} (l : List α) : l.modifyHead (fun x => x) = l := by
  cases l <;> rfl

/-- The loop of `tokenise` in terms of `List.splitOn`. -/
theorem tokeniseLoop_splitOn (d : Char) (cs tok : List Char) (toks : List ES) :
    tokeniseLoop d (cs ++ [d]) tok toks =
      toks ++ (((cs.splitOn d).modifyHead (fun x => tok ++ x)).filter
        (fun x => decide (x ≠ []))).map String.mk := by
  induction cs generalizing tok toks with
  | nil =>
    simp only [List.nil_append, tokeniseLoop, ne_eq, not_true_eq_false, if_false,
      List.splitOn, List.splitOnP_nil, List.modifyHead, List.append_nil]
    by_cases ht : tok = []
    · simp [ht]
    · simp [ht]
  | cons c cs ih =>
    rw [List.cons_append, tokeniseLoop]
    unfold List.splitOn at ih ⊢
    rw [List.splitOnP_cons]
    by_cases hc : c = d
    · subst hc
      simp only [ne_eq, not_true_eq_false, if_false, beq_self_eq_true, if_true,
        List.modifyHead, List.append_nil]
      by_cases ht : tok = []
      · subst ht
        simp only [not_true_eq_false, if_false]
        rw [ih]
        simp [List.modifyHead_self]
      · simp only [ht, not_false_eq_true, if_true]
        rw [ih]
        simp [ht, List.modifyHead_self]
    · have hb : (c == d) = false := by simpa using hc
      simp only [ne_eq, hc, not_false_eq_true, if_true, hb, Bool.false_eq_true, if_false]
      rw [ih]
      congr 3
      cases List.splitOnP (fun x => x == d) cs with
      | nil => rfl
      | cons a rest => simp [List.modifyHead]

theorem tokenise_splitOn (s : ES) (d : Char) :
    tokenise s d =
      ((s.data.splitOn d).filter (fun x => decide (x ≠ []))).map String.mk := by
  unfold tokenise
  rw [tokeniseLoop_splitOn]
  simp [List.modifyHead_self]

theorem tokeniseLoop_tokens (d : Char) (cs tok : List Char) (toks : List ES)
    (ht : d ∉ tok) (hs : ∀ t ∈ toks, t ≠ "" ∧ d ∉ t.data) :
    ∀ t ∈ tokeniseLoop d cs tok toks, t ≠ "" ∧ d ∉ t.data := by
  induction cs generalizing tok toks with
  | nil => simpa [tokeniseLoop] using hs
  | cons c cs ih =>
    rw [tokeniseLoop]
    by_cases hc : c = d
    · subst hc
      simp only [ne_eq, not_true_eq_false, if_false]
      by_cases hk : tok = []
      · simp only [hk, not_true_eq_false, if_false]
        exact ih [] toks (by simp) hs
      · simp only [hk, not_false_eq_true, if_true]
        apply ih [] _ (by simp)
        intro t h
        rcases List.mem_append.1 h with h | h
        · exact hs t h
        · rw [List.mem_singleton] at h
          subst h
          refine ⟨?_, ht⟩
          intro he
          apply hk
          have := congrArg String.data he
          simpa using this
    · simp only [ne_eq, hc, not_false_eq_true, if_true]
      apply ih _ _ _ hs
      intro h
      rcases List.mem_append.1 h with h | h
      · exact ht h
      · rw [List.mem_singleton] at h
        exact hc h.symm

theorem tokeniseLoop_acc (d : Char) (cs tok : List Char) (toks : List ES) :
    tokeniseLoop d cs tok toks = toks ++ tokeniseLoop d cs tok [] := by
  induction cs generalizing tok toks with
  | nil => simp [tokeniseLoop]
  | cons c cs ih =>
    rw [tokeniseLoop, tokeniseLoop]
    by_cases hc : c = d
    · subst hc
      simp only [ne_eq, not_true_eq_false, if_false]
      by_cases hk : tok = []
      · simp only [hk, not_true_eq_false, if_false]
        exact ih [] toks
      · simp only [hk, not_false_eq_true, if_true]
        rw [ih [] (toks ++ [String.mk tok]), ih [] ([] ++ [String.mk tok])]
        simp
    · simp only [ne_eq, hc, not_false_eq_true, if_true]
      exact ih _ toks

theorem tokeniseLoop_split (d : Char) (a rest tok : List Char) (toks : List ES) :
    tokeniseLoop d (a ++ d :: rest) tok toks =
      tokeniseLoop d rest [] (tokeniseLoop d (a ++ [d]) tok toks) := by
  induction a generalizing tok toks with
  | nil =>
    simp only [List.nil_append, tokeniseLoop, ne_eq, not_true_eq_false, if_false]
    by_cases hk : tok = []
    · simp [hk]
    · simp [hk]
  | cons c cs ih =>
    rw [List.cons_append, List.cons_append, tokeniseLoop, tokeniseLoop]
    by_cases hc : c = d
    · subst hc
      simp only [ne_eq, not_true_eq_false, if_false]
      by_cases hk : tok = []
      · simp only [hk, not_true_eq_false, if_false]
        exact ih [] toks
      · simp only [hk, not_false_eq_true, if_true]
        exact ih [] _
    · simp only [ne_eq, hc, not_false_eq_true, if_true]
      exact ih _ toks

/-- Tokens on both sides of a delimiter are found independently. -/
theorem tokenise_split (d : Char) (a b : List Char) :
    tokenise ⟨a ++ d :: b⟩ d = tokenise ⟨a⟩ d ++ tokenise ⟨b⟩ d := by
  unfold tokenise
  simp only [List.append_assoc, List.cons_append]
  rw [tokeniseLoop_split, tokeniseLoop_acc]

theorem tokenise_nil (d : Char) : tokenise ⟨[]⟩ d = [] := by
  simp [tokenise, tokeniseLoop]

/-- Leading delimiters produce no token. -/
theorem tokenise_lead (d : Char) (n : Nat) (b : List Char) :
    tokenise ⟨List.replicate n d ++ b⟩ d = tokenise ⟨b⟩ d := by
  induction n with
  | zero => simp
  | succ n ih =>
    have h := tokenise_split d [] (List.replicate n d ++ b)
    rw [List.nil_append] at h
    rw [List.replicate_succ, List.cons_append, h, ih, tokenise_nil]
    rfl

/-- Repeated delimiters between two parts produce no token. -/
theorem tokenise_split_many (d : Char) (a b : List Char) (n : Nat) :
    tokenise ⟨a ++ List.replicate (n + 1) d ++ b⟩ d = tokenise ⟨a⟩ d ++ tokenise ⟨b⟩ d := by
  have h1 : a ++ List.replicate (n + 1) d ++ b = a ++ d :: (List.replicate n d ++ b) := by
    rw [List.replicate_succ]
    simp
  rw [h1, tokenise_split, tokenise_lead]

/-- Trailing delimiters produce no token. -/
theorem tokenise_trail (d : Char) (n : Nat) (a : List Char) :
    tokenise ⟨a ++ List.replicate n d⟩ d = tokenise ⟨a⟩ d := by
  cases n with
  | zero => simp
  | succ n =>
    have h := tokenise_split_many d a [] n
    rw [List.append_nil] at h
    rw [h, tokenise_nil]
    simp

theorem tokenise_one (d : Char) (t : List Char) (hne : t ≠ []) (hd : d ∉ t) :
    tokenise ⟨t⟩ d = [⟨t⟩] := by
  unfold tokenise
  rw [tokeniseLoop_word d t [d] [] [] hd]
  simp [tokeniseLoop, hne]

theorem tokenise_intercalate (d : Char) (ts : List ES)
    (hts : ∀ t ∈ ts, t ≠ "" ∧ d ∉ t.data) :
    tokenise ((String.singleton d).intercalate ts) d = ts := by
  have ne : ∀ x : String, x ≠ "" → x.data ≠ [] := by
    intro x hx h
    apply hx
    cases x
    simp_all
  induction ts with
  | nil => simp [String.intercalate, tokenise, tokeniseLoop]
  | cons t rest ih =>
    obtain ⟨h1, h2⟩ := hts t (List.mem_cons_self _ _)
    have ih2 := ih (fun u hu => hts u (List.mem_cons_of_mem _ hu))
    cases rest with
    | nil =>
      simp only [String.intercalate, String.intercalate.go]
      exact tokenise_one d t.data (ne t h1) h2
    | cons u rest2 =>
      have he : (String.singleton d).intercalate (t :: u :: rest2)
          = ⟨t.data ++ d :: ((String.singleton d).intercalate (u :: rest2)).data⟩ := by
        simp only [String.intercalate, String.intercalate.go]
        rw [String.intercalate_go_eq, String.intercalate_go_eq]
        apply String.ext
        simp [String.singleton]
      rw [he, tokenise_split, ih2, tokenise_one d t.data (ne t h1) h2]
      rfl

/-- C40. The tokens of `tokenise(s, d)` are the maximal non-empty runs of
characters other than `d` in `s`, in order: they are the non-empty pieces of
`s` split at every `d`; no token is empty or contains `d`; delimiters before
`s`, after `s`, and repeated delimiters between two parts produce no token (the
tokens of `a d ... d b` are those of `a` followed by those of `b`, and a run of
delimiters alone has no token); and for every list `ts` of non-empty strings
without `d`, the tokens of `ts` joined by `d` are `ts`. -/
theorem C40_tokenise_runs (s : ES) (d : Char) (ts : List ES)
    (hts : ∀ t ∈ ts, t ≠ "" ∧ d ∉ t.data) :
    tokenise s d = ((s.data.splitOn d).filter (fun x => decide (x ≠ []))).map String.mk ∧
    (∀ t ∈ tokenise s d, t ≠ "" ∧ d ∉ t.data) ∧
    (∀ (n : Nat), tokenise ⟨List.replicate n d ++ s.data⟩ d = tokenise s d) ∧
    (∀ (n : Nat), tokenise ⟨s.data ++ List.replicate n d⟩ d = tokenise s d) ∧
    (∀ (a b : List Char) (n : Nat),
      tokenise ⟨a ++ List.replicate (n + 1) d ++ b⟩ d = tokenise ⟨a⟩ d ++ tokenise ⟨b⟩ d) ∧
    (∀ (n : Nat), tokenise ⟨List.replicate n d⟩ d = []) ∧
    tokenise ((String.singleton d).intercalate ts) d = ts := by
  refine ⟨tokenise_splitOn s d, ?_, ?_, ?_, ?_, ?_, tokenise_intercalate d ts hts⟩
  · exact tokeniseLoop_tokens d _ [] [] (by simp) (by simp)
  · intro n
    exact tokenise_lead d n s.data
  · intro n
    exact tokenise_trail d n s.data
  · intro a b n
    exact tokenise_split_many d a b n
  · intro n
    have h := tokenise_lead d n []
    rw [List.append_nil] at h
    rw [h, tokenise_nil]

theorem C40_tokenise_runs_witness :
    (∀ t ∈ (["S", "-->", "NP", "VP"] : List ES), t ≠ "" ∧ ' ' ∉ t.data) ∧
      tokenise "  S -->  NP VP " ' ' = ["S", "-->", "NP", "VP"] ∧
      tokenise ((String.singleton ' ').intercalate ["S", "-->", "NP", "VP"]) ' '
        = ["S", "-->", "NP", "VP"] :=
  ⟨by decide, by decide,
    (C40_tokenise_runs "  S -->  NP VP " ' ' ["S", "-->", "NP", "VP"] (by decide)).2.2.2.2.2.2⟩

/-! ## C32: the next cell when its sweep begins -/

end Earley
